import Mathlib

/-!
# tsviewdb: key scheme, scaled codec, regression engine, source strings, range reads,
table merge, aggregates from raw points, table sorting, source info, request payload,
directory match and record writes

A shallow embedding of parts of `google/tsviewdb` (Go) together with proofs of
properties of the embedded code.

Conventions of the embedding:

* a Go `string` / `[]byte` is a list of byte values (`Bytes`);
* an `int64` is an `Int`, every arithmetic result being reduced by `wrapInt64`;
* a `float64` is a rational number and there is no NaN or infinity; in the scaled
  codec (`round`, the encoders and the decoders) every sum, difference, product,
  quotient and conversion is rounded as the machine rounds it, to the nearest
  `float64` value with a tie going to the even significand (`Float64.nearest`);
  elsewhere arithmetic is exact; a `*float64` is an `Option ℚ`, `nil` being `none`;
* a run-time panic (nil dereference, index out of range) is the error of `Except`;
  where a function also returns a Go `error`, the two are told apart by `Abort`;
* a Go map is the list of its entries (`GoMap`), a nil map being `none`;
* what a function takes from outside the repository (the digest, the connection pool,
  the protocol decoder, the order of `range` over a map, constants that the sources
  read here do not define) is a parameter;
* the `float32` product in the index of a percentile is computed exactly as the
  machine does: both factors and the product are rounded to 24 significant bits;
* `sort.Sort` on rows and on column names is a parameter that gives the calls of
  `Swap` it makes (`SortAlgorithm`); `SortAlgorithm.sorts` states what the library
  promises about them, and `strconv.ParseFloat` is a parameter as well.
* an `int32` is an `Int` reduced by `wrapInt32`;
* the store is seen through the inserts issued to it, each with its column family and
  the error it returns (`WriteEnv`, `WriteOutcome`); `proto.Marshal`, `uuid.New`,
  `ioutil.ReadAll` and `common.GetMetricComponents` are parameters.
-/

namespace TsViewDB

/-! ## Machine integers and byte strings -/

/-- Byte strings: the contents of a Go `string` or `[]byte`. -/
abbrev Bytes := List Nat

/-- Two's complement reduction of an integer to the `int64` range. -/
def wrapInt64 (x : Int) : Int := (x + 2 ^ 63) % 2 ^ 64 - 2 ^ 63

/-- Membership of the `int64` range. -/
def inInt64 (x : Int) : Prop := -2 ^ 63 ≤ x ∧ x < 2 ^ 63

instance (x : Int) : Decidable (inInt64 x) := by
  unfold inInt64; infer_instance

/-- Go's `<` on strings: lexicographic comparison of the bytes, a proper prefix
being smaller. -/
def bytesLt : Bytes → Bytes → Bool
  | [], [] => false
  | [], _ :: _ => true
  | _ :: _, [] => false
  | a :: as, b :: bs =>
    if a < b then true else if b < a then false else bytesLt as bs

/-- Go's `<=` on strings. -/
def bytesLe (a b : Bytes) : Bool := !bytesLt b a

/-! ## `fmt` and `crypto/md5` (library behaviour used by `dbcommon`) -/

/-- Number of decimal digits of `n` (`1` for `0`); the first argument bounds
the recursion. -/
def numDigitsAux : Nat → Nat → Nat
  | 0, _ => 1
  | f + 1, n => if n < 10 then 1 else numDigitsAux f (n / 10) + 1

/-- Number of decimal digits of `n`. -/
def numDigits (n : Nat) : Nat := numDigitsAux n n

/-- The `w` low decimal digits of `n` as ASCII, most significant first. -/
def digitsBE : Nat → Nat → Bytes
  | 0, _ => []
  | w + 1, n => digitsBE w (n / 10) ++ [48 + n % 10]

/-- Formatting with `%0<width>d`: the decimal digits, zero-filled on the left up
to `width` characters, the sign (if any) counting towards the width. -/
def fmtZeroPad (width : Nat) (v : Int) : Bytes :=
  if v < 0 then
    45 :: digitsBE (max (width - 1) (numDigits v.natAbs)) v.natAbs
  else
    digitsBE (max width (numDigits v.toNat)) v.toNat

/-- ASCII decimal digit. -/
def isDigitByte (c : Nat) : Bool := decide (48 ≤ c) && decide (c ≤ 57)

/-- Leading blanks are skipped by the scanner; a newline is an error. -/
def skipBlanks : Bytes → Option Bytes
  | [] => some []
  | c :: cs =>
    if c = 10 then none
    else if c = 32 ∨ c = 9 ∨ c = 11 ∨ c = 12 ∨ c = 13 then skipBlanks cs
    else some (c :: cs)

/-- Value of a run of ASCII decimal digits. -/
def parseDecimal (ds : Bytes) : Nat := ds.foldl (fun acc d => acc * 10 + (d - 48)) 0

/-- An optional sign in front of a number: whether it is `-`, and the rest. -/
def scanSign : Bytes → Bool × Bytes
  | 45 :: r => (true, r)
  | 43 :: r => (false, r)
  | r => (false, r)

/-- Scanning with verb `%d` into an `int64`: blanks, an optional sign, then the
longest run of decimal digits; `none` when no number is found or it does not
fit, in which case the destination keeps its old value. -/
def scanInt (s : Bytes) : Option Int :=
  match skipBlanks s with
  | none => none
  | some s1 =>
    let signed := scanSign s1
    let ds := signed.2.takeWhile isDigitByte
    if ds = [] then none
    else
      let v : Int := if signed.1 then -(parseDecimal ds : Int) else (parseDecimal ds : Int)
      if inInt64 v then some v else none

/-- The hex-encoded MD5 digest, taken as given: `hex.EncodeToString` of the 16
digest bytes is always 32 characters long. -/
structure Md5Hex where
  /-- The digest of an input, hex encoded. -/
  hash : Bytes → Bytes
  /-- Hex encoding of a 16-byte digest. -/
  length_hash : ∀ s, (hash s).length = 32

/-! ## `db/dbcommon` -/

/-- The constant `MaxTimeMillis`. -/
def MaxTimeMillis : Int := 9999999999999

/-- The function `getMd5Hash`. -/
def getMd5Hash (md5 : Md5Hex) (input : Bytes) : Bytes := md5.hash input

/-- The function `MakeRowKey`: `fmt.Sprintf("%s_%013d_%s", baseRowKey, timestamp, uuid)`
with `timestamp := MaxTimeMillis - timestampMillis`. -/
def MakeRowKey (md5 : Md5Hex) (src : Bytes) (timestampMillis : Int) (uuid : Bytes) : Bytes :=
  let baseRowKey := getMd5Hash md5 src
  let timestamp := wrapInt64 (MaxTimeMillis - timestampMillis)
  baseRowKey ++ [95] ++ fmtZeroPad 13 timestamp ++ [95] ++ uuid

/-- Conversion `string(b)` of a byte to a string: the UTF-8 encoding of the
code point `b`. -/
def stringOfByte (b : Nat) : Bytes :=
  if b < 128 then [b] else [192 + b / 64, 128 + b % 64]

/-- The function `PlusOne`: `input[:len(input)-1] + string(input[len(input)-1]+1)`;
the empty input panics (`none`). -/
def PlusOne (input : Bytes) : Option Bytes :=
  match input.getLast? with
  | none => none
  | some last => some (input.take (input.length - 1) ++ stringOfByte ((last + 1) % 256))

/-- The function `MakeRowPrefixes`. -/
def MakeRowPrefixes (md5 : Md5Hex) (src : Bytes) (startTimestamp endTimestamp : Int)
    (endExclusive : Bool) : Option (Bytes × Bytes) :=
  let baseRowKey := getMd5Hash md5 src
  let startTime := wrapInt64 (MaxTimeMillis - endTimestamp)
  let endTime := wrapInt64 (MaxTimeMillis - startTimestamp)
  let startKey := baseRowKey ++ [95] ++ fmtZeroPad 13 startTime
  let endKey := baseRowKey ++ [95] ++ fmtZeroPad 13 endTime
  if endExclusive then
    match PlusOne endKey with
    | none => none
    | some endKeyPlusOne => some (startKey, endKeyPlusOne)
  else some (startKey, endKey)

/-- The function `GetTimestamp`: the 13 characters at `[33:46]` are scanned with
`%d` and subtracted from `MaxTimeMillis`; a shorter key gives `0`. -/
def GetTimestamp (rowKey : Bytes) : Int :=
  if 46 ≤ rowKey.length then
    let parsedTimestamp := (scanInt ((rowKey.drop 33).take 13)).getD 0
    wrapInt64 (MaxTimeMillis - parsedTimestamp)
  else 0

/-- A digest function used to evaluate the key scheme on concrete inputs. -/
def zeroDigest : Md5Hex where
  hash := fun _ => List.replicate 32 48
  length_hash := fun _ => by simp



/-! ## `proto/codec.go`: the scaled codec -/

/-- A run-time panic of the Go program. -/
inductive Panic where
  | nilDeref
  | indexOutOfRange
  deriving DecidableEq, Repr

/-- The enumeration `DataType` of the protocol definition; `UNKNOWN` stands for
any value outside the four named ones. -/
inductive DataType where
  | INT64
  | SCALED1
  | SCALED2
  | SCALED3
  | UNKNOWN
  deriving DecidableEq, Repr

/-! ### The `float64` arithmetic of the codec -/

/-- Rounding of a rational to the nearest integer, a tie going to the even one. -/
def roundToEven (y : ℚ) : Int :=
  let f := ⌊y⌋
  if y - f < 1 / 2 then f
  else if 1 / 2 < y - f then f + 1
  else if f % 2 = 0 then f else f + 1

/-- The number of binary digits of `n`, the first argument bounding the number of
halvings. -/
def bitLength : Nat → Nat → Nat
  | 0, _ => 0
  | fuel + 1, n => if n = 0 then 0 else bitLength fuel (n / 2) + 1

/-- The power `2^e` for an integer exponent. -/
def pow2 (e : Int) : ℚ :=
  if 0 ≤ e then ((2 ^ e.toNat : Nat) : ℚ) else 1 / ((2 ^ (-e).toNat : Nat) : ℚ)

/-- The binary exponent of a nonzero rational: the `e` with `2^e ≤ |x| < 2^(e+1)`. -/
def Float64.exponent (x : ℚ) : Int :=
  let e0 : Int := (bitLength x.num.natAbs x.num.natAbs : Int) - (bitLength x.den x.den : Int)
  if pow2 e0 ≤ |x| then e0 else e0 - 1

/-- The spacing of the `float64` values around a nonzero `x`: 53 significant bits,
and `2^-1074` in the subnormal range. -/
def Float64.ulp (x : ℚ) : ℚ := pow2 (max (Float64.exponent x - 52) (-1074))

/-- The `float64` value nearest to `x`, a tie going to the value with an even
significand (the rounding of IEEE 754 arithmetic). The exponent is not bounded above:
a result beyond the largest `float64` stays finite here, where the machine gives an
infinity. -/
def Float64.nearest (x : ℚ) : ℚ := roundToEven (x / Float64.ulp x) * Float64.ulp x

/-- The `float64` sum. -/
def Float64.add (a b : ℚ) : ℚ := Float64.nearest (a + b)

/-- The `float64` difference. -/
def Float64.sub (a b : ℚ) : ℚ := Float64.nearest (a - b)

/-- The `float64` product. -/
def Float64.mul (a b : ℚ) : ℚ := Float64.nearest (a * b)

/-- The `float64` quotient. -/
def Float64.div (a b : ℚ) : ℚ := Float64.nearest (a / b)

/-- The conversion `float64(i)` of an `int64`. -/
def Float64.ofInt64 (i : Int) : ℚ := Float64.nearest (i : ℚ)

/-! ### The codec functions -/

/-- Truncation of a `float64` towards zero. -/
def truncToInt (x : ℚ) : Int := if 0 ≤ x then ⌊x⌋ else ⌈x⌉

/-- The conversion `int64(value)` of a `float64`: truncation towards zero. When
the truncated value does not fit the result is implementation-dependent in Go;
the smallest `int64`, which is what amd64 produces, is taken here. -/
def int64OfFloat (x : ℚ) : Int :=
  if inInt64 (truncToInt x) then truncToInt x else -2 ^ 63

/-- The function `round`: `value -= 0.5` or `value += 0.5` in `float64`, then
`int64(value)`. -/
def round (value : ℚ) : Int :=
  let value := if value < 0 then Float64.sub value (1 / 2) else Float64.add value (1 / 2)
  int64OfFloat value

/-- The function `makePtrDecFunc`: `float64(*i) / scale` in `float64`. -/
def makePtrDecFunc (scale : ℚ) (i : Option Int) : Option ℚ :=
  match i with
  | some i => some (Float64.div (Float64.ofInt64 i) scale)
  | none => none

/-- The function `makePtrEncFunc`: `round(*f * scale)`, the product in `float64`. -/
def makePtrEncFunc (scale : ℚ) (f : Option ℚ) : Option Int :=
  match f with
  | some f => some (round (Float64.mul f scale))
  | none => none

/-- The function `makeDecFunc`: `float64(i) / scale` in `float64`. -/
def makeDecFunc (scale : ℚ) (i : Int) : ℚ := Float64.div (Float64.ofInt64 i) scale

/-- The function `makeEncFunc`: `round(f * scale)`, the product in `float64`. -/
def makeEncFunc (scale : ℚ) (f : ℚ) : Int := round (Float64.mul f scale)

/-- The table `ptrDecFuncs`. -/
def ptrDecFuncs : Fin 4 → Option Int → Option ℚ
  | 0 => makePtrDecFunc 1
  | 1 => makePtrDecFunc 10
  | 2 => makePtrDecFunc 100
  | 3 => makePtrDecFunc 1000

/-- The table `ptrEncFuncs`. -/
def ptrEncFuncs : Fin 4 → Option ℚ → Option Int
  | 0 => makePtrEncFunc 1
  | 1 => makePtrEncFunc 10
  | 2 => makePtrEncFunc 100
  | 3 => makePtrEncFunc 1000

/-- The table `decFuncs`. -/
def decFuncs : Fin 4 → Int → ℚ
  | 0 => makeDecFunc 1
  | 1 => makeDecFunc 10
  | 2 => makeDecFunc 100
  | 3 => makeDecFunc 1000

/-- The table `encFuncs`. -/
def encFuncs : Fin 4 → ℚ → Int
  | 0 => makeEncFunc 1
  | 1 => makeEncFunc 10
  | 2 => makeEncFunc 100
  | 3 => makeEncFunc 1000

/-- The message `Aggregation.AggregationDouble`: the stat ladder as doubles. -/
structure AggregationDouble where
  Count : Option ℚ := none
  Min : Option ℚ := none
  Max : Option ℚ := none
  Mean : Option ℚ := none
  Stdev : Option ℚ := none
  P99 : Option ℚ := none
  P95 : Option ℚ := none
  P90 : Option ℚ := none
  P85 : Option ℚ := none
  P80 : Option ℚ := none
  P75 : Option ℚ := none
  P70 : Option ℚ := none
  P65 : Option ℚ := none
  P60 : Option ℚ := none
  P55 : Option ℚ := none
  P50 : Option ℚ := none
  P45 : Option ℚ := none
  P40 : Option ℚ := none
  P35 : Option ℚ := none
  P30 : Option ℚ := none
  P25 : Option ℚ := none
  P20 : Option ℚ := none
  P15 : Option ℚ := none
  P10 : Option ℚ := none
  P5 : Option ℚ := none
  P1 : Option ℚ := none
  deriving DecidableEq, Repr

/-- The message `Aggregation.AggregationScaled`: the stat ladder as scaled integers. -/
structure AggregationScaled where
  Count : Option Int := none
  Min : Option Int := none
  Max : Option Int := none
  Mean : Option Int := none
  Stdev : Option Int := none
  P99 : Option Int := none
  P95 : Option Int := none
  P90 : Option Int := none
  P85 : Option Int := none
  P80 : Option Int := none
  P75 : Option Int := none
  P70 : Option Int := none
  P65 : Option Int := none
  P60 : Option Int := none
  P55 : Option Int := none
  P50 : Option Int := none
  P45 : Option Int := none
  P40 : Option Int := none
  P35 : Option Int := none
  P30 : Option Int := none
  P25 : Option Int := none
  P20 : Option Int := none
  P15 : Option Int := none
  P10 : Option Int := none
  P5 : Option Int := none
  P1 : Option Int := none
  deriving DecidableEq, Repr

/-- The message `Aggregation`: an optional type tag and the two views. -/
structure Aggregation where
  Type_ : Option DataType := none
  Double : Option AggregationDouble := none
  Scaled : Option AggregationScaled := none
  deriving DecidableEq, Repr

/-- The generated getter `GetType`: the tag when set, else the default of the
protocol definition, which is a parameter here. -/
def Aggregation.GetType (defaultType : DataType) (m : Option Aggregation) : DataType :=
  match m with
  | some m => m.Type_.getD defaultType
  | none => defaultType

/-- The method `Aggregation.MakeDouble`. -/
def Aggregation.MakeDouble (defaultType : DataType) (m : Option Aggregation) :
    Except Panic (Option Aggregation) :=
  match m with
  | none => .ok none
  | some a =>
    let decSel : Option (Option Int → Option ℚ) :=
      match Aggregation.GetType defaultType m with
      | .INT64 => some (ptrDecFuncs 0)
      | .SCALED1 => some (ptrDecFuncs 1)
      | .SCALED2 => some (ptrDecFuncs 2)
      | .SCALED3 => some (ptrDecFuncs 3)
      | .UNKNOWN => none
    match decSel with
    | none => .ok (some a)
    | some dec =>
      let d : AggregationDouble := a.Double.getD {}
      match a.Scaled with
      | none => .error Panic.nilDeref
      | some s =>
        let d : AggregationDouble := { d with
          Count := dec s.Count
          Min := dec s.Min
          Max := dec s.Max
          Mean := dec s.Mean
          Stdev := dec s.Stdev
          P99 := dec s.P99
          P95 := dec s.P95
          P90 := dec s.P90
          P85 := dec s.P85
          P80 := dec s.P80
          P75 := dec s.P75
          P70 := dec s.P70
          P65 := dec s.P65
          P60 := dec s.P60
          P55 := dec s.P55
          P50 := dec s.P50
          P45 := dec s.P45
          P40 := dec s.P40
          P35 := dec s.P35
          P30 := dec s.P30
          P25 := dec s.P25
          P20 := dec s.P20
          P15 := dec s.P15
          P10 := dec s.P10
          P5 := dec s.P5
          P1 := dec s.P1
        }
        .ok (some { a with Double := some d, Scaled := none })

/-- The method `Aggregation.MakeScaled`. -/
def Aggregation.MakeScaled (m : Option Aggregation) (dataType : DataType) :
    Except Panic (Option Aggregation) :=
  match m with
  | none => .ok none
  | some a =>
    let encSel : Option (Option ℚ → Option Int) :=
      match dataType with
      | .INT64 => some (ptrEncFuncs 0)
      | .SCALED1 => some (ptrEncFuncs 1)
      | .SCALED2 => some (ptrEncFuncs 2)
      | .SCALED3 => some (ptrEncFuncs 3)
      | .UNKNOWN => none
    match encSel with
    | none => .ok (some a)
    | some enc =>
      let s : AggregationScaled := a.Scaled.getD {}
      match a.Double with
      | none => .error Panic.nilDeref
      | some d =>
        let s : AggregationScaled := { s with
          Count := enc d.Count
          Min := enc d.Min
          Max := enc d.Max
          Mean := enc d.Mean
          Stdev := enc d.Stdev
          P99 := enc d.P99
          P95 := enc d.P95
          P90 := enc d.P90
          P85 := enc d.P85
          P80 := enc d.P80
          P75 := enc d.P75
          P70 := enc d.P70
          P65 := enc d.P65
          P60 := enc d.P60
          P55 := enc d.P55
          P50 := enc d.P50
          P45 := enc d.P45
          P40 := enc d.P40
          P35 := enc d.P35
          P30 := enc d.P30
          P25 := enc d.P25
          P20 := enc d.P20
          P15 := enc d.P15
          P10 := enc d.P10
          P5 := enc d.P5
          P1 := enc d.P1
        }
        .ok (some { a with Scaled := some s, Double := none })

/-- The 26 slots of the stat ladder, in ladder order. -/
inductive Stat where
  | count | min | max | mean | stdev
  | p99 | p95 | p90 | p85 | p80 | p75 | p70 | p65 | p60 | p55 | p50
  | p45 | p40 | p35 | p30 | p25 | p20 | p15 | p10 | p5 | p1
  deriving DecidableEq, Repr

/-- The field of the double view that holds a stat. -/
def AggregationDouble.slot (d : AggregationDouble) : Stat → Option ℚ
  | .count => d.Count | .min => d.Min | .max => d.Max | .mean => d.Mean | .stdev => d.Stdev
  | .p99 => d.P99 | .p95 => d.P95 | .p90 => d.P90 | .p85 => d.P85 | .p80 => d.P80
  | .p75 => d.P75 | .p70 => d.P70 | .p65 => d.P65 | .p60 => d.P60 | .p55 => d.P55
  | .p50 => d.P50 | .p45 => d.P45 | .p40 => d.P40 | .p35 => d.P35 | .p30 => d.P30
  | .p25 => d.P25 | .p20 => d.P20 | .p15 => d.P15 | .p10 => d.P10 | .p5 => d.P5
  | .p1 => d.P1

/-- The field of the scaled view that holds a stat. -/
def AggregationScaled.slot (s : AggregationScaled) : Stat → Option Int
  | .count => s.Count | .min => s.Min | .max => s.Max | .mean => s.Mean | .stdev => s.Stdev
  | .p99 => s.P99 | .p95 => s.P95 | .p90 => s.P90 | .p85 => s.P85 | .p80 => s.P80
  | .p75 => s.P75 | .p70 => s.P70 | .p65 => s.P65 | .p60 => s.P60 | .p55 => s.P55
  | .p50 => s.P50 | .p45 => s.P45 | .p40 => s.P40 | .p35 => s.P35 | .p30 => s.P30
  | .p25 => s.P25 | .p20 => s.P20 | .p15 => s.P15 | .p10 => s.P10 | .p5 => s.P5
  | .p1 => s.P1

/-- Number of decimals of a known data type. -/
def DataType.decimals : DataType → Option Nat
  | .INT64 => some 0
  | .SCALED1 => some 1
  | .SCALED2 => some 2
  | .SCALED3 => some 3
  | .UNKNOWN => none

/-- Rounding to the nearest integer, a tie going away from zero, as the
specification words it. -/
def roundHalfAwayFromZero (x : ℚ) : Int := Int.sign x.num * ⌊|x| + 1 / 2⌋

/-- The message `Points`. -/
structure Points where
  Type_ : Option DataType := none
  ValuesDouble : List ℚ := []
  DeltaValuesScaled : List Int := []
  DeltaTimestamps : List Int := []
  deriving DecidableEq, Repr

/-- The generated getter `GetType` of `Points`. -/
def Points.GetType (defaultType : DataType) (m : Option Points) : DataType :=
  match m with
  | some m => m.Type_.getD defaultType
  | none => defaultType

/-- The method `Points.MakeValuesDouble`: the loop keeps the running sum
`valueScaled` and appends one decoded value per delta. -/
def Points.MakeValuesDouble (defaultType : DataType) (m : Option Points) : Option Points :=
  match m with
  | none => none
  | some p =>
    let decSel : Option (Int → ℚ) :=
      match Points.GetType defaultType m with
      | .INT64 => some (decFuncs 0)
      | .SCALED1 => some (decFuncs 1)
      | .SCALED2 => some (decFuncs 2)
      | .SCALED3 => some (decFuncs 3)
      | .UNKNOWN => none
    match decSel with
    | none => some p
    | some dec =>
      let st := p.DeltaValuesScaled.foldl
        (fun (st : Int × List ℚ) deltaValueScaled =>
          let valueScaled := wrapInt64 (st.1 + deltaValueScaled)
          (valueScaled, st.2 ++ [dec valueScaled]))
        (0, p.ValuesDouble)
      some { p with ValuesDouble := st.2, DeltaValuesScaled := [] }

/-- The method `Points.MakeDeltaValuesScaled`: the loop keeps
`previousValueScaled` and appends one delta per value. -/
def Points.MakeDeltaValuesScaled (m : Option Points) (dataType : DataType) : Option Points :=
  match m with
  | none => none
  | some p =>
    let encSel : Option (ℚ → Int) :=
      match dataType with
      | .INT64 => some (encFuncs 0)
      | .SCALED1 => some (encFuncs 1)
      | .SCALED2 => some (encFuncs 2)
      | .SCALED3 => some (encFuncs 3)
      | .UNKNOWN => none
    match encSel with
    | none => some p
    | some enc =>
      let st := p.ValuesDouble.foldl
        (fun (st : Int × List Int) valueDouble =>
          let valueScaled := enc valueDouble
          (valueScaled, st.2 ++ [wrapInt64 (valueScaled - st.1)]))
        (0, p.DeltaValuesScaled)
      some { p with DeltaValuesScaled := st.2, ValuesDouble := [] }

/-! ## `cassandradb`: delta coding of the point timestamps -/

/-- The timestamp loop of `WriteRow`: `p.DeltaTimestamps` after appending
`timestamp - previousTS` for every timestamp of the point record. -/
def WriteRow.deltaTimestamps (timestamps : List Int) : List Int :=
  (timestamps.foldl
    (fun (st : Int × List Int) timestamp =>
      (timestamp, st.2 ++ [wrapInt64 (timestamp - st.1)]))
    (0, [])).2

/-- The timestamp loop of `ReadRow`: the values `timestamp := deltaTS + previousTS`
of the successive iterations, in order. -/
def ReadRow.timestamps (deltaTimestamps : List Int) : List Int :=
  (deltaTimestamps.foldl
    (fun (st : Int × List Int) deltaTS =>
      let timestamp := wrapInt64 (deltaTS + st.1)
      (timestamp, st.2 ++ [timestamp]))
    (0, [])).2

/-! ## `regress/regress.go`: the regression engine -/

/-- The function `minFloat64`. -/
def minFloat64 (a b : ℚ) : ℚ := if a < b then a else b

/-- The function `maxFloat64`. -/
def maxFloat64 (a b : ℚ) : ℚ := if a > b then a else b

/-- The structure `RegressionParams`. -/
structure RegressionParams where
  Selected : Bool := false
  Pos : Option ℚ := none
  Neg : Option ℚ := none
  ReturnSegments : Bool := false
  Radius : Int := 0
  Window : Int := 0
  UsePercent : Bool := false
  IgnoreLT : ℚ := 0
  deriving DecidableEq, Repr

/-- The type `regressTable`, a `[]*[]*float64`: a slice of row pointers, each row
a slice of value pointers. -/
abbrev regressTable := List (Option (List (Option ℚ)))

/-- Indexing `s[i]` of a slice with an `int`; out of range panics. -/
def sliceIndex {α : Type} (s : List α) (i : Int) : Except Panic α :=
  if i < 0 then .error Panic.indexOutOfRange
  else
    match s[i.toNat]? with
    | some x => .ok x
    | none => .error Panic.indexOutOfRange

/-- Dereference `*p` of a pointer; `nil` panics. -/
def deref {α : Type} (p : Option α) : Except Panic α :=
  match p with
  | some x => .ok x
  | none => .error Panic.nilDeref

/-- Assignment `s[i] = v` to a slice element; out of range panics. -/
def sliceSet {α : Type} (s : List α) (i : Int) (v : α) : Except Panic (List α) :=
  if i < 0 then .error Panic.indexOutOfRange
  else if i.toNat < s.length then .ok (s.set i.toNat v)
  else .error Panic.indexOutOfRange

/-- The method `regressTable.getRaw`: the pointer `(*t[row])[col]`. -/
def regressTable.getRaw (t : regressTable) (row col : Int) : Except Panic (Option ℚ) :=
  match sliceIndex t row with
  | .error e => .error e
  | .ok rowPtr =>
    match deref rowPtr with
    | .error e => .error e
    | .ok r => sliceIndex r col

/-- The method `regressTable.get`: `(0, false)` for a nil cell, else the value
and `true`. -/
def regressTable.get (t : regressTable) (row col : Int) : Except Panic (ℚ × Bool) :=
  match regressTable.getRaw t row col with
  | .error e => .error e
  | .ok valPtr =>
    match valPtr with
    | none => .ok (0, false)
    | some val => .ok (val, true)

/-- The loops `for i := 1; i < radius; i++` of `getConfirmedDeltas`: the cell
`base + i` is read; an absent cell ends the search (`none`), a present one updates
the running maximum or else the running minimum. The first argument counts the
iterations that remain. -/
def regressTable.scanMinMax (t : regressTable) (col base : Int) :
    Nat → Int → ℚ → ℚ → Except Panic (Option (ℚ × ℚ))
  | 0, _, maxV, minV => .ok (some (maxV, minV))
  | k + 1, i, maxV, minV =>
    match regressTable.get t (base + i) col with
    | .error e => .error e
    | .ok (val, ok) =>
      if !ok then .ok none
      else if val > maxV then regressTable.scanMinMax t col base k (i + 1) val minV
      else if val < minV then regressTable.scanMinMax t col base k (i + 1) maxV val
      else regressTable.scanMinMax t col base k (i + 1) maxV minV

/-- The method `regressTable.getConfirmedDeltas`. The first point before the back
point and the points of both loops are read with `get` and checked; the first
point after the current point is read as `*(*t[n+1])[col]`, without a check. -/
def regressTable.getConfirmedDeltas (t : regressTable) (col n nBack radius : Int) :
    Except Panic (ℚ × ℚ × Bool) :=
  match regressTable.get t (nBack - radius) col with
  | .error e => .error e
  | .ok (maxBack, ok) =>
    if !ok then .ok (0, 0, false)
    else
      let minBack := maxBack
      match regressTable.scanMinMax t col (nBack - radius) (radius - 1).toNat 1 maxBack minBack with
      | .error e => .error e
      | .ok none => .ok (0, 0, false)
      | .ok (some (maxBack, minBack)) =>
        match regressTable.getRaw t (n + 1) col with
        | .error e => .error e
        | .ok valPtr =>
          match deref valPtr with
          | .error e => .error e
          | .ok maxFwd =>
            let minFwd := maxFwd
            match regressTable.scanMinMax t col (n + 1) (radius - 1).toNat 1 maxFwd minFwd with
            | .error e => .error e
            | .ok none => .ok (0, 0, false)
            | .ok (some (maxFwd, minFwd)) =>
              let confDeltaPos := minFwd - maxBack
              let confDeltaPos := if confDeltaPos < 0 then 0 else confDeltaPos
              let confDeltaNeg := maxFwd - minBack
              let confDeltaNeg := if confDeltaNeg > 0 then 0 else confDeltaNeg
              .ok (confDeltaPos, confDeltaNeg, true)

/-- The part of the loop body of `computeVerifiedRegression` that follows the
computation of the confirmed deltas: `none` when the iteration ends in `continue`
without a store, `some x` when `x` is stored in `result[n]`. -/
def regressTable.computeResult (t : regressTable) (col : Int) (r : RegressionParams) (n : Int)
    (back backDelta confDeltaPos confDeltaNeg : ℚ) : Except Panic (Option ℚ) :=
  if r.Window = 1 then
    let absResult :=
      if r.Radius = 0 then backDelta
      else if backDelta > 0 then minFloat64 backDelta confDeltaPos
      else maxFloat64 backDelta confDeltaNeg
    if r.UsePercent then .ok (some ((absResult / |back|) * 100))
    else .ok (some absResult)
  else
    match regressTable.get t (n + r.Window - 1) col with
    | .error e => .error e
    | .ok (nFwdVal, ok) =>
      if !ok then .ok none
      else
        match regressTable.get t (n - 1) col with
        | .error e => .error e
        | .ok (nM1Val, ok) =>
          if !ok then .ok none
          else
            let fwdDelta := nFwdVal - nM1Val
            let absResult :=
              if backDelta > 0 then
                let fwdDelta := if fwdDelta < 0 then 0 else fwdDelta
                if r.Radius = 0 then minFloat64 backDelta fwdDelta
                else minFloat64 (minFloat64 backDelta fwdDelta) confDeltaPos
              else
                let fwdDelta := if fwdDelta > 0 then 0 else fwdDelta
                if r.Radius = 0 then maxFloat64 backDelta fwdDelta
                else maxFloat64 (maxFloat64 backDelta fwdDelta) confDeltaNeg
            if r.UsePercent then .ok (some ((absResult / |back|) * 100))
            else .ok (some absResult)

/-- One iteration of the loop of `computeVerifiedRegression` at index `n`: `none`
when it ends in `continue` without a store, `some x` when `x` is stored in
`result[n]`. -/
def regressTable.computeAt (t : regressTable) (col : Int) (r : RegressionParams) (n : Int) :
    Except Panic (Option ℚ) :=
  let nBack := n - r.Window
  match regressTable.get t nBack col with
  | .error e => .error e
  | .ok (back, ok) =>
    if !ok then .ok none
    else if r.UsePercent && decide (back = 0) then .ok none
    else
      match regressTable.get t n col with
      | .error e => .error e
      | .ok (current, ok) =>
        if !ok then .ok none
        else if r.UsePercent && (decide (|back| < r.IgnoreLT) || decide (|current| < r.IgnoreLT))
        then .ok none
        else
          let backDelta := current - back
          if r.Radius ≠ 0 then
            match regressTable.getConfirmedDeltas t col n nBack r.Radius with
            | .error e => .error e
            | .ok (confDeltaPos, confDeltaNeg, ok) =>
              if !ok then .ok none
              else regressTable.computeResult t col r n back backDelta confDeltaPos confDeltaNeg
          else regressTable.computeResult t col r n back backDelta 0 0

/-- The loop `for n := ...; n <= len(t)-r.Radius-r.Window; n++` of
`computeVerifiedRegression`, from index `n` on; the first argument counts the
iterations that remain. -/
def regressTable.computeLoop (t : regressTable) (col : Int) (r : RegressionParams) :
    Nat → Int → List (Option ℚ) → Except Panic (List (Option ℚ))
  | 0, _, result => .ok result
  | k + 1, n, result =>
    match regressTable.computeAt t col r n with
    | .error e => .error e
    | .ok none => regressTable.computeLoop t col r k (n + 1) result
    | .ok (some x) =>
      match sliceSet result n (some x) with
      | .error e => .error e
      | .ok result => regressTable.computeLoop t col r k (n + 1) result

/-- The method `regressTable.computeVerifiedRegression`: `result` starts as
`len(t)` nil entries and `n` runs from `Window + Radius` to
`len(t) - Radius - Window`. -/
def regressTable.computeVerifiedRegression (t : regressTable) (col : Int)
    (r : RegressionParams) : Except Panic (List (Option ℚ)) :=
  let result : List (Option ℚ) := List.replicate t.length none
  let first := r.Window + r.Radius
  let last := (t.length : Int) - r.Radius - r.Window
  regressTable.computeLoop t col r (last + 1 - first).toNat first result

/-- The threshold loop of `GetVerifiedRegression` over the indices `i` of
`result`, from index `i` on: the entries still to visit, the array as modified so
far, and `haveRegression`. -/
def regressTable.thresholdLoop (t : regressTable) (col : Int) (r : RegressionParams) :
    Nat → Int → List (Option ℚ) → Bool → Except Panic (List (Option ℚ) × Bool)
  | 0, _, result, haveRegression => .ok (result, haveRegression)
  | k + 1, i, result, haveRegression =>
    match sliceIndex result i with
    | .error e => .error e
    | .ok none => regressTable.thresholdLoop t col r k (i + 1) result haveRegression
    | .ok (some x) =>
      let posSet := r.Pos.isSome
      let negSet := r.Neg.isSome
      if (posSet && decide (x > r.Pos.getD 0)) || (negSet && decide (x < r.Neg.getD 0)) then
        if r.ReturnSegments then
          match regressTable.getRaw t i col with
          | .error e => .error e
          | .ok raw =>
            match sliceSet result i raw with
            | .error e => .error e
            | .ok result =>
              if i > 0 then
                match regressTable.getRaw t (i - 1) col with
                | .error e => .error e
                | .ok rawPrev =>
                  match sliceSet result (i - 1) rawPrev with
                  | .error e => .error e
                  | .ok result => regressTable.thresholdLoop t col r k (i + 1) result true
              else regressTable.thresholdLoop t col r k (i + 1) result true
        else regressTable.thresholdLoop t col r k (i + 1) result true
      else
        if r.ReturnSegments then
          match sliceSet result i none with
          | .error e => .error e
          | .ok result => regressTable.thresholdLoop t col r k (i + 1) result haveRegression
        else regressTable.thresholdLoop t col r k (i + 1) result haveRegression

/-- The method `regressTable.GetVerifiedRegression`; `none` is the nil slice. -/
def regressTable.GetVerifiedRegression (t : regressTable) (col : Int) (r : RegressionParams) :
    Except Panic (Option (List (Option ℚ))) :=
  match regressTable.computeVerifiedRegression t col r with
  | .error e => .error e
  | .ok result =>
    if r.Pos.isNone && r.Neg.isNone then .ok (some result)
    else
      match regressTable.thresholdLoop t col r result.length 0 result false with
      | .error e => .error e
      | .ok (result, haveRegression) =>
        if !haveRegression then .ok none else .ok (some result)

/-- The column `col` of a table as the list of its cells, row by row; an entry is
`none` where the row pointer is nil or the row has no index `col`. -/
def regressTable.column (t : regressTable) (col : Int) : List (Option (Option ℚ)) :=
  t.map (fun rowPtr =>
    match rowPtr with
    | none => none
    | some r => if col < 0 then none else r[col.toNat]?)

/-- The table of the tests (`makeTestTable`): one single-cell row per value. -/
def makeTestTable (d : List (Option ℚ)) : regressTable := d.map (fun x => some [x])

/-- The test of the threshold loop of `GetVerifiedRegression` on an entry of the
regression array: present, and above `Pos` or below `Neg` when these are set. -/
def RegressionParams.overThreshold (r : RegressionParams) (cell : Option ℚ) : Bool :=
  match cell with
  | none => false
  | some x =>
    (r.Pos.isSome && decide (x > r.Pos.getD 0)) || (r.Neg.isSome && decide (x < r.Neg.getD 0))

/-- A regression point, as the specification words it: the entry is present and
(`Pos` is set and the entry is above it) or (`Neg` is set and the entry is below it). -/
def RegressionParams.isRegressionPoint (r : RegressionParams) (cell : Option ℚ) : Prop :=
  ∃ x, cell = some x ∧ ((∃ p, r.Pos = some p ∧ x > p) ∨ (∃ q, r.Neg = some q ∧ x < q))

/-! ## Go maps and the `strings` package (library behaviour) -/

/-- A Go map, as the list of its entries in order of first insertion; the keys
are pairwise distinct when the map is built with `set` from the empty map. -/
structure GoMap (κ ν : Type) where
  entries : List (κ × ν) := []
  deriving DecidableEq, Repr

/-- Lookup `m[k]` with the comma-ok form: `none` when the key is missing. -/
def GoMap.lookup {κ ν : Type} [DecidableEq κ] (m : GoMap κ ν) (k : κ) : Option ν :=
  (m.entries.find? (fun e => decide (e.1 = k))).map (fun e => e.2)

/-- Replacement of the value of a key in the entry list, or addition of the
entry at the end. -/
def setEntry {κ ν : Type} [DecidableEq κ] (k : κ) (v : ν) : List (κ × ν) → List (κ × ν)
  | [] => [(k, v)]
  | e :: rest => if e.1 = k then (k, v) :: rest else e :: setEntry k v rest

/-- Assignment `m[k] = v`. -/
def GoMap.set {κ ν : Type} [DecidableEq κ] (m : GoMap κ ν) (k : κ) (v : ν) : GoMap κ ν :=
  { entries := setEntry k v m.entries }

/-- The builtin `len(m)`. -/
def GoMap.len {κ ν : Type} (m : GoMap κ ν) : Nat := m.entries.length

/-- Cut of a string at the first occurrence of the byte `sep`: the text before
it and the text after it, `none` when `sep` does not occur. -/
def cutAtFirst (sep : Nat) : Bytes → Option (Bytes × Bytes)
  | [] => none
  | c :: cs =>
    if c = sep then some ([], cs)
    else
      match cutAtFirst sep cs with
      | none => none
      | some (a, b) => some (c :: a, b)

/-- The function `strings.Split` for a one-byte separator: all the pieces between
occurrences of `sep`; a string without `sep` gives the string itself. -/
def strings.Split (sep : Nat) : Bytes → List Bytes
  | [] => [[]]
  | c :: cs =>
    if c = sep then [] :: strings.Split sep cs
    else
      match strings.Split sep cs with
      | [] => [[c]]
      | p :: ps => (c :: p) :: ps

/-- The function `strings.SplitN` for a one-byte separator and a count `n ≥ 0`:
at most `n` pieces, the last one being the unsplit remainder. -/
def strings.SplitN (sep : Nat) : Nat → Bytes → List Bytes
  | 0, _ => []
  | 1, s => [s]
  | n + 2, s =>
    match cutAtFirst sep s with
    | none => [s]
    | some (a, b) => a :: strings.SplitN sep (n + 1) b

/-! ## `srcparse/parse.go` -/

/-- The structure `SrcResult`; a nil `Configs` map is `none`. -/
structure SrcResult where
  Source : Bytes := []
  Metric : Bytes := []
  Aggregate : Bytes := []
  Configs : Option (GoMap Bytes Bytes) := none
  deriving DecidableEq, Repr

/-- The body of the configs loop of `Parse` for one segment `kv`: the key
`kvArray[0]` and the value `kvArray[1]`, empty when there is no `=`. -/
def Parse.keyValue (kv : Bytes) : Except Panic (Bytes × Bytes) :=
  let kvArray := strings.SplitN 61 2 kv
  match sliceIndex kvArray 0 with
  | .error e => .error e
  | .ok k =>
    if kvArray.length = 2 then
      match sliceIndex kvArray 1 with
      | .error e => .error e
      | .ok v => .ok (k, v)
    else .ok (k, [])

/-- The configs loop of `Parse` over `result[1:]`. -/
def Parse.configsLoop : List Bytes → GoMap Bytes Bytes → Except Panic (GoMap Bytes Bytes)
  | [], m => .ok m
  | kv :: rest, m =>
    match Parse.keyValue kv with
    | .error e => .error e
    | .ok (k, v) => Parse.configsLoop rest (m.set k v)

/-- The configs block of `Parse`: with more than one `$`-separated piece the map is
made and filled from `result[1:]`, else it stays nil. -/
def Parse.configs (result : List Bytes) : Except Panic (Option (GoMap Bytes Bytes)) :=
  if result.length > 1 then
    match Parse.configsLoop (result.drop 1) {} with
    | .error e => .error e
    | .ok m => .ok (some m)
  else .ok none

/-- The function `Parse`; the separators are `$` (36), `=` (61), `:` (58) and
`.` (46), the wildcard is `*` (42). -/
def Parse (fullSrc : Bytes) : Except Panic SrcResult :=
  let result := strings.Split 36 fullSrc
  match sliceIndex result 0 with
  | .error e => .error e
  | .ok processed =>
    match Parse.configs result with
    | .error e => .error e
    | .ok configs =>
      let r : SrcResult := { Configs := configs }
      let result := strings.SplitN 58 2 processed
      match sliceIndex result 0 with
      | .error e => .error e
      | .ok source =>
        let r := { r with Source := source }
        if result.length ≠ 2 then .ok r
        else
          match sliceIndex result 1 with
          | .error e => .error e
          | .ok rest =>
            let result := strings.SplitN 46 2 rest
            match sliceIndex result 0 with
            | .error e => .error e
            | .ok metric =>
              let r := if metric ≠ [42] then { r with Metric := metric } else r
              if result.length = 2 then
                match sliceIndex result 1 with
                | .error e => .error e
                | .ok aggregate => .ok { r with Aggregate := aggregate }
              else .ok r

/-- The text of a string before the first occurrence of `sep` (the whole string
when there is none). -/
def textBefore (sep : Nat) (s : Bytes) : Bytes := s.takeWhile (fun c => decide (c ≠ sep))

/-- The text of a string after the first occurrence of `sep` (empty when there
is none). -/
def textAfter (sep : Nat) (s : Bytes) : Bytes := (s.dropWhile (fun c => decide (c ≠ sep))).drop 1

/-- The string `head$seg1$seg2...`: a head followed by segments, each introduced by
the byte `sep`. -/
def joinSegments (sep : Nat) (head : Bytes) (segs : List Bytes) : Bytes :=
  head ++ (segs.map (fun seg => sep :: seg)).flatten

/-- Bytes of an ASCII string literal. -/
def ascii (s : String) : Bytes := s.toList.map Char.toNat

/-! ## `proto/codec.go`: fields and values of an aggregation -/

/-- The structure `fieldsAndValues`. -/
structure fieldsAndValues where
  fields : List Bytes := []
  values : List (Option ℚ) := []
  deriving DecidableEq, Repr

/-- The method `fieldsAndValues.checkAndSet`. -/
def fieldsAndValues.checkAndSet (m : fieldsAndValues) (value : Option ℚ) (field : Bytes) :
    fieldsAndValues :=
  if value ≠ none then { fields := m.fields ++ [field], values := m.values ++ [value] }
  else m

/-- The function `GetDoubleFieldsAndValues`; a nil aggregation or a nil double view
panics. -/
def GetDoubleFieldsAndValues (a : Option Aggregation) :
    Except Panic (List Bytes × List (Option ℚ)) :=
  match a with
  | none => .error Panic.nilDeref
  | some a =>
    match a.Double with
    | none => .error Panic.nilDeref
    | some d =>
      let fav : fieldsAndValues := {}
      let fav := fav.checkAndSet d.Count (ascii ("count"))
      let fav := fav.checkAndSet d.Min (ascii ("min"))
      let fav := fav.checkAndSet d.Max (ascii ("max"))
      let fav := fav.checkAndSet d.Mean (ascii ("mean"))
      let fav := fav.checkAndSet d.Stdev (ascii ("stdev"))
      let fav := fav.checkAndSet d.P99 (ascii ("p99"))
      let fav := fav.checkAndSet d.P95 (ascii ("p95"))
      let fav := fav.checkAndSet d.P90 (ascii ("p90"))
      let fav := fav.checkAndSet d.P85 (ascii ("p85"))
      let fav := fav.checkAndSet d.P80 (ascii ("p80"))
      let fav := fav.checkAndSet d.P75 (ascii ("p75"))
      let fav := fav.checkAndSet d.P70 (ascii ("p70"))
      let fav := fav.checkAndSet d.P65 (ascii ("p65"))
      let fav := fav.checkAndSet d.P60 (ascii ("p60"))
      let fav := fav.checkAndSet d.P55 (ascii ("p55"))
      let fav := fav.checkAndSet d.P50 (ascii ("p50"))
      let fav := fav.checkAndSet d.P45 (ascii ("p45"))
      let fav := fav.checkAndSet d.P40 (ascii ("p40"))
      let fav := fav.checkAndSet d.P35 (ascii ("p35"))
      let fav := fav.checkAndSet d.P30 (ascii ("p30"))
      let fav := fav.checkAndSet d.P25 (ascii ("p25"))
      let fav := fav.checkAndSet d.P20 (ascii ("p20"))
      let fav := fav.checkAndSet d.P15 (ascii ("p15"))
      let fav := fav.checkAndSet d.P10 (ascii ("p10"))
      let fav := fav.checkAndSet d.P5 (ascii ("p5"))
      let fav := fav.checkAndSet d.P1 (ascii ("p1"))
      .ok (fav.fields, fav.values)

/-- The structure `fieldsAndValuesFiltered`. -/
structure fieldsAndValuesFiltered where
  fields : List Bytes := []
  values : List (Option ℚ) := []
  filter : GoMap Bytes Bool := {}
  setAggregateIfMissing : Bool := false
  deriving DecidableEq, Repr

/-- The method `fieldsAndValuesFiltered.checkAndSetFiltered`; `m.filter[field]` is
false for a missing key. -/
def fieldsAndValuesFiltered.checkAndSetFiltered (m : fieldsAndValuesFiltered)
    (value : Option ℚ) (field : Bytes) : fieldsAndValuesFiltered :=
  if (m.filter.lookup field).getD false then
    if m.setAggregateIfMissing || (!m.setAggregateIfMissing && decide (value ≠ none)) then
      { m with fields := m.fields ++ [field], values := m.values ++ [value] }
    else m
  else m

/-- The function `GetDoubleFieldsAndValuesFiltered`; a nil filter is `none`. -/
def GetDoubleFieldsAndValuesFiltered (a : Option Aggregation)
    (filter : Option (GoMap Bytes Bool)) (setAggregateIfMissing : Bool) :
    Except Panic (List Bytes × List (Option ℚ)) :=
  match filter with
  | none => GetDoubleFieldsAndValues a
  | some filter =>
    match a with
    | none => .error Panic.nilDeref
    | some a =>
      match a.Double with
      | none => .error Panic.nilDeref
      | some d =>
        let fav : fieldsAndValuesFiltered :=
          { filter := filter, setAggregateIfMissing := setAggregateIfMissing }
        let fav := fav.checkAndSetFiltered d.Count (ascii ("count"))
        let fav := fav.checkAndSetFiltered d.Min (ascii ("min"))
        let fav := fav.checkAndSetFiltered d.Max (ascii ("max"))
        let fav := fav.checkAndSetFiltered d.Mean (ascii ("mean"))
        let fav := fav.checkAndSetFiltered d.Stdev (ascii ("stdev"))
        let fav := fav.checkAndSetFiltered d.P99 (ascii ("p99"))
        let fav := fav.checkAndSetFiltered d.P95 (ascii ("p95"))
        let fav := fav.checkAndSetFiltered d.P90 (ascii ("p90"))
        let fav := fav.checkAndSetFiltered d.P85 (ascii ("p85"))
        let fav := fav.checkAndSetFiltered d.P80 (ascii ("p80"))
        let fav := fav.checkAndSetFiltered d.P75 (ascii ("p75"))
        let fav := fav.checkAndSetFiltered d.P70 (ascii ("p70"))
        let fav := fav.checkAndSetFiltered d.P65 (ascii ("p65"))
        let fav := fav.checkAndSetFiltered d.P60 (ascii ("p60"))
        let fav := fav.checkAndSetFiltered d.P55 (ascii ("p55"))
        let fav := fav.checkAndSetFiltered d.P50 (ascii ("p50"))
        let fav := fav.checkAndSetFiltered d.P45 (ascii ("p45"))
        let fav := fav.checkAndSetFiltered d.P40 (ascii ("p40"))
        let fav := fav.checkAndSetFiltered d.P35 (ascii ("p35"))
        let fav := fav.checkAndSetFiltered d.P30 (ascii ("p30"))
        let fav := fav.checkAndSetFiltered d.P25 (ascii ("p25"))
        let fav := fav.checkAndSetFiltered d.P20 (ascii ("p20"))
        let fav := fav.checkAndSetFiltered d.P15 (ascii ("p15"))
        let fav := fav.checkAndSetFiltered d.P10 (ascii ("p10"))
        let fav := fav.checkAndSetFiltered d.P5 (ascii ("p5"))
        let fav := fav.checkAndSetFiltered d.P1 (ascii ("p1"))
        .ok (fav.fields, fav.values)

/-- The stat ladder, in the order of the specification. -/
def Stat.ladder : List Stat :=
  [.count, .min, .max, .mean, .stdev, .p99, .p95, .p90, .p85, .p80, .p75, .p70, .p65,
    .p60, .p55, .p50, .p45, .p40, .p35, .p30, .p25, .p20, .p15, .p10, .p5, .p1]

/-- The name of a stat in column names and filters. -/
def Stat.name : Stat → Bytes
  | .count => ascii ("count") | .min => ascii ("min") | .max => ascii ("max")
  | .mean => ascii ("mean") | .stdev => ascii ("stdev")
  | .p99 => ascii ("p99") | .p95 => ascii ("p95") | .p90 => ascii ("p90")
  | .p85 => ascii ("p85") | .p80 => ascii ("p80") | .p75 => ascii ("p75")
  | .p70 => ascii ("p70") | .p65 => ascii ("p65") | .p60 => ascii ("p60")
  | .p55 => ascii ("p55") | .p50 => ascii ("p50") | .p45 => ascii ("p45")
  | .p40 => ascii ("p40") | .p35 => ascii ("p35") | .p30 => ascii ("p30")
  | .p25 => ascii ("p25") | .p20 => ascii ("p20") | .p15 => ascii ("p15")
  | .p10 => ascii ("p10") | .p5 => ascii ("p5") | .p1 => ascii ("p1")

/-! ## `db/datatable.go`, `db/basesort.go`: tables -/

/-- A Go `error` value, by its message. -/
structure GoError where
  message : Bytes
  deriving DecidableEq, Repr

/-- The ways a call ends without a value: a run-time panic, or an error returned
to the caller. -/
inductive Abort where
  | panic (p : Panic)
  | failed (err : GoError)
  deriving DecidableEq, Repr

/-- A loop over a slice whose body can abort. -/
def foldlE {σ α ε : Type} (f : σ → α → Except ε σ) : σ → List α → Except ε σ
  | s, [] => .ok s
  | s, a :: rest =>
    match f s a with
    | .error e => .error e
    | .ok s2 => foldlE f s2 rest

/-- The structure `FilteredSource`; a nil filter is `none`. -/
structure FilteredSource where
  Source : Bytes := []
  MetricsFilter : Option (GoMap Bytes Bool) := none
  AggregatesFilter : Option (GoMap Bytes Bool) := none
  ConfigsFilter : Option (GoMap Bytes Bytes) := none
  deriving DecidableEq, Repr

/-- The structure `Qualifier`. -/
structure Qualifier where
  StartTimestamp : Int := 0
  EndTimestamp : Int := 0
  MaxResults : Int := 0
  SetAggregateIfMissing : Bool := false
  EqualX : Bool := false
  SortByColumn : Bytes := []
  SortByConfig : Bytes := []
  NoTimeColumn : Bool := false
  ReturnIds : Bool := false
  ReturnConfigs : Bool := false
  NoReturnAggregates : Bool := false
  deriving DecidableEq, Repr

/-- The structure `RowRangeRequests`, with its embedded `Qualifier`. -/
structure RowRangeRequests extends Qualifier where
  FilteredSources : List FilteredSource := []
  deriving DecidableEq, Repr

/-- The structure `DataTable`; a nil row pointer is `none`. -/
structure DataTable where
  ColumnNames : List Bytes := []
  Data : List (Option (List (Option ℚ))) := []
  IdColumn : List Bytes := []
  ConfigsColumnNames : List Bytes := []
  Configs : List (Option (List (Option Bytes))) := []
  Timestamps : List (Option ℚ) := []
  deriving DecidableEq, Repr

/-- The method `parallelStringsStringTable.FixRowLengths`: a row of another length
than the names is replaced by a copy cut or nil-padded to that length. -/
def parallelStringsStringTable.FixRowLengths (names : List Bytes)
    (data : List (Option (List (Option Bytes)))) :
    Except Panic (List (Option (List (Option Bytes)))) :=
  let requiredLength := names.length
  foldlE (fun (out : List (Option (List (Option Bytes)))) rowPtr =>
      match deref rowPtr with
      | .error e => .error e
      | .ok row =>
        if row.length ≠ requiredLength then
          let newRow := row.take requiredLength ++
            List.replicate (requiredLength - row.length) none
          .ok (out ++ [some newRow])
        else .ok (out ++ [some row]))
    [] data

/-- The result of `sort.Sort` on a `positionString`, taken as given: the positions
after sorting, `positions[i]` being the original index of the string that ends at
index `i`. -/
abbrev SortPositions := List Bytes → List Int

/-- The method `positionString.TemplateSortString`; `tmpRow` is shared by all rows. -/
def positionString.TemplateSortString (stringsLen : Nat) (positions : List Int)
    (data : List (Option (List (Option Bytes)))) :
    Except Panic (List (Option (List (Option Bytes)))) :=
  let tmpRow : List (Option Bytes) := List.replicate stringsLen none
  match foldlE (fun (st : List (Option Bytes) × List (Option (List (Option Bytes)))) rowPtr =>
      match deref rowPtr with
      | .error e => .error e
      | .ok row =>
        match foldlE (fun (tmp : List (Option Bytes)) (i : Nat) =>
            match sliceIndex positions i with
            | .error e => .error e
            | .ok p =>
              match sliceIndex row p with
              | .error e => .error e
              | .ok cell => sliceSet tmp i cell)
          st.1 (List.range row.length) with
        | .error e => .error e
        | .ok tmp =>
          match foldlE (fun (r : List (Option Bytes)) (cv : Nat × Option Bytes) =>
              sliceSet r cv.1 cv.2)
            row tmp.enum with
          | .error e => .error e
          | .ok newRow => .ok (tmp, st.2 ++ [some newRow]))
    (tmpRow, []) data with
  | .error e => .error e
  | .ok st => .ok st.2

/-- The method `parallelStringsStringTable.SortDataColumns`: the names after the
sort and the rows rearranged with the positions. -/
def parallelStringsStringTable.SortDataColumns (sortPositions : SortPositions)
    (names : List Bytes) (data : List (Option (List (Option Bytes)))) :
    Except Panic (List Bytes × List (Option (List (Option Bytes)))) :=
  let positions := sortPositions names
  let sorted := positions.map (fun p => names.getD p.toNat [])
  match positionString.TemplateSortString names.length positions data with
  | .error e => .error e
  | .ok newData => .ok (sorted, newData)

/-- The method `DataTable.SortConfigsColumns`. -/
def DataTable.SortConfigsColumns (sortPositions : SortPositions) (d : DataTable) :
    Except Panic DataTable :=
  match parallelStringsStringTable.FixRowLengths d.ConfigsColumnNames d.Configs with
  | .error e => .error e
  | .ok fixed =>
    match parallelStringsStringTable.SortDataColumns sortPositions d.ConfigsColumnNames fixed with
    | .error e => .error e
    | .ok (names, data) => .ok { d with ConfigsColumnNames := names, Configs := data }

/-! ## `cassandradb/read.go`: range reads -/

/-- A column of the store: name and value. -/
structure Column where
  Name : Bytes
  Value : Bytes
  deriving DecidableEq, Repr

/-- A row of the store: key and columns. -/
structure Row where
  Key : Bytes
  Columns : List Column
  deriving DecidableEq, Repr

/-- The structure `rowResults`. -/
structure rowResults where
  Rows : List (Option Row) := []
  err : Option GoError := none
  deriving DecidableEq, Repr

/-- The connection pool, as the range read it answers: column family, start key,
end key and count give rows (nil placeholders allowed) or an error. -/
abbrev ConnectionPool := Bytes → Bytes → Bytes → Int → Except GoError (List (Option Row))

/-- The function `getColumnFamilyRange`: what the caller receives from the channel. -/
def getColumnFamilyRange (cf : Bytes) (pool : ConnectionPool) (startPrefix endPrefix : Bytes)
    (maxResults : Int) : rowResults :=
  match pool cf startPrefix endPrefix maxResults with
  | .error err => { Rows := [], err := some err }
  | .ok rows => { Rows := rows, err := none }

/-- The constant `CFAggregates`. -/
def CFAggregates : Bytes := ascii ("aggregates")

/-- The constant `CFConfigs`. -/
def CFConfigs : Bytes := ascii ("configs")

/-- What `readRowRange` takes from outside the repository: the digest of the key
scheme, the connection pool, `proto.Unmarshal` of an aggregation (`none` on error),
the default data type of the protocol definition, the outcome of `sort.Sort` and the
constant `common.TimeName`. -/
structure ReadEnv where
  md5 : Md5Hex
  pool : ConnectionPool
  unmarshal : Bytes → Option Aggregation
  defaultType : DataType
  sortPositions : SortPositions
  TimeName : Bytes

/-- State of the config rows loop of `readRowRange`. -/
structure ConfigsState where
  ConfigsColumnNames : List Bytes := []
  Configs : List (Option (List (Option Bytes))) := []
  IdColumn : List Bytes := []
  columnNameReverseMap : GoMap Bytes Int := {}
  excludeIdSet : Option (GoMap Bytes Bool) := none
  deriving DecidableEq, Repr

/-- The test `configsFilter[columnName] == valueStr` of the config rows loop on one
column; a missing key of the filter reads as the empty string. -/
def columnMatches (f : GoMap Bytes Bytes) (column : Column) : Bool :=
  decide ((f.lookup column.Name).getD [] = column.Value)

/-- The test `(configsFilter != nil) && excludeIdSet[key]` of the aggregate rows
loop; a nil exclusion set and a missing key read as false. -/
def keyExcluded (configsFilter : Option (GoMap Bytes Bytes))
    (excludeIdSet : Option (GoMap Bytes Bool)) (key : Bytes) : Bool :=
  configsFilter.isSome &&
    (match excludeIdSet with
      | none => false
      | some ex => (ex.lookup key).getD false)

/-- The loop over the columns of one config row: the names, the reverse map, the
row `ctrow` and `rowMatch`. -/
def readRowRange.configColumns (configsFilter : Option (GoMap Bytes Bytes))
    (st : List Bytes × GoMap Bytes Int × List (Option Bytes) × Bool) (column : Column) :
    Except Panic (List Bytes × GoMap Bytes Int × List (Option Bytes) × Bool) :=
  let names := st.1
  let reverseMap := st.2.1
  let ctrow := st.2.2.1
  let rowMatch := st.2.2.2
  let columnName := column.Name
  let valueStr := column.Value
  let rowMatch :=
    match configsFilter with
    | none => rowMatch
    | some f => if columnMatches f column then true else rowMatch
  match reverseMap.lookup columnName with
  | none =>
    .ok (names ++ [columnName], reverseMap.set columnName names.length,
      ctrow ++ [some valueStr], rowMatch)
  | some columnNameIndex =>
    match sliceSet ctrow columnNameIndex (some valueStr) with
    | .error e => .error e
    | .ok ctrow => .ok (names, reverseMap, ctrow, rowMatch)

/-- The body of the config rows loop of `readRowRange` for one row. -/
def readRowRange.configRow (req : RowRangeRequests) (configsFilter : Option (GoMap Bytes Bytes))
    (st : ConfigsState) (cfgRow : Option Row) : Except Panic ConfigsState :=
  match cfgRow with
  | none => .ok st
  | some cfgRow =>
    let ctrow : List (Option Bytes) := List.replicate st.ConfigsColumnNames.length none
    match foldlE (readRowRange.configColumns configsFilter)
        (st.ConfigsColumnNames, st.columnNameReverseMap, ctrow, false) cfgRow.Columns with
    | .error e => .error e
    | .ok (names, reverseMap, ctrow, rowMatch) =>
      let st := { st with ConfigsColumnNames := names, columnNameReverseMap := reverseMap }
      if configsFilter.isSome && !rowMatch then
        match st.excludeIdSet with
        | none => .error Panic.nilDeref
        | some ex => .ok { st with excludeIdSet := some (ex.set cfgRow.Key true) }
      else
        let st := { st with Configs := st.Configs ++ [some ctrow] }
        if req.NoReturnAggregates && req.ReturnIds then
          .ok { st with IdColumn := st.IdColumn ++ [cfgRow.Key] }
        else .ok st

/-- State of the aggregate rows loop of `readRowRange`. -/
structure AggregatesState where
  ColumnNames : List Bytes := []
  Data : List (Option (List (Option ℚ))) := []
  IdColumn : List Bytes := []
  columnNameReverseMap : GoMap Bytes Int := {}
  deriving DecidableEq, Repr

/-- The loop over the fields of one decoded aggregation: `metric.field` is given a
slot of the data row. -/
def readRowRange.aggregateFields (columnName : Bytes) (values : List (Option ℚ))
    (st : List Bytes × GoMap Bytes Int × List (Option ℚ)) (fieldIndexField : Nat × Bytes) :
    Except Panic (List Bytes × GoMap Bytes Int × List (Option ℚ)) :=
  let names := st.1
  let reverseMap := st.2.1
  let dtrow := st.2.2
  let fullName := columnName ++ [46] ++ fieldIndexField.2
  match sliceIndex values fieldIndexField.1 with
  | .error e => .error e
  | .ok val =>
    match reverseMap.lookup fullName with
    | none => .ok (names ++ [fullName], reverseMap.set fullName names.length, dtrow ++ [val])
    | some columnNameIndex =>
      match sliceSet dtrow columnNameIndex val with
      | .error e => .error e
      | .ok dtrow => .ok (names, reverseMap, dtrow)

/-- The loop over the columns of one aggregates row. -/
def readRowRange.aggregateColumns (env : ReadEnv) (req : RowRangeRequests)
    (metricsFilter aggregatesFilter : Option (GoMap Bytes Bool))
    (st : List Bytes × GoMap Bytes Int × List (Option ℚ)) (column : Column) :
    Except Abort (List Bytes × GoMap Bytes Int × List (Option ℚ)) :=
  let skip : Bool :=
    match metricsFilter with
    | none => false
    | some f => !(f.lookup column.Name).getD false
  if skip then .ok st
  else
    match env.unmarshal column.Value with
    | none => .error (Abort.failed
        { message := ascii ("An error occured during aggregation unmarshalling.") })
    | some aggregation =>
      match Aggregation.MakeDouble env.defaultType (some aggregation) with
      | .error p => .error (Abort.panic p)
      | .ok aggregation =>
        match GetDoubleFieldsAndValuesFiltered aggregation aggregatesFilter
            req.SetAggregateIfMissing with
        | .error p => .error (Abort.panic p)
        | .ok (fields, values) =>
          match foldlE (readRowRange.aggregateFields column.Name values) st fields.enum with
          | .error p => .error (Abort.panic p)
          | .ok st => .ok st

/-- The body of the aggregate rows loop of `readRowRange` for one row. -/
def readRowRange.aggregateRow (env : ReadEnv) (req : RowRangeRequests)
    (metricsFilter aggregatesFilter : Option (GoMap Bytes Bool))
    (configsFilter : Option (GoMap Bytes Bytes)) (excludeIdSet : Option (GoMap Bytes Bool))
    (st : AggregatesState) (aggregatesRow : Option Row) : Except Abort AggregatesState :=
  match aggregatesRow with
  | none => .ok st
  | some aggregatesRow =>
    if keyExcluded configsFilter excludeIdSet aggregatesRow.Key then .ok st
    else
      let dtrow : List (Option ℚ) := List.replicate st.ColumnNames.length none
      match sliceSet dtrow 0 (some ((GetTimestamp aggregatesRow.Key : Int) : ℚ)) with
      | .error p => .error (Abort.panic p)
      | .ok dtrow =>
        let idColumn := if req.ReturnIds then st.IdColumn ++ [aggregatesRow.Key] else st.IdColumn
        match foldlE (readRowRange.aggregateColumns env req metricsFilter aggregatesFilter)
            (st.ColumnNames, st.columnNameReverseMap, dtrow) aggregatesRow.Columns with
        | .error e => .error e
        | .ok (names, reverseMap, dtrow) =>
          .ok { ColumnNames := names, Data := st.Data ++ [some dtrow], IdColumn := idColumn,
                columnNameReverseMap := reverseMap }

/-- The section "Read configs" of `readRowRange`: the table after it and the
exclusion set. -/
def readRowRange.readConfigs (env : ReadEnv) (req : RowRangeRequests)
    (configsFilter : Option (GoMap Bytes Bytes)) (cfgResult : rowResults)
    (dataTable : DataTable) : Except Abort (DataTable × Option (GoMap Bytes Bool)) :=
  if req.ReturnConfigs then
    let excludeIdSet : Option (GoMap Bytes Bool) :=
      if configsFilter.isSome then some {} else none
    match cfgResult.err with
    | some err => .error (Abort.failed err)
    | none =>
      match foldlE (readRowRange.configRow req configsFilter)
          { ConfigsColumnNames := dataTable.ConfigsColumnNames, Configs := dataTable.Configs,
            IdColumn := dataTable.IdColumn, excludeIdSet := excludeIdSet }
          cfgResult.Rows with
      | .error p => .error (Abort.panic p)
      | .ok st =>
        let dataTable := { dataTable with
          ConfigsColumnNames := st.ConfigsColumnNames, Configs := st.Configs,
          IdColumn := st.IdColumn }
        match DataTable.SortConfigsColumns env.sortPositions dataTable with
        | .error p => .error (Abort.panic p)
        | .ok dataTable => .ok (dataTable, st.excludeIdSet)
  else .ok (dataTable, none)

/-- The section "Read aggregates" of `readRowRange`. -/
def readRowRange.readAggregates (env : ReadEnv) (req : RowRangeRequests) (fs : FilteredSource)
    (aggregationResult : rowResults) (excludeIdSet : Option (GoMap Bytes Bool))
    (dataTable : DataTable) : Except Abort DataTable :=
  if !req.NoReturnAggregates then
    match aggregationResult.err with
    | some err => .error (Abort.failed err)
    | none =>
      match foldlE (readRowRange.aggregateRow env req fs.MetricsFilter fs.AggregatesFilter
            fs.ConfigsFilter excludeIdSet)
          { ColumnNames := dataTable.ColumnNames ++ [env.TimeName], Data := dataTable.Data,
            IdColumn := dataTable.IdColumn }
          aggregationResult.Rows with
      | .error e => .error e
      | .ok st =>
        if st.ColumnNames.length = 1 then
          .error (Abort.failed { message := ascii ("No results for: ") ++ fs.Source })
        else
          .ok { dataTable with
            ColumnNames := st.ColumnNames, Data := st.Data, IdColumn := st.IdColumn }
  else .ok dataTable

/-- The method `CassandraDB.readRowRange`. The two range reads are started before
the config rows are processed; each is answered by the pool. -/
def readRowRange (env : ReadEnv) (req : RowRangeRequests) (reqNum : Int) :
    Except Abort DataTable :=
  match sliceIndex req.FilteredSources reqNum with
  | .error p => .error (Abort.panic p)
  | .ok fs =>
    match MakeRowPrefixes env.md5 fs.Source req.StartTimestamp req.EndTimestamp true with
    | none => .error (Abort.panic Panic.indexOutOfRange)
    | some (startPrefix, endPrefix) =>
      let aggregationResult : rowResults :=
        if !req.NoReturnAggregates then
          getColumnFamilyRange CFAggregates env.pool startPrefix endPrefix req.MaxResults
        else {}
      let cfgResult : rowResults :=
        if req.ReturnConfigs then
          getColumnFamilyRange CFConfigs env.pool startPrefix endPrefix req.MaxResults
        else {}
      match readRowRange.readConfigs env req fs.ConfigsFilter cfgResult {} with
      | .error e => .error e
      | .ok (dataTable, excludeIdSet) =>
        readRowRange.readAggregates env req fs aggregationResult excludeIdSet dataTable

/-- A store holding the given config rows and aggregate rows, whatever the key
range asked for. -/
def fixedPool (configRows aggregateRows : List (Option Row)) : ConnectionPool :=
  fun cf _ _ _ => if cf = CFConfigs then .ok configRows else .ok aggregateRows

/-- An environment for evaluating range reads on concrete stores: every stored
value decodes to the aggregation with type `INT64` and scaled mean 1, and the names
handed to the sort are left in place. -/
def testEnv (configRows aggregateRows : List (Option Row)) : ReadEnv where
  md5 := zeroDigest
  pool := fixedPool configRows aggregateRows
  unmarshal := fun _ => some { Type_ := some .INT64, Scaled := some { Mean := some 1 } }
  defaultType := .INT64
  sortPositions := fun names => (List.range names.length).map Int.ofNat
  TimeName := ascii ("time")

/-- Invariant of the loops over one aggregates row: the time column exists, every slot of the
reverse map is at least 1, and cell 0 of the data row is `x`. -/
def aggInv (x : Option ℚ) (st : List Bytes × GoMap Bytes Int × List (Option ℚ)) : Prop :=
  1 ≤ st.1.length ∧ (∀ k v, st.2.1.lookup k = some v → 1 ≤ v) ∧ st.2.2[0]? = some x

/-- Invariant of the aggregate rows loop. -/
def aggStateInv (st : AggregatesState) : Prop :=
  1 ≤ st.ColumnNames.length ∧ ∀ k v, st.columnNameReverseMap.lookup k = some v → 1 ≤ v

/-- The row key of source `s` at timestamp 1000 with id `u1`. -/
def keyOne : Bytes := MakeRowKey zeroDigest (ascii ("s")) 1000 (ascii ("u1"))

/-- The row key of source `s` at timestamp 2000 with id `u2`. -/
def keyTwo : Bytes := MakeRowKey zeroDigest (ascii ("s")) 2000 (ascii ("u2"))

/-- The configs filter with the one pair `a = 1`. -/
def filterA1 : GoMap Bytes Bytes := ({} : GoMap Bytes Bytes).set (ascii ("a")) (ascii ("1"))

/-- A range request on source `s` with the filter `a = 1`, ids requested. -/
def requestA1 (returnConfigs : Bool) : RowRangeRequests :=
  { StartTimestamp := 0, EndTimestamp := 5000, MaxResults := 100, ReturnIds := true,
    ReturnConfigs := returnConfigs,
    FilteredSources := [{ Source := ascii ("s"), ConfigsFilter := some filterA1 }] }

/-- A config row with the one column `name = value`. -/
def configRowOf (key name value : Bytes) : Option Row :=
  some { Key := key, Columns := [{ Name := name, Value := value }] }

/-- An aggregates row with the one metric `m`. -/
def aggregatesRowOf (key : Bytes) : Option Row :=
  some { Key := key, Columns := [{ Name := ascii ("m"), Value := [] }] }

/-! ## `db/datatable.go`: `MergeDataTables` -/

/-- The structure `fullRow`; the two row pointers are never nil in `MergeDataTables`
and are kept as the rows they point to. -/
structure fullRow where
  data : List (Option ℚ) := []
  configs : List (Option Bytes) := []
  id : Bytes := []
  deriving DecidableEq, Repr

/-- What `MergeDataTables` takes from outside the repository: the constant
`common.TimeName`, and the order in which `range` visits the entries of the row map,
which Go leaves unspecified. -/
structure MergeEnv where
  TimeName : Bytes
  rangeOrder : List (ℚ × fullRow) → List (ℚ × fullRow)

/-- State of the loops of `MergeDataTables`: the names of the result table, the row
map and the two reverse maps. -/
structure MergeState where
  ColumnNames : List Bytes := []
  ConfigsColumnNames : List Bytes := []
  rowMap : GoMap ℚ fullRow := {}
  columnNameReverseMap : GoMap Bytes Int := {}
  configColumnNameReverseMap : GoMap Bytes Int := {}
  deriving DecidableEq, Repr

/-- The name of a merged data column: the time name itself, or
`strings.Join([]string{src, colName}, ":")`. -/
def MergeDataTables.columnName (TimeName src colName : Bytes) : Bytes :=
  if colName = TimeName then colName else src ++ [58] ++ colName

/-- The body of the loop "Handle data" for one column of one row: the names of the
result table, the reverse map and the data of the merged row. -/
def MergeDataTables.dataColumn (TimeName src : Bytes) (row : List (Option ℚ))
    (st : List Bytes × GoMap Bytes Int × List (Option ℚ)) (jc : Nat × Bytes) :
    Except Panic (List Bytes × GoMap Bytes Int × List (Option ℚ)) :=
  let names := st.1
  let reverseMap := st.2.1
  let data := st.2.2
  let colName := jc.2
  if colName = TimeName ∧ 0 < data.length ∧ (data.getD 0 none).isSome then .ok st
  else
    let columnName := MergeDataTables.columnName TimeName src colName
    match sliceIndex row jc.1 with
    | .error e => .error e
    | .ok val =>
      match reverseMap.lookup columnName with
      | none =>
        .ok (names ++ [columnName], reverseMap.set columnName names.length, data ++ [val])
      | some columnNameIndex =>
        match sliceSet data columnNameIndex val with
        | .error e => .error e
        | .ok data => .ok (names, reverseMap, data)

/-- The body of the loop "Handle configs" for one column of one row. -/
def MergeDataTables.configColumn (configRow : List (Option Bytes))
    (st : List Bytes × GoMap Bytes Int × List (Option Bytes)) (jc : Nat × Bytes) :
    Except Panic (List Bytes × GoMap Bytes Int × List (Option Bytes)) :=
  let names := st.1
  let reverseMap := st.2.1
  let configs := st.2.2
  let columnName := jc.2
  match sliceIndex configRow jc.1 with
  | .error e => .error e
  | .ok val =>
    match reverseMap.lookup columnName with
    | none =>
      .ok (names ++ [columnName], reverseMap.set columnName names.length, configs ++ [val])
    | some columnNameIndex =>
      match sliceSet configs columnNameIndex val with
      | .error e => .error e
      | .ok configs => .ok (names, reverseMap, configs)

/-- The part "Handle configs" of the row loop, for the merged row `dtrow` of the X
value `xVal`. -/
def MergeDataTables.rowConfigs (dTable : DataTable) (xVal : ℚ) (dtrow : fullRow)
    (st : MergeState) (rowIdx : Nat) : Except Panic MergeState :=
  match sliceIndex dTable.Configs rowIdx with
  | .error e => .error e
  | .ok none => .ok { st with rowMap := st.rowMap.set xVal dtrow }
  | .ok (some configRow) =>
    match foldlE (MergeDataTables.configColumn configRow)
        (st.ConfigsColumnNames, st.configColumnNameReverseMap, dtrow.configs)
        dTable.ConfigsColumnNames.enum with
    | .error e => .error e
    | .ok (names, reverseMap, configs) =>
      .ok { st with
        ConfigsColumnNames := names, configColumnNameReverseMap := reverseMap,
        rowMap := st.rowMap.set xVal { dtrow with configs := configs } }

/-- The body of the row loop of `MergeDataTables` for one row of the table `dTable`
of source `src`. The merged row is reached through a pointer held by the row map; it
is written back to the map when the body ends. -/
def MergeDataTables.row (TimeName : Bytes) (returnIds returnConfigs : Bool) (src : Bytes)
    (dTable : DataTable) (st : MergeState) (ir : Nat × Option (List (Option ℚ))) :
    Except Panic MergeState :=
  match ir.2 with
  | none => .ok st
  | some row =>
    match sliceIndex row 0 with
    | .error e => .error e
    | .ok none => .ok st
    | .ok (some xVal) =>
      let dtrow : fullRow :=
        match st.rowMap.lookup xVal with
        | some dtrow => dtrow
        | none =>
          { data := List.replicate st.ColumnNames.length none,
            configs := List.replicate st.ConfigsColumnNames.length none }
      match foldlE (MergeDataTables.dataColumn TimeName src row)
          (st.ColumnNames, st.columnNameReverseMap, dtrow.data) dTable.ColumnNames.enum with
      | .error e => .error e
      | .ok (names, reverseMap, data) =>
        match (if returnIds then sliceIndex dTable.IdColumn ir.1 else .ok dtrow.id) with
        | .error e => .error e
        | .ok id =>
          let dtrow : fullRow := { dtrow with data := data, id := id }
          let st : MergeState :=
            { st with ColumnNames := names, columnNameReverseMap := reverseMap }
          if returnConfigs then MergeDataTables.rowConfigs dTable xVal dtrow st ir.1
          else .ok { st with rowMap := st.rowMap.set xVal dtrow }

/-- The body of the table loop of `MergeDataTables`. -/
def MergeDataTables.table (TimeName : Bytes) (srcs : List Bytes)
    (returnIds returnConfigs : Bool) (st : MergeState) (it : Nat × Option DataTable) :
    Except Panic MergeState :=
  match sliceIndex srcs it.1 with
  | .error e => .error e
  | .ok src =>
    match deref it.2 with
    | .error e => .error e
    | .ok dTable =>
      foldlE (MergeDataTables.row TimeName returnIds returnConfigs src dTable) st
        dTable.Data.enum

/-- The function `MergeDataTables`. -/
def MergeDataTables (env : MergeEnv) (dTables : List (Option DataTable)) (srcs : List Bytes)
    (returnIds returnConfigs : Bool) : Except Panic DataTable :=
  match foldlE (MergeDataTables.table env.TimeName srcs returnIds returnConfigs) {}
      dTables.enum with
  | .error e => .error e
  | .ok st =>
    let rows := (env.rangeOrder st.rowMap.entries).map Prod.snd
    .ok { ColumnNames := st.ColumnNames,
          ConfigsColumnNames := st.ConfigsColumnNames,
          Data := rows.map (fun r => some r.data),
          IdColumn := if returnIds then rows.map (fun r => r.id) else [],
          Configs := if returnConfigs then rows.map (fun r => some r.configs) else [] }

/-- The first cell of a row of a table, when the row and the cell are present. -/
def firstCell (rowp : Option (List (Option ℚ))) : Option ℚ :=
  match rowp with
  | some (cell :: _) => cell
  | _ => none

/-- The X values of the rows of a table: the first cells that are present. -/
def DataTable.xValues (d : DataTable) : List ℚ :=
  d.Data.filterMap firstCell

/-- An environment for evaluating merges on concrete tables: the time name `time`
and the entries of the row map visited in the order of insertion. -/
def mergeTestEnv : MergeEnv where
  TimeName := ascii ("time")
  rangeOrder := id

/-- A table with the time column and the column `c`, holding the given rows. -/
def tableTC (rows : List (List (Option ℚ))) : DataTable :=
  { ColumnNames := [ascii ("time"), ascii ("c")], Data := rows.map some }

/-- Consistency of the data names of the result table with their reverse map: the
map sends a name to its index, every name has a slot, the names are pairwise
distinct, and once there is a name the time name has slot 0. -/
def namesInv (TimeName : Bytes) (names : List Bytes) (reverseMap : GoMap Bytes Int) : Prop :=
  (∀ name k, reverseMap.lookup name = some k → 0 ≤ k ∧ names[k.toNat]? = some name) ∧
  (∀ name, name ∈ names → (reverseMap.lookup name).isSome = true) ∧
  names.Nodup ∧
  (names ≠ [] → reverseMap.lookup TimeName = some 0)

/-- The slots of a reverse map are indices of the names. -/
def slotsInv (names : List Bytes) (reverseMap : GoMap Bytes Int) : Prop :=
  ∀ name k, reverseMap.lookup name = some k → 0 ≤ k ∧ k.toNat < names.length

/-- Invariant of the loops of `MergeDataTables`. -/
def mergeInv (TimeName : Bytes) (st : MergeState) : Prop :=
  namesInv TimeName st.ColumnNames st.columnNameReverseMap ∧
  slotsInv st.ConfigsColumnNames st.configColumnNameReverseMap

/-- What a merged row `merged` holds of the input row `row` of a table with the
columns `cols` and the source `src`, under the names `names`: the X value in cell 0,
and each cell of another column in the slot of `src:column`. -/
def holdsRow (names cols : List Bytes) (src : Bytes) (row merged : List (Option ℚ)) : Prop :=
  merged[0]? = row[0]? ∧
  ∀ (j : Nat) (c : Bytes), 1 ≤ j → cols[j]? = some c →
    ∃ k : Nat, names[k]? = some (src ++ [58] ++ c) ∧ merged[k]? = row[j]?

/-- The tables `MergeDataTables` is meant for: the first column is the time column
and the other columns have pairwise distinct names other than the time name; every
row is present, full width and has its X value; with `returnIds` there is an id for
every row; with `returnConfigs` there is a config row slot for every row and every
config row has a cell for every config column. -/
def DataTable.mergeable (TimeName : Bytes) (returnIds returnConfigs : Bool) (t : DataTable) :
    Prop :=
  (∃ rest, t.ColumnNames = TimeName :: rest ∧ rest.Nodup ∧ TimeName ∉ rest) ∧
  (∀ rowp ∈ t.Data, ∃ (row : List (Option ℚ)) (x : ℚ),
    rowp = some row ∧ row.length = t.ColumnNames.length ∧ row[0]? = some (some x)) ∧
  (returnIds = true → t.Data.length ≤ t.IdColumn.length) ∧
  (returnConfigs = true → t.Data.length ≤ t.Configs.length ∧
    ∀ configRow, some configRow ∈ t.Configs →
      t.ConfigsColumnNames.length ≤ configRow.length)

/-! ## `proto/codec.go`: `lazyData` and `CreateMissingDoubleAggregates` -/

/-- Number of low bits by which a natural number exceeds 24 significant bits;
`fuel` bounds the halvings and `N` itself is always enough. -/
def excessBits : Nat → Nat → Nat
  | 0, _ => 0
  | fuel + 1, N => if N < 2 ^ 24 then 0 else excessBits fuel (N / 2) + 1

/-- Rounding of a natural number to 24 significant bits, ties to even: what the
conversion to `float32` and the `float32` multiplication do to an exact value (the
scale `2 ^ exp` of a dyadic value does not take part; exponent range not modelled). -/
def roundBits24 (N : Nat) : Nat :=
  let s := excessBits N N
  if s = 0 then N
  else
    let q := N / 2 ^ s
    let rem := N % 2 ^ s
    let half := 2 ^ (s - 1)
    if rem > half ∨ (rem = half ∧ q % 2 = 1) then (q + 1) * 2 ^ s else q * 2 ^ s

/-- A `float32` constant between 0 and 1, as the dyadic rational `num / 2 ^ exp` with
the 24-bit significand `num`. -/
structure Float32Const where
  num : Nat
  exp : Nat
  deriving DecidableEq, Repr

/-- The value of a `float32` constant. -/
def Float32Const.toRat (p : Float32Const) : ℚ := (p.num : ℚ) / 2 ^ p.exp

/-- The constant `0.99` as a `float32`. -/
def float32_0_99 : Float32Const := ⟨16609444, 24⟩

/-- The constant `0.95` as a `float32`. -/
def float32_0_95 : Float32Const := ⟨15938355, 24⟩

/-- The constant `0.90` as a `float32`. -/
def float32_0_90 : Float32Const := ⟨15099494, 24⟩

/-- The constant `0.75` as a `float32`. -/
def float32_0_75 : Float32Const := ⟨12582912, 24⟩

/-- The constant `0.50` as a `float32`. -/
def float32_0_50 : Float32Const := ⟨8388608, 24⟩

/-- The constant `0.25` as a `float32`. -/
def float32_0_25 : Float32Const := ⟨8388608, 25⟩

/-- The constant `0.10` as a `float32`. -/
def float32_0_10 : Float32Const := ⟨13421773, 27⟩

/-- The constant `0.05` as a `float32`. -/
def float32_0_05 : Float32Const := ⟨13421773, 28⟩

/-- The constant `0.01` as a `float32`. -/
def float32_0_01 : Float32Const := ⟨10737418, 30⟩

/-- The index expression `int(float32(len(s.Data))*p)` of `Percentile` for a slice
of `n` elements: the length is converted to `float32`, the product is rounded to
`float32`, and the conversion to `int` truncates. -/
def percentileIndex (n : Nat) (p : Float32Const) : Nat :=
  roundBits24 (roundBits24 n * p.num) / 2 ^ p.exp

/-- The function `sort.Float64s`: the values in increasing order. -/
def sortFloat64s (d : List ℚ) : List ℚ := d.insertionSort (fun a b => a ≤ b)

/-- The structure `lazyData`. -/
structure lazyData where
  Data : List ℚ
  sorted : Bool := false
  haveMinMax : Bool := false
  haveSum : Bool := false
  min : ℚ := 0
  max : ℚ := 0
  sum : ℚ := 0
  deriving DecidableEq, Repr

/-- The method `lazyData.createSorted`. -/
def lazyData.createSorted (s : lazyData) : lazyData :=
  if !s.sorted then { s with Data := sortFloat64s s.Data, sorted := true } else s

/-- The scan of `createMinMax` over unsorted data: the running `min` and `max`. -/
def lazyData.scanMinMax (data : List ℚ) (min max : ℚ) : ℚ × ℚ :=
  data.foldl (fun (mm : ℚ × ℚ) val =>
      if val < mm.1 then (val, mm.2)
      else if val > mm.2 then (mm.1, val)
      else mm)
    (min, max)

/-- The method `lazyData.createMinMax`; `s.Data[0]` panics on empty data. -/
def lazyData.createMinMax (s : lazyData) : Except Panic lazyData :=
  if !s.haveMinMax then
    match sliceIndex s.Data 0 with
    | .error e => .error e
    | .ok first =>
      if s.sorted then
        match sliceIndex s.Data ((s.Data.length : Int) - 1) with
        | .error e => .error e
        | .ok last => .ok { s with min := first, max := last, haveMinMax := true }
      else
        let mm := lazyData.scanMinMax s.Data first first
        .ok { s with min := mm.1, max := mm.2, haveMinMax := true }
  else .ok s

/-- The method `lazyData.createSum`. -/
def lazyData.createSum (s : lazyData) : lazyData :=
  if !s.haveSum then
    { s with sum := s.Data.foldl (fun acc val => acc + val) s.sum, haveSum := true }
  else s

/-- The method `lazyData.Min`: the value pointed to and the data afterwards. -/
def lazyData.Min (s : lazyData) : Except Panic (ℚ × lazyData) :=
  match s.createMinMax with
  | .error e => .error e
  | .ok s => .ok (s.min, s)

/-- The method `lazyData.Max`. -/
def lazyData.Max (s : lazyData) : Except Panic (ℚ × lazyData) :=
  match s.createMinMax with
  | .error e => .error e
  | .ok s => .ok (s.max, s)

/-- The method `lazyData.Mean`. On empty data Go divides zero by zero; the quotient
is 0 here. -/
def lazyData.Mean (s : lazyData) : ℚ × lazyData :=
  let s := s.createSum
  (s.sum / (s.Data.length : ℚ), s)

/-- The method `lazyData.Percentile`; the index panics when out of range. -/
def lazyData.Percentile (s : lazyData) (p : Float32Const) : Except Panic (ℚ × lazyData) :=
  let s := s.createSorted
  match sliceIndex s.Data (percentileIndex s.Data.length p) with
  | .error e => .error e
  | .ok v => .ok (v, s)

/-- Assignment to the field of the double view that holds a stat. -/
def AggregationDouble.setSlot (d : AggregationDouble) (stat : Stat) (v : Option ℚ) :
    AggregationDouble :=
  match stat with
  | .count => { d with Count := v } | .min => { d with Min := v }
  | .max => { d with Max := v } | .mean => { d with Mean := v }
  | .stdev => { d with Stdev := v }
  | .p99 => { d with P99 := v } | .p95 => { d with P95 := v } | .p90 => { d with P90 := v }
  | .p85 => { d with P85 := v } | .p80 => { d with P80 := v } | .p75 => { d with P75 := v }
  | .p70 => { d with P70 := v } | .p65 => { d with P65 := v } | .p60 => { d with P60 := v }
  | .p55 => { d with P55 := v } | .p50 => { d with P50 := v } | .p45 => { d with P45 := v }
  | .p40 => { d with P40 := v } | .p35 => { d with P35 := v } | .p30 => { d with P30 := v }
  | .p25 => { d with P25 := v } | .p20 => { d with P20 := v } | .p15 => { d with P15 := v }
  | .p10 => { d with P10 := v } | .p5 => { d with P5 := v } | .p1 => { d with P1 := v }

/-- The percentiles that `CreateMissingDoubleAggregates` generates, in the order of
its statements, each with the fraction passed to `Percentile`. -/
def CreateMissingDoubleAggregates.percentiles : List (Stat × Float32Const) :=
  [(Stat.p99, float32_0_99), (Stat.p95, float32_0_95), (Stat.p90, float32_0_90),
   (Stat.p75, float32_0_75), (Stat.p50, float32_0_50), (Stat.p25, float32_0_25),
   (Stat.p10, float32_0_10), (Stat.p5, float32_0_05), (Stat.p1, float32_0_01)]

/-- One statement `if m.Double.Pxx == nil { m.Double.Pxx = l.Percentile(p) }`. -/
def CreateMissingDoubleAggregates.percentile (st : AggregationDouble × lazyData)
    (sp : Stat × Float32Const) : Except Panic (AggregationDouble × lazyData) :=
  if (st.1.slot sp.1).isNone then
    match st.2.Percentile sp.2 with
    | .error e => .error e
    | .ok (v, l) => .ok (st.1.setSlot sp.1 (some v), l)
  else .ok st

/-- The statement `if m.Double.Min == nil { m.Double.Min = l.Min() }`. -/
def CreateMissingDoubleAggregates.min (st : AggregationDouble × lazyData) :
    Except Panic (AggregationDouble × lazyData) :=
  if st.1.Min.isNone then
    match st.2.Min with
    | .error e => .error e
    | .ok (v, l) => .ok ({ st.1 with Min := some v }, l)
  else .ok st

/-- The statement `if m.Double.Max == nil { m.Double.Max = l.Max() }`. -/
def CreateMissingDoubleAggregates.max (st : AggregationDouble × lazyData) :
    Except Panic (AggregationDouble × lazyData) :=
  if st.1.Max.isNone then
    match st.2.Max with
    | .error e => .error e
    | .ok (v, l) => .ok ({ st.1 with Max := some v }, l)
  else .ok st

/-- The statement `if m.Double.Mean == nil { m.Double.Mean = l.Mean() }`. -/
def CreateMissingDoubleAggregates.mean (st : AggregationDouble × lazyData) :
    AggregationDouble × lazyData :=
  if st.1.Mean.isNone then ({ st.1 with Mean := some st.2.Mean.1 }, st.2.Mean.2) else st

/-- The method `Aggregation.CreateMissingDoubleAggregates`; a nil receiver or a nil
double view panics. -/
def Aggregation.CreateMissingDoubleAggregates (m : Option Aggregation) (d : List ℚ) :
    Except Panic (Option Aggregation) :=
  match m with
  | none => .error Panic.nilDeref
  | some a =>
    match a.Double with
    | none => .error Panic.nilDeref
    | some dbl =>
      let dbl : AggregationDouble :=
        if dbl.Count.isNone then { dbl with Count := some (d.length : ℚ) } else dbl
      if dbl.Count.getD 0 ≤ 0 then .ok (some { a with Double := some dbl })
      else
        let l : lazyData := { Data := d }
        match foldlE CreateMissingDoubleAggregates.percentile (dbl, l)
            CreateMissingDoubleAggregates.percentiles with
        | .error e => .error e
        | .ok st =>
          match CreateMissingDoubleAggregates.min st with
          | .error e => .error e
          | .ok st =>
            match CreateMissingDoubleAggregates.max st with
            | .error e => .error e
            | .ok st =>
              .ok (some { a with Double := some (CreateMissingDoubleAggregates.mean st).1 })

/-- Invariant of the `lazyData` of `CreateMissingDoubleAggregates` for the raw points
`d`: the data are `d` or, once sorted, `d` in increasing order; the sum has not been
taken yet; once `haveMinMax` is set, `min` and `max` are the least and the greatest
of the points. -/
def lazyData.holds (d : List ℚ) (l : lazyData) : Prop :=
  ((l.sorted = false ∧ l.Data = d) ∨ (l.sorted = true ∧ l.Data = sortFloat64s d)) ∧
  l.haveSum = false ∧ l.sum = 0 ∧
  (l.haveMinMax = true →
    (l.min ∈ d ∧ ∀ x ∈ d, l.min ≤ x) ∧ (l.max ∈ d ∧ ∀ x ∈ d, x ≤ l.max))

/-- The raw points `0, 1, ..., n - 1`. -/
def rampPoints (n : Nat) : List ℚ := (List.range n).map (fun (i : Nat) => (i : ℚ))

/-! ## `db/basesort.go`, `db/datatable.go`: sorting and the X axis -/

/-- The exchange `s[i], s[j] = s[j], s[i]`; an index out of range panics. -/
def swapAt {α : Type} (s : List α) (i j : Nat) : Except Panic (List α) :=
  match s[i]?, s[j]? with
  | some a, some b => .ok ((s.set i b).set j a)
  | _, _ => .error Panic.indexOutOfRange

/-- The function `sort.Sort` of the Go library, which is not part of the repository,
as the calls of `Swap` it makes for data of length `n`, in order. The calls depend on
the data only through the answers of `Less`, given here for the positions that the
elements have before the sort; a panic of `Less` ends the sort. -/
abbrev SortAlgorithm := Nat → (Nat → Nat → Except Panic Bool) → Except Panic (List (Nat × Nat))

/-- The method `tableSort.Less`: a nil row or a nil cell is less than anything. -/
def tableSort.Less (v : List (Option (List (Option ℚ)))) (sortIdx : Int) (i j : Nat) :
    Except Panic Bool :=
  match sliceIndex v i with
  | .error e => .error e
  | .ok di =>
    match sliceIndex v j with
    | .error e => .error e
    | .ok dj =>
      match di with
      | none => .ok true
      | some rowi =>
        match dj with
        | none => .ok false
        | some rowj =>
          match sliceIndex rowi sortIdx with
          | .error e => .error e
          | .ok di0 =>
            match sliceIndex rowj sortIdx with
            | .error e => .error e
            | .ok dj0 =>
              match di0 with
              | none => .ok true
              | some x =>
                match dj0 with
                | none => .ok false
                | some y => .ok (decide (x < y))

/-- The method `tableSort.Swap`: the rows are exchanged, then `extraSwap` is called. -/
def tableSort.Swap (extraSwap : DataTable → Nat → Nat → Except Panic DataTable)
    (d : DataTable) (i j : Nat) : Except Panic DataTable :=
  match swapAt d.Data i j with
  | .error e => .error e
  | .ok v => extraSwap { d with Data := v } i j

/-- The closure `extraSwap` of `baseSortRows`: ids, config rows and timestamps are
exchanged, each when its column is as long as `Data`. -/
def DataTable.baseSortRows.extraSwap (d : DataTable) (i j : Nat) : Except Panic DataTable :=
  match (if d.IdColumn.length = d.Data.length then swapAt d.IdColumn i j
      else .ok d.IdColumn) with
  | .error e => .error e
  | .ok ids =>
    match (if d.Configs.length = d.Data.length then swapAt d.Configs i j
        else .ok d.Configs) with
    | .error e => .error e
    | .ok configs =>
      match (if d.Timestamps.length = d.Data.length then swapAt d.Timestamps i j
          else .ok d.Timestamps) with
      | .error e => .error e
      | .ok timestamps =>
        .ok { d with IdColumn := ids, Configs := configs, Timestamps := timestamps }

/-- The closure `extraSwap` of `ReverseRows`: ids and config rows are exchanged, each
when its column is as long as `Data`. -/
def DataTable.ReverseRows.extraSwap (d : DataTable) (i j : Nat) : Except Panic DataTable :=
  match (if d.IdColumn.length = d.Data.length then swapAt d.IdColumn i j
      else .ok d.IdColumn) with
  | .error e => .error e
  | .ok ids =>
    match (if d.Configs.length = d.Data.length then swapAt d.Configs i j
        else .ok d.Configs) with
    | .error e => .error e
    | .ok configs => .ok { d with IdColumn := ids, Configs := configs }

/-- The method `DataTable.baseSortRows`. The index `idx` is not used: `sortIdx` is 0.
Both values of `stable` select `sort.Sort`; `sort.Reverse` exchanges the arguments of
`Less`. -/
def DataTable.baseSortRows (sort : SortAlgorithm) (d : DataTable) (_idx : Int)
    (reverse stable : Bool) : Except Panic DataTable :=
  let sortIdx : Int := 0
  let sortFunc : SortAlgorithm := if stable then sort else sort
  let less : Nat → Nat → Except Panic Bool :=
    if reverse then fun i j => tableSort.Less d.Data sortIdx j i
    else tableSort.Less d.Data sortIdx
  match sortFunc d.Data.length less with
  | .error e => .error e
  | .ok swaps =>
    foldlE (fun d ij => tableSort.Swap DataTable.baseSortRows.extraSwap d ij.1 ij.2) d swaps

/-- The method `DataTable.SortRows`. -/
def DataTable.SortRows (sort : SortAlgorithm) (d : DataTable) (colIdx : Int) :
    Except Panic DataTable :=
  DataTable.baseSortRows sort d colIdx false false

/-- The method `DataTable.ReverseSortRows`. -/
def DataTable.ReverseSortRows (sort : SortAlgorithm) (d : DataTable) (colIdx : Int) :
    Except Panic DataTable :=
  DataTable.baseSortRows sort d colIdx true false

/-- The method `DataTable.SortRowsStable`. -/
def DataTable.SortRowsStable (sort : SortAlgorithm) (d : DataTable) (colIdx : Int) :
    Except Panic DataTable :=
  DataTable.baseSortRows sort d colIdx false true

/-- The method `DataTable.ReverseSortRowsStable`. -/
def DataTable.ReverseSortRowsStable (sort : SortAlgorithm) (d : DataTable) (colIdx : Int) :
    Except Panic DataTable :=
  DataTable.baseSortRows sort d colIdx true true

/-- The loop of `tableSort.ReverseRows` from the indices `i` and `j`. -/
def tableSort.ReverseRows.loop (extraSwap : DataTable → Nat → Nat → Except Panic DataTable) :
    Nat → Int → Int → DataTable → Except Panic DataTable
  | 0, _, _, d => .ok d
  | fuel + 1, i, j, d =>
    if i < j then
      match tableSort.Swap extraSwap d i.toNat j.toNat with
      | .error e => .error e
      | .ok d => tableSort.ReverseRows.loop extraSwap fuel (i + 1) (j - 1) d
    else .ok d

/-- The method `tableSort.ReverseRows`. -/
def tableSort.ReverseRows (extraSwap : DataTable → Nat → Nat → Except Panic DataTable)
    (d : DataTable) : Except Panic DataTable :=
  tableSort.ReverseRows.loop extraSwap d.Data.length 0 ((d.Data.length : Int) - 1) d

/-- The method `DataTable.ReverseRows`. -/
def DataTable.ReverseRows (d : DataTable) : Except Panic DataTable :=
  tableSort.ReverseRows DataTable.ReverseRows.extraSwap d

/-- The loop of `StringSlice.IndexForName`: the value of `idx` when the loop ends, the
first index of the name, or the length of the slice. -/
def StringSlice.IndexForName.scan (name : Bytes) : List Bytes → Nat
  | [] => 0
  | x :: rest => if x = name then 0 else StringSlice.IndexForName.scan name rest + 1

/-- The method `StringSlice.IndexForName`. -/
def StringSlice.IndexForName (s : List Bytes) (name : Bytes) : Except GoError Int :=
  let idx := StringSlice.IndexForName.scan name s
  if idx = s.length then .error { message := ascii ("Non-existent name: ") ++ name }
  else .ok idx

/-- The method `DataTable.IndexForName`. -/
def DataTable.IndexForName (d : DataTable) (colName : Bytes) : Except GoError Int :=
  StringSlice.IndexForName d.ColumnNames colName

/-- The method `DataTable.IndexForConfigName`. -/
def DataTable.IndexForConfigName (d : DataTable) (colName : Bytes) : Except GoError Int :=
  StringSlice.IndexForName d.ConfigsColumnNames colName

/-- The function `strconv.ParseFloat(s, 64)` of the Go library, which is not part of
the repository: the value and the error. -/
abbrev ParseFloat := Bytes → ℚ × Option GoError

/-- The assignment `(*d.Data[i])[0] = v`. -/
def DataTable.setX (d : DataTable) (i : Nat) (v : Option ℚ) : Except Panic DataTable :=
  match sliceIndex d.Data i with
  | .error e => .error e
  | .ok rowp =>
    match deref rowp with
    | .error e => .error e
    | .ok row =>
      match sliceSet row 0 v with
      | .error e => .error e
      | .ok row => .ok { d with Data := d.Data.set i (some row) }

/-- The assignment `d.Timestamps[i] = (*d.Data[i])[0]`. -/
def DataTable.saveX (d : DataTable) (i : Nat) : Except Panic DataTable :=
  match sliceIndex d.Data i with
  | .error e => .error e
  | .ok rowp =>
    match deref rowp with
    | .error e => .error e
    | .ok row =>
      match sliceIndex row 0 with
      | .error e => .error e
      | .ok x =>
        match sliceSet d.Timestamps i x with
        | .error e => .error e
        | .ok timestamps => .ok { d with Timestamps := timestamps }

/-- The body of the loop of `ChangeXAxisToConfigColumn` for the row `i`. The error of
`ParseFloat` is dropped and its value is written. -/
def DataTable.ChangeXAxisToConfigColumn.row (parseFloat : ParseFloat) (colIdx : Int)
    (fromTime : Bool) (d : DataTable) (i : Nat) : Except Panic DataTable :=
  match (if fromTime then DataTable.saveX d i else .ok d) with
  | .error e => .error e
  | .ok d =>
    match sliceIndex d.Configs i with
    | .error e => .error e
    | .ok none => .ok d
    | .ok (some configsRow) =>
      match sliceIndex configsRow colIdx with
      | .error e => .error e
      | .ok none => .ok d
      | .ok (some s) => DataTable.setX d i (some (parseFloat s).1)

/-- The method `DataTable.ChangeXAxisToConfigColumn`. -/
def DataTable.ChangeXAxisToConfigColumn (parseFloat : ParseFloat) (d : DataTable)
    (colName : Bytes) (fromTime : Bool) : Except Abort DataTable :=
  match DataTable.IndexForConfigName d colName with
  | .error err => .error (Abort.failed err)
  | .ok colIdx =>
    match sliceSet d.ColumnNames 0 colName with
    | .error p => .error (Abort.panic p)
    | .ok names =>
      let d : DataTable := { d with ColumnNames := names }
      let d : DataTable :=
        if fromTime then { d with Timestamps := List.replicate d.Data.length none } else d
      match foldlE (DataTable.ChangeXAxisToConfigColumn.row parseFloat colIdx fromTime) d
          (List.range d.Data.length) with
      | .error p => .error (Abort.panic p)
      | .ok d => .ok d

/-- The body of the loop of `copyColumnToX` for the row `i`. -/
def parallelStringsFloatTable.copyColumnToX.row (colIdx : Int) (d : DataTable) (i : Nat) :
    Except Panic DataTable :=
  match DataTable.saveX d i with
  | .error e => .error e
  | .ok d =>
    match sliceIndex d.Data i with
    | .error e => .error e
    | .ok rowp =>
      match deref rowp with
      | .error e => .error e
      | .ok row =>
        match sliceIndex row colIdx with
        | .error e => .error e
        | .ok cell => DataTable.setX d i cell

/-- The method `parallelStringsFloatTable.copyColumnToX` on the names and data of a
table, with `savedX` its `Timestamps`. -/
def parallelStringsFloatTable.copyColumnToX (d : DataTable) (colIdx : Int)
    (newColName : Bytes) : Except Panic DataTable :=
  let d : DataTable := { d with Timestamps := List.replicate d.Data.length none }
  match sliceSet d.ColumnNames 0 newColName with
  | .error e => .error e
  | .ok names =>
    foldlE (parallelStringsFloatTable.copyColumnToX.row colIdx) { d with ColumnNames := names }
      (List.range d.Data.length)

/-- The method `DataTable.ChangeXAxisToColumnFromTime`. -/
def DataTable.ChangeXAxisToColumnFromTime (d : DataTable) (colName : Bytes) :
    Except Abort DataTable :=
  match DataTable.IndexForName d colName with
  | .error err => .error (Abort.failed err)
  | .ok colIdx =>
    let d : DataTable := { d with Timestamps := List.replicate d.Data.length none }
    match parallelStringsFloatTable.copyColumnToX d colIdx colName with
    | .error p => .error (Abort.panic p)
    | .ok d => .ok d

/-- The method `DataTable.OverwriteXAxisWithRecordNum`; the constant
`common.RecordNumName` is a parameter. -/
def DataTable.OverwriteXAxisWithRecordNum (RecordNumName : Bytes) (d : DataTable) :
    Except Panic DataTable :=
  match sliceSet d.ColumnNames 0 RecordNumName with
  | .error e => .error e
  | .ok names =>
    foldlE (fun d i => DataTable.setX d i (some (i : ℚ))) { d with ColumnNames := names }
      (List.range d.Data.length)

/-- The method `DataTable.ChangeXAxisToRecordNumFromTime`. -/
def DataTable.ChangeXAxisToRecordNumFromTime (RecordNumName : Bytes) (d : DataTable) :
    Except Panic DataTable :=
  let d : DataTable := { d with Timestamps := List.replicate d.Data.length none }
  match sliceSet d.ColumnNames 0 RecordNumName with
  | .error e => .error e
  | .ok names =>
    foldlE (fun d i =>
        match DataTable.saveX d i with
        | .error e => .error e
        | .ok d => DataTable.setX d i (some (i : ℚ)))
      { d with ColumnNames := names } (List.range d.Data.length)

/-- The constants of package `common` that `isNonData` reads; the sources read here
do not define them. -/
structure NonDataNames where
  TimeName : Bytes
  RecordNumName : Bytes
  RegressNamePrefix : Bytes

/-- The function `isNonData`. -/
def isNonData (env : NonDataNames) (name : Bytes) : Bool :=
  decide (name = env.TimeName) || decide (name = env.RecordNumName) ||
    env.RegressNamePrefix.isPrefixOf name

/-- The method `parallelStringsFloatTable.addColumn` on the names and data of a
table. -/
def parallelStringsFloatTable.addColumn (d : DataTable) (colName : Bytes)
    (col : List (Option ℚ)) : Except Panic DataTable :=
  foldlE (fun (d : DataTable) (i : Nat) =>
      match sliceIndex d.Data i with
      | .error e => .error e
      | .ok rowp =>
        match deref rowp with
        | .error e => .error e
        | .ok row =>
          match sliceIndex col i with
          | .error e => .error e
          | .ok cell => .ok { d with Data := d.Data.set i (some (row ++ [cell])) })
    { d with ColumnNames := d.ColumnNames ++ [colName] } (List.range d.Data.length)

/-- The method `DataTable.GetVerifiedRegression`; the regression table shares the rows
of the data. -/
def DataTable.GetVerifiedRegression (env : NonDataNames) (d : DataTable)
    (rParams : RegressionParams) : Except Panic DataTable :=
  foldlE (fun (d : DataTable) (i : Nat) =>
      match sliceIndex d.ColumnNames i with
      | .error e => .error e
      | .ok name =>
        if isNonData env name then .ok d
        else
          match regressTable.GetVerifiedRegression d.Data i rParams with
          | .error e => .error e
          | .ok none => .ok d
          | .ok (some result) =>
            parallelStringsFloatTable.addColumn d (env.RegressNamePrefix ++ name) result)
    d (List.range d.ColumnNames.length)

/-- The method `parallelStringsFloatTable.FixRowLengths`: a row of another length
than the names is replaced by a copy cut or nil-padded to that length. -/
def parallelStringsFloatTable.FixRowLengths (names : List Bytes)
    (data : List (Option (List (Option ℚ)))) :
    Except Panic (List (Option (List (Option ℚ)))) :=
  let requiredLength := names.length
  foldlE (fun (out : List (Option (List (Option ℚ)))) rowPtr =>
      match deref rowPtr with
      | .error e => .error e
      | .ok row =>
        if row.length ≠ requiredLength then
          let newRow := row.take requiredLength ++
            List.replicate (requiredLength - row.length) none
          .ok (out ++ [some newRow])
        else .ok (out ++ [some row]))
    [] data

/-- The method `positionString.Less`. -/
def positionString.Less (strings : List Bytes) (i j : Nat) : Except Panic Bool :=
  match sliceIndex strings i with
  | .error e => .error e
  | .ok si =>
    match sliceIndex strings j with
    | .error e => .error e
    | .ok sj => .ok (bytesLt si sj)

/-- The method `positionString.Swap` on the strings and the positions. -/
def positionString.Swap (ps : List Bytes × List Int) (i j : Nat) :
    Except Panic (List Bytes × List Int) :=
  match swapAt ps.1 i j with
  | .error e => .error e
  | .ok strings =>
    match swapAt ps.2 i j with
    | .error e => .error e
    | .ok positions => .ok (strings, positions)

/-- The body of the loop of `TemplateSortFloat` for one row: the shared `tmpRow` and
the row afterwards. -/
def positionString.TemplateSortFloat.row (positions : List Int) (tmpRow : List (Option ℚ))
    (row : List (Option ℚ)) : Except Panic (List (Option ℚ) × List (Option ℚ)) :=
  match foldlE (fun (tmp : List (Option ℚ)) (i : Nat) =>
      match sliceIndex positions i with
      | .error e => .error e
      | .ok p =>
        match sliceIndex row p with
        | .error e => .error e
        | .ok cell => sliceSet tmp i cell)
    tmpRow (List.range row.length) with
  | .error e => .error e
  | .ok tmp =>
    match foldlE (fun (r : List (Option ℚ)) (cv : Nat × Option ℚ) => sliceSet r cv.1 cv.2)
        row tmp.enum with
    | .error e => .error e
    | .ok newRow => .ok (tmp, newRow)

/-- The method `positionString.TemplateSortFloat`; `tmpRow` is shared by all rows. -/
def positionString.TemplateSortFloat (stringsLen : Nat) (positions : List Int)
    (data : List (Option (List (Option ℚ)))) :
    Except Panic (List (Option (List (Option ℚ)))) :=
  let tmpRow : List (Option ℚ) := List.replicate stringsLen none
  match foldlE (fun (st : List (Option ℚ) × List (Option (List (Option ℚ)))) rowPtr =>
      match deref rowPtr with
      | .error e => .error e
      | .ok row =>
        match positionString.TemplateSortFloat.row positions st.1 row with
        | .error e => .error e
        | .ok (tmp, newRow) => .ok (tmp, st.2 ++ [some newRow]))
    (tmpRow, []) data with
  | .error e => .error e
  | .ok st => .ok st.2

/-- The method `parallelStringsFloatTable.SortDataColumns`: `Init` numbers the
positions, `sort.Sort` exchanges strings and positions together, and the rows are
rearranged with the positions. -/
def parallelStringsFloatTable.SortDataColumns (sort : SortAlgorithm) (names : List Bytes)
    (data : List (Option (List (Option ℚ)))) :
    Except Panic (List Bytes × List (Option (List (Option ℚ)))) :=
  let positions : List Int := (List.range names.length).map Int.ofNat
  match sort names.length (positionString.Less names) with
  | .error e => .error e
  | .ok swaps =>
    match foldlE (fun ps ij => positionString.Swap ps ij.1 ij.2) (names, positions) swaps with
    | .error e => .error e
    | .ok (strings, positions) =>
      match positionString.TemplateSortFloat strings.length positions data with
      | .error e => .error e
      | .ok newData => .ok (strings, newData)

/-- The method `DataTable.SortDataColumns`. -/
def DataTable.SortDataColumns (sort : SortAlgorithm) (d : DataTable) : Except Panic DataTable :=
  match parallelStringsFloatTable.FixRowLengths d.ColumnNames d.Data with
  | .error e => .error e
  | .ok fixed =>
    match parallelStringsFloatTable.SortDataColumns sort d.ColumnNames fixed with
    | .error e => .error e
    | .ok (names, data) => .ok { d with ColumnNames := names, Data := data }

/-- The list with the elements at `i` and `j` exchanged; unchanged when an index is
out of range. -/
def exchange {α : Type} (l : List α) (i j : Nat) : List α :=
  match l[i]?, l[j]? with
  | some a, some b => (l.set i b).set j a
  | _, _ => l

/-- Application of a sequence of exchanges to a list. -/
def applySwaps {α : Type} (swaps : List (Nat × Nat)) (l : List α) : List α :=
  swaps.foldl (fun l ij => exchange l ij.1 ij.2) l

/-- What `sort.Sort` promises for data of length `n`: it returns, its exchanges are
within range, and afterwards no element is `Less` than an element before it without
that one being `Less` than it as well. -/
def SortAlgorithm.sorts (sort : SortAlgorithm) (n : Nat)
    (less : Nat → Nat → Except Panic Bool) : Prop :=
  ∃ swaps, sort n less = .ok swaps ∧ (∀ ij ∈ swaps, ij.1 < n ∧ ij.2 < n) ∧
    ∀ a b : Nat, a < b → b < n →
      ¬ (less ((applySwaps swaps (List.range n)).getD b 0)
            ((applySwaps swaps (List.range n)).getD a 0) = .ok true ∧
          less ((applySwaps swaps (List.range n)).getD a 0)
            ((applySwaps swaps (List.range n)).getD b 0) = .ok false)

/-- The value of a row in column 0: absent for a nil row and for a nil cell. -/
def rowKey (rowp : Option (List (Option ℚ))) : Option ℚ :=
  match rowp with
  | none => none
  | some row => row.getD 0 none

/-- The order of the values in column 0 with absent values first. -/
def keyLe (a b : Option ℚ) : Prop :=
  match a, b with
  | none, _ => True
  | some _, none => False
  | some x, some y => x ≤ y

/-- Every row of the table is present and as long as the list of column names. -/
def DataTable.rowsFull (d : DataTable) : Prop :=
  ∀ rowp ∈ d.Data, ∃ row, rowp = some row ∧ row.length = d.ColumnNames.length

/-- One comparison of the exchange sort below, at the positions `j` and `j + 1`. -/
def bubbleSort.step (less : Nat → Nat → Except Panic Bool)
    (st : List Nat × List (Nat × Nat)) (j : Nat) : Except Panic (List Nat × List (Nat × Nat)) :=
  match less (st.1.getD (j + 1) 0) (st.1.getD j 0) with
  | .error e => .error e
  | .ok true => .ok (exchange st.1 j (j + 1), st.2 ++ [(j, j + 1)])
  | .ok false => .ok st

/-- A sorting algorithm that keeps the order of equal elements, for evaluating sorts
on concrete tables: `n` passes that exchange neighbours out of order. -/
def bubbleSort : SortAlgorithm := fun n less =>
  match foldlE (bubbleSort.step less) (List.range n, [])
      ((List.range n).flatMap (fun _ => List.range (n - 1))) with
  | .error e => .error e
  | .ok st => .ok st.2

/-- The search of the selection sort below for the least element from position `i`
on: the position `m` of the least element so far. -/
def selectionSort.least (less : Nat → Nat → Except Panic Bool) (cur : List Nat)
    (m j : Nat) : Except Panic Nat :=
  match less (cur.getD j 0) (cur.getD m 0) with
  | .error e => .error e
  | .ok true => .ok j
  | .ok false => .ok m

/-- One round of the selection sort below: the least element from position `i` on is
exchanged with the element at `i`. -/
def selectionSort.step (n : Nat) (less : Nat → Nat → Except Panic Bool)
    (st : List Nat × List (Nat × Nat)) (i : Nat) : Except Panic (List Nat × List (Nat × Nat)) :=
  match foldlE (selectionSort.least less st.1) i ((List.range n).drop (i + 1)) with
  | .error e => .error e
  | .ok m =>
    if m = i then .ok st
    else .ok (exchange st.1 i m, st.2 ++ [(i, m)])

/-- A sorting algorithm that does not keep the order of equal elements, for
evaluating sorts on concrete tables: selection sort. -/
def selectionSort : SortAlgorithm := fun n less =>
  match foldlE (selectionSort.step n less) (List.range n, []) (List.range n) with
  | .error e => .error e
  | .ok st => .ok st.2

/-- A stand-in for `strconv.ParseFloat` on concrete tables: the value of a string of
decimal digits, and 0 with an error for every other string, as the library returns 0
and a syntax error for a string that is not a number. -/
def parseFloatDigits : ParseFloat := fun s =>
  if s ≠ [] ∧ s.all isDigitByte = true then ((parseDecimal s : ℚ), none)
  else (0, some { message := ascii ("strconv.ParseFloat: invalid syntax") })

/-! ## `db/dbcommon`: serialization of the source info -/

/-- Two's complement reduction of an integer to the `int32` range. -/
def wrapInt32 (x : Int) : Int := (x + 2 ^ 31) % 2 ^ 32 - 2 ^ 31

/-- The structure `db.SourceInfoUncomp`, with the fields that the sources read here
use; its definition is not among them. -/
structure SourceInfoUncomp where
  Names : List Bytes := []
  Units : List Bytes := []
  SelectForDefaults : List Bool := []
  deriving DecidableEq, Repr

/-- The message `SourceInfo` of the protocol definition. -/
structure SourceInfo where
  MetricNames : List Bytes := []
  UnitsMap : List Bytes := []
  UnitsIndices : List Int := []
  SelectForDefaults : List Bool := []
  deriving DecidableEq, Repr

/-- State of the first loop of `SerializeSourceInfoUncomp`: the dictionary, the counter
and the indices appended so far. -/
structure UnitsState where
  unitsDict : GoMap Bytes Int := {}
  mapCounter : Int := 0
  UnitsIndices : List Int := []
  deriving DecidableEq, Repr

/-- The body of the loop over `si.Units`: `idx` is what the dictionary holds for the
unit, 0 when the unit is missing; a missing unit is entered with the counter, and
`int32(idx)` is appended in both cases. -/
def SerializeSourceInfoUncomp.unit (st : UnitsState) (unitName : Bytes) : UnitsState :=
  let idx : Int := (st.unitsDict.lookup unitName).getD 0
  let exists_ : Bool := (st.unitsDict.lookup unitName).isSome
  let st : UnitsState :=
    if !exists_ then
      { st with unitsDict := st.unitsDict.set unitName st.mapCounter
                mapCounter := st.mapCounter + 1 }
    else st
  { st with UnitsIndices := st.UnitsIndices ++ [wrapInt32 idx] }

/-- The message that `SerializeSourceInfoUncomp` builds before it is marshalled. The
order in which `range` visits the dictionary is a parameter. -/
def SerializeSourceInfoUncomp.sourceInfo
    (rangeOrder : List (Bytes × Int) → List (Bytes × Int)) (si : SourceInfoUncomp) :
    Except Panic SourceInfo :=
  let st := si.Units.foldl SerializeSourceInfoUncomp.unit {}
  let unitsMap : List Bytes := List.replicate st.mapCounter.toNat []
  match foldlE (fun (m : List Bytes) (e : Bytes × Int) => sliceSet m e.2 e.1) unitsMap
      (rangeOrder st.unitsDict.entries) with
  | .error e => .error e
  | .ok unitsMap =>
    .ok { UnitsIndices := st.UnitsIndices
          UnitsMap := unitsMap
          MetricNames := si.Names
          SelectForDefaults := si.SelectForDefaults }

/-- The function `SerializeSourceInfoUncomp`; `proto.Marshal`, whose error is dropped,
is a parameter. -/
def SerializeSourceInfoUncomp (marshal : SourceInfo → Bytes)
    (rangeOrder : List (Bytes × Int) → List (Bytes × Int)) (si : SourceInfoUncomp) :
    Except Panic Bytes :=
  match SerializeSourceInfoUncomp.sourceInfo rangeOrder si with
  | .error e => .error e
  | .ok s => .ok (marshal s)

/-! ## `handlers/srchandler.go`: the payload of a request -/

/-- The constant `maxInputSize = 2 << 24`. -/
def maxInputSize : Int := 2 * 2 ^ 24

/-- Conversion `string(i)` of an integer to a string: the UTF-8 encoding of the code
point `i`, and of U+FFFD when `i` is not a valid code point. -/
def stringOfRune (i : Int) : Bytes :=
  if i < 0 ∨ 1114111 < i ∨ (55296 ≤ i ∧ i ≤ 57343) then [239, 191, 189]
  else
    let n := i.toNat
    if n < 128 then [n]
    else if n < 2048 then [192 + n / 64, 128 + n % 64]
    else if n < 65536 then [224 + n / 4096, 128 + n / 64 % 64, 128 + n % 64]
    else [240 + n / 262144, 128 + n / 4096 % 64, 128 + n / 64 % 64, 128 + n % 64]

/-- The fields of `http.Request` that `getPayload` reads; the body is of a type that
only `ioutil.ReadAll` looks into. -/
structure Request (β : Type) where
  ContentLength : Int
  Body : β

/-- The function `getPayload`; `ioutil.ReadAll`, with the data and the error it
returns, is a parameter, and a nil slice is the empty list. -/
def getPayload {β : Type} (readAll : β → Bytes × Option GoError) (r : Request β) :
    Bytes × Option GoError :=
  let size := r.ContentLength
  if size < 0 then ([], some { message := ascii ("Unknown content size.") })
  else if size > maxInputSize then
    ([], some { message := ascii ("Content too large.  Limit: ") ++ stringOfRune maxInputSize })
  else readAll r.Body

/-! ## `cassandradb/directory.go`: the file restriction -/

/-- The fields of `db.DirectorySearchRequest` that `match` reads; the definition of the
structure is not among the sources read here. -/
structure DirectorySearchRequest where
  FileRestrict : Bytes := []
  FilePrefixMatch : Bool := false
  deriving DecidableEq, Repr

/-- The function `match` of package `cassandradb`. -/
def cassandradb.match (req : DirectorySearchRequest) (columnName : Bytes) : Bool :=
  decide (req.FileRestrict = []) ||
    req.FilePrefixMatch && req.FileRestrict.isPrefixOf columnName ||
    !req.FilePrefixMatch && decide (columnName = req.FileRestrict)

/-- The condition of the specification for a column name to match: no file restriction,
or prefix matching is on and the name starts with the restriction, or the name equals
the restriction. -/
def matchesRestriction (req : DirectorySearchRequest) (columnName : Bytes) : Prop :=
  req.FileRestrict = [] ∨
    (req.FilePrefixMatch = true ∧ req.FileRestrict <+: columnName) ∨
    columnName = req.FileRestrict

/-! ## `srcparse/parse.go`: equality of results -/

/-- An index expression `m[k]` on a `map[string]string`: the empty string for a missing
key and for a nil map. -/
def mapIndex (m : Option (GoMap Bytes Bytes)) (k : Bytes) : Bytes :=
  match m with
  | none => []
  | some m => (m.lookup k).getD []

/-- The builtin `len` on a map that may be nil. -/
def mapLen (m : Option (GoMap Bytes Bytes)) : Nat :=
  match m with
  | none => 0
  | some m => m.len

/-- The loop `for k := range a.Configs` of `Equal` over the keys still to visit: a key
whose two values differ clears `configEqual` and ends the loop. -/
def SrcResult.Equal.loop (a b : Option (GoMap Bytes Bytes)) : List Bytes → Bool → Bool
  | [], configEqual => configEqual
  | k :: rest, configEqual =>
    if mapIndex a k ≠ mapIndex b k then false
    else SrcResult.Equal.loop a b rest configEqual

/-- The method `SrcResult.Equal`; the keys are visited in the order of the entries. -/
def SrcResult.Equal (a b : SrcResult) : Bool :=
  let configEqual := decide (mapLen a.Configs = mapLen b.Configs)
  let keys : List Bytes :=
    match a.Configs with
    | none => []
    | some m => m.entries.map (fun e => e.1)
  let configEqual := SrcResult.Equal.loop a.Configs b.Configs keys configEqual
  decide (a.Source = b.Source) && decide (a.Metric = b.Metric) &&
    decide (a.Aggregate = b.Aggregate) && configEqual

/-! ## `proto/codec.go`: the slots that raw points can fill -/

/-- The slots that `CreateMissingDoubleAggregates` writes when they are absent. -/
def CreateMissingDoubleAggregates.generated : List Stat :=
  [Stat.count, Stat.p99, Stat.p95, Stat.p90, Stat.p75, Stat.p50, Stat.p25, Stat.p10,
    Stat.p5, Stat.p1, Stat.min, Stat.max, Stat.mean]

/-! ## `rangecontent/base.go`: the column sort of `getDataTableRaw` -/

/-- The column sort of `getDataTableRaw`, on the table that `ReadRows` returned: with
at least one column name, `"!"` is put before `ColumnNames[0]`, the data columns are
sorted by name, and `ColumnNames[0]` is set to the original name again. -/
def getDataTableRaw.sortColumns (sort : SortAlgorithm) (dTable : DataTable) :
    Except Panic DataTable :=
  if dTable.ColumnNames.length > 0 then
    match sliceIndex dTable.ColumnNames 0 with
    | .error e => .error e
    | .ok originalName =>
      match sliceSet dTable.ColumnNames 0 (ascii ("!") ++ originalName) with
      | .error e => .error e
      | .ok names =>
        match DataTable.SortDataColumns sort { dTable with ColumnNames := names } with
        | .error e => .error e
        | .ok dTable =>
          match sliceSet dTable.ColumnNames 0 originalName with
          | .error e => .error e
          | .ok names => .ok { dTable with ColumnNames := names }
  else .ok dTable

/-! ## `cassandradb/writerow.go`: writing a record -/

/-- The structure `PointsRecord`. -/
structure PointsRecord where
  Name : Bytes := []
  Timestamps : List Int := []
  Data : List ℚ := []
  deriving DecidableEq, Repr

/-- The structure `WriteRecord`; a nil `RecordTimestamp` is `none`, a nil entry of
`Aggregates` is `none`, a nil map of config pairs is the empty map. -/
structure WriteRecord where
  RecordTimestamp : Option Int := none
  Points : List PointsRecord := []
  PointsDataType : Bytes := []
  AggregatesColumnNames : List Bytes := []
  Aggregates : List (Option ℚ) := []
  AggregatesDataType : Bytes := []
  ConfigPairs : GoMap Bytes Bytes := {}
  deriving DecidableEq, Repr

/-- The constant `CFPoints`. -/
def CFPoints : Bytes := ascii ("points")

/-- The constant `CFSource`. -/
def CFSource : Bytes := ascii ("source")

/-- What `WriteRow` takes from outside `src`: the digest of the key scheme, the
string that `uuid.New()` returns, the lookup
`pb.DataType_value[strings.ToUpper(name)]` (`none` for a missing key), the default
data type of the protocol definition, `proto.Marshal` of the two messages, the
function `common.GetMetricComponents`, the outcome of `Insert(cf, row).Run()` on the
store (`none` for success) and the orders in which `range` visits the three maps. -/
structure WriteEnv where
  md5 : Md5Hex
  uuidNew : Bytes
  dataTypeValue : Bytes → Option DataType
  defaultType : DataType
  marshalPoints : Option Points → Except GoError Bytes
  marshalAggregation : Option Aggregation → Except GoError Bytes
  GetMetricComponents : Bytes → Bytes × Bytes
  insert : Bytes → Row → Option GoError
  rangeAggs : List (Bytes × GoMap Bytes (Option ℚ)) → List (Bytes × GoMap Bytes (Option ℚ))
  rangeAggMap : List (Bytes × Option ℚ) → List (Bytes × Option ℚ)
  rangeConfigs : List (Bytes × Bytes) → List (Bytes × Bytes)

/-- The local state of `WriteRow` that passes from one part to the next: the maps
`ptsMap` and `aggs`, and the inserts issued to the store so far, each with its
column family. -/
structure WriteState where
  ptsMap : GoMap Bytes (List ℚ) := {}
  aggs : GoMap Bytes (GoMap Bytes (Option ℚ)) := {}
  inserts : List (Bytes × Row) := []

/-- What a call of `WriteRow` returns, with the inserts it issued. -/
structure WriteOutcome where
  rowKey : Bytes
  err : Option GoError
  inserts : List (Bytes × Row)
  deriving DecidableEq, Repr

/-- The stat that a field name of `SetDoubleField` selects. -/
def Stat.ofName (field : Bytes) : Option Stat :=
  Stat.ladder.find? (fun s => decide (s.name = field))

/-- The method `Aggregation.SetDoubleField`: a switch over the 26 names of the stat
ladder without a default; the assignment through a nil double view panics. -/
def Aggregation.SetDoubleField (m : Aggregation) (field : Bytes) (value : Option ℚ) :
    Except Panic Aggregation :=
  match Stat.ofName field with
  | none => .ok m
  | some stat =>
    match m.Double with
    | none => .error Panic.nilDeref
    | some d => .ok { m with Double := some (d.setSlot stat value) }

/-- The body of the loop over `wRecord.Points`: the columns of the points row and the
two maps; a returned error ends the call. -/
def WriteRow.point (env : WriteEnv) (ptsDataType : Option DataType)
    (cs : List Column × WriteState) (pointRecord : PointsRecord) :
    Except GoError (List Column × WriteState) :=
  if pointRecord.Timestamps.length > 0 ∧
      pointRecord.Data.length ≠ pointRecord.Timestamps.length then
    let message := ascii ("Points data and timestamps don't match for: ") ++ pointRecord.Name
    .error { message := message }
  else
    let p : Points := { Type_ := ptsDataType }
    let st : WriteState := { cs.2 with
      ptsMap := cs.2.ptsMap.set pointRecord.Name pointRecord.Data
      aggs := cs.2.aggs.set pointRecord.Name {} }
    let p : Points := { p with ValuesDouble := pointRecord.Data }
    let p : Option Points :=
      Points.MakeDeltaValuesScaled (some p) (Points.GetType env.defaultType (some p))
    let p : Option Points := p.map (fun p =>
      { p with DeltaTimestamps :=
          p.DeltaTimestamps ++ WriteRow.deltaTimestamps pointRecord.Timestamps })
    match env.marshalPoints p with
    | .error e => .error e
    | .ok serializedData =>
      .ok (cs.1 ++ [{ Name := pointRecord.Name, Value := serializedData }], st)

/-- The part "Process points" of `WriteRow`: the state afterwards, and the error with
which the call returns, if any. -/
def WriteRow.points (env : WriteEnv) (wRecord : WriteRecord) (rowKey : Bytes)
    (st : WriteState) : WriteState × Option GoError :=
  if wRecord.Points.length > 0 then
    match foldlE (WriteRow.point env (env.dataTypeValue wRecord.PointsDataType))
        (([] : List Column), st) wRecord.Points with
    | .error err => (st, some err)
    | .ok (columns, st) =>
      let ptsRow : Row := { Key := rowKey, Columns := columns }
      ({ st with inserts := st.inserts ++ [(CFPoints, ptsRow)] }, env.insert CFPoints ptsRow)
  else (st, none)

/-- The body of the loop over `wRecord.AggregatesColumnNames`. -/
def WriteRow.aggregateName (env : WriteEnv) (wRecord : WriteRecord)
    (aggs : GoMap Bytes (GoMap Bytes (Option ℚ))) (idxName : Nat × Bytes) :
    Except Abort (GoMap Bytes (GoMap Bytes (Option ℚ))) :=
  let metricName := (env.GetMetricComponents idxName.2).1
  let aggregateName := (env.GetMetricComponents idxName.2).2
  if metricName = [] then
    .error (.failed { message := ascii ("Missing metric name in:") ++ idxName.2 })
  else if aggregateName = [] then
    .error (.failed { message := ascii ("Missing aggregate name in:") ++ idxName.2 })
  else
    let aggs := if (aggs.lookup metricName).isNone then aggs.set metricName {} else aggs
    match sliceIndex wRecord.Aggregates idxName.1 with
    | .error e => .error (.panic e)
    | .ok value =>
      .ok (aggs.set metricName (((aggs.lookup metricName).getD {}).set aggregateName value))

/-- The body of the loop over the map `aggs`: one column of the aggregates row. -/
def WriteRow.metric (env : WriteEnv) (aggDataType : Option DataType)
    (ptsMap : GoMap Bytes (List ℚ)) (columns : List Column)
    (entry : Bytes × GoMap Bytes (Option ℚ)) : Except Abort (List Column) :=
  let a : Aggregation := { Type_ := aggDataType, Double := some {} }
  match foldlE (fun (a : Aggregation) (nv : Bytes × Option ℚ) =>
      Aggregation.SetDoubleField a nv.1 nv.2) a (env.rangeAggMap entry.2.entries) with
  | .error e => .error (.panic e)
  | .ok a =>
    match Aggregation.CreateMissingDoubleAggregates (some a)
        ((ptsMap.lookup entry.1).getD []) with
    | .error e => .error (.panic e)
    | .ok a =>
      match Aggregation.MakeScaled a (Aggregation.GetType env.defaultType a) with
      | .error e => .error (.panic e)
      | .ok a =>
        match env.marshalAggregation a with
        | .error e => .error (.failed e)
        | .ok serializedData => .ok (columns ++ [{ Name := entry.1, Value := serializedData }])

/-- The part "Process aggregates" of `WriteRow`. -/
def WriteRow.aggregates (env : WriteEnv) (wRecord : WriteRecord) (rowKey : Bytes)
    (st : WriteState) : Except Panic (WriteState × Option GoError) :=
  if wRecord.AggregatesColumnNames.length + wRecord.Points.length > 0 then
    match foldlE (WriteRow.aggregateName env wRecord) st.aggs
        wRecord.AggregatesColumnNames.enum with
    | .error (.panic e) => .error e
    | .error (.failed err) => .ok (st, some err)
    | .ok aggs =>
      match foldlE (WriteRow.metric env (env.dataTypeValue wRecord.AggregatesDataType)
          st.ptsMap) [] (env.rangeAggs aggs.entries) with
      | .error (.panic e) => .error e
      | .error (.failed err) => .ok ({ st with aggs := aggs }, some err)
      | .ok columns =>
        let aggRow : Row := { Key := rowKey, Columns := columns }
        .ok ({ st with aggs := aggs, inserts := st.inserts ++ [(CFAggregates, aggRow)] },
          env.insert CFAggregates aggRow)
  else .ok (st, none)

/-- The part "Process configs" of `WriteRow`. -/
def WriteRow.configs (env : WriteEnv) (wRecord : WriteRecord) (rowKey : Bytes)
    (st : WriteState) : WriteState × Option GoError :=
  if wRecord.ConfigPairs.len > 0 then
    let columns : List Column := (env.rangeConfigs wRecord.ConfigPairs.entries).map
      (fun kv => { Name := kv.1, Value := kv.2 })
    let cfgRow : Row := { Key := rowKey, Columns := columns }
    ({ st with inserts := st.inserts ++ [(CFConfigs, cfgRow)] }, env.insert CFConfigs cfgRow)
  else (st, none)

/-- The row that the part "Process src" of `WriteRow` inserts: one column, named by
the source string, with an empty value. -/
def WriteRow.srcRow (rowKey src : Bytes) : Row :=
  { Key := rowKey, Columns := [{ Name := src, Value := [] }] }

/-- The method `CassandraDB.WriteRow`: the row key and the error it returns, and the
inserts it issued, in order; a panic ends the call without a result. -/
def WriteRow (env : WriteEnv) (wRecord : WriteRecord) (src : Bytes) :
    Except Panic WriteOutcome :=
  if wRecord.AggregatesColumnNames.length ≠ wRecord.Aggregates.length then
    .ok { rowKey := [], inserts := []
          err := some { message := ascii ("Aggregates names and data don't match.") } }
  else
    let timestamp : Int := wRecord.RecordTimestamp.getD 0
    let uuidString := env.uuidNew
    let rowKey := MakeRowKey env.md5 src timestamp uuidString
    match WriteRow.points env wRecord rowKey {} with
    | (st, some err) => .ok { rowKey := [], err := some err, inserts := st.inserts }
    | (st, none) =>
      match WriteRow.aggregates env wRecord rowKey st with
      | .error e => .error e
      | .ok (st, some err) => .ok { rowKey := [], err := some err, inserts := st.inserts }
      | .ok (st, none) =>
        match WriteRow.configs env wRecord rowKey st with
        | (st, some err) => .ok { rowKey := [], err := some err, inserts := st.inserts }
        | (st, none) =>
          if wRecord.Points.length + wRecord.AggregatesColumnNames.length +
              wRecord.ConfigPairs.len > 0 then
            .ok { rowKey := rowKey
                  err := env.insert CFSource (WriteRow.srcRow rowKey src)
                  inserts := st.inserts ++ [(CFSource, WriteRow.srcRow rowKey src)] }
          else
            .ok { rowKey := [], inserts := st.inserts
                  err := some { message := ascii ("No data to write.") } }

/-- A stand-in for `common.GetMetricComponents` on concrete records: the text before
the first dot and the text after it; no dot gives the whole name and an empty
aggregate name. -/
def splitAtDot (fullName : Bytes) : Bytes × Bytes :=
  (fullName.takeWhile (fun b => b ≠ 46), (fullName.dropWhile (fun b => b ≠ 46)).drop 1)

/-- An environment for evaluating `WriteRow` on concrete records: every insert
succeeds, the messages are marshalled to an empty value, the maps are visited in
order of insertion, no data type name is known. -/
def testWriteEnv : WriteEnv where
  md5 := zeroDigest
  uuidNew := ascii ("u")
  dataTypeValue := fun _ => none
  defaultType := DataType.SCALED2
  marshalPoints := fun _ => .ok []
  marshalAggregation := fun _ => .ok []
  GetMetricComponents := splitAtDot
  insert := fun _ _ => none
  rangeAggs := fun l => l
  rangeAggMap := fun l => l
  rangeConfigs := fun l => l

/-! # Theorems -/
/-! ## Lemmas on byte order and decimal formatting -/

theorem bytesLt_append_left (p a b : Bytes) : bytesLt (p ++ a) (p ++ b) = bytesLt a b := by
  induction p with
  | nil => rfl
  | cons c p ih => simp [bytesLt, ih]

theorem bytesLt_irrefl (a : Bytes) : bytesLt a a = false := by
  induction a with
  | nil => rfl
  | cons c a ih => simp [bytesLt, ih]

theorem bytesLt_append_of_length_eq (x y s1 s2 : Bytes) (h : x.length = y.length) :
    bytesLt (x ++ s1) (y ++ s2) = if x = y then bytesLt s1 s2 else bytesLt x y := by
  induction x generalizing y with
  | nil =>
    cases y with
    | nil => simp
    | cons b y => simp at h
  | cons a x ih =>
    cases y with
    | nil => simp at h
    | cons b y =>
      simp only [List.length_cons, Nat.add_right_cancel_iff] at h
      simp only [List.cons_append, bytesLt, ih y h, List.cons.injEq]
      by_cases hab : a < b
      · have : a ≠ b := Nat.ne_of_lt hab
        simp [hab, this]
      · by_cases hba : b < a
        · have : a ≠ b := Nat.ne_of_gt hba
          simp [hab, hba, this]
        · have : a = b := by omega
          subst this
          simpa using ih y h

theorem length_digitsBE (w n : Nat) : (digitsBE w n).length = w := by
  induction w generalizing n with
  | zero => rfl
  | succ w ih => simp [digitsBE, ih]

theorem isDigitByte_of_mem_digitsBE (w n c : Nat) (h : c ∈ digitsBE w n) :
    isDigitByte c = true := by
  induction w generalizing n with
  | zero => simp [digitsBE] at h
  | succ w ih =>
    simp only [digitsBE, List.mem_append, List.mem_singleton] at h
    rcases h with h | h
    · exact ih _ h
    · subst h
      have := Nat.mod_lt n (show 10 > 0 by decide)
      simp [isDigitByte]; omega

theorem parseDecimal_append_singleton (xs : Bytes) (d : Nat) :
    parseDecimal (xs ++ [d]) = parseDecimal xs * 10 + (d - 48) := by
  simp [parseDecimal, List.foldl_append]

theorem parseDecimal_digitsBE (w n : Nat) (h : n < 10 ^ w) :
    parseDecimal (digitsBE w n) = n := by
  induction w generalizing n with
  | zero => simp at h; subst h; rfl
  | succ w ih =>
    have h1 : n / 10 < 10 ^ w := by
      rw [Nat.div_lt_iff_lt_mul (by decide)]; rw [pow_succ] at h; exact h
    rw [digitsBE, parseDecimal_append_singleton, ih _ h1]
    omega

theorem digitsBE_injective (w a b : Nat) (ha : a < 10 ^ w) (hb : b < 10 ^ w)
    (h : digitsBE w a = digitsBE w b) : a = b := by
  rw [← parseDecimal_digitsBE w a ha, ← parseDecimal_digitsBE w b hb, h]

theorem bytesLt_digitsBE (w a b : Nat) (ha : a < 10 ^ w) (hb : b < 10 ^ w) :
    bytesLt (digitsBE w a) (digitsBE w b) = decide (a < b) := by
  induction w generalizing a b with
  | zero =>
    simp at ha hb; subst ha; subst hb; rfl
  | succ w ih =>
    have ha1 : a / 10 < 10 ^ w := by
      rw [Nat.div_lt_iff_lt_mul (by decide)]; rw [pow_succ] at ha; exact ha
    have hb1 : b / 10 < 10 ^ w := by
      rw [Nat.div_lt_iff_lt_mul (by decide)]; rw [pow_succ] at hb; exact hb
    rw [digitsBE, digitsBE,
      bytesLt_append_of_length_eq _ _ _ _ (by rw [length_digitsBE, length_digitsBE])]
    by_cases heq : digitsBE w (a / 10) = digitsBE w (b / 10)
    · have h10 := digitsBE_injective w _ _ ha1 hb1 heq
      rw [if_pos heq]
      simp only [bytesLt]
      by_cases h1 : a % 10 < b % 10
      · have : a < b := by omega
        simp [h1, this]
      · have : ¬ a < b := by omega
        simp [h1, this]
    · rw [if_neg heq, ih _ _ ha1 hb1]
      have hne : a / 10 ≠ b / 10 := fun h => heq (by rw [h])
      by_cases h1 : a / 10 < b / 10
      · have : a < b := by omega
        simp [h1, this]
      · have : ¬ a < b := by omega
        simp [h1, this]

theorem numDigitsAux_le (f n k : Nat) (hk : 1 ≤ k) (h : n < 10 ^ k) :
    numDigitsAux f n ≤ k := by
  induction f generalizing n k with
  | zero => simpa [numDigitsAux] using hk
  | succ f ih =>
    simp only [numDigitsAux]
    split
    · exact hk
    · rename_i h10
      obtain ⟨k, rfl⟩ : ∃ j, k = j + 1 := ⟨k - 1, by omega⟩
      have hk1 : 1 ≤ k := by
        rcases Nat.eq_zero_or_pos k with h0 | h0
        · subst h0; simp at h; omega
        · exact h0
      have h1 : n / 10 < 10 ^ k := by
        rw [Nat.div_lt_iff_lt_mul (by decide)]; rw [pow_succ] at h; exact h
      have := ih (n / 10) k hk1 h1
      omega

theorem fmtZeroPad_13 (v : Int) (h0 : 0 ≤ v) (h1 : v ≤ MaxTimeMillis) :
    fmtZeroPad 13 v = digitsBE 13 v.toNat := by
  have hlt : v.toNat < 10 ^ 13 := by
    have : (v.toNat : Int) = v := Int.toNat_of_nonneg h0
    unfold MaxTimeMillis at h1
    omega
  have hn := numDigitsAux_le v.toNat v.toNat 13 (by decide) hlt
  unfold fmtZeroPad
  rw [if_neg (by omega)]
  unfold numDigits
  rw [Nat.max_eq_left hn]

theorem wrapInt64_of_inInt64 (x : Int) (h : inInt64 x) : wrapInt64 x = x := by
  unfold inInt64 at h
  unfold wrapInt64
  omega

theorem scanInt_digits (l : Bytes) (hne : l ≠ []) (hd : ∀ c ∈ l, isDigitByte c = true)
    (hr : inInt64 (parseDecimal l)) : scanInt l = some (parseDecimal l : Int) := by
  cases l with
  | nil => exact absurd rfl hne
  | cons c cs =>
    have hc : isDigitByte c = true := hd c (by simp)
    have hc1 : 48 ≤ c ∧ c ≤ 57 := by simpa [isDigitByte] using hc
    have hskip : skipBlanks (c :: cs) = some (c :: cs) := by
      simp only [skipBlanks]
      rw [if_neg (by omega), if_neg (by omega)]
    have htw : List.takeWhile isDigitByte (c :: cs) = c :: cs :=
      List.takeWhile_eq_self_iff.mpr hd
    have hsign : scanSign (c :: cs) = (false, c :: cs) := by
      unfold scanSign
      split
      · rename_i heq; simp at heq; omega
      · rename_i heq; simp at heq; omega
      · rfl
    unfold scanInt
    rw [hskip]
    simp only [hsign, htw]
    simp [hr]

/-! ## Key scheme -/

theorem MakeRowKey_eq (md5 : Md5Hex) (src : Bytes) (t : Int) (u : Bytes)
    (h0 : 0 ≤ t) (h1 : t ≤ MaxTimeMillis) :
    MakeRowKey md5 src t u
      = (md5.hash src ++ [95]) ++ (digitsBE 13 (MaxTimeMillis - t).toNat ++ 95 :: u) := by
  have hr : inInt64 (MaxTimeMillis - t) := by
    unfold inInt64 MaxTimeMillis at *; omega
  unfold MakeRowKey getMd5Hash
  simp only [wrapInt64_of_inInt64 _ hr]
  rw [fmtZeroPad_13 _ (by omega) (by omega)]
  simp

theorem toNat_lt_pow13 (t : Int) (h0 : 0 ≤ t) (h1 : t ≤ MaxTimeMillis) :
    (MaxTimeMillis - t).toNat < 10 ^ 13 := by
  unfold MaxTimeMillis at *; omega

/-- Claim C1: for every source, unique id and timestamp `0 ≤ t ≤ MaxTimeMillis`,
`GetTimestamp (MakeRowKey src t u) = t`. -/
theorem GetTimestamp_MakeRowKey (md5 : Md5Hex) (src : Bytes) (t : Int) (u : Bytes)
    (h0 : 0 ≤ t) (h1 : t ≤ MaxTimeMillis) :
    GetTimestamp (MakeRowKey md5 src t u) = t := by
  have hlen : (md5.hash src ++ [95]).length = 33 := by simp [md5.length_hash]
  have hn := toNat_lt_pow13 t h0 h1
  rw [MakeRowKey_eq md5 src t u h0 h1]
  unfold GetTimestamp
  rw [if_pos (by simp [md5.length_hash, length_digitsBE]; omega)]
  simp only [List.drop_left' hlen, List.take_left' (length_digitsBE 13 _)]
  have hp := parseDecimal_digitsBE 13 _ hn
  have hne : digitsBE 13 (MaxTimeMillis - t).toNat ≠ [] := by
    intro h
    have := congrArg List.length h
    simp [length_digitsBE] at this
  rw [scanInt_digits _ hne (fun c hc => isDigitByte_of_mem_digitsBE _ _ c hc)
    (by rw [hp]; unfold inInt64 MaxTimeMillis at *; omega)]
  rw [hp]
  simp only [Option.getD_some]
  have : ((MaxTimeMillis - t).toNat : Int) = MaxTimeMillis - t := Int.toNat_of_nonneg (by omega)
  rw [this]
  rw [wrapInt64_of_inInt64]
  · omega
  · unfold inInt64 MaxTimeMillis at *; omega

theorem GetTimestamp_MakeRowKey_witness :
    GetTimestamp (MakeRowKey zeroDigest [115, 114, 99] 1383000000000 [97, 98]) = 1383000000000 :=
  GetTimestamp_MakeRowKey zeroDigest [115, 114, 99] 1383000000000 [97, 98]
    (by decide) (by decide)

/-- Claim C2: for a fixed source and timestamps `t1 > t2` in `[0, MaxTimeMillis]`, the
key of `t1` is strictly smaller in byte order than the key of `t2`, whatever the
unique ids. -/
theorem MakeRowKey_lt_of_gt (md5 : Md5Hex) (src : Bytes) (t1 t2 : Int) (u1 u2 : Bytes)
    (h1 : 0 ≤ t1 ∧ t1 ≤ MaxTimeMillis) (h2 : 0 ≤ t2 ∧ t2 ≤ MaxTimeMillis) (hgt : t1 > t2) :
    bytesLt (MakeRowKey md5 src t1 u1) (MakeRowKey md5 src t2 u2) = true := by
  have hn1 := toNat_lt_pow13 t1 h1.1 h1.2
  have hn2 := toNat_lt_pow13 t2 h2.1 h2.2
  have hlt : (MaxTimeMillis - t1).toNat < (MaxTimeMillis - t2).toNat := by
    unfold MaxTimeMillis at *; omega
  rw [MakeRowKey_eq md5 src t1 u1 h1.1 h1.2, MakeRowKey_eq md5 src t2 u2 h2.1 h2.2,
    bytesLt_append_left,
    bytesLt_append_of_length_eq _ _ _ _ (by rw [length_digitsBE, length_digitsBE])]
  have hne : digitsBE 13 (MaxTimeMillis - t1).toNat ≠ digitsBE 13 (MaxTimeMillis - t2).toNat :=
    fun h => by
      have := digitsBE_injective 13 _ _ hn1 hn2 h
      omega
  rw [if_neg hne, bytesLt_digitsBE 13 _ _ hn1 hn2]
  simpa using hlt

theorem MakeRowKey_lt_of_gt_witness :
    bytesLt (MakeRowKey zeroDigest [115] 2000 [97]) (MakeRowKey zeroDigest [115] 1000 [98])
      = true :=
  MakeRowKey_lt_of_gt zeroDigest [115] 2000 1000 [97] [98] (by decide) (by decide) (by decide)

theorem PlusOne_concat (xs : Bytes) (c : Nat) :
    PlusOne (xs ++ [c]) = some (xs ++ stringOfByte ((c + 1) % 256)) := by
  unfold PlusOne
  rw [List.getLast?_concat]
  simp only [List.length_append, List.length_singleton, Nat.add_sub_cancel]
  rw [List.take_left' rfl]

theorem MakeRowPrefixes_eq (md5 : Md5Hex) (src : Bytes) (s e : Int)
    (hs : 0 ≤ s ∧ s ≤ MaxTimeMillis) (he : 0 ≤ e ∧ e ≤ MaxTimeMillis) :
    MakeRowPrefixes md5 src s e true
      = some ((md5.hash src ++ [95]) ++ (digitsBE 13 (MaxTimeMillis - e).toNat ++ []),
          (md5.hash src ++ [95]) ++ (digitsBE 12 ((MaxTimeMillis - s).toNat / 10)
            ++ [49 + (MaxTimeMillis - s).toNat % 10])) := by
  have hrs : inInt64 (MaxTimeMillis - s) := by
    unfold inInt64 MaxTimeMillis at *; omega
  have hre : inInt64 (MaxTimeMillis - e) := by
    unfold inInt64 MaxTimeMillis at *; omega
  unfold MakeRowPrefixes getMd5Hash
  simp only [wrapInt64_of_inInt64 _ hrs, wrapInt64_of_inInt64 _ hre, if_true]
  rw [fmtZeroPad_13 _ (by omega) (by omega), fmtZeroPad_13 _ (by omega) (by omega)]
  have hd : digitsBE 13 (MaxTimeMillis - s).toNat
      = digitsBE 12 ((MaxTimeMillis - s).toNat / 10) ++ [48 + (MaxTimeMillis - s).toNat % 10] :=
    rfl
  rw [hd, ← List.append_assoc, PlusOne_concat]
  have hb : (48 + (MaxTimeMillis - s).toNat % 10 + 1) % 256
      = 49 + (MaxTimeMillis - s).toNat % 10 := by omega
  have hs7 : stringOfByte (49 + (MaxTimeMillis - s).toNat % 10)
      = [49 + (MaxTimeMillis - s).toNat % 10] := by
    unfold stringOfByte
    rw [if_pos (by omega)]
  rw [hb, hs7]
  simp

/-- Claim C3: for a window `0 ≤ start ≤ end ≤ MaxTimeMillis`, `MakeRowPrefixes` with
`endExclusive` returns a pair `(startKey, endKey)` such that the key of a timestamp
`t` in `[0, MaxTimeMillis]` lies in the half-open byte range `[startKey, endKey)`
exactly when `start ≤ t ≤ end`. -/
theorem MakeRowPrefixes_range (md5 : Md5Hex) (src : Bytes) (startTs endTs : Int)
    (hwin : 0 ≤ startTs ∧ startTs ≤ endTs ∧ endTs ≤ MaxTimeMillis) :
    ∃ startKey endKey, MakeRowPrefixes md5 src startTs endTs true = some (startKey, endKey) ∧
      ∀ (t : Int) (u : Bytes), 0 ≤ t → t ≤ MaxTimeMillis →
        ((bytesLe startKey (MakeRowKey md5 src t u) = true ∧
            bytesLt (MakeRowKey md5 src t u) endKey = true) ↔ (startTs ≤ t ∧ t ≤ endTs)) := by
  obtain ⟨hs0, hse, he1⟩ := hwin
  refine ⟨_, _, MakeRowPrefixes_eq md5 src startTs endTs ⟨hs0, by omega⟩ ⟨by omega, he1⟩, ?_⟩
  intro t u ht0 ht1
  have hnt := toNat_lt_pow13 t ht0 ht1
  have hns := toNat_lt_pow13 startTs hs0 (by omega)
  have hne := toNat_lt_pow13 endTs (by omega) he1
  have hcast : ∀ x : Int, x ≤ MaxTimeMillis → ((MaxTimeMillis - x).toNat : Int) = MaxTimeMillis - x :=
    fun x hx => Int.toNat_of_nonneg (by omega)
  have hct := hcast t ht1
  have hcs := hcast startTs (by omega)
  have hce := hcast endTs he1
  rw [MakeRowKey_eq md5 src t u ht0 ht1]
  generalize (MaxTimeMillis - t).toNat = a at *
  generalize (MaxTimeMillis - startTs).toNat = b at *
  generalize (MaxTimeMillis - endTs).toNat = c at *
  have lower : bytesLe ((md5.hash src ++ [95]) ++ (digitsBE 13 c ++ []))
      ((md5.hash src ++ [95]) ++ (digitsBE 13 a ++ 95 :: u)) = decide (c ≤ a) := by
    unfold bytesLe
    rw [bytesLt_append_left,
      bytesLt_append_of_length_eq _ _ _ _ (by rw [length_digitsBE, length_digitsBE])]
    by_cases heq : digitsBE 13 a = digitsBE 13 c
    · have := digitsBE_injective 13 _ _ hnt hne heq
      subst this
      simp [bytesLt]
    · have hac : a ≠ c := fun h => heq (by rw [h])
      rw [if_neg heq, bytesLt_digitsBE 13 _ _ hnt hne]
      by_cases h1 : a < c
      · have : ¬ c ≤ a := by omega
        simp [h1, this]
      · have : c ≤ a := by omega
        simp [h1, this]
  have upper : bytesLt ((md5.hash src ++ [95]) ++ (digitsBE 13 a ++ 95 :: u))
      ((md5.hash src ++ [95]) ++ (digitsBE 12 (b / 10) ++ [49 + b % 10])) = decide (a ≤ b) := by
    have ha1 : a / 10 < 10 ^ 12 := by omega
    have hb1 : b / 10 < 10 ^ 12 := by omega
    have hd : digitsBE 13 a ++ 95 :: u = digitsBE 12 (a / 10) ++ ((48 + a % 10) :: 95 :: u) := by
      show (digitsBE 12 (a / 10) ++ [48 + a % 10]) ++ 95 :: u = _
      simp
    rw [bytesLt_append_left, hd,
      bytesLt_append_of_length_eq _ _ _ _ (by rw [length_digitsBE, length_digitsBE])]
    by_cases heq : digitsBE 12 (a / 10) = digitsBE 12 (b / 10)
    · have h10 := digitsBE_injective 12 _ _ ha1 hb1 heq
      rw [if_pos heq]
      simp only [bytesLt]
      by_cases h1 : 48 + a % 10 < 49 + b % 10
      · have : a ≤ b := by omega
        simp [h1, this]
      · have : ¬ a ≤ b := by omega
        simp [h1, this]
    · have hab : a / 10 ≠ b / 10 := fun h => heq (by rw [h])
      rw [if_neg heq, bytesLt_digitsBE 12 _ _ ha1 hb1]
      by_cases h1 : a / 10 < b / 10
      · have : a ≤ b := by omega
        simp [h1, this]
      · have : ¬ a ≤ b := by omega
        simp [h1, this]
  rw [lower, upper]
  simp only [decide_eq_true_eq]
  constructor
  · rintro ⟨h1, h2⟩; constructor <;> omega
  · rintro ⟨h1, h2⟩; constructor <;> omega

theorem MakeRowPrefixes_range_witness :
    ∃ startKey endKey, MakeRowPrefixes zeroDigest [115] 1000 2000 true = some (startKey, endKey) ∧
      ∀ (t : Int) (u : Bytes), 0 ≤ t → t ≤ MaxTimeMillis →
        ((bytesLe startKey (MakeRowKey zeroDigest [115] t u) = true ∧
            bytesLt (MakeRowKey zeroDigest [115] t u) endKey = true) ↔ (1000 ≤ t ∧ t ≤ 2000)) :=
  MakeRowPrefixes_range zeroDigest [115] 1000 2000 (by decide)

/-! ## `float64` rounding -/

theorem bitLength_zero (fuel : Nat) : bitLength fuel 0 = 0 := by
  cases fuel <;> simp [bitLength]

theorem bitLength_spec (fuel n : Nat) (hf : n ≤ fuel) (hn : 0 < n) :
    1 ≤ bitLength fuel n ∧ 2 ^ (bitLength fuel n - 1) ≤ n ∧ n < 2 ^ bitLength fuel n := by
  induction fuel generalizing n with
  | zero => omega
  | succ fuel ih =>
    unfold bitLength
    rw [if_neg (by omega)]
    by_cases h1 : n / 2 = 0
    · have hn1 : n = 1 := by omega
      subst hn1
      rw [show (1 : Nat) / 2 = 0 from rfl, bitLength_zero]
      simp
    · have hpos : 0 < n / 2 := Nat.pos_of_ne_zero h1
      obtain ⟨hb, h2, h3⟩ := ih (n / 2) (by omega) hpos
      refine ⟨by omega, ?_, ?_⟩
      · simp only [Nat.add_sub_cancel]
        have h4 : 2 ^ bitLength fuel (n / 2) = 2 * 2 ^ (bitLength fuel (n / 2) - 1) := by
          conv_lhs => rw [show bitLength fuel (n / 2) = (bitLength fuel (n / 2) - 1) + 1 by omega]
          rw [pow_succ, mul_comm]
        rw [h4]
        generalize 2 ^ (bitLength fuel (n / 2) - 1) = P at h2
        omega
      · rw [pow_succ]
        generalize 2 ^ bitLength fuel (n / 2) = P at h3
        omega

theorem pow2_eq (e : Int) : pow2 e = (2 : ℚ) ^ e := by
  unfold pow2
  split
  · rename_i h
    obtain ⟨n, rfl⟩ := Int.eq_ofNat_of_zero_le h
    simp
  · rename_i h
    obtain ⟨n, hn⟩ : ∃ n : Nat, e = -(n : Int) := ⟨(-e).toNat, by omega⟩
    subst hn
    simp [zpow_neg]

theorem pow2_pos (e : Int) : 0 < pow2 e := by
  rw [pow2_eq]
  positivity

theorem two_zpow_lt (a b : Int) (h : a < b) : (2 : ℚ) ^ a < 2 ^ b :=
  zpow_lt_zpow_right₀ (by norm_num) h

theorem two_zpow_le (a b : Int) (h : a ≤ b) : (2 : ℚ) ^ a ≤ 2 ^ b :=
  zpow_le_zpow_right₀ (by norm_num) h

theorem lt_of_two_zpow_lt (a b : Int) (h : (2 : ℚ) ^ a < 2 ^ b) : a < b := by
  by_contra hc
  exact absurd (two_zpow_le b a (not_lt.mp hc)) (not_le.mpr h)

/-- The binary exponent brackets a rational that is not 0. -/
theorem exponent_spec (x : ℚ) (hx : x ≠ 0) :
    (2 : ℚ) ^ Float64.exponent x ≤ |x| ∧ |x| < 2 ^ (Float64.exponent x + 1) := by
  have hp : 0 < x.num.natAbs := Int.natAbs_pos.mpr (Rat.num_ne_zero.mpr hx)
  have hq : 0 < x.den := x.den_pos
  obtain ⟨hbp, hp1, hp2⟩ := bitLength_spec x.num.natAbs x.num.natAbs le_rfl hp
  obtain ⟨hbq, hq1, hq2⟩ := bitLength_spec x.den x.den le_rfl hq
  have habs : |x| = (x.num.natAbs : ℚ) / (x.den : ℚ) := by
    conv_lhs => rw [← Rat.num_div_den x]
    rw [abs_div, Nat.abs_cast]
    congr 1
    rw [Nat.cast_natAbs, Int.cast_abs]
  have hqpos : (0 : ℚ) < (x.den : ℚ) := by exact_mod_cast hq
  have hp1q : ((2 : ℚ) ^ (bitLength x.num.natAbs x.num.natAbs - 1)) ≤ (x.num.natAbs : ℚ) := by
    exact_mod_cast hp1
  have hp2q : (x.num.natAbs : ℚ) < (2 : ℚ) ^ (bitLength x.num.natAbs x.num.natAbs) := by
    exact_mod_cast hp2
  have hq1q : ((2 : ℚ) ^ (bitLength x.den x.den - 1)) ≤ (x.den : ℚ) := by
    exact_mod_cast hq1
  have hq2q : (x.den : ℚ) < (2 : ℚ) ^ (bitLength x.den x.den) := by
    exact_mod_cast hq2
  generalize hbpe : bitLength x.num.natAbs x.num.natAbs = bp at *
  generalize hbqe : bitLength x.den x.den = bq at *
  have hupper : |x| < (2 : ℚ) ^ ((bp : Int) - (bq : Int) + 1) := by
    have e1 : ((bp : Int) - (bq : Int) + 1) = (bp : Int) - ((bq - 1 : Nat) : Int) := by omega
    rw [e1, zpow_sub₀ (by norm_num), zpow_natCast, zpow_natCast, habs]
    rw [div_lt_div_iff₀ hqpos (by positivity)]
    calc (x.num.natAbs : ℚ) * 2 ^ (bq - 1) < 2 ^ bp * 2 ^ (bq - 1) := by
          apply mul_lt_mul_of_pos_right hp2q (by positivity)
      _ ≤ 2 ^ bp * (x.den : ℚ) := by
          apply mul_le_mul_of_nonneg_left hq1q (by positivity)
  have hlower : (2 : ℚ) ^ ((bp : Int) - (bq : Int) - 1) ≤ |x| := by
    have e1 : ((bp : Int) - (bq : Int) - 1) = ((bp - 1 : Nat) : Int) - (bq : Int) := by omega
    rw [e1, zpow_sub₀ (by norm_num), zpow_natCast, zpow_natCast, habs]
    rw [div_le_div_iff₀ (by positivity) hqpos]
    calc (2 : ℚ) ^ (bp - 1) * (x.den : ℚ) ≤ 2 ^ (bp - 1) * 2 ^ bq := by
          apply mul_le_mul_of_nonneg_left hq2q.le (by positivity)
      _ ≤ (x.num.natAbs : ℚ) * 2 ^ bq := by
          apply mul_le_mul_of_nonneg_right hp1q (by positivity)
  unfold Float64.exponent
  simp only [hbpe, hbqe, pow2_eq]
  split
  · rename_i h
    exact ⟨h, hupper⟩
  · rename_i h
    refine ⟨hlower, ?_⟩
    rw [show (bp : Int) - (bq : Int) - 1 + 1 = (bp : Int) - (bq : Int) by ring]
    exact not_le.mp h

/-- The binary exponent is the only integer that brackets the rational. -/
theorem exponent_unique (x : ℚ) (e : Int) (h1 : (2 : ℚ) ^ e ≤ |x|) (h2 : |x| < 2 ^ (e + 1)) :
    Float64.exponent x = e := by
  have hx : x ≠ 0 := by
    rintro rfl
    rw [abs_zero] at h1
    exact absurd h1 (not_le.mpr (by positivity))
  obtain ⟨h3, h4⟩ := exponent_spec x hx
  have h5 := lt_of_two_zpow_lt _ _ (lt_of_le_of_lt h1 h4)
  have h6 := lt_of_two_zpow_lt _ _ (lt_of_le_of_lt h3 h2)
  omega

theorem exponent_neg (x : ℚ) : Float64.exponent (-x) = Float64.exponent x := by
  unfold Float64.exponent
  simp only [Rat.neg_num, Int.natAbs_neg, Rat.neg_den, abs_neg]

theorem ulp_neg (x : ℚ) : Float64.ulp (-x) = Float64.ulp x := by
  unfold Float64.ulp
  rw [exponent_neg]

theorem ulp_pos (x : ℚ) : 0 < Float64.ulp x := pow2_pos _

/-- The spacing around a rational in the normal range whose exponent is known. -/
theorem ulp_of_bracket (x : ℚ) (e : Int) (h1 : (2 : ℚ) ^ e ≤ |x|) (h2 : |x| < 2 ^ (e + 1))
    (he : -1022 ≤ e) : Float64.ulp x = 2 ^ (e - 52) := by
  unfold Float64.ulp
  rw [exponent_unique x e h1 h2, pow2_eq, max_eq_left (by omega)]

theorem roundToEven_cases (y : ℚ) : roundToEven y = ⌊y⌋ ∨ roundToEven y = ⌊y⌋ + 1 := by
  unfold roundToEven
  simp only
  split
  · exact Or.inl rfl
  · split
    · exact Or.inr rfl
    · split
      · exact Or.inl rfl
      · exact Or.inr rfl

theorem roundToEven_intCast (n : Int) : roundToEven (n : ℚ) = n := by
  unfold roundToEven
  simp

theorem roundToEven_le (y : ℚ) (M : Int) (h : y ≤ (M : ℚ)) : roundToEven y ≤ M := by
  rcases eq_or_lt_of_le h with h1 | h1
  · rw [h1, roundToEven_intCast]
  · have h2 : ⌊y⌋ < M := Int.floor_lt.mpr h1
    rcases roundToEven_cases y with h3 | h3 <;> omega

theorem le_roundToEven (y : ℚ) (M : Int) (h : (M : ℚ) ≤ y) : M ≤ roundToEven y := by
  have h2 : M ≤ ⌊y⌋ := Int.le_floor.mpr h
  rcases roundToEven_cases y with h3 | h3 <;> omega

theorem abs_sub_roundToEven_le (y : ℚ) : |(roundToEven y : ℚ) - y| ≤ 1 / 2 := by
  have h1 := Int.floor_le y
  have h2 := Int.lt_floor_add_one y
  unfold roundToEven
  simp only
  split
  · rename_i h
    rw [abs_le]
    constructor <;> linarith
  · rename_i h
    split
    · rw [abs_le]
      push_cast
      constructor <;> linarith
    · rename_i h3
      have h4 : y - ⌊y⌋ = 1 / 2 := le_antisymm (not_lt.mp h3) (not_lt.mp h)
      split
      · rw [abs_le]
        constructor <;> linarith
      · rw [abs_le]
        push_cast
        constructor <;> linarith

theorem roundToEven_neg (y : ℚ) : roundToEven (-y) = -roundToEven y := by
  by_cases hy : (⌊y⌋ : ℚ) = y
  · rw [← hy, ← Int.cast_neg, roundToEven_intCast, roundToEven_intCast]
  · have h1 := Int.floor_le y
    have h2 := Int.lt_floor_add_one y
    have h3 : (⌊y⌋ : ℚ) < y := lt_of_le_of_ne h1 hy
    have hf : ⌊-y⌋ = -⌊y⌋ - 1 := by
      rw [Int.floor_eq_iff]
      push_cast
      constructor <;> linarith
    unfold roundToEven
    simp only [hf]
    push_cast
    by_cases h4 : y - ⌊y⌋ < 1 / 2
    · rw [if_pos h4, if_neg (by linarith), if_pos (by linarith)]
      ring
    · by_cases h5 : 1 / 2 < y - ⌊y⌋
      · rw [if_neg h4, if_pos h5, if_pos (by linarith)]
        ring
      · rw [if_neg h4, if_neg h5, if_neg (by linarith), if_neg (by linarith)]
        by_cases h6 : ⌊y⌋ % 2 = 0
        · rw [if_pos h6, if_neg (by omega)]
          ring
        · rw [if_neg h6, if_pos (by omega)]
          ring

theorem nearest_neg (x : ℚ) : Float64.nearest (-x) = -Float64.nearest x := by
  unfold Float64.nearest
  rw [ulp_neg, neg_div, roundToEven_neg]
  push_cast
  ring

theorem nearest_le_of (s t : ℚ) (M : Int) (ht : t = M * Float64.ulp s) (hst : s ≤ t) :
    Float64.nearest s ≤ t := by
  unfold Float64.nearest
  rw [ht]
  have hu := ulp_pos s
  apply mul_le_mul_of_nonneg_right _ hu.le
  have : roundToEven (s / Float64.ulp s) ≤ M := by
    apply roundToEven_le
    rw [div_le_iff₀ hu, ← ht]
    exact hst
  exact_mod_cast this

theorem le_nearest_of (s t : ℚ) (M : Int) (ht : t = M * Float64.ulp s) (hst : t ≤ s) :
    t ≤ Float64.nearest s := by
  unfold Float64.nearest
  rw [ht]
  have hu := ulp_pos s
  apply mul_le_mul_of_nonneg_right _ hu.le
  have : M ≤ roundToEven (s / Float64.ulp s) := by
    apply le_roundToEven
    rw [le_div_iff₀ hu, ← ht]
    exact hst
  exact_mod_cast this

theorem nearest_eq_self_of (s : ℚ) (M : Int) (h : s = M * Float64.ulp s) :
    Float64.nearest s = s :=
  le_antisymm (nearest_le_of s s M h le_rfl) (le_nearest_of s s M h le_rfl)

theorem abs_nearest_sub_le (s : ℚ) : |Float64.nearest s - s| ≤ Float64.ulp s / 2 := by
  unfold Float64.nearest
  have hu := ulp_pos s
  have h1 := abs_sub_roundToEven_le (s / Float64.ulp s)
  have h2 : (roundToEven (s / Float64.ulp s) : ℚ) * Float64.ulp s - s =
      ((roundToEven (s / Float64.ulp s) : ℚ) - s / Float64.ulp s) * Float64.ulp s := by
    field_simp
  rw [h2, abs_mul, abs_of_pos hu]
  calc |(roundToEven (s / Float64.ulp s) : ℚ) - s / Float64.ulp s| * Float64.ulp s
      ≤ 1 / 2 * Float64.ulp s := mul_le_mul_of_nonneg_right h1 hu.le
    _ = Float64.ulp s / 2 := by ring

theorem two_pow_mul_zpow (K : Nat) (g : Int) : (2 : ℚ) ^ K * 2 ^ g = 2 ^ ((K : Int) + g) := by
  rw [zpow_add₀ (by norm_num), zpow_natCast]

/-- A `float64` value that is not negative and below `2^52`, other than the greatest
value below one half, plus one half: the `float64` sum has the integer part of the
exact sum. -/
theorem floor_nearest_add_half (v : ℚ) (h0 : 0 ≤ v) (hrep : Float64.nearest v = v)
    (hlt : v < 2 ^ 52) (hne : v ≠ 1 / 2 - 1 / 2 ^ 54) :
    0 ≤ Float64.nearest (v + 1 / 2) ∧ ⌊Float64.nearest (v + 1 / 2)⌋ = ⌊v + 1 / 2⌋ := by
  have hs0 : (1 : ℚ) / 2 ≤ v + 1 / 2 := by linarith
  have hspos : (0 : ℚ) < v + 1 / 2 := by linarith
  have habs : |v + 1 / 2| = v + 1 / 2 := abs_of_pos hspos
  obtain ⟨j, hj⟩ : ∃ j, Float64.exponent (v + 1 / 2) = j := ⟨_, rfl⟩
  obtain ⟨hj1, hj2⟩ := exponent_spec (v + 1 / 2) (ne_of_gt hspos)
  rw [hj, habs] at hj1 hj2
  have hjlo : -1 ≤ j := by
    have h1 : (2 : ℚ) ^ (-1 : Int) < 2 ^ (j + 1) := by
      have : (2 : ℚ) ^ (-1 : Int) = 1 / 2 := by norm_num
      rw [this]
      linarith
    have := lt_of_two_zpow_lt _ _ h1
    omega
  have hjhi : j ≤ 52 := by
    have h1 : (2 : ℚ) ^ j < 2 ^ (53 : Int) := by
      have : (2 : ℚ) ^ (53 : Int) = 2 ^ 52 + 2 ^ 52 := by norm_num
      rw [this]
      have h52 : (1 : ℚ) / 2 < 2 ^ 52 := by norm_num
      linarith
    have := lt_of_two_zpow_lt _ _ h1
    omega
  have hu : Float64.ulp (v + 1 / 2) = 2 ^ (j - 52) := by
    unfold Float64.ulp
    rw [hj, pow2_eq, max_eq_left (by omega)]
  have hule : Float64.ulp (v + 1 / 2) ≤ 1 := by
    rw [hu]
    have := two_zpow_le (j - 52) 0 (by omega)
    simpa using this
  -- the lower bound
  have hlow : ((⌊v + 1 / 2⌋ : Int) : ℚ) ≤ Float64.nearest (v + 1 / 2) := by
    apply le_nearest_of (v + 1 / 2) _ (⌊v + 1 / 2⌋ * 2 ^ (52 - j).toNat) _ (Int.floor_le _)
    rw [hu]
    push_cast
    rw [mul_assoc, two_pow_mul_zpow, show ((52 - j).toNat : Int) + (j - 52) = 0 by omega]
    simp
  have hn0 : 0 ≤ ⌊v + 1 / 2⌋ := Int.floor_nonneg.mpr hspos.le
  have hnq : (0 : ℚ) ≤ ((⌊v + 1 / 2⌋ : Int) : ℚ) := by exact_mod_cast hn0
  refine ⟨le_trans hnq hlow, ?_⟩
  -- the upper bound
  have hupper : Float64.nearest (v + 1 / 2) < ((⌊v + 1 / 2⌋ : Int) : ℚ) + 1 := by
    by_cases hA : v < 1 / 4
    · have hb1 : (2 : ℚ) ^ (-1 : Int) ≤ |v + 1 / 2| := by
        rw [habs]
        norm_num
        linarith
      have hb2 : |v + 1 / 2| < (2 : ℚ) ^ ((-1 : Int) + 1) := by
        rw [habs]
        norm_num
        linarith
      have hu2 := ulp_of_bracket (v + 1 / 2) (-1) hb1 hb2 (by norm_num)
      have h3 := nearest_le_of (v + 1 / 2) (3 / 4) (3 * 2 ^ 51)
        (by rw [hu2]; norm_num) (by linarith)
      linarith
    · by_cases hB : v < 1 / 2
      · have hA2 : (1 : ℚ) / 4 ≤ v := not_lt.mp hA
        have habsv : |v| = v := abs_of_nonneg h0
        have hv1 : (2 : ℚ) ^ (-2 : Int) ≤ |v| := by
          rw [habsv]
          norm_num
          linarith
        have hv2 : |v| < (2 : ℚ) ^ ((-2 : Int) + 1) := by
          rw [habsv]
          norm_num
          linarith
        have huv := ulp_of_bracket v (-2) hv1 hv2 (by norm_num)
        have hrep2 := hrep
        unfold Float64.nearest at hrep2
        rw [huv] at hrep2
        obtain ⟨Mv, hMv⟩ : ∃ Mv : Int, roundToEven (v / 2 ^ ((-2 : Int) - 52)) = Mv := ⟨_, rfl⟩
        rw [hMv] at hrep2
        have hp54 : (2 : ℚ) ^ ((-2 : Int) - 52) = 1 / 2 ^ 54 := by norm_num
        rw [hp54] at hrep2
        have hMlt : Mv < 2 ^ 53 := by
          have : (Mv : ℚ) < 2 ^ 53 := by
            have h5 : (Mv : ℚ) * (1 / 2 ^ 54) < 1 / 2 := by rw [hrep2]; exact hB
            have h6 : (Mv : ℚ) = (Mv : ℚ) * (1 / 2 ^ 54) * 2 ^ 54 := by field_simp
            rw [h6]
            have : (1 : ℚ) / 2 * 2 ^ 54 = 2 ^ 53 := by norm_num
            rw [← this]
            exact mul_lt_mul_of_pos_right h5 (by positivity)
          exact_mod_cast this
        have hMne : Mv ≠ 2 ^ 53 - 1 := by
          intro h
          apply hne
          rw [← hrep2, h]
          norm_num
        have hMle : Mv ≤ 2 ^ 53 - 2 := by omega
        have hvle : v ≤ 1 / 2 - 1 / 2 ^ 53 := by
          rw [← hrep2]
          have : (Mv : ℚ) ≤ 2 ^ 53 - 2 := by exact_mod_cast hMle
          have h7 : (Mv : ℚ) * (1 / 2 ^ 54) ≤ (2 ^ 53 - 2) * (1 / 2 ^ 54) :=
            mul_le_mul_of_nonneg_right this (by positivity)
          have h8 : ((2 : ℚ) ^ 53 - 2) * (1 / 2 ^ 54) = 1 / 2 - 1 / 2 ^ 53 := by norm_num
          rw [h8] at h7
          exact h7
        have hb1 : (2 : ℚ) ^ (-1 : Int) ≤ |v + 1 / 2| := by
          rw [habs]
          norm_num
          linarith
        have hb2 : |v + 1 / 2| < (2 : ℚ) ^ ((-1 : Int) + 1) := by
          rw [habs]
          norm_num
          linarith
        have hu2 := ulp_of_bracket (v + 1 / 2) (-1) hb1 hb2 (by norm_num)
        have h3 := nearest_le_of (v + 1 / 2) (1 - 1 / 2 ^ 53) (2 ^ 53 - 1)
          (by rw [hu2]; norm_num) (by linarith)
        have h9 : (1 : ℚ) - 1 / 2 ^ 53 < 1 := by norm_num
        linarith
      · have hC : (1 : ℚ) / 2 ≤ v := not_lt.mp hB
        have hvpos : (0 : ℚ) < v := by linarith
        have habsv : |v| = v := abs_of_pos hvpos
        obtain ⟨jv, hjv⟩ : ∃ jv, Float64.exponent v = jv := ⟨_, rfl⟩
        obtain ⟨hv1, hv2⟩ := exponent_spec v (ne_of_gt hvpos)
        rw [hjv, habsv] at hv1 hv2
        have hjvlo : -1 ≤ jv := by
          have h1 : (2 : ℚ) ^ (-1 : Int) < 2 ^ (jv + 1) := by
            have : (2 : ℚ) ^ (-1 : Int) = 1 / 2 := by norm_num
            rw [this]
            linarith
          have := lt_of_two_zpow_lt _ _ h1
          omega
        have hjvhi : jv ≤ 51 := by
          have h1 : (2 : ℚ) ^ jv < 2 ^ (52 : Int) := by
            have : (2 : ℚ) ^ (52 : Int) = 2 ^ 52 := by norm_num
            rw [this]
            linarith
          have := lt_of_two_zpow_lt _ _ h1
          omega
        by_cases hC1 : v + 1 / 2 < 2 ^ (jv + 1)
        · have hes : Float64.exponent (v + 1 / 2) = jv :=
            exponent_unique _ jv (by rw [habs]; linarith) (by rw [habs]; exact hC1)
          have hjj : j = jv := by rw [← hj, hes]
          have huv : Float64.ulp v = 2 ^ (jv - 52) := by
            unfold Float64.ulp
            rw [hjv, pow2_eq, max_eq_left (by omega)]
          have hrep2 := hrep
          unfold Float64.nearest at hrep2
          rw [huv] at hrep2
          have hself : Float64.nearest (v + 1 / 2) = v + 1 / 2 := by
            apply nearest_eq_self_of (v + 1 / 2)
              (roundToEven (v / 2 ^ (jv - 52)) + 2 ^ (51 - jv).toNat)
            rw [hu, hjj]
            push_cast
            rw [add_mul, hrep2, two_pow_mul_zpow,
              show ((51 - jv).toNat : Int) + (jv - 52) = -1 by omega]
            norm_num
          rw [hself]
          exact Int.lt_floor_add_one _
        · have hP : (2 : ℚ) ^ (jv + 1) ≤ v + 1 / 2 := not_lt.mp hC1
          have hPint : (2 : ℚ) ^ (jv + 1) = (((2 : Int) ^ (jv + 1).toNat : Int) : ℚ) := by
            push_cast
            rw [← zpow_natCast]
            congr 1
            omega
          have hPn : (2 : Int) ^ (jv + 1).toNat ≤ ⌊v + 1 / 2⌋ := by
            apply Int.le_floor.mpr
            rw [← hPint]
            exact hP
          have hPnq : (2 : ℚ) ^ (jv + 1) ≤ ((⌊v + 1 / 2⌋ : Int) : ℚ) := by
            rw [hPint]
            exact_mod_cast hPn
          have herr := abs_nearest_sub_le (v + 1 / 2)
          have h10 := (abs_le.mp herr).2
          linarith
  rw [Int.floor_eq_iff]
  exact ⟨hlow, hupper⟩

theorem nearest_zero : Float64.nearest 0 = 0 := by
  unfold Float64.nearest
  rw [zero_div]
  have h := roundToEven_intCast 0
  rw [Int.cast_zero] at h
  rw [h]
  simp

/-- Below `2^-1021` the spacing of the `float64` values is `2^-1074`. -/
theorem ulp_of_small (x : ℚ) (hx : x ≠ 0) (h : |x| < 2 ^ (-1021 : Int)) :
    Float64.ulp x = 2 ^ (-1074 : Int) := by
  obtain ⟨h1, -⟩ := exponent_spec x hx
  have h2 : Float64.exponent x < -1021 := lt_of_two_zpow_lt _ _ (lt_of_le_of_lt h1 h)
  unfold Float64.ulp
  rw [pow2_eq, max_eq_right (by omega)]

theorem nearest_nearest_pos (y : ℚ) (hy : 0 < y) :
    Float64.nearest (Float64.nearest y) = Float64.nearest y := by
  have habs : |y| = y := abs_of_pos hy
  obtain ⟨e, he⟩ : ∃ e, Float64.exponent y = e := ⟨_, rfl⟩
  obtain ⟨h1, h2⟩ := exponent_spec y (ne_of_gt hy)
  rw [he, habs] at h1 h2
  by_cases hlo : -1022 ≤ e
  · have hu : Float64.ulp y = 2 ^ (e - 52) :=
      ulp_of_bracket y e (by rw [habs]; exact h1) (by rw [habs]; exact h2) hlo
    have hupos : (0 : ℚ) < 2 ^ (e - 52) := by positivity
    have hue : (2 : ℚ) ^ e = 2 ^ 52 * 2 ^ (e - 52) := by
      rw [two_pow_mul_zpow]
      congr 1
      omega
    have hue1 : (2 : ℚ) ^ (e + 1) = 2 ^ 53 * 2 ^ (e - 52) := by
      rw [two_pow_mul_zpow]
      congr 1
      omega
    obtain ⟨R, hR⟩ : ∃ R : Int, roundToEven (y / 2 ^ (e - 52)) = R := ⟨_, rfl⟩
    have hz : Float64.nearest y = R * 2 ^ (e - 52) := by
      unfold Float64.nearest
      rw [hu, hR]
    have hRlo : (2 : Int) ^ 52 ≤ R := by
      rw [← hR]
      apply le_roundToEven
      rw [le_div_iff₀ hupos]
      rw [Int.cast_pow, Int.cast_ofNat, ← hue]
      exact h1
    have hRhi : R ≤ (2 : Int) ^ 53 := by
      rw [← hR]
      apply roundToEven_le
      rw [div_le_iff₀ hupos]
      rw [Int.cast_pow, Int.cast_ofNat, ← hue1]
      exact h2.le
    have hRloq : (2 : ℚ) ^ 52 ≤ (R : ℚ) := by exact_mod_cast hRlo
    rw [hz]
    rcases eq_or_lt_of_le hRhi with h53 | h53
    · have hzz : (R : ℚ) * 2 ^ (e - 52) = 2 ^ (e + 1) := by
        rw [hue1, h53, Int.cast_pow, Int.cast_ofNat]
      rw [hzz]
      have hpos1 : (0 : ℚ) < 2 ^ (e + 1) := by positivity
      have hu2 : Float64.ulp ((2 : ℚ) ^ (e + 1)) = 2 ^ (e + 1 - 52) :=
        ulp_of_bracket _ (e + 1) (by rw [abs_of_pos hpos1])
          (by rw [abs_of_pos hpos1]; exact two_zpow_lt _ _ (by omega)) (by omega)
      apply nearest_eq_self_of _ (2 ^ 52)
      rw [hu2, Int.cast_pow, Int.cast_ofNat, two_pow_mul_zpow]
      congr 1
      omega
    · have hRhiq : (R : ℚ) < 2 ^ 53 := by exact_mod_cast h53
      have hzpos : (0 : ℚ) < (R : ℚ) * 2 ^ (e - 52) :=
        mul_pos (lt_of_lt_of_le (by positivity) hRloq) hupos
      have hb1 : (2 : ℚ) ^ e ≤ |(R : ℚ) * 2 ^ (e - 52)| := by
        rw [abs_of_pos hzpos, hue]
        exact mul_le_mul_of_nonneg_right hRloq hupos.le
      have hb2 : |(R : ℚ) * 2 ^ (e - 52)| < 2 ^ (e + 1) := by
        rw [abs_of_pos hzpos, hue1]
        exact mul_lt_mul_of_pos_right hRhiq hupos
      have hu2 := ulp_of_bracket _ e hb1 hb2 hlo
      apply nearest_eq_self_of _ R
      rw [hu2]
  · have hlo2 : e < -1022 := not_le.mp hlo
    have hu : Float64.ulp y = 2 ^ (-1074 : Int) := by
      unfold Float64.ulp
      rw [he, pow2_eq, max_eq_right (by omega)]
    have hupos : (0 : ℚ) < 2 ^ (-1074 : Int) := by positivity
    obtain ⟨R, hR⟩ : ∃ R : Int, roundToEven (y / 2 ^ (-1074 : Int)) = R := ⟨_, rfl⟩
    have hz : Float64.nearest y = R * 2 ^ (-1074 : Int) := by
      unfold Float64.nearest
      rw [hu, hR]
    have hRlo : 0 ≤ R := by
      rw [← hR]
      apply le_roundToEven
      rw [Int.cast_zero]
      exact div_nonneg hy.le hupos.le
    have hy2 : y < 2 ^ (-1022 : Int) := lt_of_lt_of_le h2 (two_zpow_le _ _ (by omega))
    have h1022 : (2 : ℚ) ^ (-1022 : Int) = 2 ^ 52 * 2 ^ (-1074 : Int) := by
      rw [two_pow_mul_zpow]
      congr 1
    have hRhi : R ≤ (2 : Int) ^ 52 := by
      rw [← hR]
      apply roundToEven_le
      rw [div_le_iff₀ hupos]
      rw [Int.cast_pow, Int.cast_ofNat, ← h1022]
      exact hy2.le
    rw [hz]
    rcases eq_or_lt_of_le hRlo with h0 | h0
    · rw [← h0]
      simp only [Int.cast_zero, zero_mul]
      exact nearest_zero
    · have hRq : (0 : ℚ) < (R : ℚ) := by exact_mod_cast h0
      have hRhiq : (R : ℚ) ≤ 2 ^ 52 := by exact_mod_cast hRhi
      have hzpos : (0 : ℚ) < (R : ℚ) * 2 ^ (-1074 : Int) := mul_pos hRq hupos
      have hsmall : |(R : ℚ) * 2 ^ (-1074 : Int)| < 2 ^ (-1021 : Int) := by
        rw [abs_of_pos hzpos]
        calc (R : ℚ) * 2 ^ (-1074 : Int) ≤ 2 ^ 52 * 2 ^ (-1074 : Int) :=
              mul_le_mul_of_nonneg_right hRhiq hupos.le
          _ = 2 ^ (-1022 : Int) := h1022.symm
          _ < 2 ^ (-1021 : Int) := two_zpow_lt _ _ (by norm_num)
      have hu2 := ulp_of_small _ (ne_of_gt hzpos) hsmall
      apply nearest_eq_self_of _ R
      rw [hu2]

/-- Rounding to `float64` is idempotent: the result of a `float64` operation is a
`float64` value. -/
theorem nearest_nearest (y : ℚ) : Float64.nearest (Float64.nearest y) = Float64.nearest y := by
  rcases lt_trichotomy y 0 with hy | hy | hy
  · have h := nearest_nearest_pos (-y) (by linarith)
    rw [nearest_neg, nearest_neg, neg_inj] at h
    exact h
  · subst hy
    rw [nearest_zero, nearest_zero]
  · exact nearest_nearest_pos y hy

/-- An integer of absolute value below `2^53` is a `float64` value. -/
theorem nearest_intCast (r : Int) (h : |r| < 2 ^ 53) : Float64.nearest (r : ℚ) = r := by
  rcases eq_or_ne r 0 with h0 | h0
  · subst h0
    rw [Int.cast_zero]
    exact nearest_zero
  · have hrq : (r : ℚ) ≠ 0 := by exact_mod_cast h0
    obtain ⟨e, he⟩ : ∃ e, Float64.exponent (r : ℚ) = e := ⟨_, rfl⟩
    obtain ⟨h1, h2⟩ := exponent_spec (r : ℚ) hrq
    rw [he] at h1 h2
    have habs1 : (1 : ℚ) ≤ |(r : ℚ)| := by
      have : 1 ≤ |r| := Int.one_le_abs h0
      exact_mod_cast this
    have habs2 : |(r : ℚ)| < 2 ^ 53 := by exact_mod_cast h
    have helo : 0 ≤ e := by
      have h3 : (2 : ℚ) ^ (0 : Int) < 2 ^ (e + 1) := by
        rw [zpow_zero]
        linarith
      have := lt_of_two_zpow_lt _ _ h3
      omega
    have hehi : e ≤ 52 := by
      have h3 : (2 : ℚ) ^ e < 2 ^ (53 : Int) := by
        have : (2 : ℚ) ^ (53 : Int) = 2 ^ 53 := by norm_num
        rw [this]
        linarith
      have := lt_of_two_zpow_lt _ _ h3
      omega
    have hu := ulp_of_bracket (r : ℚ) e h1 h2 (by omega)
    apply nearest_eq_self_of _ (r * 2 ^ (52 - e).toNat)
    rw [hu]
    push_cast
    rw [mul_assoc, two_pow_mul_zpow, show ((52 - e).toNat : Int) + (e - 52) = 0 by omega]
    simp

/-- A `float64` value of at least `2^52` is an integer: it is a multiple of the
spacing `2^(e-52)`, `e ≥ 52` its exponent, by a whole number from `2^52` to `2^53 - 1`. -/
theorem rep_large (v : ℚ) (hrep : Float64.nearest v = v) (hge : (2 : ℚ) ^ 52 ≤ v) :
    ∃ (e : Int) (R : Int), 52 ≤ e ∧ (2 : Int) ^ 52 ≤ R ∧ R < 2 ^ 53 ∧
      v = R * 2 ^ (e - 52) ∧ Float64.exponent v = e := by
  have hvpos : (0 : ℚ) < v := lt_of_lt_of_le (by positivity) hge
  have habs : |v| = v := abs_of_pos hvpos
  obtain ⟨e, he⟩ : ∃ e, Float64.exponent v = e := ⟨_, rfl⟩
  obtain ⟨h1, h2⟩ := exponent_spec v (ne_of_gt hvpos)
  rw [he, habs] at h1 h2
  have helo : 52 ≤ e := by
    have h3 : (2 : ℚ) ^ (52 : Int) < 2 ^ (e + 1) := by
      have : (2 : ℚ) ^ (52 : Int) = 2 ^ 52 := by norm_num
      rw [this]
      linarith
    have := lt_of_two_zpow_lt _ _ h3
    omega
  have hu : Float64.ulp v = 2 ^ (e - 52) :=
    ulp_of_bracket v e (by rw [habs]; exact h1) (by rw [habs]; exact h2) (by omega)
  have hupos : (0 : ℚ) < 2 ^ (e - 52) := by positivity
  have hue : (2 : ℚ) ^ e = 2 ^ 52 * 2 ^ (e - 52) := by
    rw [two_pow_mul_zpow]
    congr 1
    omega
  have hue1 : (2 : ℚ) ^ (e + 1) = 2 ^ 53 * 2 ^ (e - 52) := by
    rw [two_pow_mul_zpow]
    congr 1
    omega
  obtain ⟨R, hR⟩ : ∃ R : Int, roundToEven (v / 2 ^ (e - 52)) = R := ⟨_, rfl⟩
  have hz : v = R * 2 ^ (e - 52) := by
    have h := hrep
    unfold Float64.nearest at h
    rw [hu, hR] at h
    exact h.symm
  have hRlo : (2 : Int) ^ 52 ≤ R := by
    have : (2 : ℚ) ^ 52 ≤ (R : ℚ) := by
      rw [hue, hz] at h1
      exact le_of_mul_le_mul_right h1 hupos
    exact_mod_cast this
  have hRhi : R < (2 : Int) ^ 53 := by
    have : (R : ℚ) < 2 ^ 53 := by
      rw [hue1] at h2
      nth_rewrite 1 [hz] at h2
      exact lt_of_mul_lt_mul_right h2 hupos.le
    exact_mod_cast this
  exact ⟨e, R, helo, hRlo, hRhi, hz, he⟩

/-- A `float64` value of at least `2^52` that is not an odd integer below `2^53`,
plus one half: the `float64` sum is the value itself. -/
theorem nearest_add_half_large (v : ℚ) (hrep : Float64.nearest v = v)
    (hge : (2 : ℚ) ^ 52 ≤ v) (hodd : v < 2 ^ 53 → ⌊v⌋ % 2 = 0) :
    Float64.nearest (v + 1 / 2) = v ∧ ((⌊v⌋ : Int) : ℚ) = v := by
  obtain ⟨e, R, helo, hRlo, hRhi, hz, he⟩ := rep_large v hrep hge
  have hvpos : (0 : ℚ) < v := lt_of_lt_of_le (by positivity) hge
  have hupos : (0 : ℚ) < 2 ^ (e - 52) := by positivity
  have hue : (2 : ℚ) ^ e = 2 ^ 52 * 2 ^ (e - 52) := by
    rw [two_pow_mul_zpow]
    congr 1
    omega
  have hue1 : (2 : ℚ) ^ (e + 1) = 2 ^ 53 * 2 ^ (e - 52) := by
    rw [two_pow_mul_zpow]
    congr 1
    omega
  have huint : (2 : ℚ) ^ (e - 52) = (((2 : Int) ^ (e - 52).toNat : Int) : ℚ) := by
    push_cast
    rw [← zpow_natCast]
    congr 1
    omega
  have hu1 : (1 : ℚ) ≤ 2 ^ (e - 52) := by
    have := two_zpow_le 0 (e - 52) (by omega)
    rwa [zpow_zero] at this
  have hvint : v = ((R * (2 : Int) ^ (e - 52).toNat : Int) : ℚ) := by
    rw [hz, huint]
    push_cast
    rfl
  have hfloor : ((⌊v⌋ : Int) : ℚ) = v := by
    rw [hvint, Int.floor_intCast]
  refine ⟨?_, hfloor⟩
  have hRloq : (2 : ℚ) ^ 52 ≤ (R : ℚ) := by exact_mod_cast hRlo
  have hRhiq : (R : ℚ) + 1 ≤ 2 ^ 53 := by
    have : R + 1 ≤ 2 ^ 53 := by omega
    exact_mod_cast this
  have hspos : (0 : ℚ) < v + 1 / 2 := by linarith
  have hb1 : (2 : ℚ) ^ e ≤ |v + 1 / 2| := by
    rw [abs_of_pos hspos, hue, hz]
    have := mul_le_mul_of_nonneg_right hRloq hupos.le
    linarith
  have hb2 : |v + 1 / 2| < 2 ^ (e + 1) := by
    rw [abs_of_pos hspos, hue1, hz]
    have := mul_le_mul_of_nonneg_right hRhiq hupos.le
    rw [add_mul, one_mul] at this
    linarith
  have hu := ulp_of_bracket (v + 1 / 2) e hb1 hb2 (by omega)
  have hround : roundToEven ((v + 1 / 2) / 2 ^ (e - 52)) = R := by
    have hq : (v + 1 / 2) / 2 ^ (e - 52) = R + 1 / 2 / 2 ^ (e - 52) := by
      rw [hz]
      field_simp
      ring
    have hfr0 : (0 : ℚ) < 1 / 2 / 2 ^ (e - 52) := by positivity
    have hfr1 : (1 : ℚ) / 2 / 2 ^ (e - 52) ≤ 1 / 2 := by
      rw [div_le_iff₀ hupos]
      linarith
    have hfl : ⌊(v + 1 / 2) / 2 ^ (e - 52)⌋ = R := by
      rw [Int.floor_eq_iff, hq]
      constructor <;> linarith
    unfold roundToEven
    simp only [hfl]
    rw [hq]
    rcases eq_or_lt_of_le helo with h52 | h52
    · -- the spacing is 1: a tie, which goes to the even neighbour
      have he52 : e - 52 = 0 := by omega
      have hv53 : v < 2 ^ 53 := by
        rw [hz, he52, zpow_zero, mul_one]
        exact_mod_cast hRhi
      have hvR : v = R := by rw [hz, he52, zpow_zero, mul_one]
      have hRev : R % 2 = 0 := by
        have := hodd hv53
        rw [hvR, Int.floor_intCast] at this
        exact this
      rw [he52, zpow_zero]
      norm_num
      exact Int.dvd_of_emod_eq_zero hRev
    · have hu2 : (2 : ℚ) ≤ 2 ^ (e - 52) := by
        have := two_zpow_le 1 (e - 52) (by omega)
        rwa [zpow_one] at this
      have hfr2 : (1 : ℚ) / 2 / 2 ^ (e - 52) < 1 / 2 := by
        rw [div_lt_iff₀ hupos]
        linarith
      rw [if_pos (by linarith)]
  unfold Float64.nearest
  rw [hu, hround, ← hz]

/-- The `float64` model on known values: 0.1, 0.1 + 0.2, a tie above `2^53`, the
division 1 / 3 and a tie below the least subnormal value. -/
theorem Float64_nearest_examples :
    Float64.nearest (1 / 10) = 3602879701896397 / 2 ^ 55 ∧
    Float64.add (Float64.nearest (1 / 10)) (Float64.nearest (2 / 10))
      = 5404319552844596 / 2 ^ 54 ∧
    Float64.nearest (2 ^ 53 + 1) = 2 ^ 53 ∧
    Float64.nearest (2 ^ 53 + 3) = 2 ^ 53 + 4 ∧
    Float64.div 1 3 = 6004799503160661 / 2 ^ 54 ∧
    Float64.nearest (1 / 2 ^ 1075) = 0 ∧
    Float64.nearest (3 / 2 ^ 1075) = 2 / 2 ^ 1074 := by
  refine ⟨?_, ?_, ?_, ?_, ?_, ?_, ?_⟩ <;> decide!

/-! ## Scaled codec -/

theorem roundHalfAwayFromZero_eq (x : ℚ) :
    roundHalfAwayFromZero x = if x < 0 then ⌈x - 1 / 2⌉ else ⌊x + 1 / 2⌋ := by
  unfold roundHalfAwayFromZero
  split
  · rename_i h
    have hs : Int.sign x.num = -1 := Int.sign_eq_neg_one_of_neg (Rat.num_neg.mpr h)
    rw [hs, abs_of_neg h]
    have : x - 1 / 2 = -(-x + 1 / 2) := by ring
    rw [this, Int.ceil_neg]
    ring
  · rename_i h
    rcases eq_or_lt_of_le (not_lt.mp h) with h0 | h0
    · subst h0
      norm_num
    · have hs : Int.sign x.num = 1 := Int.sign_eq_one_of_pos (Rat.num_pos.mpr h0)
      rw [hs, abs_of_pos h0]
      ring

/-- The specification's rounding is to a nearest integer, and a tie is resolved
away from zero. -/
theorem roundHalfAwayFromZero_nearest (x : ℚ) :
    |x - roundHalfAwayFromZero x| ≤ 1 / 2 ∧
      (|x - roundHalfAwayFromZero x| = 1 / 2 → |x| < |(roundHalfAwayFromZero x : ℚ)|) := by
  rw [roundHalfAwayFromZero_eq]
  by_cases hx : x < 0
  · simp only [hx, if_true]
    have h1 := Int.le_ceil (x - 1 / 2)
    have h2 := Int.ceil_lt_add_one (x - 1 / 2)
    have h3 : ((⌈x - 1 / 2⌉ : Int) : ℚ) ≤ 0 := by
      have : ⌈x - 1 / 2⌉ ≤ 0 := Int.ceil_le.mpr (by push_cast; linarith)
      exact_mod_cast this
    constructor
    · rw [abs_le]; constructor <;> linarith
    · intro h
      rw [abs_of_neg hx, abs_of_nonpos h3]
      rcases abs_eq (by norm_num : (0 : ℚ) ≤ 1 / 2) |>.mp h with h | h <;> linarith
  · simp only [hx, if_false]
    have hx0 := not_lt.mp hx
    have h1 := Int.floor_le (x + 1 / 2)
    have h2 := Int.lt_floor_add_one (x + 1 / 2)
    have h3 : (0 : ℚ) ≤ ((⌊x + 1 / 2⌋ : Int) : ℚ) := by
      have : 0 ≤ ⌊x + 1 / 2⌋ := Int.floor_nonneg.mpr (by linarith)
      exact_mod_cast this
    constructor
    · rw [abs_le]; constructor <;> linarith
    · intro h
      rw [abs_of_nonneg hx0, abs_of_nonneg h3]
      rcases abs_eq (by norm_num : (0 : ℚ) ≤ 1 / 2) |>.mp h with h | h <;> linarith

theorem floor_eq_self_of_rep_large (v : ℚ) (hrep : Float64.nearest v = v)
    (hge : (2 : ℚ) ^ 52 ≤ v) : ((⌊v⌋ : Int) : ℚ) = v := by
  obtain ⟨e, R, helo, -, -, hz, -⟩ := rep_large v hrep hge
  have huint : (2 : ℚ) ^ (e - 52) = (((2 : Int) ^ (e - 52).toNat : Int) : ℚ) := by
    push_cast
    rw [← zpow_natCast]
    congr 1
    omega
  have hvint : v = ((R * (2 : Int) ^ (e - 52).toNat : Int) : ℚ) := by
    rw [hz, huint]
    push_cast
    rfl
  rw [hvint, Int.floor_intCast]

/-- A `float64` value that is not negative, other than the greatest value below one
half and the odd integers from `2^52` to `2^53`, plus one half: the `float64` sum
has the integer part of the exact sum. -/
theorem floor_nearest_add_half_all (v : ℚ) (h0 : 0 ≤ v) (hrep : Float64.nearest v = v)
    (hne : v ≠ 1 / 2 - 1 / 2 ^ 54) (hodd : 2 ^ 52 ≤ v → v < 2 ^ 53 → ⌊v⌋ % 2 = 0) :
    0 ≤ Float64.nearest (v + 1 / 2) ∧ ⌊Float64.nearest (v + 1 / 2)⌋ = ⌊v + 1 / 2⌋ := by
  by_cases hlt : v < 2 ^ 52
  · exact floor_nearest_add_half v h0 hrep hlt hne
  · have hge := not_lt.mp hlt
    obtain ⟨h1, h2⟩ := nearest_add_half_large v hrep hge (hodd hge)
    rw [h1]
    refine ⟨h0, ?_⟩
    symm
    rw [Int.floor_eq_iff, h2]
    constructor <;> linarith

theorem truncToInt_of_nonneg (x : ℚ) (h : 0 ≤ x) : truncToInt x = ⌊x⌋ := by
  unfold truncToInt
  rw [if_pos h]

theorem truncToInt_neg_of_nonneg (x : ℚ) (h : 0 ≤ x) : truncToInt (-x) = -⌊x⌋ := by
  unfold truncToInt
  by_cases h0 : (0 : ℚ) ≤ -x
  · have hx : x = 0 := by linarith
    subst hx
    simp
  · rw [if_neg h0, Int.ceil_neg]

/-- The function `round` on a `float64` value whose rounding fits an `int64`, other
than the two values nearest below one half in absolute value and the odd integers of
absolute value from `2^52` to `2^53`: the result is the value rounded to the nearest
integer, a tie going away from zero. -/
theorem round_eq_roundHalfAwayFromZero (v : ℚ) (hrep : Float64.nearest v = v)
    (hfit : inInt64 (roundHalfAwayFromZero v)) (hne : |v| ≠ 1 / 2 - 1 / 2 ^ 54)
    (hodd : 2 ^ 52 ≤ |v| → |v| < 2 ^ 53 → ⌊|v|⌋ % 2 = 0) :
    round v = roundHalfAwayFromZero v := by
  rw [roundHalfAwayFromZero_eq] at hfit ⊢
  unfold round int64OfFloat Float64.sub Float64.add
  by_cases hx : v < 0
  · have habs : |v| = -v := abs_of_neg hx
    rw [habs] at hne hodd
    have hrep2 : Float64.nearest (-v) = -v := by rw [nearest_neg, hrep]
    obtain ⟨h1, h2⟩ := floor_nearest_add_half_all (-v) (by linarith) hrep2 hne hodd
    have hsub : v - 1 / 2 = -(-v + 1 / 2) := by ring
    simp only [hx, if_true] at hfit ⊢
    rw [hsub, nearest_neg, truncToInt_neg_of_nonneg _ h1, h2]
    rw [hsub, Int.ceil_neg] at hfit
    rw [if_pos hfit, Int.ceil_neg]
  · have h0 : 0 ≤ v := not_lt.mp hx
    have habs : |v| = v := abs_of_nonneg h0
    rw [habs] at hne hodd
    obtain ⟨h1, h2⟩ := floor_nearest_add_half_all v h0 hrep hne hodd
    simp only [hx, if_false] at hfit ⊢
    rw [truncToInt_of_nonneg _ h1, h2, if_pos hfit]

/-- The rounding of a `float64` value to an integer is a `float64` value: the
conversion `float64(i)` of the decoder is exact on it. -/
theorem nearest_roundHalfAwayFromZero (v : ℚ) (hrep : Float64.nearest v = v) :
    Float64.nearest ((roundHalfAwayFromZero v : Int) : ℚ) = roundHalfAwayFromZero v := by
  obtain ⟨hn, -⟩ := roundHalfAwayFromZero_nearest v
  by_cases hlt : |v| < 2 ^ 52
  · apply nearest_intCast
    have h1 : |((roundHalfAwayFromZero v : Int) : ℚ)| < 2 ^ 53 := by
      have h2 : |((roundHalfAwayFromZero v : Int) : ℚ)| ≤
          |v| + |v - (roundHalfAwayFromZero v : ℚ)| := by
        have h3 := abs_sub v (v - (roundHalfAwayFromZero v : ℚ))
        have h4 : v - (v - (roundHalfAwayFromZero v : ℚ)) = (roundHalfAwayFromZero v : ℚ) := by
          ring
        rw [h4] at h3
        exact h3
      have h5 : (2 : ℚ) ^ 52 + 1 / 2 < 2 ^ 53 := by norm_num
      linarith
    exact_mod_cast h1
  · have hge : (2 : ℚ) ^ 52 ≤ |v| := not_lt.mp hlt
    have hint : ∃ n : Int, v = (n : ℚ) := by
      rcases le_or_lt 0 v with h0 | h0
      · rw [abs_of_nonneg h0] at hge
        exact ⟨⌊v⌋, (floor_eq_self_of_rep_large v hrep hge).symm⟩
      · rw [abs_of_neg h0] at hge
        have hrep2 : Float64.nearest (-v) = -v := by rw [nearest_neg, hrep]
        have := floor_eq_self_of_rep_large (-v) hrep2 hge
        exact ⟨-⌊-v⌋, by push_cast; linarith⟩
    obtain ⟨n, hn2⟩ := hint
    have heq : roundHalfAwayFromZero v = n := by
      rw [hn2] at hn
      have h6 : |((n - roundHalfAwayFromZero (n : ℚ) : Int) : ℚ)| ≤ 1 / 2 := by
        push_cast
        exact hn
      have h7 : |n - roundHalfAwayFromZero (n : ℚ)| < 1 := by
        have : |((n - roundHalfAwayFromZero (n : ℚ) : Int) : ℚ)| < 1 := by linarith
        exact_mod_cast this
      rw [hn2]
      have := Int.abs_lt_one_iff.mp h7
      omega
    rw [heq, ← hn2, hrep]

/-- Encoding and decoding a `float64` value `v` at scale `scale`: the `float64`
quotient by the scale of the rounding of the `float64` product `v * scale` to the
nearest integer, a tie going away from zero, when the product is a value on which
`round` is exact. -/
theorem makeDecFunc_makeEncFunc (scale v : ℚ)
    (hfit : inInt64 (roundHalfAwayFromZero (Float64.mul v scale)))
    (hne : |Float64.mul v scale| ≠ 1 / 2 - 1 / 2 ^ 54)
    (hodd : 2 ^ 52 ≤ |Float64.mul v scale| → |Float64.mul v scale| < 2 ^ 53 →
      ⌊|Float64.mul v scale|⌋ % 2 = 0) :
    makeDecFunc scale (makeEncFunc scale v)
      = Float64.div (roundHalfAwayFromZero (Float64.mul v scale) : ℚ) scale := by
  have hrep : Float64.nearest (Float64.mul v scale) = Float64.mul v scale :=
    nearest_nearest _
  unfold makeDecFunc makeEncFunc Float64.ofInt64
  rw [round_eq_roundHalfAwayFromZero _ hrep hfit hne hodd,
    nearest_roundHalfAwayFromZero _ hrep]

/-- The slip of `round`: on the greatest `float64` value below one half the sum
`value + 0.5` is rounded up to 1, and on the odd integer `2^52 + 1` to the even
integer above it. -/
theorem round_not_roundHalfAwayFromZero :
    Float64.nearest (1 / 2 - 1 / 2 ^ 54) = 1 / 2 - 1 / 2 ^ 54 ∧
    round (1 / 2 - 1 / 2 ^ 54) = 1 ∧ roundHalfAwayFromZero (1 / 2 - 1 / 2 ^ 54) = 0 ∧
    Float64.nearest (2 ^ 52 + 1) = 2 ^ 52 + 1 ∧
    round (2 ^ 52 + 1) = 2 ^ 52 + 2 ∧ roundHalfAwayFromZero (2 ^ 52 + 1) = 2 ^ 52 + 1 := by
  refine ⟨?_, ?_, ?_, ?_, ?_, ?_⟩ <;> decide!

/-- An odd integer from `2^52` to `2^53`, plus one half: the `float64` sum is the
even integer above it. -/
theorem nearest_add_half_odd (R : Int) (h1 : 2 ^ 52 ≤ R) (h2 : R < 2 ^ 53)
    (hodd : R % 2 = 1) : Float64.nearest ((R : ℚ) + 1 / 2) = ((R + 1 : Int) : ℚ) := by
  have hRlo : (2 : ℚ) ^ 52 ≤ (R : ℚ) := by exact_mod_cast h1
  have hRhi : (R : ℚ) + 1 ≤ 2 ^ 53 := by
    have : R + 1 ≤ 2 ^ 53 := by omega
    exact_mod_cast this
  have hspos : (0 : ℚ) < (R : ℚ) + 1 / 2 := by
    have : (0 : ℚ) < 2 ^ 52 := by positivity
    linarith
  have hb1 : (2 : ℚ) ^ (52 : Int) ≤ |(R : ℚ) + 1 / 2| := by
    rw [abs_of_pos hspos]
    have : (2 : ℚ) ^ (52 : Int) = 2 ^ 52 := by norm_num
    rw [this]
    linarith
  have hb2 : |(R : ℚ) + 1 / 2| < (2 : ℚ) ^ ((52 : Int) + 1) := by
    rw [abs_of_pos hspos]
    have : (2 : ℚ) ^ ((52 : Int) + 1) = 2 ^ 53 := by norm_num
    rw [this]
    linarith
  have hu := ulp_of_bracket _ 52 hb1 hb2 (by norm_num)
  have hu1 : Float64.ulp ((R : ℚ) + 1 / 2) = 1 := by
    rw [hu]
    norm_num
  have hfl : ⌊(R : ℚ) + 1 / 2⌋ = R := by
    rw [Int.floor_eq_iff]
    constructor <;> linarith
  unfold Float64.nearest
  rw [hu1, div_one, mul_one]
  unfold roundToEven
  simp only [hfl]
  rw [if_neg (by norm_num), if_neg (by norm_num), if_neg (by omega)]

/-- The function `round` agrees with the rounding to the nearest integer, a tie going
away from zero, on a `float64` value whose rounding fits an `int64` exactly when the
value is neither one of the two values nearest below one half in absolute value nor an
odd integer of absolute value from `2^52` to `2^53`. -/
theorem round_eq_roundHalfAwayFromZero_iff (v : ℚ) (hrep : Float64.nearest v = v)
    (hfit : inInt64 (roundHalfAwayFromZero v)) :
    round v = roundHalfAwayFromZero v ↔
      (|v| ≠ 1 / 2 - 1 / 2 ^ 54 ∧
        (2 ^ 52 ≤ |v| → |v| < 2 ^ 53 → ⌊|v|⌋ % 2 = 0)) := by
  constructor
  · intro h
    constructor
    · intro hv
      rcases abs_eq (by norm_num : (0 : ℚ) ≤ 1 / 2 - 1 / 2 ^ 54) |>.mp hv with h1 | h1
      · rw [h1] at h
        revert h
        decide!
      · rw [h1] at h
        revert h
        decide!
    · intro hge hlt
      by_contra hne
      have hodd : ⌊|v|⌋ % 2 = 1 := by omega
      have hrepa : Float64.nearest |v| = |v| := by
        rcases abs_choice v with h1 | h1
        · rw [h1, hrep]
        · rw [h1, nearest_neg, hrep]
      have hint := floor_eq_self_of_rep_large |v| hrepa hge
      have hR1 : (2 : Int) ^ 52 ≤ ⌊|v|⌋ := by
        have : ((2 : Int) ^ 52 : ℚ) ≤ ((⌊|v|⌋ : Int) : ℚ) := by
          rw [hint]
          exact_mod_cast hge
        exact_mod_cast this
      have hR2 : ⌊|v|⌋ < (2 : Int) ^ 53 := by
        have : ((⌊|v|⌋ : Int) : ℚ) < ((2 : Int) ^ 53 : ℚ) := by
          rw [hint]
          exact_mod_cast hlt
        exact_mod_cast this
      have hnear := nearest_add_half_odd ⌊|v|⌋ hR1 hR2 hodd
      rw [hint] at hnear
      have hin : inInt64 (⌊|v|⌋ + 1) := by
        unfold inInt64
        constructor <;> omega
      have hin2 : inInt64 (-(⌊|v|⌋ + 1)) := by
        unfold inInt64
        constructor <;> omega
      rw [roundHalfAwayFromZero_eq] at h
      unfold round int64OfFloat Float64.sub Float64.add at h
      by_cases hx : v < 0
      · have habs : |v| = -v := abs_of_neg hx
        have hsub : v - 1 / 2 = -(|v| + 1 / 2) := by rw [habs]; ring
        simp only [hx, if_true] at h
        rw [hsub, nearest_neg, hnear] at h
        have ht : truncToInt (-((⌊|v|⌋ + 1 : Int) : ℚ)) = -(⌊|v|⌋ + 1) := by
          rw [truncToInt_neg_of_nonneg _ (by exact_mod_cast (by omega : (0 : Int) ≤ ⌊|v|⌋ + 1)),
            Int.floor_intCast]
        rw [ht, if_pos hin2, Int.ceil_neg] at h
        have hfl : ⌊|v| + 1 / 2⌋ = ⌊|v|⌋ := by
          rw [Int.floor_eq_iff, hint]
          constructor <;> linarith
        rw [hfl] at h
        omega
      · have habs : |v| = v := abs_of_nonneg (not_lt.mp hx)
        simp only [hx, if_false] at h
        rw [habs] at hnear hint hodd hR1 hR2 hin
        rw [hnear] at h
        have ht : truncToInt (((⌊v⌋ + 1 : Int) : ℚ)) = ⌊v⌋ + 1 := by
          rw [truncToInt_of_nonneg _ (by exact_mod_cast (by omega : (0 : Int) ≤ ⌊v⌋ + 1)),
            Int.floor_intCast]
        rw [ht, if_pos hin] at h
        have hfl : ⌊v + 1 / 2⌋ = ⌊v⌋ := by
          rw [Int.floor_eq_iff, hint]
          constructor <;> linarith
        rw [hfl] at h
        omega
  · rintro ⟨h1, h2⟩
    exact round_eq_roundHalfAwayFromZero v hrep hfit h1 h2

theorem MakeScaled_ok (a : Aggregation) (d : AggregationDouble) (t : DataType) (k : Nat)
    (hd : a.Double = some d) (hk : t.decimals = some k) :
    ∃ s, Aggregation.MakeScaled (some a) t
        = .ok (some { a with Scaled := some s, Double := none }) ∧
      ∀ st, s.slot st = makePtrEncFunc (10 ^ k) (d.slot st) := by
  cases t <;> simp only [DataType.decimals, Option.some.injEq, reduceCtorEq] at hk <;> subst hk <;>
    exact ⟨_, by simp only [Aggregation.MakeScaled, hd]; rfl,
      fun st => by cases st <;> norm_num [AggregationScaled.slot, AggregationDouble.slot, ptrEncFuncs]⟩

theorem MakeDouble_ok (defaultType : DataType) (a : Aggregation) (s : AggregationScaled)
    (k : Nat) (hs : a.Scaled = some s)
    (hk : (Aggregation.GetType defaultType (some a)).decimals = some k) :
    ∃ d, Aggregation.MakeDouble defaultType (some a)
        = .ok (some { a with Double := some d, Scaled := none }) ∧
      ∀ st, d.slot st = makePtrDecFunc (10 ^ k) (s.slot st) := by
  generalize ht : Aggregation.GetType defaultType (some a) = t at hk
  cases t <;> simp only [DataType.decimals, Option.some.injEq, reduceCtorEq] at hk <;> subst hk <;>
    exact ⟨_, by simp only [Aggregation.MakeDouble, ht, hs]; rfl,
      fun st => by cases st <;> norm_num [AggregationScaled.slot, AggregationDouble.slot, ptrDecFuncs]⟩

theorem inInt64_int64OfFloat (x : ℚ) : inInt64 (int64OfFloat x) := by
  unfold int64OfFloat
  split
  · assumption
  · unfold inInt64; norm_num

theorem inInt64_round (x : ℚ) : inInt64 (round x) := inInt64_int64OfFloat _

theorem wrapInt64_add_wrapInt64_sub (e x : Int) (hx : inInt64 x) :
    wrapInt64 (e + wrapInt64 (x - e)) = x := by
  unfold inInt64 at hx
  unfold wrapInt64
  omega

/-- Delta coding followed by accumulation gives back every value of the `int64`
range, `g` being applied to each accumulated value. -/
theorem deltaFold_roundtrip {β : Type} (g : Int → β) (xs : List Int)
    (hxs : ∀ x ∈ xs, inInt64 x) :
    ∃ e, xs.foldl (fun (st : Int × List Int) x => (x, st.2 ++ [wrapInt64 (x - st.1)])) (0, [])
          = (e, (xs.foldl (fun (st : Int × List Int) x =>
              (x, st.2 ++ [wrapInt64 (x - st.1)])) (0, [])).2) ∧
      (xs.foldl (fun (st : Int × List Int) x => (x, st.2 ++ [wrapInt64 (x - st.1)])) (0, [])).2.foldl
          (fun (st : Int × List β) d => (wrapInt64 (st.1 + d), st.2 ++ [g (wrapInt64 (st.1 + d))]))
          (0, [])
        = (e, xs.map g) := by
  induction xs using List.reverseRecOn with
  | nil => exact ⟨0, rfl, rfl⟩
  | append_singleton xs x ih =>
    obtain ⟨e, h1, h2⟩ := ih (fun y hy => hxs y (by simp [hy]))
    have hx : inInt64 x := hxs x (by simp)
    refine ⟨x, ?_, ?_⟩
    · simp only [List.foldl_append, List.foldl_cons, List.foldl_nil]
    · rw [List.foldl_append]
      rw [h1]
      simp only [List.foldl_cons, List.foldl_nil, List.foldl_append, h2,
        wrapInt64_add_wrapInt64_sub e x hx, List.map_append, List.map_cons, List.map_nil]

/-- A value beyond the `int64` range does not survive the codec: with type `INT64`
(k = 0) and `count = 10^19`, `MakeScaled` followed by `MakeDouble` succeeds and
leaves `-2^63` in the slot. -/
theorem MakeScaled_MakeDouble_out_of_range :
    ∃ a1 a2 d2,
      Aggregation.MakeScaled
          (some { Type_ := some .INT64, Double := some { Count := some (10 ^ 19) } }) .INT64
        = .ok (some a1) ∧
      Aggregation.MakeDouble .INT64 (some a1) = .ok (some a2) ∧
      a2.Double = some d2 ∧
      d2.slot .count = some (-9223372036854775808) ∧
      d2.slot .count ≠
        some ((roundHalfAwayFromZero ((10 : ℚ) ^ 19 * 10 ^ 0) : ℚ) / 10 ^ 0) := by
  refine ⟨_, _, _, rfl, rfl, rfl, ?_, ?_⟩
  · decide!
  · decide!

/-- Claim C4 as stated fails: the product `x * 10^k` is a `float64` product, rounded
before `round` sees it. The `float64` value nearest to 22.395 is
`6303632103435141 / 2^48`, just below 22.395, so `round_half_away_from_zero(x * 100)`
is 2239; the `float64` product is 2239.5 exactly, `MakeScaled` with type `SCALED2`
stores 2240 and `MakeDouble` gives back the `float64` value of 22.4, which is neither
`2239 / 100` nor the `float64` value nearest to it. -/
theorem MakeScaled_MakeDouble_counterexample :
    ∃ a1 s1 a2 d2,
      Float64.nearest (22395 / 1000) = 6303632103435141 / 281474976710656 ∧
      Float64.mul (6303632103435141 / 281474976710656) (10 ^ 2) = 4479 / 2 ∧
      Aggregation.MakeScaled
          (some { Type_ := some .SCALED2,
                  Double := some { Mean := some (6303632103435141 / 281474976710656) } })
          .SCALED2
        = .ok (some a1) ∧
      a1.Scaled = some s1 ∧
      s1.slot .mean = some 2240 ∧
      Aggregation.MakeDouble .SCALED2 (some a1) = .ok (some a2) ∧
      a2.Double = some d2 ∧
      d2.slot .mean = some (Float64.nearest (2240 / 100)) ∧
      roundHalfAwayFromZero ((6303632103435141 / 281474976710656 : ℚ) * 10 ^ 2) = 2239 ∧
      d2.slot .mean ≠
        some ((roundHalfAwayFromZero
          ((6303632103435141 / 281474976710656 : ℚ) * 10 ^ 2) : ℚ) / 10 ^ 2) ∧
      d2.slot .mean ≠
        some (Float64.nearest ((roundHalfAwayFromZero
          ((6303632103435141 / 281474976710656 : ℚ) * 10 ^ 2) : ℚ) / 10 ^ 2)) := by
  refine ⟨_, _, _, _, ?_, ?_, rfl, rfl, ?_, rfl, rfl, ?_, ?_, ?_, ?_⟩ <;> decide!

/-- Claim C4, amended: for every data type with `k` decimals and every one of the 26
stat slots, `MakeScaled` followed by `MakeDouble` maps an absent slot to an absent
slot and a present value `x` to the `float64` quotient
`round_half_away_from_zero(p) / 10^k`, where `p` is the `float64` product `x * 10^k`,
provided that rounding fits an `int64`, `|p|` is not the greatest `float64` value
below one half, and `p` is not an odd integer of absolute value from `2^52` to
`2^53`. -/
theorem MakeScaled_MakeDouble_slot (defaultType : DataType) (a : Aggregation)
    (d : AggregationDouble) (t : DataType) (k : Nat) (st : Stat)
    (hd : a.Double = some d)
    (ht : Aggregation.GetType defaultType (some a) = t)
    (hk : t.decimals = some k)
    (hfit : ∀ x, d.slot st = some x →
      inInt64 (roundHalfAwayFromZero (Float64.mul x (10 ^ k))) ∧
      |Float64.mul x (10 ^ k)| ≠ 1 / 2 - 1 / 2 ^ 54 ∧
      (2 ^ 52 ≤ |Float64.mul x (10 ^ k)| → |Float64.mul x (10 ^ k)| < 2 ^ 53 →
        ⌊|Float64.mul x (10 ^ k)|⌋ % 2 = 0)) :
    ∃ a1 a2 d2,
      Aggregation.MakeScaled (some a) t = .ok (some a1) ∧
      Aggregation.MakeDouble defaultType (some a1) = .ok (some a2) ∧
      a2.Double = some d2 ∧
      d2.slot st
        = (d.slot st).map (fun x =>
            Float64.div (roundHalfAwayFromZero (Float64.mul x (10 ^ k)) : ℚ) (10 ^ k)) := by
  obtain ⟨s, hs, hslot⟩ := MakeScaled_ok a d t k hd hk
  have ht1 : Aggregation.GetType defaultType
      (some { a with Scaled := some s, Double := none }) = t := ht
  obtain ⟨d2, hd2, hslot2⟩ := MakeDouble_ok defaultType
    { a with Scaled := some s, Double := none } s k rfl (by rw [ht1]; exact hk)
  refine ⟨_, _, d2, hs, hd2, rfl, ?_⟩
  rw [hslot2, hslot]
  cases hx : d.slot st with
  | none => rfl
  | some x =>
    obtain ⟨h1, h2, h3⟩ := hfit x hx
    have h4 := makeDecFunc_makeEncFunc (10 ^ k) x h1 h2 h3
    simp only [makeDecFunc, makeEncFunc] at h4
    simp only [makePtrEncFunc, makePtrDecFunc, Option.map_some', h4]

theorem MakeScaled_MakeDouble_slot_witness :
    ∃ a1 a2 d2,
      Aggregation.MakeScaled (some { Double := some { Mean := some (5 / 4) } }) .SCALED1
        = .ok (some a1) ∧
      Aggregation.MakeDouble .SCALED1 (some a1) = .ok (some a2) ∧
      a2.Double = some d2 ∧
      d2.slot .mean
        = (AggregationDouble.slot { Mean := some (5 / 4) } .mean).map
            (fun x =>
              Float64.div (roundHalfAwayFromZero (Float64.mul x (10 ^ 1)) : ℚ) (10 ^ 1)) :=
  MakeScaled_MakeDouble_slot .SCALED1 { Double := some { Mean := some (5 / 4) } }
    { Mean := some (5 / 4) } .SCALED1 1 .mean rfl rfl rfl
    (fun x hx => by
      have hx1 : x = 5 / 4 := by
        simp only [AggregationDouble.slot, Option.some.injEq] at hx
        exact hx.symm
      subst hx1
      refine ⟨?_, ?_, ?_⟩ <;> decide!)

theorem deltaCodec_roundtrip_aux (defaultType : DataType) (p : Points)
    (t : DataType) (scale : ℚ) (hempty : p.DeltaValuesScaled = [])
    (henc : Points.MakeDeltaValuesScaled (some p) t
      = some { p with
          DeltaValuesScaled := (p.ValuesDouble.foldl
            (fun (st : Int × List Int) valueDouble =>
              (makeEncFunc scale valueDouble,
                st.2 ++ [wrapInt64 (makeEncFunc scale valueDouble - st.1)]))
            (0, p.DeltaValuesScaled)).2,
          ValuesDouble := [] })
    (hdec : ∀ q : Points, q.Type_ = p.Type_ → Points.MakeValuesDouble defaultType (some q)
      = some { q with
          ValuesDouble := (q.DeltaValuesScaled.foldl
            (fun (st : Int × List ℚ) deltaValueScaled =>
              (wrapInt64 (st.1 + deltaValueScaled),
                st.2 ++ [makeDecFunc scale (wrapInt64 (st.1 + deltaValueScaled))]))
            (0, q.ValuesDouble)).2,
          DeltaValuesScaled := [] }) :
    ∃ p1 p2,
      Points.MakeDeltaValuesScaled (some p) t = some p1 ∧
      Points.MakeValuesDouble defaultType (some p1) = some p2 ∧
      p2.ValuesDouble
        = p.ValuesDouble.map (fun v => makeDecFunc scale (makeEncFunc scale v)) := by
  refine ⟨_, _, henc, hdec _ rfl, ?_⟩
  simp only [hempty]
  obtain ⟨e, -, h2⟩ := deltaFold_roundtrip (makeDecFunc scale)
    (p.ValuesDouble.map (makeEncFunc scale))
    (fun x hx => by
      obtain ⟨v, -, rfl⟩ := List.mem_map.mp hx
      exact inInt64_round _)
  rw [List.foldl_map] at h2
  rw [h2, List.map_map]
  rfl

theorem deltaCodec_roundtrip_enc (defaultType : DataType) (p : Points)
    (t : DataType) (k : Nat)
    (ht : Points.GetType defaultType (some p) = t) (hk : t.decimals = some k)
    (hempty : p.DeltaValuesScaled = []) :
    ∃ p1 p2,
      Points.MakeDeltaValuesScaled (some p) t = some p1 ∧
      Points.MakeValuesDouble defaultType (some p1) = some p2 ∧
      p2.ValuesDouble
        = p.ValuesDouble.map (fun v => makeDecFunc (10 ^ k) (makeEncFunc (10 ^ k) v)) := by
  have hget : ∀ q : Points, q.Type_ = p.Type_ →
      Points.GetType defaultType (some q) = t := by
    intro q hq
    rw [← ht]
    simp only [Points.GetType, hq]
  cases t <;> simp only [DataType.decimals, Option.some.injEq, reduceCtorEq] at hk <;>
    subst hk <;>
    refine deltaCodec_roundtrip_aux defaultType p _ _ hempty ?_ ?_
  all_goals first
    | (simp only [Points.MakeDeltaValuesScaled, encFuncs]; norm_num)
    | (intro q hq
       simp only [Points.MakeValuesDouble, hget q hq, decFuncs]; norm_num)

/-- A point value beyond the `int64` range does not survive the codec: with type
`INT64` (k = 0) the list `[10^19]` is coded and decoded to `[-2^63]`. -/
theorem MakeDeltaValuesScaled_MakeValuesDouble_out_of_range :
    ∃ p1 p2,
      Points.MakeDeltaValuesScaled (some { Type_ := some .INT64, ValuesDouble := [10 ^ 19] })
        .INT64 = some p1 ∧
      Points.MakeValuesDouble .INT64 (some p1) = some p2 ∧
      p2.ValuesDouble = [-9223372036854775808] ∧
      p2.ValuesDouble ≠
        [(10 : ℚ) ^ 19].map (fun v => (roundHalfAwayFromZero (v * 10 ^ 0) : ℚ) / 10 ^ 0) := by
  refine ⟨_, _, rfl, rfl, ?_, ?_⟩
  · decide!
  · decide!

/-- Claim C5 as stated fails: the product `vals[i] * 10^k` is a `float64` product,
rounded before `round` sees it. With type `SCALED2` the list of the `float64` values
nearest to 1.5 and 22.395 (the latter `6303632103435141 / 2^48`, just below 22.395,
whose product with 100 is 2239.5 in `float64`) is stored as the deltas `[150, 2090]`
and decoded to the `float64` values of 1.5 and 22.4, where `round(vals[1] * 100) / 100`
is 22.39. -/
theorem MakeDeltaValuesScaled_MakeValuesDouble_counterexample :
    ∃ p1 p2,
      Float64.nearest (22395 / 1000) = 6303632103435141 / 281474976710656 ∧
      Points.MakeDeltaValuesScaled
          (some { Type_ := some .SCALED2,
                  ValuesDouble := [3 / 2, 6303632103435141 / 281474976710656] })
          .SCALED2 = some p1 ∧
      p1.DeltaValuesScaled = [150, 2090] ∧
      Points.MakeValuesDouble .SCALED2 (some p1) = some p2 ∧
      p2.ValuesDouble = [3 / 2, Float64.nearest (2240 / 100)] ∧
      p2.ValuesDouble ≠
        ([3 / 2, 6303632103435141 / 281474976710656] : List ℚ).map
          (fun v => (roundHalfAwayFromZero (v * 10 ^ 2) : ℚ) / 10 ^ 2) ∧
      p2.ValuesDouble ≠
        ([3 / 2, 6303632103435141 / 281474976710656] : List ℚ).map
          (fun v => Float64.nearest ((roundHalfAwayFromZero (v * 10 ^ 2) : ℚ) / 10 ^ 2)) := by
  refine ⟨_, _, ?_, rfl, ?_, rfl, ?_, ?_, ?_⟩ <;> decide!

/-- Claim C5, amended: for every list of point values and every known data type with
`k` decimals, `MakeDeltaValuesScaled` (on a `Points` without deltas yet) followed by
`MakeValuesDouble` yields a list of the same length whose i-th element is the
`float64` quotient `round_half_away_from_zero(p) / 10^k`, where `p` is the `float64`
product `vals[i] * 10^k`, in the original order, provided that for every element
that rounding fits an `int64`, `|p|` is not the greatest `float64` value below one
half, and `p` is not an odd integer of absolute value from `2^52` to `2^53`. -/
theorem MakeDeltaValuesScaled_MakeValuesDouble (defaultType : DataType) (p : Points)
    (t : DataType) (k : Nat)
    (ht : Points.GetType defaultType (some p) = t) (hk : t.decimals = some k)
    (hempty : p.DeltaValuesScaled = [])
    (hfit : ∀ v ∈ p.ValuesDouble,
      inInt64 (roundHalfAwayFromZero (Float64.mul v (10 ^ k))) ∧
      |Float64.mul v (10 ^ k)| ≠ 1 / 2 - 1 / 2 ^ 54 ∧
      (2 ^ 52 ≤ |Float64.mul v (10 ^ k)| → |Float64.mul v (10 ^ k)| < 2 ^ 53 →
        ⌊|Float64.mul v (10 ^ k)|⌋ % 2 = 0)) :
    ∃ p1 p2,
      Points.MakeDeltaValuesScaled (some p) t = some p1 ∧
      Points.MakeValuesDouble defaultType (some p1) = some p2 ∧
      p2.ValuesDouble.length = p.ValuesDouble.length ∧
      p2.ValuesDouble
        = p.ValuesDouble.map (fun v =>
            Float64.div (roundHalfAwayFromZero (Float64.mul v (10 ^ k)) : ℚ) (10 ^ k)) := by
  obtain ⟨p1, p2, h1, h2, h3⟩ :=
    deltaCodec_roundtrip_enc defaultType p t k ht hk hempty
  have h4 : p2.ValuesDouble
      = p.ValuesDouble.map (fun v =>
          Float64.div (roundHalfAwayFromZero (Float64.mul v (10 ^ k)) : ℚ) (10 ^ k)) := by
    rw [h3]
    apply List.map_congr_left
    intro v hv
    obtain ⟨h5, h6, h7⟩ := hfit v hv
    exact makeDecFunc_makeEncFunc (10 ^ k) v h5 h6 h7
  exact ⟨p1, p2, h1, h2, by rw [h4, List.length_map], h4⟩

theorem MakeDeltaValuesScaled_MakeValuesDouble_witness :
    ∃ p1 p2,
      Points.MakeDeltaValuesScaled (some { ValuesDouble := [3 / 2, -1 / 4] }) .SCALED1
        = some p1 ∧
      Points.MakeValuesDouble .SCALED1 (some p1) = some p2 ∧
      p2.ValuesDouble.length = ([3 / 2, -1 / 4] : List ℚ).length ∧
      p2.ValuesDouble
        = ([3 / 2, -1 / 4] : List ℚ).map
            (fun v =>
              Float64.div (roundHalfAwayFromZero (Float64.mul v (10 ^ 1)) : ℚ) (10 ^ 1)) :=
  MakeDeltaValuesScaled_MakeValuesDouble .SCALED1 { ValuesDouble := [3 / 2, -1 / 4] }
    .SCALED1 1 rfl rfl rfl (by
      intro v hv
      simp only [List.mem_cons, List.mem_singleton, List.not_mem_nil, or_false] at hv
      rcases hv with rfl | rfl <;> refine ⟨?_, ?_, ?_⟩ <;> decide!)

/-- Claim C6: for every list of `int64` point timestamps, the delta list written by
`WriteRow` (each timestamp minus the previous one, the first minus 0) is decoded by
the accumulation of `ReadRow` to exactly the original list. -/
theorem ReadRow_timestamps_WriteRow_deltaTimestamps (timestamps : List Int)
    (h : ∀ ts ∈ timestamps, inInt64 ts) :
    ReadRow.timestamps (WriteRow.deltaTimestamps timestamps) = timestamps := by
  obtain ⟨e, -, h2⟩ := deltaFold_roundtrip id timestamps h
  unfold ReadRow.timestamps WriteRow.deltaTimestamps
  simp only [Int.add_comm _ (Prod.fst _)]
  simp only [id, List.map_id_fun] at h2
  rw [h2]

theorem ReadRow_timestamps_WriteRow_deltaTimestamps_witness :
    ReadRow.timestamps (WriteRow.deltaTimestamps [1383000000000, 1383000000500, 7])
      = [1383000000000, 1383000000500, 7] :=
  ReadRow_timestamps_WriteRow_deltaTimestamps [1383000000000, 1383000000500, 7] (by decide)

/-! ## Regression engine -/

theorem length_of_column {t : regressTable} {col : Int} {v : List (Option ℚ)}
    (h : regressTable.column t col = v.map some) : t.length = v.length := by
  have := congrArg List.length h
  simpa [regressTable.column] using this

theorem getRaw_of_column {t : regressTable} {col : Int} {v : List (Option ℚ)}
    (h : regressTable.column t col = v.map some) (i : Int) (h0 : 0 ≤ i)
    (h1 : i < v.length) :
    regressTable.getRaw t i col = .ok (v.getD i.toNat none) := by
  have hlen := length_of_column h
  have hi : i.toNat < v.length := by omega
  have hit : i.toNat < t.length := by omega
  have hc := congrArg (fun l => l[i.toNat]?) h
  simp only [regressTable.column, List.getElem?_map, List.getElem?_eq_getElem hi,
    List.getElem?_eq_getElem hit, Option.map_some', Option.some.injEq] at hc
  unfold regressTable.getRaw sliceIndex
  rw [if_neg (by omega), List.getElem?_eq_getElem hit]
  simp only
  cases hrow : t[i.toNat] with
  | none => rw [hrow] at hc; simp at hc
  | some row =>
    rw [hrow] at hc
    simp only at hc
    split at hc
    · simp at hc
    · rename_i hcol
      simp only [deref]
      rw [if_neg hcol, hc]
      simp [List.getD_eq_getElem?_getD, List.getElem?_eq_getElem hi]

theorem get_of_column_some {t : regressTable} {col : Int} {v : List (Option ℚ)}
    (h : regressTable.column t col = v.map some) (i : Int) (h0 : 0 ≤ i)
    (h1 : i < v.length) (x : ℚ) (hx : v.getD i.toNat none = some x) :
    regressTable.get t i col = .ok (x, true) := by
  unfold regressTable.get
  rw [getRaw_of_column h i h0 h1, hx]

theorem get_of_column_none {t : regressTable} {col : Int} {v : List (Option ℚ)}
    (h : regressTable.column t col = v.map some) (i : Int) (h0 : 0 ≤ i)
    (h1 : i < v.length) (hx : v.getD i.toNat none = none) :
    regressTable.get t i col = .ok (0, false) := by
  unfold regressTable.get
  rw [getRaw_of_column h i h0 h1, hx]

theorem getD_set_none (l : List (Option ℚ)) (i j : Nat) (a : Option ℚ) (hi : i < l.length) :
    (l.set i a).getD j none = if i = j then a else l.getD j none := by
  simp only [List.getD_eq_getElem?_getD, List.getElem?_set]
  by_cases hij : i = j
  · subst hij; simp [hi]
  · simp [hij]

/-- The loop of `computeVerifiedRegression`, when no iteration panics: the
entries of the visited indices are the stored values, every other entry is
untouched. -/
theorem computeLoop_spec (t : regressTable) (col : Int) (r : RegressionParams)
    (f : Int → Option ℚ) (k : Nat) (first : Int) (result : List (Option ℚ))
    (h0 : 0 ≤ first) (h1 : 0 < k → first + k ≤ result.length)
    (hf : ∀ n : Int, first ≤ n → n < first + k → regressTable.computeAt t col r n = .ok (f n)) :
    ∃ res, regressTable.computeLoop t col r k first result = .ok res ∧
      res.length = result.length ∧
      ∀ j : Nat, res.getD j none =
        if first ≤ (j : Int) ∧ (j : Int) < first + k then
          (match f j with
            | some x => some x
            | none => result.getD j none)
        else result.getD j none := by
  induction k generalizing first result with
  | zero =>
    refine ⟨result, rfl, rfl, fun j => ?_⟩
    rw [if_neg (by push_cast; omega)]
  | succ k ih =>
    have hfirst := hf first (le_refl _) (by push_cast; omega)
    have h1 := h1 (Nat.succ_pos k)
    unfold regressTable.computeLoop
    rw [hfirst]
    cases hv : f first with
    | none =>
      simp only
      obtain ⟨res, hres, hlen, hget⟩ := ih (first + 1) result (by omega)
        (fun _ => by push_cast at h1 ⊢; omega)
        (fun n hn1 hn2 => hf n (by omega) (by push_cast at hn2 ⊢; omega))
      refine ⟨res, hres, hlen, fun j => ?_⟩
      rw [hget j]
      by_cases hj : (j : Int) = first
      · rw [if_neg (by omega), if_pos (by push_cast; omega), hj, hv]
      · by_cases hr : first + 1 ≤ (j : Int) ∧ (j : Int) < first + 1 + k
        · rw [if_pos hr, if_pos (by push_cast; omega)]
        · rw [if_neg hr, if_neg (by push_cast; omega)]
    | some x =>
      simp only
      have hlt : first.toNat < result.length := by push_cast at h1; omega
      have hset : sliceSet result first (some x) = .ok (result.set first.toNat (some x)) := by
        unfold sliceSet
        rw [if_neg (by omega), if_pos hlt]
      rw [hset]
      simp only
      obtain ⟨res, hres, hlen, hget⟩ := ih (first + 1) (result.set first.toNat (some x))
        (by omega) (fun _ => by rw [List.length_set]; push_cast at h1 ⊢; omega)
        (fun n hn1 hn2 => hf n (by omega) (by push_cast at hn2 ⊢; omega))
      refine ⟨res, hres, by rw [hlen, List.length_set], fun j => ?_⟩
      rw [hget j, getD_set_none _ _ _ _ hlt]
      by_cases hj : (j : Int) = first
      · have hj2 : first.toNat = j := by omega
        rw [if_neg (by omega), if_pos hj2, if_pos (by push_cast; omega), hj, hv]
      · have hj2 : first.toNat ≠ j := by omega
        rw [if_neg hj2]
        by_cases hr : first + 1 ≤ (j : Int) ∧ (j : Int) < first + 1 + k
        · rw [if_pos hr, if_pos (by push_cast; omega)]
        · rw [if_neg hr, if_neg (by push_cast; omega)]

/-- The method `computeVerifiedRegression`, when no iteration panics: an array
of `len(t)` entries holding the stored value at every index of the loop range
and nil elsewhere. -/
theorem computeVerifiedRegression_spec (t : regressTable) (col : Int) (r : RegressionParams)
    (f : Int → Option ℚ) (h0 : 0 ≤ r.Window + r.Radius) (h1 : 1 ≤ r.Radius + r.Window)
    (hf : ∀ n : Int, r.Window + r.Radius ≤ n → n ≤ (t.length : Int) - r.Radius - r.Window →
      regressTable.computeAt t col r n = .ok (f n)) :
    ∃ res, regressTable.computeVerifiedRegression t col r = .ok res ∧
      res.length = t.length ∧
      ∀ j : Nat, res.getD j none =
        if r.Window + r.Radius ≤ (j : Int) ∧ (j : Int) ≤ (t.length : Int) - r.Radius - r.Window
        then f j else none := by
  obtain ⟨res, hres, hlen, hget⟩ := computeLoop_spec t col r f
    ((t.length : Int) - r.Radius - r.Window + 1 - (r.Window + r.Radius)).toNat
    (r.Window + r.Radius) (List.replicate t.length none) h0
    (fun hk => by rw [List.length_replicate]; omega)
    (fun n hn1 hn2 => hf n hn1 (by omega))
  refine ⟨res, hres, by rw [hlen, List.length_replicate], fun j => ?_⟩
  rw [hget j]
  have hrep : (List.replicate t.length (none : Option ℚ)).getD j none = none := by
    simp only [List.getD_eq_getElem?_getD, List.getElem?_replicate]
    split <;> rfl
  rw [hrep]
  by_cases hr : r.Window + r.Radius ≤ (j : Int) ∧
      (j : Int) ≤ (t.length : Int) - r.Radius - r.Window
  · rw [if_pos hr, if_pos (by omega)]
    cases f j <;> rfl
  · rw [if_neg hr, if_neg (by omega)]

theorem GetVerifiedRegression_no_threshold (t : regressTable) (col : Int) (r : RegressionParams)
    (res : List (Option ℚ)) (hPos : r.Pos = none) (hNeg : r.Neg = none)
    (h : regressTable.computeVerifiedRegression t col r = .ok res) :
    regressTable.GetVerifiedRegression t col r = .ok (some res) := by
  unfold regressTable.GetVerifiedRegression
  rw [h]
  simp [hPos, hNeg]

theorem computeAt_plain_delta {t : regressTable} {col : Int} {r : RegressionParams}
    {v : List (Option ℚ)} (hcol : regressTable.column t col = v.map some)
    (hR : r.Radius = 0) (hW : r.Window = 1) (hPct : r.UsePercent = false)
    (n : Int) (hn1 : 1 ≤ n) (hn2 : n < v.length) :
    regressTable.computeAt t col r n =
      .ok (match v.getD n.toNat none, v.getD (n - 1).toNat none with
        | some cur, some back => some (cur - back)
        | _, _ => none) := by
  unfold regressTable.computeAt
  simp only [hW, hR, hPct]
  cases hb : v.getD (n - 1).toNat none with
  | none =>
    rw [get_of_column_none hcol (n - 1) (by omega) (by omega) hb]
    cases v.getD n.toNat none <;> simp
  | some back =>
    rw [get_of_column_some hcol (n - 1) (by omega) (by omega) back hb]
    cases hc : v.getD n.toNat none with
    | none =>
      rw [get_of_column_none hcol n (by omega) hn2 hc]
      simp
    | some cur =>
      rw [get_of_column_some hcol n (by omega) hn2 cur hc]
      simp [regressTable.computeResult, hW, hR, hPct]

/-- Claim C7: with `Radius = 0`, `Window = 1`, no thresholds and `UsePercent` off,
for every column `v` of `N` values `GetVerifiedRegression` returns an array of
length `N` with `result[0]` absent and, for `1 ≤ n < N`, `result[n] = v[n] - v[n-1]`
when both are present and absent otherwise. -/
theorem GetVerifiedRegression_plain_delta (t : regressTable) (col : Int) (r : RegressionParams)
    (v : List (Option ℚ)) (hcol : regressTable.column t col = v.map some)
    (hR : r.Radius = 0) (hW : r.Window = 1) (hPos : r.Pos = none) (hNeg : r.Neg = none)
    (hPct : r.UsePercent = false) :
    ∃ result, regressTable.GetVerifiedRegression t col r = .ok (some result) ∧
      result.length = v.length ∧
      result.getD 0 none = none ∧
      ∀ n : Nat, 1 ≤ n → n < v.length →
        result.getD n none =
          (match v.getD n none, v.getD (n - 1) none with
            | some cur, some back => some (cur - back)
            | _, _ => none) := by
  have hlen := length_of_column hcol
  obtain ⟨res, hres, hl, hget⟩ := computeVerifiedRegression_spec t col r
    (fun n => match v.getD n.toNat none, v.getD (n - 1).toNat none with
      | some cur, some back => some (cur - back)
      | _, _ => none)
    (by rw [hR, hW]; decide) (by rw [hR, hW]; decide)
    (fun n hn1 hn2 => computeAt_plain_delta hcol hR hW hPct n
      (by rw [hR, hW] at hn1; omega) (by rw [hR, hW] at hn2; omega))
  refine ⟨res, GetVerifiedRegression_no_threshold t col r res hPos hNeg hres,
    by rw [hl, hlen], ?_, fun n hn1 hn2 => ?_⟩
  · rw [hget 0, if_neg (by rw [hR, hW]; simp)]
  · rw [hget n, if_pos (by rw [hR, hW]; omega)]
    have : ((n : Int) - 1).toNat = n - 1 := by omega
    simp only [Int.toNat_ofNat, this]

theorem GetVerifiedRegression_plain_delta_witness :
    ∃ result, regressTable.GetVerifiedRegression
        (makeTestTable [some 1, some 2, none, some 3]) 0 { Radius := 0, Window := 1 }
        = .ok (some result) ∧
      result.length = [some (1 : ℚ), some 2, none, some 3].length ∧
      result.getD 0 none = none ∧
      ∀ n : Nat, 1 ≤ n → n < [some (1 : ℚ), some 2, none, some 3].length →
        result.getD n none =
          (match [some (1 : ℚ), some 2, none, some 3].getD n none,
              [some (1 : ℚ), some 2, none, some 3].getD (n - 1) none with
            | some cur, some back => some (cur - back)
            | _, _ => none) :=
  GetVerifiedRegression_plain_delta (makeTestTable [some 1, some 2, none, some 3]) 0
    { Radius := 0, Window := 1 } [some 1, some 2, none, some 3] rfl rfl rfl rfl rfl rfl

theorem minFloat64_eq_min (a b : ℚ) : minFloat64 a b = min a b := by
  unfold minFloat64
  rcases lt_trichotomy a b with h | h | h
  · rw [if_pos h, min_eq_left h.le]
  · subst h; simp
  · rw [if_neg (not_lt.mpr h.le), min_eq_right h.le]

theorem maxFloat64_eq_max (a b : ℚ) : maxFloat64 a b = max a b := by
  unfold maxFloat64
  rcases lt_trichotomy a b with h | h | h
  · rw [if_neg (not_lt.mpr h.le), max_eq_right h.le]
  · subst h; simp
  · rw [if_pos h, max_eq_left h.le]

theorem clampNeg_eq_max (x : ℚ) : (if x < 0 then 0 else x) = max x 0 := by
  split
  · rename_i h; rw [max_eq_right h.le]
  · rename_i h; rw [max_eq_left (not_lt.mp h)]

theorem clampPos_eq_min (x : ℚ) : (if x > 0 then 0 else x) = min x 0 := by
  split
  · rename_i h; rw [min_eq_right (le_of_lt h)]
  · rename_i h; rw [min_eq_left (not_lt.mp h)]

theorem computeAt_window {t : regressTable} {col : Int} {r : RegressionParams}
    {v : List (Option ℚ)} (hcol : regressTable.column t col = v.map some) (w : Nat)
    (hR : r.Radius = 0) (hW : r.Window = w) (hw : 1 < w) (hPct : r.UsePercent = false)
    (n : Int) (hn1 : (w : Int) ≤ n) (hn2 : n + w ≤ v.length) :
    regressTable.computeAt t col r n =
      .ok (match v.getD (n - w).toNat none, v.getD n.toNat none,
          v.getD (n + w - 1).toNat none, v.getD (n - 1).toNat none with
        | some back, some cur, some fwd, some m1 =>
          some (if cur - back > 0 then min (cur - back) (max (fwd - m1) 0)
            else max (cur - back) (min (fwd - m1) 0))
        | _, _, _, _ => none) := by
  have hw1 : ¬ ((w : Int) = 1) := by omega
  unfold regressTable.computeAt
  simp only [hW, hR, hPct]
  cases hb : v.getD (n - w).toNat none with
  | none =>
    rw [get_of_column_none hcol (n - w) (by omega) (by omega) hb]
    simp
  | some back =>
    rw [get_of_column_some hcol (n - w) (by omega) (by omega) back hb]
    cases hc : v.getD n.toNat none with
    | none =>
      rw [get_of_column_none hcol n (by omega) (by omega) hc]
      simp
    | some cur =>
      rw [get_of_column_some hcol n (by omega) (by omega) cur hc]
      simp only [Bool.not_true, Bool.false_eq_true, if_false, Bool.false_and, ne_eq,
        not_true_eq_false, regressTable.computeResult, hW, hR, hPct, hw1, if_true]
      cases hf : v.getD (n + w - 1).toNat none with
      | none =>
        rw [get_of_column_none hcol (n + w - 1) (by omega) (by omega) hf]
        simp
      | some fwd =>
        rw [get_of_column_some hcol (n + w - 1) (by omega) (by omega) fwd hf]
        cases hm : v.getD (n - 1).toNat none with
        | none =>
          rw [get_of_column_none hcol (n - 1) (by omega) (by omega) hm]
          simp
        | some m1 =>
          rw [get_of_column_some hcol (n - 1) (by omega) (by omega) m1 hm]
          simp only [Bool.not_true, Bool.false_eq_true, if_false, minFloat64_eq_min,
            maxFloat64_eq_max, clampNeg_eq_max, clampPos_eq_min]

/-- Claim C8: with `Radius = 0` and `Window = W > 1` (no thresholds, no percent), for
every index `n` in `[W, N-W]`: when `v[n-W]`, `v[n]`, `v[n+W-1]` and `v[n-1]` are
present, with `backDelta = v[n] - v[n-W]` and `fwdDelta = v[n+W-1] - v[n-1]`,
`result[n] = min(backDelta, max(fwdDelta, 0))` if `backDelta > 0` and
`max(backDelta, min(fwdDelta, 0))` otherwise; `result[n]` is absent when one of the
four values is absent. -/
theorem GetVerifiedRegression_window (t : regressTable) (col : Int) (r : RegressionParams)
    (v : List (Option ℚ)) (w : Nat) (hcol : regressTable.column t col = v.map some)
    (hR : r.Radius = 0) (hW : r.Window = w) (hw : 1 < w) (hPos : r.Pos = none)
    (hNeg : r.Neg = none) (hPct : r.UsePercent = false) :
    ∃ result, regressTable.GetVerifiedRegression t col r = .ok (some result) ∧
      result.length = v.length ∧
      ∀ n : Nat, w ≤ n → n + w ≤ v.length →
        result.getD n none =
          (match v.getD (n - w) none, v.getD n none, v.getD (n + w - 1) none,
              v.getD (n - 1) none with
            | some back, some cur, some fwd, some m1 =>
              some (if cur - back > 0 then min (cur - back) (max (fwd - m1) 0)
                else max (cur - back) (min (fwd - m1) 0))
            | _, _, _, _ => none) := by
  have hlen := length_of_column hcol
  obtain ⟨res, hres, hl, hget⟩ := computeVerifiedRegression_spec t col r
    (fun n => match v.getD (n - w).toNat none, v.getD n.toNat none,
          v.getD (n + w - 1).toNat none, v.getD (n - 1).toNat none with
        | some back, some cur, some fwd, some m1 =>
          some (if cur - back > 0 then min (cur - back) (max (fwd - m1) 0)
            else max (cur - back) (min (fwd - m1) 0))
        | _, _, _, _ => none)
    (by rw [hR, hW]; omega) (by rw [hR, hW]; omega)
    (fun n hn1 hn2 => computeAt_window hcol w hR hW hw hPct n
      (by rw [hR, hW] at hn1; omega) (by rw [hR, hW] at hn2; omega))
  refine ⟨res, GetVerifiedRegression_no_threshold t col r res hPos hNeg hres,
    by rw [hl, hlen], fun n hn1 hn2 => ?_⟩
  rw [hget n, if_pos (by rw [hR, hW]; omega)]
  have e1 : ((n : Int) - w).toNat = n - w := by omega
  have e2 : ((n : Int) + w - 1).toNat = n + w - 1 := by omega
  have e3 : ((n : Int) - 1).toNat = n - 1 := by omega
  simp only [Int.toNat_ofNat, e1, e2, e3]

theorem GetVerifiedRegression_window_witness :
    ∃ result, regressTable.GetVerifiedRegression
        (makeTestTable [some 1, some 2, some 3, some 1, none]) 0 { Radius := 0, Window := 2 }
        = .ok (some result) ∧
      result.length = [some (1 : ℚ), some 2, some 3, some 1, none].length ∧
      ∀ n : Nat, 2 ≤ n → n + 2 ≤ [some (1 : ℚ), some 2, some 3, some 1, none].length →
        result.getD n none =
          (match [some (1 : ℚ), some 2, some 3, some 1, none].getD (n - 2) none,
              [some (1 : ℚ), some 2, some 3, some 1, none].getD n none,
              [some (1 : ℚ), some 2, some 3, some 1, none].getD (n + 2 - 1) none,
              [some (1 : ℚ), some 2, some 3, some 1, none].getD (n - 1) none with
            | some back, some cur, some fwd, some m1 =>
              some (if cur - back > 0 then min (cur - back) (max (fwd - m1) 0)
                else max (cur - back) (min (fwd - m1) 0))
            | _, _, _, _ => none) :=
  GetVerifiedRegression_window (makeTestTable [some 1, some 2, some 3, some 1, none]) 0
    { Radius := 0, Window := 2 } [some 1, some 2, some 3, some 1, none] 2 rfl rfl rfl
    (by decide) rfl rfl rfl

/-- The min/max loops of `getConfirmedDeltas` over present cells `c i, ..., c (i+k-1)`:
the running maximum and minimum are extended to these cells. -/
theorem scanMinMax_present (t : regressTable) (col base : Int) (c : Int → ℚ) (k : Nat)
    (i : Int) (maxV minV : ℚ) (hle : minV ≤ maxV)
    (hget : ∀ j : Int, i ≤ j → j < i + k → regressTable.get t (base + j) col = .ok (c j, true)) :
    ∃ mx mn, regressTable.scanMinMax t col base k i maxV minV = .ok (some (mx, mn)) ∧
      mn ≤ mx ∧
      (mx = maxV ∨ ∃ j : Int, i ≤ j ∧ j < i + k ∧ mx = c j) ∧
      maxV ≤ mx ∧ (∀ j : Int, i ≤ j → j < i + k → c j ≤ mx) ∧
      (mn = minV ∨ ∃ j : Int, i ≤ j ∧ j < i + k ∧ mn = c j) ∧
      mn ≤ minV ∧ (∀ j : Int, i ≤ j → j < i + k → mn ≤ c j) := by
  induction k generalizing i maxV minV with
  | zero =>
    refine ⟨maxV, minV, rfl, hle, Or.inl rfl, le_refl _, ?_, Or.inl rfl, le_refl _, ?_⟩
    · intro j h1 h2; simp at h2; omega
    · intro j h1 h2; simp at h2; omega
  | succ k ih =>
    have hi := hget i (le_refl _) (by push_cast; omega)
    have hrest : ∀ j : Int, i + 1 ≤ j → j < i + 1 + k →
        regressTable.get t (base + j) col = .ok (c j, true) :=
      fun j h1 h2 => hget j (by omega) (by push_cast; omega)
    unfold regressTable.scanMinMax
    rw [hi]
    simp only [Bool.not_true, Bool.false_eq_true, if_false]
    by_cases h1 : c i > maxV
    · rw [if_pos h1]
      obtain ⟨mx, mn, hs, hmm, hmx, hmxle, hmxall, hmn, hmnle, hmnall⟩ :=
        ih (i + 1) (c i) minV (by linarith) hrest
      refine ⟨mx, mn, hs, hmm, ?_, by linarith, ?_, ?_, hmnle, ?_⟩
      · rcases hmx with h | ⟨j, hj1, hj2, hj3⟩
        · exact Or.inr ⟨i, le_refl _, by push_cast; omega, h⟩
        · exact Or.inr ⟨j, by omega, by push_cast; omega, hj3⟩
      · intro j hj1 hj2
        rcases eq_or_lt_of_le hj1 with h | h
        · rw [← h]; exact hmxle
        · exact hmxall j (by omega) (by push_cast at hj2; omega)
      · rcases hmn with h | ⟨j, hj1, hj2, hj3⟩
        · exact Or.inl h
        · exact Or.inr ⟨j, by omega, by push_cast; omega, hj3⟩
      · intro j hj1 hj2
        rcases eq_or_lt_of_le hj1 with h | h
        · rw [← h]; linarith
        · exact hmnall j (by omega) (by push_cast at hj2; omega)
    · rw [if_neg h1]
      by_cases h2 : c i < minV
      · rw [if_pos h2]
        obtain ⟨mx, mn, hs, hmm, hmx, hmxle, hmxall, hmn, hmnle, hmnall⟩ :=
          ih (i + 1) maxV (c i) (by linarith) hrest
        refine ⟨mx, mn, hs, hmm, ?_, hmxle, ?_, ?_, by linarith, ?_⟩
        · rcases hmx with h | ⟨j, hj1, hj2, hj3⟩
          · exact Or.inl h
          · exact Or.inr ⟨j, by omega, by push_cast; omega, hj3⟩
        · intro j hj1 hj2
          rcases eq_or_lt_of_le hj1 with h | h
          · rw [← h]; linarith
          · exact hmxall j (by omega) (by push_cast at hj2; omega)
        · rcases hmn with h | ⟨j, hj1, hj2, hj3⟩
          · exact Or.inr ⟨i, le_refl _, by push_cast; omega, h⟩
          · exact Or.inr ⟨j, by omega, by push_cast; omega, hj3⟩
        · intro j hj1 hj2
          rcases eq_or_lt_of_le hj1 with h | h
          · rw [← h]; exact hmnle
          · exact hmnall j (by omega) (by push_cast at hj2; omega)
      · rw [if_neg h2]
        obtain ⟨mx, mn, hs, hmm, hmx, hmxle, hmxall, hmn, hmnle, hmnall⟩ :=
          ih (i + 1) maxV minV hle hrest
        refine ⟨mx, mn, hs, hmm, ?_, hmxle, ?_, ?_, hmnle, ?_⟩
        · rcases hmx with h | ⟨j, hj1, hj2, hj3⟩
          · exact Or.inl h
          · exact Or.inr ⟨j, by omega, by push_cast; omega, hj3⟩
        · intro j hj1 hj2
          rcases eq_or_lt_of_le hj1 with h | h
          · rw [← h]; linarith
          · exact hmxall j (by omega) (by push_cast at hj2; omega)
        · rcases hmn with h | ⟨j, hj1, hj2, hj3⟩
          · exact Or.inl h
          · exact Or.inr ⟨j, by omega, by push_cast; omega, hj3⟩
        · intro j hj1 hj2
          rcases eq_or_lt_of_le hj1 with h | h
          · rw [← h]; linarith
          · exact hmnall j (by omega) (by push_cast at hj2; omega)

/-- The method `getConfirmedDeltas` when the `R` points before the back point and
the `R` points after the current point are all present: the confirmed deltas are
built from the minimum and maximum of each group. -/
theorem getConfirmedDeltas_present {t : regressTable} {col : Int} {v : List (Option ℚ)}
    (hcol : regressTable.column t col = v.map some) (R : Nat) (hR : 1 ≤ R) (n : Int)
    (hn1 : 1 + (R : Int) ≤ n) (hn2 : n + R < v.length) (c : Int → ℚ)
    (hback : ∀ j : Int, n - 1 - R ≤ j → j < n - 1 → v.getD j.toNat none = some (c j))
    (hfwd : ∀ j : Int, n < j → j ≤ n + R → v.getD j.toNat none = some (c j)) :
    ∃ minBack maxBack minFwd maxFwd : ℚ,
      (∃ j : Int, n - 1 - R ≤ j ∧ j < n - 1 ∧ minBack = c j) ∧
      (∀ j : Int, n - 1 - R ≤ j → j < n - 1 → minBack ≤ c j) ∧
      (∃ j : Int, n - 1 - R ≤ j ∧ j < n - 1 ∧ maxBack = c j) ∧
      (∀ j : Int, n - 1 - R ≤ j → j < n - 1 → c j ≤ maxBack) ∧
      (∃ j : Int, n < j ∧ j ≤ n + R ∧ minFwd = c j) ∧
      (∀ j : Int, n < j → j ≤ n + R → minFwd ≤ c j) ∧
      (∃ j : Int, n < j ∧ j ≤ n + R ∧ maxFwd = c j) ∧
      (∀ j : Int, n < j → j ≤ n + R → c j ≤ maxFwd) ∧
      regressTable.getConfirmedDeltas t col n (n - 1) R
        = .ok (max 0 (minFwd - maxBack), min 0 (maxFwd - minBack), true) := by
  have hk : ((R : Int) - 1).toNat = R - 1 := by omega
  have hg : ∀ j : Int, (n - 1 - R ≤ j ∧ j < n - 1) ∨ (n < j ∧ j ≤ n + R) →
      regressTable.get t j col = .ok (c j, true) := by
    intro j hj
    rcases hj with ⟨h1, h2⟩ | ⟨h1, h2⟩
    · exact get_of_column_some hcol j (by omega) (by omega) _ (hback j h1 h2)
    · exact get_of_column_some hcol j (by omega) (by omega) _ (hfwd j h1 h2)
  obtain ⟨mxB, mnB, hsB, -, hmxB, hmxBle, hmxBall, hmnB, hmnBle, hmnBall⟩ :=
    scanMinMax_present t col (n - 1 - R) (fun j => c (n - 1 - R + j)) (R - 1) 1
      (c (n - 1 - R)) (c (n - 1 - R)) (le_refl _)
      (fun j h1 h2 => hg _ (Or.inl ⟨by omega, by omega⟩))
  obtain ⟨mxF, mnF, hsF, -, hmxF, hmxFle, hmxFall, hmnF, hmnFle, hmnFall⟩ :=
    scanMinMax_present t col (n + 1) (fun j => c (n + 1 + j)) (R - 1) 1
      (c (n + 1)) (c (n + 1)) (le_refl _)
      (fun j h1 h2 => hg _ (Or.inr ⟨by omega, by omega⟩))
  refine ⟨mnB, mxB, mnF, mxF, ?_, ?_, ?_, ?_, ?_, ?_, ?_, ?_, ?_⟩
  · rcases hmnB with h | ⟨j, h1, h2, h3⟩
    · exact ⟨n - 1 - R, by omega, by omega, h⟩
    · exact ⟨n - 1 - R + j, by omega, by omega, h3⟩
  · intro j h1 h2
    rcases eq_or_lt_of_le h1 with h | h
    · rw [← h]; exact hmnBle
    · have := hmnBall (j - (n - 1 - R)) (by omega) (by omega)
      simpa using this
  · rcases hmxB with h | ⟨j, h1, h2, h3⟩
    · exact ⟨n - 1 - R, by omega, by omega, h⟩
    · exact ⟨n - 1 - R + j, by omega, by omega, h3⟩
  · intro j h1 h2
    rcases eq_or_lt_of_le h1 with h | h
    · rw [← h]; exact hmxBle
    · have := hmxBall (j - (n - 1 - R)) (by omega) (by omega)
      simpa using this
  · rcases hmnF with h | ⟨j, h1, h2, h3⟩
    · exact ⟨n + 1, by omega, by omega, h⟩
    · exact ⟨n + 1 + j, by omega, by omega, h3⟩
  · intro j h1 h2
    rcases eq_or_lt_of_le (show n + 1 ≤ j by omega) with h | h
    · rw [← h]; exact hmnFle
    · have := hmnFall (j - (n + 1)) (by omega) (by omega)
      simpa using this
  · rcases hmxF with h | ⟨j, h1, h2, h3⟩
    · exact ⟨n + 1, by omega, by omega, h⟩
    · exact ⟨n + 1 + j, by omega, by omega, h3⟩
  · intro j h1 h2
    rcases eq_or_lt_of_le (show n + 1 ≤ j by omega) with h | h
    · rw [← h]; exact hmxFle
    · have := hmxFall (j - (n + 1)) (by omega) (by omega)
      simpa using this
  · unfold regressTable.getConfirmedDeltas
    rw [hg (n - 1 - R) (Or.inl ⟨by omega, by omega⟩)]
    simp only [Bool.not_true, Bool.false_eq_true, if_false, hk, hsB]
    rw [getRaw_of_column hcol (n + 1) (by omega) (by omega),
      hfwd (n + 1) (by omega) (by omega)]
    simp only [deref, hsF]
    rw [clampNeg_eq_max, clampPos_eq_min, max_comm, min_comm]

/-- One iteration of the loop with `Window = 1` and `Radius = R ≥ 1` at an index
whose back point, current point and `2R` confirmation points are present: the
stored value is the back delta limited by the confirmed delta of its sign. -/
theorem computeAt_radius_present {t : regressTable} {col : Int} {r : RegressionParams}
    {v : List (Option ℚ)} (hcol : regressTable.column t col = v.map some) (R : Nat)
    (hR : r.Radius = R) (hR1 : 1 ≤ R) (hW : r.Window = 1) (hPct : r.UsePercent = false)
    (n : Int) (hn1 : 1 + (R : Int) ≤ n) (hn2 : n + R < v.length) (c : Int → ℚ)
    (hpres : ∀ j : Int, n - 1 - R ≤ j → j ≤ n + R → v.getD j.toNat none = some (c j)) :
    ∃ minBack maxBack minFwd maxFwd : ℚ,
      (∃ j : Int, n - 1 - R ≤ j ∧ j < n - 1 ∧ minBack = c j) ∧
      (∀ j : Int, n - 1 - R ≤ j → j < n - 1 → minBack ≤ c j) ∧
      (∃ j : Int, n - 1 - R ≤ j ∧ j < n - 1 ∧ maxBack = c j) ∧
      (∀ j : Int, n - 1 - R ≤ j → j < n - 1 → c j ≤ maxBack) ∧
      (∃ j : Int, n < j ∧ j ≤ n + R ∧ minFwd = c j) ∧
      (∀ j : Int, n < j → j ≤ n + R → minFwd ≤ c j) ∧
      (∃ j : Int, n < j ∧ j ≤ n + R ∧ maxFwd = c j) ∧
      (∀ j : Int, n < j → j ≤ n + R → c j ≤ maxFwd) ∧
      regressTable.computeAt t col r n
        = .ok (some (if c n - c (n - 1) > 0
            then min (c n - c (n - 1)) (max 0 (minFwd - maxBack))
            else max (c n - c (n - 1)) (min 0 (maxFwd - minBack)))) := by
  obtain ⟨mnB, mxB, mnF, mxF, h1, h2, h3, h4, h5, h6, h7, h8, hconf⟩ :=
    getConfirmedDeltas_present hcol R hR1 n hn1 hn2 c
      (fun j a b => hpres j a (by omega)) (fun j a b => hpres j (by omega) b)
  refine ⟨mnB, mxB, mnF, mxF, h1, h2, h3, h4, h5, h6, h7, h8, ?_⟩
  have hR0 : ¬ ((R : Int) = 0) := by omega
  unfold regressTable.computeAt
  simp only [hW, hR, hPct]
  rw [get_of_column_some hcol (n - 1) (by omega) (by omega) _ (hpres (n - 1) (by omega) (by omega)),
    get_of_column_some hcol n (by omega) (by omega) _ (hpres n (by omega) (by omega))]
  simp only [Bool.not_true, Bool.false_eq_true, if_false, Bool.false_and, ne_eq, hR0,
    not_false_eq_true, if_true, hconf, regressTable.computeResult, hW, hR, hPct,
    minFloat64_eq_min, maxFloat64_eq_max]

/-- With `Window = 1` and `Radius = R ≥ 1` (no thresholds, no percent), on a column
all of whose cells are present `GetVerifiedRegression` returns an array in which, for
every index `n` in `[1+R, N-R-1]`, `result[n] = min(backDelta, max(0, minFwd - maxBack))`
if `backDelta > 0` and `max(backDelta, min(0, maxFwd - minBack))` otherwise, the
minima and maxima being those of `v[n-1-R .. n-2]` and of `v[n+1 .. n+R]`. -/
theorem GetVerifiedRegression_radius_all_present (t : regressTable) (col : Int)
    (r : RegressionParams) (v : List (Option ℚ)) (R : Nat)
    (hcol : regressTable.column t col = v.map some)
    (hR : r.Radius = R) (hR1 : 1 ≤ R) (hW : r.Window = 1) (hPos : r.Pos = none)
    (hNeg : r.Neg = none) (hPct : r.UsePercent = false) (c : Int → ℚ)
    (hall : ∀ j : Int, 0 ≤ j → j < v.length → v.getD j.toNat none = some (c j)) :
    ∃ result, regressTable.GetVerifiedRegression t col r = .ok (some result) ∧
      result.length = v.length ∧
      ∀ n : Nat, 1 + R ≤ n → n + R + 1 ≤ v.length →
        ∃ minBack maxBack minFwd maxFwd : ℚ,
          (∃ j : Int, (n : Int) - 1 - R ≤ j ∧ j < (n : Int) - 1 ∧ minBack = c j) ∧
          (∀ j : Int, (n : Int) - 1 - R ≤ j → j < (n : Int) - 1 → minBack ≤ c j) ∧
          (∃ j : Int, (n : Int) - 1 - R ≤ j ∧ j < (n : Int) - 1 ∧ maxBack = c j) ∧
          (∀ j : Int, (n : Int) - 1 - R ≤ j → j < (n : Int) - 1 → c j ≤ maxBack) ∧
          (∃ j : Int, (n : Int) < j ∧ j ≤ (n : Int) + R ∧ minFwd = c j) ∧
          (∀ j : Int, (n : Int) < j → j ≤ (n : Int) + R → minFwd ≤ c j) ∧
          (∃ j : Int, (n : Int) < j ∧ j ≤ (n : Int) + R ∧ maxFwd = c j) ∧
          (∀ j : Int, (n : Int) < j → j ≤ (n : Int) + R → c j ≤ maxFwd) ∧
          result.getD n none
            = some (if c n - c ((n : Int) - 1) > 0
                then min (c n - c ((n : Int) - 1)) (max 0 (minFwd - maxBack))
                else max (c n - c ((n : Int) - 1)) (min 0 (maxFwd - minBack))) := by
  have hlen := length_of_column hcol
  have hat : ∀ n : Int, 1 + (R : Int) ≤ n → n + R < v.length → _ :=
    fun n hn1 hn2 => computeAt_radius_present hcol R hR hR1 hW hPct n hn1 hn2 c
      (fun j a b => hall j (by omega) (by omega))
  obtain ⟨res, hres, hl, hget⟩ := computeVerifiedRegression_spec t col r
    (fun n => match regressTable.computeAt t col r n with
      | .ok x => x
      | .error _ => none)
    (by rw [hR, hW]; omega) (by rw [hR, hW]; omega)
    (fun n hn1 hn2 => by
      rw [hR, hW] at hn1 hn2
      obtain ⟨_, _, _, _, _, _, _, _, _, _, _, _, h⟩ := hat n (by omega) (by omega)
      simp only [h])
  refine ⟨res, GetVerifiedRegression_no_threshold t col r res hPos hNeg hres,
    by rw [hl, hlen], fun n hn1 hn2 => ?_⟩
  obtain ⟨mnB, mxB, mnF, mxF, h1, h2, h3, h4, h5, h6, h7, h8, h⟩ :=
    hat n (by omega) (by omega)
  refine ⟨mnB, mxB, mnF, mxF, h1, h2, h3, h4, h5, h6, h7, h8, ?_⟩
  rw [hget n, if_pos (by rw [hR, hW]; omega), h]

/-- Claim C9 fails on the code through the unchecked dereference of
`getConfirmedDeltas`: on the column `[1, 1, 1, 1, 1, nil, 1, 1]` with `Window = 1` and
`Radius = 1`, index 2 has its back point, current point and both confirmation points
present, yet no result is returned: the iteration at index 4 dereferences the absent
cell 5 and the call panics. -/
theorem GetVerifiedRegression_radius_panics :
    regressTable.GetVerifiedRegression
        (makeTestTable [some 1, some 1, some 1, some 1, some 1, none, some 1, some 1]) 0
        { Radius := 1, Window := 1 }
      = .error Panic.nilDeref := by
  with_unfolding_all rfl

/-- Claim C10 fails on the code: on the column `[1, 1, 1, nil, 1]` with `Window = 1`
and `Radius = 1`, the point after the current point of index 2 is absent and the
computation panics instead of skipping the index, whereas an absent point before
the back point (column `[nil, 1, 1, 1, 1]`) is skipped as the claim says. -/
theorem computeVerifiedRegression_forward_absent_panics :
    regressTable.computeVerifiedRegression
        (makeTestTable [some 1, some 1, some 1, none, some 1]) 0 { Radius := 1, Window := 1 }
      = .error Panic.nilDeref ∧
    regressTable.computeVerifiedRegression
        (makeTestTable [none, some 1, some 1, some 1, some 1]) 0 { Radius := 1, Window := 1 }
      = .ok [none, none, none, some 0, none] := by
  constructor <;> with_unfolding_all rfl

/-! ## Regression engine: percent output and thresholds -/

theorem computeResult_percent (t : regressTable) (col : Int) (r : RegressionParams) (n : Int)
    (back backDelta confDeltaPos confDeltaNeg : ℚ) (hP : r.UsePercent = true) :
    regressTable.computeResult t col r n back backDelta confDeltaPos confDeltaNeg =
      (match regressTable.computeResult t col { r with UsePercent := false } n back backDelta
          confDeltaPos confDeltaNeg with
        | .error e => .error e
        | .ok none => .ok none
        | .ok (some a) => .ok (some (a / |back| * 100))) := by
  unfold regressTable.computeResult
  simp only [hP, if_true, Bool.false_eq_true, if_false]
  by_cases hW : r.Window = 1
  · simp only [hW, if_true]
  · simp only [hW, if_false]
    cases regressTable.get t (n + r.Window - 1) col with
    | error e => rfl
    | ok p =>
      obtain ⟨nFwdVal, ok⟩ := p
      cases ok with
      | false => rfl
      | true =>
        simp only [Bool.not_true, Bool.false_eq_true, if_false]
        cases regressTable.get t (n - 1) col with
        | error e => rfl
        | ok q =>
          obtain ⟨nM1Val, ok2⟩ := q
          cases ok2 with
          | false => rfl
          | true => simp only [Bool.not_true, Bool.false_eq_true, if_false]

/-- The iteration of `computeVerifiedRegression` at index `n` with `UsePercent` set:
nil when the back or the current point is absent or the skip condition holds, and
otherwise what the same iteration gives with `UsePercent` off, a panic being a panic
and a value being divided by `|back|` and multiplied by 100. -/
theorem computeAt_percent_eq {t : regressTable} {col : Int} {r : RegressionParams}
    {v : List (Option ℚ)} (hcol : regressTable.column t col = v.map some)
    (hP : r.UsePercent = true) (n : Int) (h0 : 0 ≤ n - r.Window) (hW : 1 ≤ r.Window)
    (h1 : n < v.length) :
    regressTable.computeAt t col r n =
      match v.getD (n - r.Window).toNat none, v.getD n.toNat none with
      | some back, some cur =>
        if back = 0 ∨ |back| < r.IgnoreLT ∨ |cur| < r.IgnoreLT then .ok none
        else
          match regressTable.computeAt t col { r with UsePercent := false } n with
          | .error e => .error e
          | .ok abs => .ok (abs.map (fun a => a / |back| * 100))
      | _, _ => .ok none := by
  cases hb : v.getD (n - r.Window).toNat none with
  | none =>
    unfold regressTable.computeAt
    simp only [hP]
    rw [get_of_column_none hcol (n - r.Window) h0 (by omega) hb]
    simp
  | some back =>
    cases hc : v.getD n.toNat none with
    | none =>
      unfold regressTable.computeAt
      simp only [hP]
      rw [get_of_column_some hcol (n - r.Window) h0 (by omega) back hb,
        get_of_column_none hcol n (by omega) h1 hc]
      by_cases hb0 : back = 0 <;> simp [hb0]
    | some cur =>
      simp only
      by_cases hskip : back = 0 ∨ |back| < r.IgnoreLT ∨ |cur| < r.IgnoreLT
      · rw [if_pos hskip]
        unfold regressTable.computeAt
        simp only [hP]
        rw [get_of_column_some hcol (n - r.Window) h0 (by omega) back hb,
          get_of_column_some hcol n (by omega) h1 cur hc]
        simp only [Bool.not_true, Bool.false_eq_true, if_false, Bool.true_and,
          decide_eq_true_eq, Bool.or_eq_true]
        rcases hskip with h | h
        · rw [if_pos h]
        · by_cases hb0 : back = 0
          · rw [if_pos hb0]
          · rw [if_neg hb0, if_pos h]
      · rw [if_neg hskip]
        have hb0 : ¬ back = 0 := fun h => hskip (Or.inl h)
        have hlt : ¬ (|back| < r.IgnoreLT ∨ |cur| < r.IgnoreLT) := fun h => hskip (Or.inr h)
        unfold regressTable.computeAt
        simp only [hP]
        rw [get_of_column_some hcol (n - r.Window) h0 (by omega) back hb,
          get_of_column_some hcol n (by omega) h1 cur hc]
        simp only [Bool.not_true, Bool.false_eq_true, if_false, Bool.true_and,
          Bool.false_and, decide_eq_true_eq, Bool.or_eq_true, if_neg hb0, if_neg hlt]
        by_cases hR : r.Radius = 0
        · simp only [hR, ne_eq, not_true_eq_false, if_false]
          rw [computeResult_percent _ _ _ _ _ _ _ _ hP]
          simp only [hR]
          cases regressTable.computeResult t col { r with UsePercent := false, Radius := 0 }
              n back (cur - back) 0 0 with
          | error e => rfl
          | ok a => cases a <;> rfl
        · simp only [hR, ne_eq, not_false_eq_true, if_true]
          cases hconf : regressTable.getConfirmedDeltas t col n (n - r.Window) r.Radius with
          | error e => rfl
          | ok p =>
            obtain ⟨cp, cn, ok⟩ := p
            cases ok with
            | false => rfl
            | true =>
              simp only [Bool.not_true, Bool.false_eq_true, if_false]
              rw [computeResult_percent _ _ _ _ _ _ _ _ hP]
              cases regressTable.computeResult t col { r with UsePercent := false }
                  n back (cur - back) cp cn with
              | error e => rfl
              | ok a => cases a <;> rfl

theorem computeAt_ok_of_computeLoop_ok (t : regressTable) (col : Int) (r : RegressionParams)
    (k : Nat) (first : Int) (result res : List (Option ℚ))
    (h : regressTable.computeLoop t col r k first result = .ok res) :
    ∀ n : Int, first ≤ n → n < first + k → ∃ x, regressTable.computeAt t col r n = .ok x := by
  induction k generalizing first result with
  | zero => intro n h1 h2; simp at h2; omega
  | succ k ih =>
    intro n h1 h2
    unfold regressTable.computeLoop at h
    cases hc : regressTable.computeAt t col r first with
    | error e => rw [hc] at h; simp at h
    | ok x =>
      rw [hc] at h
      rcases eq_or_lt_of_le h1 with heq | hlt
      · exact ⟨x, by rw [← heq]; exact hc⟩
      · cases x with
        | none =>
          simp only at h
          exact ih (first + 1) result h n (by omega) (by push_cast at h2; omega)
        | some y =>
          simp only at h
          cases hs : sliceSet result first (some y) with
          | error e => rw [hs] at h; simp at h
          | ok result2 =>
            rw [hs] at h
            exact ih (first + 1) result2 h n (by omega) (by push_cast at h2; omega)

/-- The iteration of `computeVerifiedRegression` at index `n` with `UsePercent`
set, when it returns: nil when the back or the current point is absent or the skip
condition holds, and otherwise the value of the same iteration with `UsePercent`
off, which returns as well, divided by `|back|` and multiplied by 100. -/
theorem computeAt_percent_of_ok {t : regressTable} {col : Int} {r : RegressionParams}
    {v : List (Option ℚ)} (hcol : regressTable.column t col = v.map some)
    (hP : r.UsePercent = true) (n : Int) (h0 : 0 ≤ n - r.Window) (hW : 1 ≤ r.Window)
    (h1 : n < v.length) (x : Option ℚ)
    (hon : regressTable.computeAt t col r n = .ok x) :
    match v.getD (n - r.Window).toNat none, v.getD n.toNat none with
    | some back, some cur =>
      if back = 0 ∨ |back| < r.IgnoreLT ∨ |cur| < r.IgnoreLT then x = none
      else ∃ a, regressTable.computeAt t col { r with UsePercent := false } n = .ok a ∧
        x = a.map (fun a => a / |back| * 100)
    | _, _ => x = none := by
  cases hb : v.getD (n - r.Window).toNat none with
  | none =>
    unfold regressTable.computeAt at hon
    simp only [hP] at hon
    rw [get_of_column_none hcol (n - r.Window) h0 (by omega) hb] at hon
    simp only [Bool.not_false, if_true, Except.ok.injEq] at hon
    exact hon.symm
  | some back =>
    cases hc : v.getD n.toNat none with
    | none =>
      unfold regressTable.computeAt at hon
      simp only [hP] at hon
      rw [get_of_column_some hcol (n - r.Window) h0 (by omega) back hb,
        get_of_column_none hcol n (by omega) h1 hc] at hon
      simp only [Bool.not_true, Bool.false_eq_true, if_false, Bool.not_false, if_true] at hon
      split at hon
      · exact (Except.ok.inj hon).symm
      · exact (Except.ok.inj hon).symm
    | some cur =>
      simp only
      by_cases hskip : back = 0 ∨ |back| < r.IgnoreLT ∨ |cur| < r.IgnoreLT
      · rw [if_pos hskip]
        unfold regressTable.computeAt at hon
        simp only [hP] at hon
        rw [get_of_column_some hcol (n - r.Window) h0 (by omega) back hb,
          get_of_column_some hcol n (by omega) h1 cur hc] at hon
        simp only [Bool.not_true, Bool.false_eq_true, if_false, Bool.true_and,
          decide_eq_true_eq, Bool.or_eq_true] at hon
        rcases hskip with h | h
        · rw [if_pos h] at hon
          exact (Except.ok.inj hon).symm
        · by_cases hb0 : back = 0
          · rw [if_pos hb0] at hon
            exact (Except.ok.inj hon).symm
          · rw [if_neg hb0, if_pos h] at hon
            exact (Except.ok.inj hon).symm
      · rw [if_neg hskip]
        have hb0 : ¬ back = 0 := fun h => hskip (Or.inl h)
        have hlt : ¬ (|back| < r.IgnoreLT ∨ |cur| < r.IgnoreLT) := fun h => hskip (Or.inr h)
        unfold regressTable.computeAt at hon ⊢
        simp only [hP] at hon ⊢
        rw [get_of_column_some hcol (n - r.Window) h0 (by omega) back hb,
          get_of_column_some hcol n (by omega) h1 cur hc] at hon ⊢
        simp only [Bool.not_true, Bool.false_eq_true, if_false, Bool.true_and,
          Bool.false_and, decide_eq_true_eq, Bool.or_eq_true, if_neg hb0, if_neg hlt]
          at hon ⊢
        by_cases hR : r.Radius = 0
        · simp only [hR, ne_eq, not_true_eq_false, if_false] at hon ⊢
          rw [computeResult_percent _ _ _ _ _ _ _ _ hP] at hon
          split at hon
          · exact absurd hon (by simp)
          · rename_i heq
            rw [hR] at heq
            exact ⟨none, heq, (Except.ok.inj hon).symm⟩
          · rename_i a heq
            rw [hR] at heq
            exact ⟨some a, heq, (Except.ok.inj hon).symm⟩
        · simp only [hR, ne_eq, not_false_eq_true, if_true] at hon ⊢
          cases hconf : regressTable.getConfirmedDeltas t col n (n - r.Window) r.Radius with
          | error e => rw [hconf] at hon; simp at hon
          | ok p =>
            obtain ⟨cp, cn, ok⟩ := p
            rw [hconf] at hon
            cases ok with
            | false =>
              simp only [Bool.not_false, if_true, Except.ok.injEq] at hon ⊢
              exact ⟨none, rfl, hon.symm⟩
            | true =>
              simp only [Bool.not_true, Bool.false_eq_true, if_false] at hon ⊢
              rw [computeResult_percent _ _ _ _ _ _ _ _ hP] at hon
              split at hon
              · exact absurd hon (by simp)
              · rename_i heq
                exact ⟨none, heq, (Except.ok.inj hon).symm⟩
              · rename_i a heq
                exact ⟨some a, heq, (Except.ok.inj hon).symm⟩

/-- The array returned by `computeVerifiedRegression` holds, at every index of the
loop range, what the iteration at that index returned. -/
theorem computeVerifiedRegression_getD_of_ok (t : regressTable) (col : Int)
    (r : RegressionParams) (res : List (Option ℚ))
    (h0 : 0 ≤ r.Window + r.Radius) (h1 : 1 ≤ r.Radius + r.Window)
    (hres : regressTable.computeVerifiedRegression t col r = .ok res) :
    res.length = t.length ∧
    ∀ n : Nat, r.Window + r.Radius ≤ (n : Int) →
      (n : Int) ≤ (t.length : Int) - r.Radius - r.Window →
      regressTable.computeAt t col r n = .ok (res.getD n none) := by
  have hAt : ∀ n : Int, r.Window + r.Radius ≤ n →
      n ≤ (t.length : Int) - r.Radius - r.Window →
      ∃ x, regressTable.computeAt t col r n = .ok x := by
    intro n hn1 hn2
    have h := hres
    unfold regressTable.computeVerifiedRegression at h
    exact computeAt_ok_of_computeLoop_ok _ _ _ _ _ _ _ h n hn1 (by omega)
  obtain ⟨res2, hres2, hlen, hget⟩ := computeVerifiedRegression_spec t col r
    (fun n => match regressTable.computeAt t col r n with
      | .ok x => x
      | .error _ => none)
    h0 h1
    (fun n hn1 hn2 => by
      obtain ⟨x, hx⟩ := hAt n hn1 hn2
      simp only [hx])
  have hsame : res2 = res := by
    rw [hres] at hres2
    exact (Except.ok.inj hres2).symm
  subst hsame
  refine ⟨hlen, fun n hn1 hn2 => ?_⟩
  obtain ⟨x, hx⟩ := hAt n hn1 hn2
  rw [hget n, if_pos ⟨hn1, hn2⟩, hx]

/-- Claim C11: with `UsePercent` set, for every index `n` of the loop range, the
iteration at `n` leaves `result[n]` absent when `back = v[n-W]` is 0, or
`|back| < IgnoreLT`, or `|v[n]| < IgnoreLT` (and when the back or the current point is
absent); otherwise it yields `abs / |back| * 100`, where `abs` is what the iteration
at `n` yields for the same parameters with `UsePercent` off (absent when `abs` is
absent, a panic when that iteration panics). So for `result`, the array the call
returns: `result[n]` is absent under the skip condition, and otherwise
`result[n] = abs / |back| * 100` with `abs` the value of the iteration with
`UsePercent` off, which is the entry `n` of the array of the run with `UsePercent`
off whenever that run returns. -/
theorem computeVerifiedRegression_percent (t : regressTable) (col : Int)
    (r : RegressionParams) (v : List (Option ℚ)) (w R : Nat)
    (hcol : regressTable.column t col = v.map some)
    (hW : r.Window = w) (hw : 1 ≤ w) (hR : r.Radius = R) (hP : r.UsePercent = true) :
    (∀ n : Nat, w + R ≤ n → n + R + w ≤ v.length →
      regressTable.computeAt t col r n =
        match v.getD (n - w) none, v.getD n none with
        | some back, some cur =>
          if back = 0 ∨ |back| < r.IgnoreLT ∨ |cur| < r.IgnoreLT then .ok none
          else
            match regressTable.computeAt t col { r with UsePercent := false } n with
            | .error e => .error e
            | .ok abs => .ok (abs.map (fun a => a / |back| * 100))
        | _, _ => .ok none) ∧
    ∀ result : List (Option ℚ),
      regressTable.computeVerifiedRegression t col r = .ok result →
      result.length = v.length ∧
      ∀ n : Nat, w + R ≤ n → n + R + w ≤ v.length →
        match v.getD (n - w) none, v.getD n none with
        | some back, some cur =>
          if back = 0 ∨ |back| < r.IgnoreLT ∨ |cur| < r.IgnoreLT then
            result.getD n none = none
          else ∃ abs,
            regressTable.computeAt t col { r with UsePercent := false } n = .ok abs ∧
            result.getD n none = abs.map (fun a => a / |back| * 100) ∧
            ∀ resOff, regressTable.computeVerifiedRegression t col
                { r with UsePercent := false } = .ok resOff →
              resOff.getD n none = abs
        | _, _ => result.getD n none = none := by
  have hlen := length_of_column hcol
  constructor
  · intro n hn1 hn2
    have h := computeAt_percent_eq hcol hP n (by rw [hW]; omega) (by rw [hW]; omega)
      (by omega)
    have e1 : ((n : Int) - r.Window).toNat = n - w := by rw [hW]; omega
    simp only [Int.toNat_ofNat, e1] at h
    exact h
  intro result hres
  obtain ⟨hl, hget⟩ := computeVerifiedRegression_getD_of_ok t col r result
    (by rw [hW, hR]; omega) (by rw [hW, hR]; omega) hres
  refine ⟨by rw [hl, hlen], fun n hn1 hn2 => ?_⟩
  have hin1 : r.Window + r.Radius ≤ (n : Int) := by rw [hW, hR]; omega
  have hin2 : (n : Int) ≤ (t.length : Int) - r.Radius - r.Window := by rw [hW, hR]; omega
  have hat := computeAt_percent_of_ok hcol hP n (by rw [hW]; omega) (by rw [hW]; omega)
    (by omega) _ (hget n hin1 hin2)
  have e1 : ((n : Int) - r.Window).toNat = n - w := by rw [hW]; omega
  simp only [Int.toNat_ofNat, e1] at hat
  cases hb : v.getD (n - w) none with
  | none => rw [hb] at hat; exact hat
  | some back =>
    cases hc : v.getD n none with
    | none => rw [hb, hc] at hat; exact hat
    | some cur =>
      rw [hb, hc] at hat
      simp only at hat ⊢
      by_cases hskip : back = 0 ∨ |back| < r.IgnoreLT ∨ |cur| < r.IgnoreLT
      · rw [if_pos hskip] at hat ⊢
        exact hat
      · rw [if_neg hskip] at hat ⊢
        obtain ⟨a, ha1, ha2⟩ := hat
        refine ⟨a, ha1, ha2, fun resOff hoff => ?_⟩
        obtain ⟨-, hgetOff⟩ := computeVerifiedRegression_getD_of_ok t col
          { r with UsePercent := false } resOff
          (by show 0 ≤ r.Window + r.Radius; rw [hW, hR]; omega)
          (by show 1 ≤ r.Radius + r.Window; rw [hW, hR]; omega) hoff
        have h2 := hgetOff n hin1 hin2
        rw [ha1] at h2
        exact (Except.ok.inj h2).symm

theorem computeVerifiedRegression_percent_witness :
    (∀ n : Nat, 1 + 0 ≤ n → n + 0 + 1 ≤ [some (1 : ℚ), some 2, some 0, some 3].length →
      regressTable.computeAt (makeTestTable [some 1, some 2, some 0, some 3]) 0
          { Radius := 0, Window := 1, UsePercent := true } n =
        match [some (1 : ℚ), some 2, some 0, some 3].getD (n - 1) none,
            [some (1 : ℚ), some 2, some 0, some 3].getD n none with
        | some back, some cur =>
          if back = 0 ∨ |back| < (0 : ℚ) ∨ |cur| < (0 : ℚ) then .ok none
          else
            match regressTable.computeAt (makeTestTable [some 1, some 2, some 0, some 3]) 0
                { Radius := 0, Window := 1, UsePercent := false } n with
            | .error e => .error e
            | .ok abs => .ok (abs.map (fun a => a / |back| * 100))
        | _, _ => .ok none) ∧
    ∀ result : List (Option ℚ),
      regressTable.computeVerifiedRegression (makeTestTable [some 1, some 2, some 0, some 3]) 0
          { Radius := 0, Window := 1, UsePercent := true } = .ok result →
      result.length = [some (1 : ℚ), some 2, some 0, some 3].length ∧
      ∀ n : Nat, 1 + 0 ≤ n → n + 0 + 1 ≤ [some (1 : ℚ), some 2, some 0, some 3].length →
        match [some (1 : ℚ), some 2, some 0, some 3].getD (n - 1) none,
            [some (1 : ℚ), some 2, some 0, some 3].getD n none with
        | some back, some cur =>
          if back = 0 ∨ |back| < (0 : ℚ) ∨ |cur| < (0 : ℚ) then
            result.getD n none = none
          else ∃ abs,
            regressTable.computeAt (makeTestTable [some 1, some 2, some 0, some 3]) 0
              { Radius := 0, Window := 1, UsePercent := false } n = .ok abs ∧
            result.getD n none = abs.map (fun a => a / |back| * 100) ∧
            ∀ resOff, regressTable.computeVerifiedRegression
                (makeTestTable [some 1, some 2, some 0, some 3]) 0
                { Radius := 0, Window := 1, UsePercent := false } = .ok resOff →
              resOff.getD n none = abs
        | _, _ => result.getD n none = none :=
  computeVerifiedRegression_percent (makeTestTable [some 1, some 2, some 0, some 3]) 0
    { Radius := 0, Window := 1, UsePercent := true } [some 1, some 2, some 0, some 3] 1 0
    rfl rfl (by decide) rfl rfl

/-- The run with `UsePercent` set on the column `[1, 2, 0, 3]` with `Radius = 0` and
`Window = 1` returns `[nil, 100, -100, nil]`, where the run with `UsePercent` off
returns `[nil, 1, -2, 3]`: the entries 1 and 2 are scaled by `100 / |back|`, and the
entry 3, whose back value is 0, is skipped. -/
theorem computeVerifiedRegression_percent_example :
    regressTable.computeVerifiedRegression (makeTestTable [some 1, some 2, some 0, some 3]) 0
        { Radius := 0, Window := 1, UsePercent := true }
      = .ok [none, some 100, some (-100), none] ∧
    regressTable.computeVerifiedRegression (makeTestTable [some 1, some 2, some 0, some 3]) 0
        { Radius := 0, Window := 1, UsePercent := false }
      = .ok [none, some 1, some (-2), some 3] := by
  refine ⟨?_, ?_⟩ <;> with_unfolding_all rfl

/-- On the column `[1, 0, 0, nil, 1]` with `Radius = 1` and `Window = 1` the run
with `UsePercent` set returns (both iterations are skipped, `back` being 0), while
the run with `UsePercent` off panics at the absent forward point; on
`[1, 1, 1, nil, 1]` the run with `UsePercent` set panics as well. -/
theorem computeVerifiedRegression_percent_skips_before_panic :
    regressTable.computeVerifiedRegression
        (makeTestTable [some 1, some 0, some 0, none, some 1]) 0
        { Radius := 1, Window := 1, UsePercent := true }
      = .ok [none, none, none, none, none] ∧
    regressTable.computeVerifiedRegression
        (makeTestTable [some 1, some 0, some 0, none, some 1]) 0
        { Radius := 1, Window := 1, UsePercent := false }
      = .error .nilDeref ∧
    regressTable.computeVerifiedRegression
        (makeTestTable [some 1, some 1, some 1, none, some 1]) 0
        { Radius := 1, Window := 1, UsePercent := true }
      = .error .nilDeref := by
  refine ⟨?_, ?_, ?_⟩ <;> with_unfolding_all rfl

theorem overThreshold_iff (r : RegressionParams) (cell : Option ℚ) :
    r.overThreshold cell = true ↔ r.isRegressionPoint cell := by
  unfold RegressionParams.overThreshold RegressionParams.isRegressionPoint
  cases cell with
  | none => simp
  | some x =>
    cases hp : r.Pos <;> cases hn : r.Neg <;> simp

theorem any_overThreshold_iff (r : RegressionParams) (result : List (Option ℚ)) :
    result.any r.overThreshold = true ↔ ∃ n : Nat, r.isRegressionPoint (result.getD n none) := by
  rw [List.any_eq_true]
  constructor
  · rintro ⟨c, hc, h⟩
    obtain ⟨n, hn, rfl⟩ := List.getElem_of_mem hc
    refine ⟨n, ?_⟩
    rw [← overThreshold_iff]
    simpa [List.getD_eq_getElem?_getD, List.getElem?_eq_getElem hn] using h
  · rintro ⟨n, h⟩
    rw [← overThreshold_iff] at h
    by_cases hn : n < result.length
    · refine ⟨result[n], List.getElem_mem hn, ?_⟩
      simpa [List.getD_eq_getElem?_getD, List.getElem?_eq_getElem hn] using h
    · have : result.getD n none = none := by
        simp [List.getD_eq_getElem?_getD, List.getElem?_eq_none (not_lt.mp hn)]
      rw [this] at h
      simp [RegressionParams.overThreshold] at h

/-- The threshold loop with `ReturnSegments` off leaves the array as it is and
reports whether an entry passes the test. -/
theorem thresholdLoop_no_segments (t : regressTable) (col : Int) (r : RegressionParams)
    (hS : r.ReturnSegments = false) (k i : Nat) (result : List (Option ℚ))
    (haveRegression : Bool) (hk : i + k = result.length) :
    regressTable.thresholdLoop t col r k i result haveRegression =
      .ok (result, haveRegression || (result.drop i).any r.overThreshold) := by
  induction k generalizing i haveRegression with
  | zero =>
    have : result.drop i = [] := List.drop_eq_nil_of_le (by omega)
    simp [regressTable.thresholdLoop, this]
  | succ k ih =>
    have hi : i < result.length := by omega
    have hidx : sliceIndex result (i : Int) = .ok result[i] := by
      unfold sliceIndex
      rw [if_neg (by omega)]
      simp [List.getElem?_eq_getElem hi]
    have hdrop : result.drop i = result[i] :: result.drop (i + 1) :=
      List.drop_eq_getElem_cons hi
    have hnext : ((i : Int) + 1) = ((i + 1 : Nat) : Int) := by push_cast; rfl
    unfold regressTable.thresholdLoop
    rw [hidx, hdrop, hnext]
    cases hc : result[i] with
    | none =>
      simp only [List.any_cons]
      rw [ih (i + 1) haveRegression (by omega)]
      simp [RegressionParams.overThreshold]
    | some x =>
      simp only [hS, Bool.false_eq_true, if_false, List.any_cons]
      by_cases hcond : ((r.Pos.isSome && decide (x > r.Pos.getD 0)) ||
          (r.Neg.isSome && decide (x < r.Neg.getD 0))) = true
      · rw [if_pos hcond, ih (i + 1) true (by omega)]
        simp [RegressionParams.overThreshold, hcond]
      · rw [if_neg hcond, ih (i + 1) haveRegression (by omega)]
        have : r.overThreshold (some x) = false := by
          simpa [RegressionParams.overThreshold] using hcond
        rw [this]
        simp

/-- Claim C12: `GetVerifiedRegression` with neither `Pos` nor `Neg` set returns the
raw regression-function array; with a threshold set and `ReturnSegments` off it
returns that same array when some present entry is above `Pos` (if set) or below
`Neg` (if set), and the nil array when no entry is. -/
theorem GetVerifiedRegression_threshold (t : regressTable) (col : Int) (r : RegressionParams)
    (result : List (Option ℚ))
    (hraw : regressTable.computeVerifiedRegression t col r = .ok result) :
    (r.Pos = none → r.Neg = none →
      regressTable.GetVerifiedRegression t col r = .ok (some result)) ∧
    (¬ (r.Pos = none ∧ r.Neg = none) → r.ReturnSegments = false →
      ((∃ n : Nat, r.isRegressionPoint (result.getD n none)) →
        regressTable.GetVerifiedRegression t col r = .ok (some result)) ∧
      ((¬ ∃ n : Nat, r.isRegressionPoint (result.getD n none)) →
        regressTable.GetVerifiedRegression t col r = .ok none)) := by
  refine ⟨fun hPos hNeg => GetVerifiedRegression_no_threshold t col r result hPos hNeg hraw,
    fun hset hS => ?_⟩
  have hgate : (r.Pos.isNone && r.Neg.isNone) = false := by
    cases hp : r.Pos <;> cases hn : r.Neg <;> simp_all
  have hloop := thresholdLoop_no_segments t col r hS result.length 0 result false (by simp)
  simp only [Nat.cast_zero, List.drop_zero, Bool.false_or] at hloop
  constructor
  · intro hex
    have hany := (any_overThreshold_iff r result).mpr hex
    unfold regressTable.GetVerifiedRegression
    rw [hraw]
    simp only [hgate, Bool.false_eq_true, if_false, hloop, hany, Bool.not_true]
  · intro hno
    have hany : result.any r.overThreshold = false := by
      rw [Bool.eq_false_iff]
      exact fun h => hno ((any_overThreshold_iff r result).mp h)
    unfold regressTable.GetVerifiedRegression
    rw [hraw]
    simp only [hgate, Bool.false_eq_true, if_false, hloop, hany, Bool.not_false, if_true]

theorem GetVerifiedRegression_threshold_witness :
    (({ Radius := 0, Window := 1, Pos := some 1 } : RegressionParams).Pos = none →
      ({ Radius := 0, Window := 1, Pos := some 1 } : RegressionParams).Neg = none →
      regressTable.GetVerifiedRegression (makeTestTable [some 1, some 5, some 2]) 0
        { Radius := 0, Window := 1, Pos := some 1 } = .ok (some [none, some 4, some (-3)])) ∧
    (¬ (({ Radius := 0, Window := 1, Pos := some 1 } : RegressionParams).Pos = none ∧
        ({ Radius := 0, Window := 1, Pos := some 1 } : RegressionParams).Neg = none) →
      ({ Radius := 0, Window := 1, Pos := some 1 } : RegressionParams).ReturnSegments = false →
      ((∃ n : Nat, ({ Radius := 0, Window := 1, Pos := some 1 } : RegressionParams).isRegressionPoint
          (([none, some 4, some (-3)] : List (Option ℚ)).getD n none)) →
        regressTable.GetVerifiedRegression (makeTestTable [some 1, some 5, some 2]) 0
          { Radius := 0, Window := 1, Pos := some 1 } = .ok (some [none, some 4, some (-3)])) ∧
      ((¬ ∃ n : Nat, ({ Radius := 0, Window := 1, Pos := some 1 } : RegressionParams).isRegressionPoint
          (([none, some 4, some (-3)] : List (Option ℚ)).getD n none)) →
        regressTable.GetVerifiedRegression (makeTestTable [some 1, some 5, some 2]) 0
          { Radius := 0, Window := 1, Pos := some 1 } = .ok none)) :=
  GetVerifiedRegression_threshold (makeTestTable [some 1, some 5, some 2]) 0
    { Radius := 0, Window := 1, Pos := some 1 } [none, some 4, some (-3)]
    (by with_unfolding_all rfl)

theorem computeLoop_length (t : regressTable) (col : Int) (r : RegressionParams)
    (k : Nat) (first : Int) (result res : List (Option ℚ))
    (h : regressTable.computeLoop t col r k first result = .ok res) :
    res.length = result.length := by
  induction k generalizing first result with
  | zero =>
    simp only [regressTable.computeLoop, Except.ok.injEq] at h
    rw [h]
  | succ k ih =>
    unfold regressTable.computeLoop at h
    cases hc : regressTable.computeAt t col r first with
    | error e => rw [hc] at h; simp at h
    | ok x =>
      rw [hc] at h
      cases x with
      | none => exact ih (first + 1) result h
      | some y =>
        simp only at h
        cases hs : sliceSet result first (some y) with
        | error e => rw [hs] at h; simp at h
        | ok result2 =>
          rw [hs] at h
          have hl : result2.length = result.length := by
            unfold sliceSet at hs
            split at hs
            · simp at hs
            · split at hs
              · simp only [Except.ok.injEq] at hs
                rw [← hs, List.length_set]
              · simp at hs
          rw [ih (first + 1) result2 h, hl]

theorem computeVerifiedRegression_length (t : regressTable) (col : Int) (r : RegressionParams)
    (res : List (Option ℚ)) (h : regressTable.computeVerifiedRegression t col r = .ok res) :
    res.length = t.length := by
  unfold regressTable.computeVerifiedRegression at h
  rw [computeLoop_length _ _ _ _ _ _ _ h, List.length_replicate]

theorem sliceSet_ok {α : Type} (s : List α) (i : Nat) (a : α) (hi : i < s.length) :
    sliceSet s (i : Int) a = .ok (s.set i a) := by
  unfold sliceSet
  rw [if_neg (by omega)]
  simp [hi]

theorem sliceIndex_ok {α : Type} (s : List α) (i : Nat) (hi : i < s.length) :
    sliceIndex s (i : Int) = .ok s[i] := by
  unfold sliceIndex
  rw [if_neg (by omega)]
  simp [List.getElem?_eq_getElem hi]

theorem getD_none_of_le (l : List (Option ℚ)) (j : Nat) (h : l.length ≤ j) :
    l.getD j none = none := by
  simp [List.getD_eq_getElem?_getD, List.getElem?_eq_none h]

theorem getD_eq_getElem_of_lt (l : List (Option ℚ)) (j : Nat) (h : j < l.length) :
    l.getD j none = l[j] := by
  simp [List.getD_eq_getElem?_getD, List.getElem?_eq_getElem h]

/-- The threshold loop with `ReturnSegments` on, from index `i` on: entries before
`i - 1` are final, entry `i - 1` still receives the raw cell if `i` passes the test,
and every entry from `i` on ends as the raw cell when it or its successor passes the
test and as nil otherwise. -/
theorem thresholdLoop_segments (t : regressTable) (col : Int) (r : RegressionParams)
    (v orig : List (Option ℚ)) (hS : r.ReturnSegments = true)
    (hraw : ∀ j : Nat, j < orig.length →
      regressTable.getRaw t (j : Int) col = .ok (v.getD j none))
    (k i : Nat) (cur : List (Option ℚ)) (hv : Bool)
    (hk : i + k = orig.length) (hlen : cur.length = orig.length)
    (hcur : ∀ j : Nat, i ≤ j → cur.getD j none = orig.getD j none) :
    ∃ out, regressTable.thresholdLoop t col r k i cur hv
        = .ok (out, hv || (orig.drop i).any r.overThreshold) ∧
      out.length = orig.length ∧
      ∀ j : Nat, out.getD j none =
        if j + 1 < i then cur.getD j none
        else if j + 1 = i then
          (if r.overThreshold (orig.getD i none) = true then v.getD j none else cur.getD j none)
        else if (r.overThreshold (orig.getD j none) || r.overThreshold (orig.getD (j + 1) none))
            = true then v.getD j none
        else none := by
  induction k generalizing i cur hv with
  | zero =>
    have hiN : i = orig.length := by omega
    have hdrop : orig.drop i = [] := List.drop_eq_nil_of_le (by omega)
    refine ⟨cur, by simp [regressTable.thresholdLoop, hdrop], hlen, fun j => ?_⟩
    have hoi : orig.getD i none = none := getD_none_of_le _ _ (by omega)
    by_cases h1 : j + 1 < i
    · rw [if_pos h1]
    · rw [if_neg h1]
      by_cases h2 : j + 1 = i
      · rw [if_pos h2, hoi]
        simp [RegressionParams.overThreshold]
      · rw [if_neg h2]
        have hj1 : orig.getD j none = none := getD_none_of_le _ _ (by omega)
        have hj2 : orig.getD (j + 1) none = none := getD_none_of_le _ _ (by omega)
        rw [hj1, hj2]
        simp only [RegressionParams.overThreshold, Bool.or_self, Bool.false_eq_true, if_false]
        exact getD_none_of_le _ _ (by omega)
  | succ k ih =>
    have hi : i < orig.length := by omega
    have hic : i < cur.length := by omega
    have hcell : cur[i] = orig.getD i none := by
      rw [← hcur i (le_refl _), getD_eq_getElem_of_lt _ _ hic]
    have hdrop : orig.drop i = orig.getD i none :: orig.drop (i + 1) := by
      rw [List.drop_eq_getElem_cons hi, getD_eq_getElem_of_lt _ _ hi]
    have hnext : ((i : Int) + 1) = ((i + 1 : Nat) : Int) := by push_cast; rfl
    have hcuri : cur.getD i none = orig.getD i none := hcur i (le_refl _)
    -- the final entries, from what the rest of the loop does with the next array
    have hfinal : ∀ (cur2 out : List (Option ℚ)),
        (∀ j : Nat, j + 1 < i → cur2.getD j none = cur.getD j none) →
        (∀ j : Nat, j + 1 = i → cur2.getD j none =
          if r.overThreshold (orig.getD i none) = true then v.getD j none
          else cur.getD j none) →
        (cur2.getD i none =
          if r.overThreshold (orig.getD i none) = true then v.getD i none else none) →
        (∀ j : Nat, out.getD j none =
          if j + 1 < i + 1 then cur2.getD j none
          else if j + 1 = i + 1 then
            (if r.overThreshold (orig.getD (i + 1) none) = true then v.getD j none
              else cur2.getD j none)
          else if (r.overThreshold (orig.getD j none) ||
              r.overThreshold (orig.getD (j + 1) none)) = true then v.getD j none
          else none) →
        ∀ j : Nat, out.getD j none =
          if j + 1 < i then cur.getD j none
          else if j + 1 = i then
            (if r.overThreshold (orig.getD i none) = true then v.getD j none
              else cur.getD j none)
          else if (r.overThreshold (orig.getD j none) ||
              r.overThreshold (orig.getD (j + 1) none)) = true then v.getD j none
          else none := by
      intro cur2 out hA hB hC hget j
      rw [hget j]
      by_cases h1 : j + 1 < i
      · have a2 : j + 1 < i + 1 := by omega
        rw [if_pos a2, if_pos h1]
        exact hA j h1
      · by_cases h2 : j + 1 = i
        · have a2 : j + 1 < i + 1 := by omega
          rw [if_pos a2, if_neg h1, if_pos h2]
          exact hB j h2
        · by_cases h3 : j = i
          · have a2 : ¬ (j + 1 < i + 1) := by omega
            have a3 : j + 1 = i + 1 := by omega
            rw [if_neg a2, if_pos a3, if_neg h1, if_neg h2, h3, hC]
            cases r.overThreshold (orig.getD i none) <;>
              cases r.overThreshold (orig.getD (i + 1) none) <;> simp
          · have a2 : ¬ (j + 1 < i + 1) := by omega
            have a3 : ¬ (j + 1 = i + 1) := by omega
            rw [if_neg a2, if_neg a3, if_neg h1, if_neg h2]
    unfold regressTable.thresholdLoop
    rw [sliceIndex_ok cur i hic, hcell, hdrop, hnext]
    cases hc : orig.getD i none with
    | none =>
      obtain ⟨out, hout, hol, hget⟩ := ih (i + 1) cur hv (by omega) hlen
        (fun j hj => hcur j (by omega))
      refine ⟨out, ?_, hol, ?_⟩
      · simp only [hout, List.any_cons, RegressionParams.overThreshold, Bool.false_or]
      · have := hfinal cur out (fun j _ => rfl)
          (fun j _ => by rw [hc]; simp [RegressionParams.overThreshold])
          (by rw [hcuri, hc]; simp [RegressionParams.overThreshold]) hget
        simpa only [hc] using this
    | some x =>
      simp only [hS, if_true]
      have hot : r.overThreshold (some x) =
          ((r.Pos.isSome && decide (x > r.Pos.getD 0)) ||
            (r.Neg.isSome && decide (x < r.Neg.getD 0))) := rfl
      rw [← hot]
      by_cases hreg : r.overThreshold (some x) = true
      · simp only [hreg, if_true, hraw i hi, sliceSet_ok cur i _ hic]
        by_cases hi0 : i = 0
        · have hnp : ¬ ((i : Int) > 0) := by omega
          simp only [hnp, if_false]
          obtain ⟨out, hout, hol, hget⟩ := ih (i + 1) (cur.set i (v.getD i none)) true
            (by omega) (by rw [List.length_set]; exact hlen)
            (fun j hj => by
              rw [getD_set_none _ _ _ _ hic, if_neg (by omega)]
              exact hcur j (by omega))
          refine ⟨out, ?_, hol, ?_⟩
          · simp only [hout, List.any_cons, hreg, Bool.true_or, Bool.or_true]
          · have := hfinal (cur.set i (v.getD i none)) out
              (fun j hj => by omega)
              (fun j hj => by omega)
              (by rw [getD_set_none _ _ _ _ hic, if_pos rfl, hc, if_pos hreg]) hget
            simpa only [hc, hreg] using this
        · have hpos : (i : Int) > 0 := by omega
          have him : i - 1 < orig.length := by omega
          have hcastm : ((i : Int) - 1) = ((i - 1 : Nat) : Int) := by omega
          simp only [hpos, if_true, hcastm, hraw (i - 1) him]
          rw [sliceSet_ok _ (i - 1) _ (by rw [List.length_set]; omega)]
          simp only
          obtain ⟨out, hout, hol, hget⟩ := ih (i + 1)
            ((cur.set i (v.getD i none)).set (i - 1) (v.getD (i - 1) none)) true
            (by omega) (by rw [List.length_set, List.length_set]; exact hlen)
            (fun j hj => by
              rw [getD_set_none _ _ _ _ (by rw [List.length_set]; omega), if_neg (by omega),
                getD_set_none _ _ _ _ hic, if_neg (by omega)]
              exact hcur j (by omega))
          refine ⟨out, ?_, hol, ?_⟩
          · simp only [hout, List.any_cons, hreg, Bool.true_or, Bool.or_true]
          · have := hfinal ((cur.set i (v.getD i none)).set (i - 1) (v.getD (i - 1) none)) out
              (fun j hj => by
                rw [getD_set_none _ _ _ _ (by rw [List.length_set]; omega), if_neg (by omega),
                  getD_set_none _ _ _ _ hic, if_neg (by omega)])
              (fun j hj => by
                have hj2 : i - 1 = j := by omega
                rw [getD_set_none _ _ _ _ (by rw [List.length_set]; omega), if_pos hj2,
                  hc, if_pos hreg, hj2])
              (by
                rw [getD_set_none _ _ _ _ (by rw [List.length_set]; omega), if_neg (by omega),
                  getD_set_none _ _ _ _ hic, if_pos rfl, hc, if_pos hreg]) hget
            simpa only [hc, hreg] using this
      · have hregf : r.overThreshold (some x) = false := by
          simpa using hreg
        simp only [hregf, Bool.false_eq_true, if_false, sliceSet_ok cur i _ hic]
        obtain ⟨out, hout, hol, hget⟩ := ih (i + 1) (cur.set i none) hv
          (by omega) (by rw [List.length_set]; exact hlen)
          (fun j hj => by
            rw [getD_set_none _ _ _ _ hic, if_neg (by omega)]
            exact hcur j (by omega))
        refine ⟨out, ?_, hol, ?_⟩
        · simp only [hout, List.any_cons, hregf, Bool.false_or]
        · have := hfinal (cur.set i none) out
            (fun j hj => by rw [getD_set_none _ _ _ _ hic, if_neg (by omega)])
            (fun j hj => by
              rw [getD_set_none _ _ _ _ hic, if_neg (by omega), hc, hregf]
              simp)
            (by rw [getD_set_none _ _ _ _ hic, if_pos rfl, hc, hregf]; simp) hget
          simpa only [hc, hregf] using this

/-- Claim C13: with a threshold set and `ReturnSegments` on, when at least one
regression point exists the returned array has, at every index `i`, the raw input
cell `v[i]` if `i` or `i + 1` is a regression point and an absent entry otherwise;
when no regression point exists the nil array is returned. -/
theorem GetVerifiedRegression_segments (t : regressTable) (col : Int) (r : RegressionParams)
    (v result : List (Option ℚ)) (hcol : regressTable.column t col = v.map some)
    (hraw : regressTable.computeVerifiedRegression t col r = .ok result)
    (hset : ¬ (r.Pos = none ∧ r.Neg = none)) (hS : r.ReturnSegments = true) :
    ((∃ n : Nat, r.isRegressionPoint (result.getD n none)) →
      ∃ out, regressTable.GetVerifiedRegression t col r = .ok (some out) ∧
        out.length = v.length ∧
        ∀ i : Nat,
          ((r.isRegressionPoint (result.getD i none) ∨
              r.isRegressionPoint (result.getD (i + 1) none)) →
            out.getD i none = v.getD i none) ∧
          (¬ (r.isRegressionPoint (result.getD i none) ∨
              r.isRegressionPoint (result.getD (i + 1) none)) →
            out.getD i none = none)) ∧
    ((¬ ∃ n : Nat, r.isRegressionPoint (result.getD n none)) →
      regressTable.GetVerifiedRegression t col r = .ok none) := by
  have hlenT := length_of_column hcol
  have hlenR := computeVerifiedRegression_length t col r result hraw
  have hgate : (r.Pos.isNone && r.Neg.isNone) = false := by
    cases hp : r.Pos <;> cases hn : r.Neg <;> simp_all
  obtain ⟨out, hout, hol, hget⟩ := thresholdLoop_segments t col r v result hS
    (fun j hj => by
      have := getRaw_of_column hcol (j : Int) (by omega) (by omega)
      simpa using this)
    result.length 0 result false (by simp) rfl (fun j _ => rfl)
  simp only [Nat.cast_zero, List.drop_zero, Bool.false_or, Nat.not_lt_zero, if_false,
    Nat.add_eq_zero, one_ne_zero, and_false] at hout hget
  constructor
  · intro hex
    have hany := (any_overThreshold_iff r result).mpr hex
    refine ⟨out, ?_, by rw [hol, hlenR, hlenT], fun i => ⟨fun h => ?_, fun h => ?_⟩⟩
    · unfold regressTable.GetVerifiedRegression
      rw [hraw]
      simp only [hgate, Bool.false_eq_true, if_false, hout, hany, Bool.not_true]
    · rw [hget i]
      have : (r.overThreshold (result.getD i none) ||
          r.overThreshold (result.getD (i + 1) none)) = true := by
        rw [Bool.or_eq_true, overThreshold_iff, overThreshold_iff]
        exact h
      rw [if_pos this]
    · rw [hget i]
      have : ¬ ((r.overThreshold (result.getD i none) ||
          r.overThreshold (result.getD (i + 1) none)) = true) := by
        rw [Bool.or_eq_true, overThreshold_iff, overThreshold_iff]
        exact h
      rw [if_neg this]
  · intro hno
    have hany : result.any r.overThreshold = false := by
      rw [Bool.eq_false_iff]
      exact fun h => hno ((any_overThreshold_iff r result).mp h)
    unfold regressTable.GetVerifiedRegression
    rw [hraw]
    simp only [hgate, Bool.false_eq_true, if_false, hout, hany, Bool.not_false, if_true]

theorem GetVerifiedRegression_segments_witness :
    ((∃ n : Nat, ({ Radius := 0, Window := 1, Pos := some 1, ReturnSegments := true } :
        RegressionParams).isRegressionPoint
          (([none, some 4, some (-3)] : List (Option ℚ)).getD n none)) →
      ∃ out, regressTable.GetVerifiedRegression (makeTestTable [some 1, some 5, some 2]) 0
          { Radius := 0, Window := 1, Pos := some 1, ReturnSegments := true }
          = .ok (some out) ∧
        out.length = [some (1 : ℚ), some 5, some 2].length ∧
        ∀ i : Nat,
          ((({ Radius := 0, Window := 1, Pos := some 1, ReturnSegments := true } :
                RegressionParams).isRegressionPoint
                (([none, some 4, some (-3)] : List (Option ℚ)).getD i none) ∨
              ({ Radius := 0, Window := 1, Pos := some 1, ReturnSegments := true } :
                RegressionParams).isRegressionPoint
                (([none, some 4, some (-3)] : List (Option ℚ)).getD (i + 1) none)) →
            out.getD i none = [some (1 : ℚ), some 5, some 2].getD i none) ∧
          (¬ (({ Radius := 0, Window := 1, Pos := some 1, ReturnSegments := true } :
                RegressionParams).isRegressionPoint
                (([none, some 4, some (-3)] : List (Option ℚ)).getD i none) ∨
              ({ Radius := 0, Window := 1, Pos := some 1, ReturnSegments := true } :
                RegressionParams).isRegressionPoint
                (([none, some 4, some (-3)] : List (Option ℚ)).getD (i + 1) none)) →
            out.getD i none = none)) ∧
    ((¬ ∃ n : Nat, ({ Radius := 0, Window := 1, Pos := some 1, ReturnSegments := true } :
        RegressionParams).isRegressionPoint
          (([none, some 4, some (-3)] : List (Option ℚ)).getD n none)) →
      regressTable.GetVerifiedRegression (makeTestTable [some 1, some 5, some 2]) 0
        { Radius := 0, Window := 1, Pos := some 1, ReturnSegments := true } = .ok none) :=
  GetVerifiedRegression_segments (makeTestTable [some 1, some 5, some 2]) 0
    { Radius := 0, Window := 1, Pos := some 1, ReturnSegments := true }
    [some 1, some 5, some 2] [none, some 4, some (-3)] rfl (by with_unfolding_all rfl)
    (by simp) rfl

/-! ## Query source parser -/

theorem textBefore_of_not_mem (sep : Nat) (s : Bytes) (h : sep ∉ s) : textBefore sep s = s := by
  unfold textBefore
  rw [List.takeWhile_eq_self_iff]
  intro c hc
  simp only [decide_eq_true_eq]
  exact fun e => h (e ▸ hc)

theorem textAfter_of_not_mem (sep : Nat) (s : Bytes) (h : sep ∉ s) : textAfter sep s = [] := by
  unfold textAfter
  have : s.dropWhile (fun c => decide (c ≠ sep)) = [] := by
    rw [List.dropWhile_eq_nil_iff]
    intro c hc
    simp only [decide_eq_true_eq]
    exact fun e => h (e ▸ hc)
  rw [this]
  rfl

theorem cutAtFirst_of_not_mem (sep : Nat) (s : Bytes) (h : sep ∉ s) : cutAtFirst sep s = none := by
  induction s with
  | nil => rfl
  | cons c cs ih =>
    simp only [List.mem_cons, not_or] at h
    simp only [cutAtFirst]
    rw [if_neg (fun e => h.1 e.symm), ih h.2]

theorem cutAtFirst_of_mem (sep : Nat) (s : Bytes) (h : sep ∈ s) :
    cutAtFirst sep s = some (textBefore sep s, textAfter sep s) := by
  induction s with
  | nil => simp at h
  | cons c cs ih =>
    simp only [cutAtFirst]
    by_cases hc : c = sep
    · rw [if_pos hc]
      simp [textBefore, textAfter, hc]
    · rw [if_neg hc]
      have hmem : sep ∈ cs := by
        rcases List.mem_cons.mp h with h1 | h1
        · exact absurd h1.symm hc
        · exact h1
      rw [ih hmem]
      simp [textBefore, textAfter, hc]

theorem SplitN_two (sep : Nat) (s : Bytes) :
    strings.SplitN sep 2 s =
      if sep ∈ s then [textBefore sep s, textAfter sep s] else [s] := by
  show (match cutAtFirst sep s with
    | none => [s]
    | some (a, b) => a :: strings.SplitN sep 1 b) = _
  by_cases h : sep ∈ s
  · rw [if_pos h, cutAtFirst_of_mem sep s h]
    rfl
  · rw [if_neg h, cutAtFirst_of_not_mem sep s h]

theorem Split_of_not_mem (sep : Nat) (s : Bytes) (h : sep ∉ s) : strings.Split sep s = [s] := by
  induction s with
  | nil => rfl
  | cons c cs ih =>
    simp only [List.mem_cons, not_or] at h
    simp only [strings.Split]
    rw [if_neg (fun e => h.1 e.symm), ih h.2]

/-- The source, metric and aggregate that `Parse` derives from the text before the
first `$`. -/
theorem Parse_fields (processed : Bytes) (segs : List Bytes)
    (hsplit : strings.Split 36 fullSrc = processed :: segs)
    (configs : Option (GoMap Bytes Bytes))
    (hconf : Parse.configs (processed :: segs) = .ok configs) :
    Parse fullSrc = .ok
      { Source := textBefore 58 processed,
        Metric := if textBefore 46 (textAfter 58 processed) = [42] then []
          else textBefore 46 (textAfter 58 processed),
        Aggregate := textAfter 46 (textAfter 58 processed),
        Configs := configs } := by
  have h0 : sliceIndex (processed :: segs) 0 = .ok processed := by
    simp [sliceIndex]
  unfold Parse
  simp only [hsplit, h0, hconf]
  simp only [sliceIndex, SplitN_two]
  by_cases h58 : 58 ∈ processed
  · simp only [h58, if_true]
    by_cases h46 : 46 ∈ textAfter 58 processed
    · by_cases hm : textBefore 46 (textAfter 58 processed) = [42]
      · simp [h46, hm]
      · simp [h46, hm]
    · rw [textBefore_of_not_mem 46 _ h46, textAfter_of_not_mem 46 _ h46]
      by_cases hm : textAfter 58 processed = [42]
      · simp [h46, hm]
      · simp [h46, hm]
  · rw [textBefore_of_not_mem 58 _ h58, textAfter_of_not_mem 58 _ h58]
    simp [h58, textBefore, textAfter]

/-- Claim C14: for every input string containing no `$`, `Parse` returns
`Source` = the text before the first `:` (the whole input if there is none),
`Metric` = the text between that `:` and the first following `.` (or the end),
except that `*` gives an empty `Metric`, `Aggregate` = the text after that `.`
(empty if there is none), and a nil `Configs`. -/
theorem Parse_without_configs (fullSrc : Bytes) (h : 36 ∉ fullSrc) :
    Parse fullSrc = .ok
      { Source := textBefore 58 fullSrc,
        Metric := if textBefore 46 (textAfter 58 fullSrc) = [42] then []
          else textBefore 46 (textAfter 58 fullSrc),
        Aggregate := textAfter 46 (textAfter 58 fullSrc),
        Configs := none } :=
  Parse_fields fullSrc [] (Split_of_not_mem 36 fullSrc h) none rfl

theorem Parse_without_configs_witness :
    Parse (ascii ("src:metric.aggregate")) = .ok
      { Source := textBefore 58 (ascii ("src:metric.aggregate")),
        Metric := if textBefore 46 (textAfter 58 (ascii ("src:metric.aggregate"))) = [42] then []
          else textBefore 46 (textAfter 58 (ascii ("src:metric.aggregate"))),
        Aggregate := textAfter 46 (textAfter 58 (ascii ("src:metric.aggregate"))),
        Configs := none } :=
  Parse_without_configs (ascii ("src:metric.aggregate")) (by decide)

theorem joinSegments_nil (sep : Nat) (head : Bytes) : joinSegments sep head [] = head := by
  simp [joinSegments]

theorem joinSegments_cons_head (sep c : Nat) (head : Bytes) (segs : List Bytes) :
    joinSegments sep (c :: head) segs = c :: joinSegments sep head segs := rfl

theorem joinSegments_nil_cons (sep : Nat) (seg : Bytes) (segs : List Bytes) :
    joinSegments sep [] (seg :: segs) = sep :: joinSegments sep seg segs := by
  simp [joinSegments]

theorem Split_joinSegments (sep : Nat) (head : Bytes) (segs : List Bytes)
    (hhead : sep ∉ head) (hsegs : ∀ seg ∈ segs, sep ∉ seg) :
    strings.Split sep (joinSegments sep head segs) = head :: segs := by
  induction segs generalizing head with
  | nil => rw [joinSegments_nil, Split_of_not_mem sep head hhead]
  | cons seg segs ih =>
    induction head with
    | nil =>
      rw [joinSegments_nil_cons]
      simp only [strings.Split, if_true]
      rw [ih seg (hsegs seg (by simp)) (fun s hs => hsegs s (by simp [hs]))]
    | cons c head ihh =>
      simp only [List.mem_cons, not_or] at hhead
      rw [joinSegments_cons_head]
      simp only [strings.Split]
      rw [if_neg (fun e => hhead.1 e.symm), ihh hhead.2]

/-- Every string is a head without `sep` followed by segments without `sep`, each
introduced by `sep`; there is a segment as soon as `sep` occurs. -/
theorem exists_joinSegments (sep : Nat) (s : Bytes) :
    ∃ head segs, s = joinSegments sep head segs ∧ sep ∉ head ∧
      (∀ seg ∈ segs, sep ∉ seg) ∧ (sep ∈ s → segs ≠ []) := by
  induction s with
  | nil => exact ⟨[], [], rfl, by simp, by simp, by simp⟩
  | cons c cs ih =>
    obtain ⟨head, segs, hs, hh, hsg, -⟩ := ih
    by_cases hc : c = sep
    · refine ⟨[], head :: segs, ?_, by simp, ?_, by simp⟩
      · rw [joinSegments_nil_cons, ← hs, hc]
      · intro seg hseg
        rcases List.mem_cons.mp hseg with h | h
        · rw [h]; exact hh
        · exact hsg seg h
    · refine ⟨c :: head, segs, ?_, ?_, hsg, ?_⟩
      · rw [joinSegments_cons_head, ← hs]
      · simp only [List.mem_cons, not_or]
        exact ⟨fun e => hc e.symm, hh⟩
      · intro hmem h
        subst h
        rw [joinSegments_nil] at hs
        rcases List.mem_cons.mp hmem with h | h
        · exact hc h.symm
        · rw [hs] at h
          exact hh h

theorem keyValue_eq (kv : Bytes) :
    Parse.keyValue kv = .ok (textBefore 61 kv, textAfter 61 kv) := by
  unfold Parse.keyValue
  simp only [SplitN_two]
  by_cases h : 61 ∈ kv
  · simp [h, sliceIndex]
  · rw [textBefore_of_not_mem 61 kv h, textAfter_of_not_mem 61 kv h]
    simp [h, sliceIndex]

theorem configsLoop_eq (segs : List Bytes) (m : GoMap Bytes Bytes) :
    Parse.configsLoop segs m
      = .ok (segs.foldl (fun m seg => m.set (textBefore 61 seg) (textAfter 61 seg)) m) := by
  induction segs generalizing m with
  | nil => rfl
  | cons seg segs ih =>
    simp only [Parse.configsLoop, keyValue_eq, List.foldl_cons]
    exact ih _

theorem find?_setEntry {κ ν : Type} [DecidableEq κ] (k k2 : κ) (v : ν) (l : List (κ × ν)) :
    ((setEntry k v l).find? (fun e => decide (e.1 = k2))).map (fun e => e.2) =
      if k = k2 then some v else (l.find? (fun e => decide (e.1 = k2))).map (fun e => e.2) := by
  induction l with
  | nil =>
    by_cases h : k = k2 <;> simp [setEntry, h]
  | cons e rest ih =>
    simp only [setEntry]
    by_cases he : e.1 = k
    · rw [if_pos he]
      by_cases h : k = k2
      · simp [h]
      · have : ¬ e.1 = k2 := fun e2 => h (he ▸ e2)
        simp [h, this]
    · rw [if_neg he]
      by_cases h2 : e.1 = k2
      · have : ¬ k = k2 := fun e2 => he (h2.trans e2.symm)
        simp [h2, this]
      · simp only [List.find?_cons, h2, decide_False]
        exact ih

theorem lookup_set {κ ν : Type} [DecidableEq κ] (m : GoMap κ ν) (k k2 : κ) (v : ν) :
    (m.set k v).lookup k2 = if k = k2 then some v else m.lookup k2 :=
  find?_setEntry k k2 v m.entries

theorem keys_setEntry {κ ν : Type} [DecidableEq κ] (k : κ) (v : ν) (l : List (κ × ν)) :
    (setEntry k v l).map Prod.fst =
      if k ∈ l.map Prod.fst then l.map Prod.fst else l.map Prod.fst ++ [k] := by
  induction l with
  | nil => simp [setEntry]
  | cons e rest ih =>
    simp only [setEntry]
    by_cases he : e.1 = k
    · rw [if_pos he]
      simp [he]
    · rw [if_neg he]
      simp only [List.map_cons, ih, List.mem_cons]
      have hne : ¬ k = e.1 := fun h => he h.symm
      by_cases hk : k ∈ rest.map Prod.fst
      · simp [hk]
      · simp [hk, hne]

theorem setEntry_of_not_mem {κ ν : Type} [DecidableEq κ] (k : κ) (v : ν) (l : List (κ × ν))
    (h : k ∉ l.map Prod.fst) : setEntry k v l = l ++ [(k, v)] := by
  induction l with
  | nil => rfl
  | cons e rest ih =>
    simp only [List.map_cons, List.mem_cons, not_or] at h
    simp only [setEntry]
    rw [if_neg (fun e2 => h.1 e2.symm), ih h.2]
    rfl

theorem nodup_keys_setEntry {κ ν : Type} [DecidableEq κ] (k : κ) (v : ν) (l : List (κ × ν))
    (h : (l.map Prod.fst).Nodup) : ((setEntry k v l).map Prod.fst).Nodup := by
  rw [keys_setEntry]
  split
  · exact h
  · rename_i hk
    rw [List.nodup_append]
    exact ⟨h, List.nodup_singleton k, by
      intro a ha hb
      simp only [List.mem_singleton] at hb
      exact hk (hb ▸ ha)⟩

theorem lookup_foldl_set (segs : List Bytes) (k : Bytes) :
    (segs.foldl (fun (m : GoMap Bytes Bytes) seg =>
        m.set (textBefore 61 seg) (textAfter 61 seg)) {}).lookup k
      = (segs.reverse.find? (fun seg => decide (textBefore 61 seg = k))).map (textAfter 61) := by
  induction segs using List.reverseRecOn with
  | nil => rfl
  | append_singleton segs seg ih =>
    rw [List.foldl_append, List.reverse_append]
    simp only [List.foldl_cons, List.foldl_nil, List.reverse_cons, List.reverse_nil,
      List.nil_append, List.singleton_append, lookup_set, List.find?_cons]
    by_cases h : textBefore 61 seg = k
    · simp [h]
    · simp only [h, if_false, decide_False]
      exact ih

theorem nodup_keys_foldl_set (segs : List Bytes) :
    ((segs.foldl (fun (m : GoMap Bytes Bytes) seg =>
        m.set (textBefore 61 seg) (textAfter 61 seg)) {}).entries.map Prod.fst).Nodup := by
  induction segs using List.reverseRecOn with
  | nil => exact List.nodup_nil
  | append_singleton segs seg ih =>
    rw [List.foldl_append]
    exact nodup_keys_setEntry _ _ _ ih

theorem entries_foldl_set_of_nodup (segs : List Bytes)
    (h : (segs.map (textBefore 61)).Nodup) :
    (segs.foldl (fun (m : GoMap Bytes Bytes) seg =>
        m.set (textBefore 61 seg) (textAfter 61 seg)) {}).entries
      = segs.map (fun seg => (textBefore 61 seg, textAfter 61 seg)) := by
  induction segs using List.reverseRecOn with
  | nil => rfl
  | append_singleton segs seg ih =>
    rw [List.map_append, List.nodup_append] at h
    obtain ⟨h1, -, h3⟩ := h
    have ih1 := ih h1
    rw [List.foldl_append, List.map_append]
    simp only [List.foldl_cons, List.foldl_nil, List.map_cons, List.map_nil]
    show setEntry _ _ _ = _
    rw [setEntry_of_not_mem, ih1]
    rw [ih1, List.map_map]
    intro hmem
    exact h3 hmem (by simp)

/-- Claim C15 as stated fails: the configs are a map, so two segments with the same
key give one entry, not one entry per segment. For `s$k=1$k=2` the map holds the
single entry `k -> 2`, and nothing for the segment `k=1`. -/
theorem Parse_repeated_key_counterexample :
    Parse (ascii ("s$k=1$k=2")) = .ok
      { Source := ascii ("s"), Metric := [], Aggregate := [],
        Configs := some { entries := [(ascii ("k"), ascii ("2"))] } } ∧
    strings.Split 36 (ascii ("s$k=1$k=2")) = [ascii ("s"), ascii ("k=1"), ascii ("k=2")] ∧
    ([(ascii ("k"), ascii ("2"))] : List (Bytes × Bytes)).length ≠
      [ascii ("k=1"), ascii ("k=2")].length := by
  refine ⟨rfl, rfl, by decide⟩

/-- Claim C15, amended: for every input string containing at least one `$`, that is
`head$seg1$...$segn` with `n ≥ 1`, `Parse` parses `head` as source/metric/aggregate
and `Configs` is a map with pairwise distinct keys in which every key `k` carries
the value of the last segment whose text before its first `=` is `k` (the text
after that `=`, empty when the segment has no `=`); when the segment keys are
pairwise distinct the map holds exactly one entry per segment. -/
theorem Parse_with_configs (fullSrc : Bytes) (h : 36 ∈ fullSrc) :
    ∃ (head : Bytes) (segs : List Bytes) (m : GoMap Bytes Bytes),
      fullSrc = joinSegments 36 head segs ∧ 36 ∉ head ∧ (∀ seg ∈ segs, 36 ∉ seg) ∧
      segs ≠ [] ∧
      Parse fullSrc = .ok
        { Source := textBefore 58 head,
          Metric := if textBefore 46 (textAfter 58 head) = [42] then []
            else textBefore 46 (textAfter 58 head),
          Aggregate := textAfter 46 (textAfter 58 head),
          Configs := some m } ∧
      (∀ k : Bytes, m.lookup k
        = (segs.reverse.find? (fun seg => decide (textBefore 61 seg = k))).map (textAfter 61)) ∧
      (m.entries.map Prod.fst).Nodup ∧
      ((segs.map (textBefore 61)).Nodup →
        m.entries = segs.map (fun seg => (textBefore 61 seg, textAfter 61 seg))) := by
  obtain ⟨head, segs, hs, hh, hsg, hne⟩ := exists_joinSegments 36 fullSrc
  have hne1 := hne h
  have hsplit : strings.Split 36 fullSrc = head :: segs := by
    rw [hs]; exact Split_joinSegments 36 head segs hh hsg
  have hlen : (head :: segs).length > 1 := by
    cases segs with
    | nil => exact absurd rfl hne1
    | cons a b => simp
  have hconf : Parse.configs (head :: segs)
      = .ok (some (segs.foldl (fun (m : GoMap Bytes Bytes) seg =>
          m.set (textBefore 61 seg) (textAfter 61 seg)) {})) := by
    unfold Parse.configs
    rw [if_pos hlen]
    simp only [List.drop_succ_cons, List.drop_zero, configsLoop_eq]
  exact ⟨head, segs, _, hs, hh, hsg, hne1, Parse_fields head segs hsplit _ hconf,
    lookup_foldl_set segs, nodup_keys_foldl_set segs, entries_foldl_set_of_nodup segs⟩

theorem Parse_with_configs_witness :
    ∃ (head : Bytes) (segs : List Bytes) (m : GoMap Bytes Bytes),
      ascii ("src:m.a$k1=v1$k2") = joinSegments 36 head segs ∧ 36 ∉ head ∧
      (∀ seg ∈ segs, 36 ∉ seg) ∧ segs ≠ [] ∧
      Parse (ascii ("src:m.a$k1=v1$k2")) = .ok
        { Source := textBefore 58 head,
          Metric := if textBefore 46 (textAfter 58 head) = [42] then []
            else textBefore 46 (textAfter 58 head),
          Aggregate := textAfter 46 (textAfter 58 head),
          Configs := some m } ∧
      (∀ k : Bytes, m.lookup k
        = (segs.reverse.find? (fun seg => decide (textBefore 61 seg = k))).map (textAfter 61)) ∧
      (m.entries.map Prod.fst).Nodup ∧
      ((segs.map (textBefore 61)).Nodup →
        m.entries = segs.map (fun seg => (textBefore 61 seg, textAfter 61 seg))) :=
  Parse_with_configs (ascii ("src:m.a$k1=v1$k2")) (by decide)

/-! ## Fields and values of an aggregation -/

theorem checkAndSet_foldl (l : List (Option ℚ × Bytes)) (fav : fieldsAndValues) :
    l.foldl (fun (m : fieldsAndValues) p => m.checkAndSet p.1 p.2) fav =
      { fields := fav.fields ++ (l.filter (fun p => p.1.isSome)).map (fun p => p.2),
        values := fav.values ++ (l.filter (fun p => p.1.isSome)).map (fun p => p.1) } := by
  induction l generalizing fav with
  | nil => simp
  | cons p l ih =>
    rw [List.foldl_cons, ih]
    unfold fieldsAndValues.checkAndSet
    cases hp : p.1 with
    | none => simp [hp]
    | some x => simp [hp]

theorem checkAndSetFiltered_foldl (l : List (Option ℚ × Bytes)) (fav : fieldsAndValuesFiltered) :
    l.foldl (fun (m : fieldsAndValuesFiltered) p => m.checkAndSetFiltered p.1 p.2) fav =
      { fav with
        fields := fav.fields ++ (l.filter (fun p => (fav.filter.lookup p.2).getD false &&
          (fav.setAggregateIfMissing || p.1.isSome))).map (fun p => p.2),
        values := fav.values ++ (l.filter (fun p => (fav.filter.lookup p.2).getD false &&
          (fav.setAggregateIfMissing || p.1.isSome))).map (fun p => p.1) } := by
  induction l generalizing fav with
  | nil => simp
  | cons p l ih =>
    rw [List.foldl_cons, ih]
    unfold fieldsAndValuesFiltered.checkAndSetFiltered
    cases hf : (fav.filter.lookup p.2).getD false <;>
      cases hs : fav.setAggregateIfMissing <;> cases hp : p.1 <;> simp [hf, hs, hp]

/-- Claim C18: `GetDoubleFieldsAndValuesFiltered` returns parallel lists in
stat-ladder order: with a nil filter the fields are exactly the present stats; with
a filter and `setAggregateIfMissing` false exactly the present stats named in the
filter; with a filter and `setAggregateIfMissing` true exactly the stats named in
the filter, the value of an absent one being nil. -/
theorem GetDoubleFieldsAndValuesFiltered_ladder (a : Aggregation) (d : AggregationDouble)
    (hd : a.Double = some d) (filter : Option (GoMap Bytes Bool))
    (setAggregateIfMissing : Bool) :
    GetDoubleFieldsAndValuesFiltered (some a) filter setAggregateIfMissing =
      .ok ((Stat.ladder.filter (fun st =>
              match filter with
              | none => (d.slot st).isSome
              | some f => (f.lookup st.name).getD false &&
                  (setAggregateIfMissing || (d.slot st).isSome))).map Stat.name,
          (Stat.ladder.filter (fun st =>
              match filter with
              | none => (d.slot st).isSome
              | some f => (f.lookup st.name).getD false &&
                  (setAggregateIfMissing || (d.slot st).isSome))).map d.slot) := by
  cases filter with
  | none =>
    have key : GetDoubleFieldsAndValues (some a) =
        .ok (((Stat.ladder.map (fun st => (d.slot st, st.name))).foldl
            (fun (m : fieldsAndValues) p => m.checkAndSet p.1 p.2) {}).fields,
          ((Stat.ladder.map (fun st => (d.slot st, st.name))).foldl
            (fun (m : fieldsAndValues) p => m.checkAndSet p.1 p.2) {}).values) := by
      unfold GetDoubleFieldsAndValues
      simp only [hd, Stat.ladder, List.map_cons, List.map_nil, AggregationDouble.slot, Stat.name,
        List.foldl_cons, List.foldl_nil]
    unfold GetDoubleFieldsAndValuesFiltered
    simp only
    rw [key, checkAndSet_foldl]
    simp only [List.nil_append, List.filter_map, List.map_map]
    rfl
  | some f =>
    have key : GetDoubleFieldsAndValuesFiltered (some a) (some f) setAggregateIfMissing =
        .ok (((Stat.ladder.map (fun st => (d.slot st, st.name))).foldl
            (fun (m : fieldsAndValuesFiltered) p => m.checkAndSetFiltered p.1 p.2)
            { filter := f, setAggregateIfMissing := setAggregateIfMissing }).fields,
          ((Stat.ladder.map (fun st => (d.slot st, st.name))).foldl
            (fun (m : fieldsAndValuesFiltered) p => m.checkAndSetFiltered p.1 p.2)
            { filter := f, setAggregateIfMissing := setAggregateIfMissing }).values) := by
      unfold GetDoubleFieldsAndValuesFiltered
      simp only [hd, Stat.ladder, List.map_cons, List.map_nil, AggregationDouble.slot, Stat.name,
        List.foldl_cons, List.foldl_nil]
    rw [key, checkAndSetFiltered_foldl]
    simp only [List.nil_append, List.filter_map, List.map_map]
    rfl

theorem GetDoubleFieldsAndValuesFiltered_ladder_witness :
    GetDoubleFieldsAndValuesFiltered
        (some { Double := some { Mean := some 3, P50 := some 2 } })
        (some { entries := [(ascii ("mean"), true), (ascii ("p1"), true)] }) false =
      .ok ((Stat.ladder.filter (fun st =>
              match (some { entries := [(ascii ("mean"), true), (ascii ("p1"), true)] } :
                  Option (GoMap Bytes Bool)) with
              | none => (AggregationDouble.slot { Mean := some 3, P50 := some 2 } st).isSome
              | some f => (f.lookup st.name).getD false &&
                  (false || (AggregationDouble.slot { Mean := some 3, P50 := some 2 }
                    st).isSome))).map Stat.name,
          (Stat.ladder.filter (fun st =>
              match (some { entries := [(ascii ("mean"), true), (ascii ("p1"), true)] } :
                  Option (GoMap Bytes Bool)) with
              | none => (AggregationDouble.slot { Mean := some 3, P50 := some 2 } st).isSome
              | some f => (f.lookup st.name).getD false &&
                  (false || (AggregationDouble.slot { Mean := some 3, P50 := some 2 }
                    st).isSome))).map
            (AggregationDouble.slot { Mean := some 3, P50 := some 2 })) :=
  GetDoubleFieldsAndValuesFiltered_ladder { Double := some { Mean := some 3, P50 := some 2 } }
    { Mean := some 3, P50 := some 2 } rfl
    (some { entries := [(ascii ("mean"), true), (ascii ("p1"), true)] }) false

/-! ## Range reads: the configs filter -/

theorem foldlE_ok_invariant {σ α ε : Type} (f : σ → α → Except ε σ) (P : σ → Prop)
    (hstep : ∀ s a s2, f s a = .ok s2 → P s → P s2) (l : List α) (s s2 : σ)
    (h : foldlE f s l = .ok s2) (hs : P s) : P s2 := by
  induction l generalizing s with
  | nil =>
    simp only [foldlE, Except.ok.injEq] at h
    exact h ▸ hs
  | cons a rest ih =>
    simp only [foldlE] at h
    cases hf : f s a with
    | error e => rw [hf] at h; simp at h
    | ok s1 =>
      rw [hf] at h
      exact ih s1 h (hstep s a s1 hf hs)

/-- When a loop ends normally and an invariant is established at an element of the
slice and kept afterwards, it holds at the end. -/
theorem foldlE_ok_of_mem {σ α ε : Type} (f : σ → α → Except ε σ) (Q P : σ → Prop) (x : α)
    (hQ : ∀ s a s2, f s a = .ok s2 → Q s → Q s2)
    (hP : ∀ s a s2, f s a = .ok s2 → P s → P s2)
    (hx : ∀ s s2, f s x = .ok s2 → Q s → P s2)
    (l : List α) (s s2 : σ) (h : foldlE f s l = .ok s2) (hmem : x ∈ l) (hs : Q s) : P s2 := by
  induction l generalizing s with
  | nil => simp at hmem
  | cons a rest ih =>
    simp only [foldlE] at h
    cases hf : f s a with
    | error e => rw [hf] at h; simp at h
    | ok s1 =>
      rw [hf] at h
      rcases List.mem_cons.mp hmem with hxa | hrest
      · subst hxa
        exact foldlE_ok_invariant f P hP rest s1 s2 h (hx s s1 hf hs)
      · exact ih s1 h hrest (hQ s a s1 hf hs)

theorem configColumns_rowMatch (f : GoMap Bytes Bytes) (cols : List Column)
    (st st2 : List Bytes × GoMap Bytes Int × List (Option Bytes) × Bool)
    (h : foldlE (readRowRange.configColumns (some f)) st cols = .ok st2) :
    st2.2.2.2 = (st.2.2.2 || cols.any (columnMatches f)) := by
  induction cols generalizing st with
  | nil =>
    simp only [foldlE, Except.ok.injEq] at h
    subst h
    simp
  | cons c rest ih =>
    simp only [foldlE] at h
    cases hf : readRowRange.configColumns (some f) st c with
    | error e => rw [hf] at h; simp at h
    | ok s1 =>
      rw [hf] at h
      rw [ih s1 h]
      have h1 : s1.2.2.2 = (st.2.2.2 || columnMatches f c) := by
        unfold readRowRange.configColumns at hf
        simp only at hf
        cases hl : st.2.1.lookup c.Name with
        | none =>
          rw [hl] at hf
          simp only [Except.ok.injEq] at hf
          rw [← hf]
          cases columnMatches f c <;> simp
        | some idx =>
          rw [hl] at hf
          simp only at hf
          cases hs : sliceSet st.2.2.1 idx (some c.Value) with
          | error e => rw [hs] at hf; simp at hf
          | ok ct =>
            rw [hs] at hf
            simp only [Except.ok.injEq] at hf
            rw [← hf]
            unfold columnMatches
            by_cases hm : (f.lookup c.Name).getD [] = c.Value <;> simp [hm]
      rw [h1, List.any_cons, Bool.or_assoc]

theorem configRow_excludeIdSet_isSome (req : RowRangeRequests) (f : Option (GoMap Bytes Bytes))
    (st : ConfigsState) (r : Option Row) (st2 : ConfigsState)
    (h : readRowRange.configRow req f st r = .ok st2) (hs : st.excludeIdSet.isSome = true) :
    st2.excludeIdSet.isSome = true := by
  unfold readRowRange.configRow at h
  cases r with
  | none =>
    simp only [Except.ok.injEq] at h
    exact h ▸ hs
  | some row =>
    simp only at h
    split at h
    · simp at h
    · split at h
      · split at h
        · simp at h
        · simp only [Except.ok.injEq] at h
          rw [← h]
          rfl
      · split at h <;>
          (simp only [Except.ok.injEq] at h
           rw [← h]
           exact hs)

theorem configRow_excludeIdSet_mono (req : RowRangeRequests) (f : Option (GoMap Bytes Bytes))
    (key : Bytes) (st : ConfigsState) (r : Option Row) (st2 : ConfigsState)
    (h : readRowRange.configRow req f st r = .ok st2)
    (hs : ∃ ex, st.excludeIdSet = some ex ∧ ex.lookup key = some true) :
    ∃ ex, st2.excludeIdSet = some ex ∧ ex.lookup key = some true := by
  obtain ⟨ex, hex, hk⟩ := hs
  unfold readRowRange.configRow at h
  cases r with
  | none =>
    simp only [Except.ok.injEq] at h
    exact h ▸ ⟨ex, hex, hk⟩
  | some row =>
    simp only at h
    split at h
    · simp at h
    · split at h
      · simp only [hex, Except.ok.injEq] at h
        rw [← h]
        refine ⟨_, rfl, ?_⟩
        rw [lookup_set]
        split
        · rfl
        · exact hk
      · split at h <;>
          (simp only [Except.ok.injEq] at h
           rw [← h]
           exact ⟨ex, hex, hk⟩)

theorem configRow_excludes (req : RowRangeRequests) (f : GoMap Bytes Bytes)
    (st : ConfigsState) (row : Row) (st2 : ConfigsState)
    (h : readRowRange.configRow req (some f) st (some row) = .ok st2)
    (hno : row.Columns.any (columnMatches f) = false) :
    ∃ ex, st2.excludeIdSet = some ex ∧ ex.lookup row.Key = some true := by
  unfold readRowRange.configRow at h
  simp only at h
  split at h
  · simp at h
  · rename_i names reverseMap ctrow rowMatch hfold
    have hrm := configColumns_rowMatch f _ _ _ hfold
    simp only [hno, Bool.or_self] at hrm
    simp only [hrm, Option.isSome_some, Bool.not_false, Bool.and_self, if_true] at h
    split at h
    · simp at h
    · rename_i ex hex
      simp only [Except.ok.injEq] at h
      rw [← h]
      refine ⟨_, rfl, ?_⟩
      rw [lookup_set, if_pos rfl]

theorem getElem?_zero_sliceSet {α : Type} (l l2 : List α) (i : Int) (a x : α)
    (h : sliceSet l i a = .ok l2) (hi : 1 ≤ i) (h0 : l[0]? = some x) : l2[0]? = some x := by
  unfold sliceSet at h
  split at h
  · simp at h
  · split at h
    · simp only [Except.ok.injEq] at h
      rw [← h, List.getElem?_set]
      rw [if_neg (by omega)]
      exact h0
    · simp at h

theorem getElem?_zero_append {α : Type} (l : List α) (a x : α) (h0 : l[0]? = some x) :
    (l ++ [a])[0]? = some x := by
  cases l with
  | nil => simp at h0
  | cons b rest => simpa using h0

theorem aggregateFields_inv (x : Option ℚ) (columnName : Bytes) (values : List (Option ℚ))
    (st : List Bytes × GoMap Bytes Int × List (Option ℚ)) (p : Nat × Bytes)
    (st2 : List Bytes × GoMap Bytes Int × List (Option ℚ))
    (h : readRowRange.aggregateFields columnName values st p = .ok st2)
    (hinv : aggInv x st) : aggInv x st2 := by
  obtain ⟨h1, h2, h3⟩ := hinv
  unfold readRowRange.aggregateFields at h
  simp only at h
  split at h
  · simp at h
  · split at h
    · simp only [Except.ok.injEq] at h
      rw [← h]
      refine ⟨by simp, ?_, getElem?_zero_append _ _ _ h3⟩
      intro k v hk
      simp only at hk
      rw [lookup_set] at hk
      split at hk
      · simp only [Option.some.injEq] at hk
        omega
      · exact h2 k v hk
    · rename_i idx hidx
      split at h
      · simp at h
      · rename_i dtrow hset
        simp only [Except.ok.injEq] at h
        rw [← h]
        exact ⟨h1, h2, getElem?_zero_sliceSet _ _ _ _ _ hset (h2 _ _ hidx) h3⟩

theorem aggregateColumns_inv (x : Option ℚ) (env : ReadEnv) (req : RowRangeRequests)
    (mf af : Option (GoMap Bytes Bool))
    (st : List Bytes × GoMap Bytes Int × List (Option ℚ)) (c : Column)
    (st2 : List Bytes × GoMap Bytes Int × List (Option ℚ))
    (h : readRowRange.aggregateColumns env req mf af st c = .ok st2)
    (hinv : aggInv x st) : aggInv x st2 := by
  unfold readRowRange.aggregateColumns at h
  simp only at h
  split at h
  · simp only [Except.ok.injEq] at h
    exact h ▸ hinv
  · split at h
    · simp at h
    · split at h
      · simp at h
      · split at h
        · simp at h
        · split at h
          · simp at h
          · rename_i st3 hfold
            simp only [Except.ok.injEq] at h
            rw [← h]
            exact foldlE_ok_invariant _ (aggInv x)
              (fun s a s2 hs hp => aggregateFields_inv x _ _ s a s2 hs hp) _ _ _ hfold hinv

/-- One row of the aggregate rows loop: it is skipped, or one data row is added whose
cell 0 is the timestamp of the row key. -/
theorem aggregateRow_step (env : ReadEnv) (req : RowRangeRequests)
    (mf af : Option (GoMap Bytes Bool)) (cf : Option (GoMap Bytes Bytes))
    (ex : Option (GoMap Bytes Bool)) (st : AggregatesState) (r : Option Row)
    (st2 : AggregatesState)
    (h : readRowRange.aggregateRow env req mf af cf ex st r = .ok st2)
    (hinv : aggStateInv st) :
    aggStateInv st2 ∧
    ((st2 = st ∧ (r = none ∨ ∃ row, r = some row ∧ keyExcluded cf ex row.Key = true)) ∨
      (∃ row d, r = some row ∧ keyExcluded cf ex row.Key = false ∧
        st2.Data = st.Data ++ [some d] ∧
        d[0]? = some (some ((GetTimestamp row.Key : Int) : ℚ)) ∧
        st2.IdColumn = (if req.ReturnIds then st.IdColumn ++ [row.Key] else st.IdColumn))) := by
  unfold readRowRange.aggregateRow at h
  cases r with
  | none =>
    simp only [Except.ok.injEq] at h
    subst h
    exact ⟨hinv, Or.inl ⟨rfl, Or.inl rfl⟩⟩
  | some row =>
    simp only at h
    cases hk : keyExcluded cf ex row.Key with
    | true =>
      rw [hk] at h
      simp only [if_true, Except.ok.injEq] at h
      subst h
      exact ⟨hinv, Or.inl ⟨rfl, Or.inr ⟨row, rfl, hk⟩⟩⟩
    | false =>
      rw [hk] at h
      simp only [Bool.false_eq_true, if_false] at h
      split at h
      · simp at h
      · rename_i dtrow hset
        split at h
        · simp at h
        · rename_i names reverseMap dtrow2 hfold
          simp only [Except.ok.injEq] at h
          have h0 : dtrow[0]? = some (some ((GetTimestamp row.Key : Int) : ℚ)) := by
            unfold sliceSet at hset
            simp only [lt_self_iff_false, if_false, Int.toNat_zero, List.length_replicate]
              at hset
            split at hset
            · rename_i hpos
              simp only [Except.ok.injEq] at hset
              rw [← hset, List.getElem?_set]
              simp [hpos]
            · simp at hset
          have hinv2 := foldlE_ok_invariant _
            (aggInv (some ((GetTimestamp row.Key : Int) : ℚ)))
            (fun s a s2 hs hp => aggregateColumns_inv _ env req mf af s a s2 hs hp)
            _ _ _ hfold ⟨hinv.1, hinv.2, h0⟩
          rw [← h]
          exact ⟨⟨hinv2.1, hinv2.2.1⟩, Or.inr ⟨row, dtrow2, rfl, hk, rfl, hinv2.2.2, rfl⟩⟩

/-- The aggregate rows loop: the data rows added are, in order, one per row of a
sublist `kept` of the rows read, none of which is excluded, each with the timestamp
of its key in cell 0; with `ReturnIds` their keys are added to the id column. -/
theorem aggregateRows_kept (env : ReadEnv) (req : RowRangeRequests)
    (mf af : Option (GoMap Bytes Bool)) (cf : Option (GoMap Bytes Bytes))
    (ex : Option (GoMap Bytes Bool)) (rows : List (Option Row)) (st st2 : AggregatesState)
    (h : foldlE (readRowRange.aggregateRow env req mf af cf ex) st rows = .ok st2)
    (hinv : aggStateInv st) :
    ∃ (kept : List Row) (added : List (Option (List (Option ℚ)))),
      kept.Sublist (rows.filterMap id) ∧
      (∀ row ∈ kept, keyExcluded cf ex row.Key = false) ∧
      st2.Data = st.Data ++ added ∧
      List.Forall₂ (fun (row : Row) (cell : Option (List (Option ℚ))) =>
        ∃ d, cell = some d ∧ d[0]? = some (some ((GetTimestamp row.Key : Int) : ℚ)))
        kept added ∧
      st2.IdColumn = st.IdColumn ++ (if req.ReturnIds then kept.map (fun row => row.Key) else []) := by
  induction rows generalizing st with
  | nil =>
    simp only [foldlE, Except.ok.injEq] at h
    subst h
    exact ⟨[], [], by simp, by simp, by simp, List.Forall₂.nil, by simp⟩
  | cons r rest ih =>
    simp only [foldlE] at h
    cases hf : readRowRange.aggregateRow env req mf af cf ex st r with
    | error e => rw [hf] at h; simp at h
    | ok s1 =>
      rw [hf] at h
      obtain ⟨hinv1, hstep⟩ := aggregateRow_step env req mf af cf ex st r s1 hf hinv
      obtain ⟨kept, added, hsub, hex, hdata, hall, hid⟩ := ih s1 h hinv1
      rcases hstep with ⟨heq, hskip⟩ | ⟨row, d, hr, hk, hd, hd0, hidc⟩
      · subst heq
        refine ⟨kept, added, ?_, hex, hdata, hall, hid⟩
        rcases hskip with hnone | ⟨row, hrow, -⟩
        · subst hnone
          simpa using hsub
        · subst hrow
          simp only [List.filterMap_cons, id_eq]
          exact List.Sublist.cons _ hsub
      · subst hr
        refine ⟨row :: kept, some d :: added, ?_, ?_, ?_, ?_, ?_⟩
        · simp only [List.filterMap_cons, id_eq]
          exact List.Sublist.cons₂ _ hsub
        · intro r2 hr2
          rcases List.mem_cons.mp hr2 with h2 | h2
          · rw [h2]; exact hk
          · exact hex r2 h2
        · rw [hdata, hd]
          simp
        · exact List.Forall₂.cons ⟨d, rfl, hd0⟩ hall
        · rw [hid, hidc]
          cases req.ReturnIds <;> simp

theorem configRow_IdColumn (req : RowRangeRequests) (f : Option (GoMap Bytes Bytes))
    (st : ConfigsState) (r : Option Row) (st2 : ConfigsState)
    (h : readRowRange.configRow req f st r = .ok st2) (hagg : req.NoReturnAggregates = false)
    (hs : st.IdColumn = []) : st2.IdColumn = [] := by
  unfold readRowRange.configRow at h
  cases r with
  | none =>
    simp only [Except.ok.injEq] at h
    exact h ▸ hs
  | some row =>
    simp only at h
    split at h
    · simp at h
    · split at h
      · split at h
        · simp at h
        · simp only [Except.ok.injEq] at h
          rw [← h]
          exact hs
      · simp only [hagg, Bool.false_and, Bool.false_eq_true, if_false, Except.ok.injEq] at h
        rw [← h]
        exact hs

theorem SortConfigsColumns_data (sp : SortPositions) (d d2 : DataTable)
    (h : DataTable.SortConfigsColumns sp d = .ok d2) :
    d2.ColumnNames = d.ColumnNames ∧ d2.Data = d.Data ∧ d2.IdColumn = d.IdColumn := by
  unfold DataTable.SortConfigsColumns at h
  split at h
  · simp at h
  · split at h
    · simp at h
    · simp only [Except.ok.injEq] at h
      rw [← h]
      exact ⟨rfl, rfl, rfl⟩

/-- The config rows loop with a filter: a row read whose columns all fail the test of
the loop has its key in the exclusion set at the end. -/
theorem configRows_excludes (req : RowRangeRequests) (f : GoMap Bytes Bytes)
    (rows : List (Option Row)) (row : Row) (st st2 : ConfigsState)
    (h : foldlE (readRowRange.configRow req (some f)) st rows = .ok st2)
    (hmem : some row ∈ rows) (hno : row.Columns.any (columnMatches f) = false) :
    ∃ ex, st2.excludeIdSet = some ex ∧ ex.lookup row.Key = some true :=
  foldlE_ok_of_mem (readRowRange.configRow req (some f)) (fun _ => True)
    (fun s => ∃ ex, s.excludeIdSet = some ex ∧ ex.lookup row.Key = some true) (some row)
    (fun _ _ _ _ _ => trivial)
    (fun s a s2 hs hp => configRow_excludeIdSet_mono req (some f) row.Key s a s2 hs hp)
    (fun s s2 hs _ => configRow_excludes req f s row s2 hs hno)
    rows st st2 h hmem trivial

/-- The section "Read configs" with `ReturnConfigs`, a filter and aggregates
requested: the data part of the table is left as it was, and a row read whose columns
all fail the test of the loop has its key in the exclusion set. -/
theorem readConfigs_excludes (env : ReadEnv) (req : RowRangeRequests) (f : GoMap Bytes Bytes)
    (cfgRows : List (Option Row)) (row : Row) (dt : DataTable)
    (ex : Option (GoMap Bytes Bool))
    (hret : req.ReturnConfigs = true) (hagg : req.NoReturnAggregates = false)
    (h : readRowRange.readConfigs env req (some f) { Rows := cfgRows, err := none } {} =
      .ok (dt, ex))
    (hmem : some row ∈ cfgRows) (hno : row.Columns.any (columnMatches f) = false) :
    dt.ColumnNames = [] ∧ dt.Data = [] ∧ dt.IdColumn = [] ∧
      keyExcluded (some f) ex row.Key = true := by
  unfold readRowRange.readConfigs at h
  simp only [hret, if_true] at h
  split at h
  · simp at h
  · rename_i st hfold
    split at h
    · simp at h
    · rename_i dt2 hsort
      simp only [Except.ok.injEq, Prod.mk.injEq] at h
      obtain ⟨hdt, hex⟩ := h
      obtain ⟨h1, h2, h3⟩ := SortConfigsColumns_data _ _ _ hsort
      have hid : st.IdColumn = [] :=
        foldlE_ok_invariant _ (fun s => s.IdColumn = [])
          (fun s a s2 hs hp => configRow_IdColumn req (some f) s a s2 hs hagg hp)
          _ _ _ hfold rfl
      obtain ⟨e, he, hk⟩ := configRows_excludes req f cfgRows row _ st hfold hmem hno
      subst hdt
      refine ⟨h1, h2, by rw [h3]; exact hid, ?_⟩
      rw [← hex, he]
      simp [keyExcluded, hk]

/-- The section "Read aggregates" on a table without data: the data rows returned
are, in order, one per row of a sublist `kept` of the rows read, none of which is
excluded, each with the timestamp of its key in cell 0. -/
theorem readAggregates_kept (env : ReadEnv) (req : RowRangeRequests) (fs : FilteredSource)
    (aggRows : List (Option Row)) (ex : Option (GoMap Bytes Bool)) (dt table : DataTable)
    (hagg : req.NoReturnAggregates = false)
    (hdata : dt.Data = []) (hid : dt.IdColumn = [])
    (h : readRowRange.readAggregates env req fs { Rows := aggRows, err := none } ex dt =
      .ok table) :
    ∃ kept : List Row,
      kept.Sublist (aggRows.filterMap id) ∧
      (∀ row ∈ kept, keyExcluded fs.ConfigsFilter ex row.Key = false) ∧
      List.Forall₂ (fun (row : Row) (cell : Option (List (Option ℚ))) =>
        ∃ d, cell = some d ∧ d[0]? = some (some ((GetTimestamp row.Key : Int) : ℚ)))
        kept table.Data ∧
      table.IdColumn = (if req.ReturnIds then kept.map (fun row => row.Key) else []) := by
  unfold readRowRange.readAggregates at h
  simp only [hagg, Bool.not_false, if_true] at h
  split at h
  · simp at h
  · rename_i st hfold
    split at h
    · simp at h
    · simp only [Except.ok.injEq] at h
      obtain ⟨kept, added, hsub, hex, hd, hall, hidc⟩ :=
        aggregateRows_kept env req _ _ _ ex aggRows _ st hfold
          ⟨by simp, by intro k v hk; simp [GoMap.lookup] at hk⟩
      refine ⟨kept, hsub, hex, ?_, ?_⟩
      · rw [← h]
        simp only [hdata, List.nil_append] at hd
        simp only [hd]
        exact hall
      · rw [← h]
        simp only [hid, List.nil_append] at hidc
        exact hidc

/-- Claim C19 as stated fails: without `ReturnConfigs` the configs filter `a = 1` is not
applied. The config row of the key has `a = 2`, aggregates are requested, and the
table returned has the data row of that key. -/
theorem readRowRange_filter_without_ReturnConfigs_counterexample :
    (requestA1 false).ReturnConfigs = false ∧
    (requestA1 false).NoReturnAggregates = false ∧
    columnMatches filterA1 { Name := ascii ("a"), Value := ascii ("2") } = false ∧
    GetTimestamp keyOne = 1000 ∧
    readRowRange
        (testEnv [configRowOf keyOne (ascii ("a")) (ascii ("2"))] [aggregatesRowOf keyOne])
        (requestA1 false) 0
      = .ok { ColumnNames := [ascii ("time"), ascii ("m.mean")],
              Data := [some [some 1000, some 1]],
              IdColumn := [keyOne] } := by
  refine ⟨rfl, rfl, by decide, by set_option maxRecDepth 100000 in decide, ?_⟩
  set_option maxRecDepth 100000 in with_unfolding_all rfl

/-- Claim C19, amended: for a range request with `ReturnConfigs` set, a non-nil
ConfigsFilter and aggregates requested, take a config row read for the request whose
key is `K`, none of whose columns equals a pair of the filter and none of whose
columns outside the keys of the filter has the empty value. Then the data rows of the
table returned by `readRowRange` are, in order, one per row of a sublist `kept` of the
aggregate rows read, each with the timestamp of its row key in cell 0, no row of
`kept` has the key `K`, and with `ReturnIds` the id column lists the keys of `kept`. -/
theorem readRowRange_configs_filter (env : ReadEnv) (req : RowRangeRequests) (reqNum : Int)
    (fs : FilteredSource) (f : GoMap Bytes Bytes) (startPrefix endPrefix : Bytes)
    (cfgRows aggRows : List (Option Row)) (row : Row) (table : DataTable)
    (hfs : sliceIndex req.FilteredSources reqNum = .ok fs)
    (hf : fs.ConfigsFilter = some f)
    (hret : req.ReturnConfigs = true) (hagg : req.NoReturnAggregates = false)
    (hpre : MakeRowPrefixes env.md5 fs.Source req.StartTimestamp req.EndTimestamp true
      = some (startPrefix, endPrefix))
    (hcfg : env.pool CFConfigs startPrefix endPrefix req.MaxResults = .ok cfgRows)
    (haggr : env.pool CFAggregates startPrefix endPrefix req.MaxResults = .ok aggRows)
    (hrow : some row ∈ cfgRows)
    (hpair : ∀ c ∈ row.Columns, ∀ v, f.lookup c.Name = some v → v ≠ c.Value)
    (hempty : ∀ c ∈ row.Columns, f.lookup c.Name = none → c.Value ≠ [])
    (h : readRowRange env req reqNum = .ok table) :
    ∃ kept : List Row,
      kept.Sublist (aggRows.filterMap id) ∧
      (∀ r ∈ kept, r.Key ≠ row.Key) ∧
      List.Forall₂ (fun (r : Row) (cell : Option (List (Option ℚ))) =>
        ∃ d, cell = some d ∧ d[0]? = some (some ((GetTimestamp r.Key : Int) : ℚ)))
        kept table.Data ∧
      table.IdColumn = (if req.ReturnIds then kept.map (fun r => r.Key) else []) := by
  have hno : row.Columns.any (columnMatches f) = false := by
    rw [List.any_eq_false]
    intro c hc
    unfold columnMatches
    simp only [decide_eq_true_eq]
    cases hl : f.lookup c.Name with
    | none => exact fun heq => hempty c hc hl heq.symm
    | some v => exact hpair c hc v hl
  unfold readRowRange at h
  rw [hfs] at h
  simp only [hpre, hagg, hret, Bool.not_false, if_true, getColumnFamilyRange, hcfg, haggr,
    hf] at h
  split at h
  · simp at h
  · rename_i dt ex hconf
    obtain ⟨-, hdata, hid, hex⟩ :=
      readConfigs_excludes env req f cfgRows row dt ex hret hagg hconf hrow hno
    obtain ⟨kept, hsub, hkept, hall, hidc⟩ :=
      readAggregates_kept env req fs aggRows ex dt table hagg hdata hid h
    refine ⟨kept, hsub, ?_, hall, hidc⟩
    intro r hr heq
    have := hkept r hr
    rw [hf, heq, hex] at this
    exact Bool.noConfusion this

theorem readRowRange_configs_filter_witness :
    ∃ kept : List Row,
      kept.Sublist
        ([aggregatesRowOf keyOne, aggregatesRowOf keyTwo].filterMap id) ∧
      (∀ r ∈ kept, r.Key ≠ keyOne) ∧
      List.Forall₂ (fun (r : Row) (cell : Option (List (Option ℚ))) =>
        ∃ d, cell = some d ∧ d[0]? = some (some ((GetTimestamp r.Key : Int) : ℚ)))
        kept [some [some 2000, some 1]] ∧
      [keyTwo] = (if (requestA1 true).ReturnIds then kept.map (fun r => r.Key) else []) :=
  readRowRange_configs_filter
    (testEnv [configRowOf keyOne (ascii ("a")) (ascii ("2")),
        configRowOf keyTwo (ascii ("a")) (ascii ("1"))]
      [aggregatesRowOf keyOne, aggregatesRowOf keyTwo])
    (requestA1 true) 0 { Source := ascii ("s"), ConfigsFilter := some filterA1 } filterA1
    (getMd5Hash zeroDigest (ascii ("s")) ++ [95] ++ fmtZeroPad 13 (wrapInt64 (MaxTimeMillis - 5000)))
    ((getMd5Hash zeroDigest (ascii ("s")) ++ [95] ++ fmtZeroPad 13 (wrapInt64 (MaxTimeMillis - 0))).dropLast ++ [58])
    [configRowOf keyOne (ascii ("a")) (ascii ("2")), configRowOf keyTwo (ascii ("a")) (ascii ("1"))]
    [aggregatesRowOf keyOne, aggregatesRowOf keyTwo]
    { Key := keyOne, Columns := [{ Name := ascii ("a"), Value := ascii ("2") }] }
    { ColumnNames := [ascii ("time"), ascii ("m.mean")],
      Data := [some [some 2000, some 1]],
      IdColumn := [keyTwo],
      ConfigsColumnNames := [ascii ("a")],
      Configs := [some [some (ascii ("1"))]] }
    rfl rfl rfl rfl (by set_option maxRecDepth 100000 in decide) rfl rfl
    (by simp [configRowOf])
    (by decide) (by decide)
    (by set_option maxRecDepth 100000 in with_unfolding_all rfl)

/-- Claim C20 fails on the code: a config row whose one column `b` has the empty value is kept under the
filter `a = 1`, of which `b` is not a key, and its key is not recorded in the
exclusion set: the section "Read configs" returns the row in `Configs` with an empty
exclusion set, and `readRowRange` returns the data row of the key. -/
theorem readRowRange_empty_value_matches_missing_key :
    filterA1.lookup (ascii ("b")) = none ∧
    filterA1.lookup (ascii ("a")) = some (ascii ("1")) ∧
    readRowRange.readConfigs (testEnv [] []) (requestA1 true) (some filterA1)
        { Rows := [configRowOf keyOne (ascii ("b")) []] } {}
      = .ok ({ ConfigsColumnNames := [ascii ("b")], Configs := [some [some []]] }, some {}) ∧
    readRowRange (testEnv [configRowOf keyOne (ascii ("b")) []] [aggregatesRowOf keyOne])
        (requestA1 true) 0
      = .ok { ColumnNames := [ascii ("time"), ascii ("m.mean")],
              Data := [some [some 1000, some 1]],
              IdColumn := [keyOne],
              ConfigsColumnNames := [ascii ("b")],
              Configs := [some [some []]] } := by
  refine ⟨by decide, by decide, ?_, ?_⟩
  · set_option maxRecDepth 100000 in with_unfolding_all rfl
  · set_option maxRecDepth 100000 in with_unfolding_all rfl

/-! ## `MergeDataTables` -/

theorem lookup_eq_none_of_not_mem {κ ν : Type} [DecidableEq κ] (m : GoMap κ ν) (k : κ)
    (h : k ∉ m.entries.map Prod.fst) : m.lookup k = none := by
  unfold GoMap.lookup
  rw [Option.map_eq_none', List.find?_eq_none]
  intro e he
  simp only [decide_eq_true_eq]
  intro hk
  exact h (List.mem_map.mpr ⟨e, he, hk⟩)

theorem columnName_of_ne (T src c : Bytes) (h : c ≠ T) :
    MergeDataTables.columnName T src c = src ++ [58] ++ c := by
  unfold MergeDataTables.columnName
  rw [if_neg h]

theorem joined_ne_time (T src c : Bytes) (h58 : 58 ∉ T) : src ++ [58] ++ c ≠ T := by
  intro h
  apply h58
  rw [← h]
  simp

/-- One column other than the time column, for a merged row as wide as the names:
the cell is stored in the slot of `src:column`, and the cells of other names stay. -/
theorem dataColumn_step (T src : Bytes) (row : List (Option ℚ)) (names : List Bytes)
    (rmap : GoMap Bytes Int) (data : List (Option ℚ)) (p : Nat × Bytes)
    (hinv : namesInv T names rmap) (hlen : data.length = names.length) (hne : names ≠ [])
    (hp : p.2 ≠ T) (hj : p.1 < row.length) (h58 : 58 ∉ T) :
    ∃ names2 rmap2 data2,
      MergeDataTables.dataColumn T src row (names, rmap, data) p = .ok (names2, rmap2, data2) ∧
      namesInv T names2 rmap2 ∧ data2.length = names2.length ∧ names <+: names2 ∧
      (∀ (k : Nat) (name : Bytes), names[k]? = some name → name ≠ src ++ [58] ++ p.2 → data2[k]? = data[k]?) ∧
      (∃ k : Nat, names2[k]? = some (src ++ [58] ++ p.2) ∧ data2[k]? = row[p.1]?) := by
  obtain ⟨r1, r2, r3, r4⟩ := hinv
  unfold MergeDataTables.dataColumn
  simp only [hp, false_and, if_false, columnName_of_ne T src p.2 hp]
  have hidx : sliceIndex row (p.1 : Int) = .ok row[p.1] := by
    unfold sliceIndex
    simp [hj]
  rw [hidx]
  simp only
  have hrow : row[p.1]? = some row[p.1] := List.getElem?_eq_getElem hj
  cases hl : rmap.lookup (src ++ [58] ++ p.2) with
  | none =>
    simp only
    have hnot : src ++ [58] ++ p.2 ∉ names := by
      intro hmem
      have := r2 _ hmem
      rw [hl] at this
      simp at this
    refine ⟨_, _, _, rfl, ⟨?_, ?_, ?_, ?_⟩, ?_, List.prefix_append _ _, ?_, ?_⟩
    · intro name k hk
      rw [lookup_set] at hk
      split at hk
      · rename_i heq
        simp only [Option.some.injEq] at hk
        subst hk
        refine ⟨by omega, ?_⟩
        simp [heq]
      · obtain ⟨h1, h2⟩ := r1 name k hk
        refine ⟨h1, ?_⟩
        rw [List.getElem?_append_left]
        · exact h2
        · exact (List.getElem?_eq_some_iff.mp h2).1
    · intro name hmem
      rw [lookup_set]
      split
      · rfl
      · rcases List.mem_append.mp hmem with h | h
        · exact r2 name h
        · simp only [List.mem_singleton] at h
          rename_i hneq
          exact absurd h.symm hneq
    · rw [List.nodup_append]
      refine ⟨r3, List.nodup_singleton _, ?_⟩
      intro a ha hb
      simp only [List.mem_singleton] at hb
      subst hb
      exact hnot ha
    · intro _
      rw [lookup_set, if_neg (joined_ne_time T src p.2 h58)]
      exact r4 hne
    · simp [hlen]
    · intro k name hk _
      have hklt := (List.getElem?_eq_some_iff.mp hk).1
      rw [List.getElem?_append_left (by omega)]
    · refine ⟨names.length, by simp, ?_⟩
      rw [← hlen, hrow]
      simp
  | some idx =>
    simp only
    obtain ⟨h1, h2⟩ := r1 _ _ hl
    have hlt : idx.toNat < data.length := by
      rw [hlen]
      exact (List.getElem?_eq_some_iff.mp h2).1
    have hset : sliceSet data idx row[p.1] = .ok (data.set idx.toNat row[p.1]) := by
      unfold sliceSet
      rw [if_neg (by omega), if_pos hlt]
    rw [hset]
    refine ⟨_, _, _, rfl, ⟨r1, r2, r3, r4⟩, by simp [hlen], List.prefix_refl _, ?_, ?_⟩
    · intro k name hk hneq
      rw [List.getElem?_set]
      split
      · rename_i heq
        subst heq
        rw [h2] at hk
        simp only [Option.some.injEq] at hk
        exact absurd hk.symm hneq
      · rfl
    · refine ⟨idx.toNat, h2, ?_⟩
      rw [List.getElem?_set, if_pos rfl, if_pos hlt, hrow]

theorem getElem?_of_initial {α : Type} (l1 l2 : List α) (k : Nat) (a : α) (h : l1 <+: l2)
    (hk : l1[k]? = some a) : l2[k]? = some a := by
  obtain ⟨t, rfl⟩ := h
  rw [List.getElem?_append_left (List.getElem?_eq_some_iff.mp hk).1]
  exact hk

theorem ne_nil_of_initial {α : Type} (l1 l2 : List α) (h : l1 <+: l2) (hne : l1 ≠ []) :
    l2 ≠ [] := by
  obtain ⟨t, rfl⟩ := h
  simp [hne]

/-- The columns other than the time column, for a merged row as wide as the names:
each cell is stored in the slot of `src:column`, and the cells of other names stay. -/
theorem dataColumns_loop (T src : Bytes) (row : List (Option ℚ)) (h58 : 58 ∉ T)
    (l : List (Nat × Bytes)) (hl : ∀ p ∈ l, p.2 ≠ T ∧ p.1 < row.length)
    (hnd : (l.map Prod.snd).Nodup) (names : List Bytes) (rmap : GoMap Bytes Int)
    (data : List (Option ℚ)) (hinv : namesInv T names rmap)
    (hlen : data.length = names.length) (hne : names ≠ []) :
    ∃ names2 rmap2 data2,
      foldlE (MergeDataTables.dataColumn T src row) (names, rmap, data) l
        = .ok (names2, rmap2, data2) ∧
      namesInv T names2 rmap2 ∧ data2.length = names2.length ∧ names <+: names2 ∧
      (∀ (k : Nat) (name : Bytes), names[k]? = some name →
        (∀ p ∈ l, name ≠ src ++ [58] ++ p.2) → data2[k]? = data[k]?) ∧
      (∀ p ∈ l, ∃ k : Nat, names2[k]? = some (src ++ [58] ++ p.2) ∧
        data2[k]? = row[p.1]?) := by
  induction l generalizing names rmap data with
  | nil =>
    exact ⟨names, rmap, data, rfl, hinv, hlen, List.prefix_refl _, fun _ _ _ _ => rfl,
      by simp⟩
  | cons p rest ih =>
    obtain ⟨hp, hj⟩ := hl p (List.mem_cons_self _ _)
    obtain ⟨n1, r1, d1, hstep, hinv1, hlen1, hpre1, hframe1, k1, hk1, hd1⟩ :=
      dataColumn_step T src row names rmap data p hinv hlen hne hp hj h58
    simp only [List.map_cons, List.nodup_cons] at hnd
    obtain ⟨n2, r2, d2, hfold, hinv2, hlen2, hpre2, hframe2, hcells2⟩ :=
      ih (fun q hq => hl q (List.mem_cons_of_mem _ hq)) hnd.2 n1 r1 d1 hinv1 hlen1
        (ne_nil_of_initial _ _ hpre1 hne)
    refine ⟨n2, r2, d2, ?_, hinv2, hlen2, hpre1.trans hpre2, ?_, ?_⟩
    · simp only [foldlE, hstep]
      exact hfold
    · intro k name hk hall
      rw [hframe2 k name (getElem?_of_initial _ _ _ _ hpre1 hk)
        (fun q hq => hall q (List.mem_cons_of_mem _ hq))]
      exact hframe1 k name hk (hall p (List.mem_cons_self _ _))
    · intro q hq
      rcases List.mem_cons.mp hq with heq | hmem
      · subst heq
        refine ⟨k1, getElem?_of_initial _ _ _ _ hpre2 hk1, ?_⟩
        rw [hframe2 k1 _ hk1 ?_]
        · exact hd1
        · intro q2 hq2 heq
          have : q.2 = q2.2 := by
            have := List.append_cancel_left heq
            exact this
          exact hnd.1 (this ▸ List.mem_map_of_mem Prod.snd hq2)
      · exact hcells2 q hmem

/-- The time column for a new merged row: the X value is stored in cell 0. -/
theorem dataColumn_time (T src : Bytes) (row : List (Option ℚ)) (names : List Bytes)
    (rmap : GoMap Bytes Int) (x : ℚ) (hinv : namesInv T names rmap)
    (hrow0 : row[0]? = some (some x)) :
    ∃ names2 rmap2 data2,
      MergeDataTables.dataColumn T src row (names, rmap, List.replicate names.length none)
        (0, T) = .ok (names2, rmap2, data2) ∧
      namesInv T names2 rmap2 ∧ data2.length = names2.length ∧ names <+: names2 ∧
      names2 ≠ [] ∧ data2[0]? = some (some x) := by
  obtain ⟨r1, r2, r3, r4⟩ := hinv
  have hidx : sliceIndex row ((0 : Nat) : Int) = .ok (some x) := by
    unfold sliceIndex
    simp [hrow0]
  unfold MergeDataTables.dataColumn
  cases names with
  | nil =>
    have hl : rmap.lookup T = none := by
      cases h : rmap.lookup T with
      | none => rfl
      | some k => simpa using (r1 T k h).2
    simp only [List.length_nil, List.replicate_zero, lt_self_iff_false, false_and, and_false,
      if_false, MergeDataTables.columnName, if_true, hidx, hl, List.nil_append]
    refine ⟨_, _, _, rfl, ⟨?_, ?_, List.nodup_singleton _, ?_⟩, rfl, List.nil_prefix, by simp,
      rfl⟩
    · intro name k hk
      rw [lookup_set] at hk
      split at hk
      · rename_i heq
        simp only [Nat.cast_zero, Option.some.injEq] at hk
        subst hk
        simp [heq]
      · simpa using (r1 name k hk).2
    · intro name hmem
      simp only [List.mem_singleton] at hmem
      rw [lookup_set, if_pos hmem.symm]
      rfl
    · intro _
      rw [lookup_set, if_pos rfl]
      rfl
  | cons a t =>
    have hl : rmap.lookup T = some 0 := r4 (by simp)
    have hget : (List.replicate (a :: t).length (none : Option ℚ)).getD 0 none = none := by
      simp [List.replicate]
    simp only [hget, Option.isSome_none, Bool.false_eq_true, and_false, if_false,
      MergeDataTables.columnName, if_true, hidx, hl]
    have hset : sliceSet (List.replicate (a :: t).length (none : Option ℚ)) 0 (some x)
        = .ok ((List.replicate (a :: t).length none).set 0 (some x)) := by
      unfold sliceSet
      simp
    rw [hset]
    exact ⟨_, _, _, rfl, ⟨r1, r2, r3, r4⟩, by simp, List.prefix_refl _, by simp, by simp⟩

/-- The loop "Handle data" for a new merged row and a full-width row of a table whose
first column is the time column and whose other columns have pairwise distinct names:
the loop ends normally and the merged row holds the input row. -/
theorem dataColumns_new_row (T src : Bytes) (h58 : 58 ∉ T) (rest : List Bytes)
    (hrest : rest.Nodup) (hT : T ∉ rest) (row : List (Option ℚ)) (x : ℚ)
    (hwidth : row.length = (T :: rest).length) (hrow0 : row[0]? = some (some x))
    (names : List Bytes) (rmap : GoMap Bytes Int) (hinv : namesInv T names rmap) :
    ∃ names2 rmap2 data2,
      foldlE (MergeDataTables.dataColumn T src row)
        (names, rmap, List.replicate names.length none) (T :: rest).enum
        = .ok (names2, rmap2, data2) ∧
      namesInv T names2 rmap2 ∧ data2.length = names2.length ∧ names <+: names2 ∧
      names2 ≠ [] ∧ data2[0]? = some (some x) ∧ holdsRow names2 (T :: rest) src row data2 := by
  obtain ⟨n1, r1, d1, hstep, hinv1, hlen1, hpre1, hne1, hd1⟩ :=
    dataColumn_time T src row names rmap x hinv hrow0
  have hn10 : n1[0]? = some T := by
    have := (hinv1.1 T 0 (hinv1.2.2.2 hne1)).2
    simpa using this
  obtain ⟨n2, r2, d2, hfold, hinv2, hlen2, hpre2, hframe2, hcells2⟩ :=
    dataColumns_loop T src row h58 (List.enumFrom 1 rest)
      (by
        intro p hp
        have hp2 : (p.1, p.2) ∈ List.enumFrom 1 rest := hp
        rw [List.mk_mem_enumFrom_iff_le_and_getElem?_sub] at hp2
        obtain ⟨h1, h2⟩ := hp2
        have hlt := (List.getElem?_eq_some_iff.mp h2).1
        refine ⟨?_, ?_⟩
        · intro heq
          exact hT (heq ▸ List.getElem?_mem h2)
        · rw [hwidth, List.length_cons]
          omega)
      (by rw [List.enumFrom_map_snd]; exact hrest)
      n1 r1 d1 hinv1 hlen1 hne1
  refine ⟨n2, r2, d2, ?_, hinv2, hlen2, hpre1.trans hpre2, ne_nil_of_initial _ _ hpre2 hne1,
    ?_, ?_, ?_⟩
  · simp only [List.enum, List.enumFrom_cons, foldlE, hstep]
    exact hfold
  · rw [hframe2 0 T hn10 (fun p _ => (joined_ne_time T src p.2 h58).symm)]
    exact hd1
  · rw [hframe2 0 T hn10 (fun p _ => (joined_ne_time T src p.2 h58).symm), hd1, hrow0]
  · intro j c hj hc
    have hmem : (j, c) ∈ List.enumFrom 1 rest := by
      rw [List.mk_mem_enumFrom_iff_le_and_getElem?_sub]
      refine ⟨hj, ?_⟩
      obtain ⟨i, rfl⟩ : ∃ i, j = i + 1 := ⟨j - 1, by omega⟩
      simpa using hc
    exact hcells2 (j, c) hmem

/-- The loop "Handle configs" for a merged row as wide as the config names and a
config row that has a cell for every column: the loop ends normally. -/
theorem configColumns_loop (configRow : List (Option Bytes)) (l : List (Nat × Bytes))
    (hl : ∀ p ∈ l, p.1 < configRow.length) (names : List Bytes) (rmap : GoMap Bytes Int)
    (configs : List (Option Bytes)) (hinv : slotsInv names rmap)
    (hlen : configs.length = names.length) :
    ∃ names2 rmap2 configs2,
      foldlE (MergeDataTables.configColumn configRow) (names, rmap, configs) l
        = .ok (names2, rmap2, configs2) ∧
      slotsInv names2 rmap2 ∧ configs2.length = names2.length := by
  induction l generalizing names rmap configs with
  | nil => exact ⟨names, rmap, configs, rfl, hinv, hlen⟩
  | cons p rest ih =>
    have hj := hl p (List.mem_cons_self _ _)
    have hidx : sliceIndex configRow (p.1 : Int) = .ok configRow[p.1] := by
      unfold sliceIndex
      simp [hj]
    have hrest := fun q hq => hl q (List.mem_cons_of_mem _ hq)
    simp only [foldlE]
    unfold MergeDataTables.configColumn
    simp only [hidx]
    cases hlk : rmap.lookup p.2 with
    | none =>
      simp only
      apply ih hrest
      · intro name k hk
        rw [lookup_set] at hk
        split at hk
        · simp only [Option.some.injEq] at hk
          subst hk
          simp
        · obtain ⟨h1, h2⟩ := hinv name k hk
          refine ⟨h1, ?_⟩
          rw [List.length_append]
          omega
      · simp [hlen]
    | some idx =>
      simp only
      obtain ⟨h1, h2⟩ := hinv _ _ hlk
      have hset : sliceSet configs idx configRow[p.1]
          = .ok (configs.set idx.toNat configRow[p.1]) := by
        unfold sliceSet
        rw [if_neg (by omega), if_pos (by omega)]
      rw [hset]
      simp only
      exact ih hrest names rmap _ hinv (by simp [hlen])

/-- The part "Handle configs" of the row loop ends normally when the table has a
config row for the row, every config row has a cell for every config column, and the
merged row is as wide as the config names. -/
theorem rowConfigs_ok (dTable : DataTable) (x : ℚ) (dtrow : fullRow) (st : MergeState)
    (rowIdx : Nat) (hidx : rowIdx < dTable.Configs.length)
    (hwide : ∀ cr, some cr ∈ dTable.Configs → dTable.ConfigsColumnNames.length ≤ cr.length)
    (hinv : slotsInv st.ConfigsColumnNames st.configColumnNameReverseMap)
    (hlen : dtrow.configs.length = st.ConfigsColumnNames.length) :
    ∃ st2 fr, MergeDataTables.rowConfigs dTable x dtrow st rowIdx = .ok st2 ∧
      st2.ColumnNames = st.ColumnNames ∧
      st2.columnNameReverseMap = st.columnNameReverseMap ∧
      st2.rowMap = st.rowMap.set x fr ∧ fr.data = dtrow.data ∧
      slotsInv st2.ConfigsColumnNames st2.configColumnNameReverseMap := by
  have hsi : sliceIndex dTable.Configs (rowIdx : Int) = .ok dTable.Configs[rowIdx] := by
    unfold sliceIndex
    simp [hidx]
  unfold MergeDataTables.rowConfigs
  rw [hsi]
  cases hc : dTable.Configs[rowIdx] with
  | none => exact ⟨_, dtrow, rfl, rfl, rfl, rfl, rfl, hinv⟩
  | some configRow =>
    have hmem : some configRow ∈ dTable.Configs := hc ▸ List.getElem_mem _
    obtain ⟨n2, r2, c2, hfold, hinv2, -⟩ :=
      configColumns_loop configRow dTable.ConfigsColumnNames.enum
        (by
          intro p hp
          have hp2 : (p.1, p.2) ∈ List.enumFrom 0 dTable.ConfigsColumnNames := hp
          rw [List.mk_mem_enumFrom_iff_le_and_getElem?_sub] at hp2
          have := (List.getElem?_eq_some_iff.mp hp2.2).1
          have := hwide configRow hmem
          omega)
        st.ConfigsColumnNames st.configColumnNameReverseMap dtrow.configs hinv hlen
    simp only [hfold]
    exact ⟨_, { dtrow with configs := c2 }, rfl, rfl, rfl, rfl, rfl, hinv2⟩

/-- The body of the row loop for a full-width row with a new X value: it ends
normally, one merged row is added to the row map, and it holds the input row. -/
theorem row_new (T : Bytes) (returnIds returnConfigs : Bool) (src : Bytes)
    (dTable : DataTable) (h58 : 58 ∉ T) (rest : List Bytes)
    (hcols : dTable.ColumnNames = T :: rest) (hrest : rest.Nodup) (hT : T ∉ rest)
    (st : MergeState) (hinv : mergeInv T st) (rowIdx : Nat) (row : List (Option ℚ)) (x : ℚ)
    (hwidth : row.length = dTable.ColumnNames.length) (hrow0 : row[0]? = some (some x))
    (hnew : x ∉ st.rowMap.entries.map Prod.fst)
    (hid : returnIds = true → rowIdx < dTable.IdColumn.length)
    (hcfg : returnConfigs = true → rowIdx < dTable.Configs.length)
    (hwide : returnConfigs = true →
      ∀ cr, some cr ∈ dTable.Configs → dTable.ConfigsColumnNames.length ≤ cr.length) :
    ∃ st2 fr,
      MergeDataTables.row T returnIds returnConfigs src dTable st (rowIdx, some row)
        = .ok st2 ∧
      mergeInv T st2 ∧ st.ColumnNames <+: st2.ColumnNames ∧ st2.ColumnNames ≠ [] ∧
      st2.rowMap.entries = st.rowMap.entries ++ [(x, fr)] ∧
      fr.data[0]? = some (some x) ∧
      holdsRow st2.ColumnNames dTable.ColumnNames src row fr.data := by
  have hsi : sliceIndex row 0 = .ok (some x) := by
    unfold sliceIndex
    simp [hrow0]
  have hlk : st.rowMap.lookup x = none := lookup_eq_none_of_not_mem _ _ hnew
  rw [hcols] at hwidth
  obtain ⟨n2, r2, d2, hfold, hinv2, hlen2, hpre2, hne2, hd0, hholds⟩ :=
    dataColumns_new_row T src h58 rest hrest hT row x hwidth hrow0 st.ColumnNames
      st.columnNameReverseMap hinv.1
  unfold MergeDataTables.row
  simp only [hsi, hlk, hcols, hfold]
  have hidok : ∃ id, (if returnIds = true then sliceIndex dTable.IdColumn (rowIdx : Int)
      else .ok ([] : Bytes)) = .ok id := by
    cases returnIds with
    | false => exact ⟨[], rfl⟩
    | true =>
      refine ⟨dTable.IdColumn.get ⟨rowIdx, hid rfl⟩, ?_⟩
      unfold sliceIndex
      simp [hid rfl]
  obtain ⟨id, hidv⟩ := hidok
  simp only [hidv]
  cases hrc : returnConfigs with
  | false =>
    simp only [Bool.false_eq_true, if_false]
    refine ⟨_, fullRow.mk d2 (List.replicate st.ConfigsColumnNames.length none) id, rfl,
      ⟨hinv2, hinv.2⟩, hpre2, hne2, ?_, hd0, hholds⟩
    exact setEntry_of_not_mem _ _ _ hnew
  | true =>
    simp only [if_true]
    obtain ⟨st2, fr, hok, hn, hr, hm, hdata, hsl⟩ :=
      rowConfigs_ok dTable x
        (fullRow.mk d2 (List.replicate st.ConfigsColumnNames.length none) id)
        { st with ColumnNames := n2, columnNameReverseMap := r2 } rowIdx (hcfg hrc)
        (hwide hrc) hinv.2 (by simp)
    refine ⟨st2, fr, hok, ⟨?_, hsl⟩, ?_, ?_, ?_, ?_, ?_⟩
    · rw [hn, hr]
      exact hinv2
    · rw [hn]
      exact hpre2
    · rw [hn]
      exact hne2
    · rw [hm]
      exact setEntry_of_not_mem _ _ _ hnew
    · rw [hdata]
      exact hd0
    · rw [hn, hdata]
      exact hholds

theorem holdsRow_of_initial (names names2 cols : List Bytes) (src : Bytes)
    (row merged : List (Option ℚ)) (hpre : names <+: names2)
    (h : holdsRow names cols src row merged) : holdsRow names2 cols src row merged := by
  refine ⟨h.1, ?_⟩
  intro j c hj hc
  obtain ⟨k, hk, hm⟩ := h.2 j c hj hc
  exact ⟨k, getElem?_of_initial _ _ _ _ hpre hk, hm⟩

theorem firstCell_of_getElem? (row : List (Option ℚ)) (cell : Option ℚ)
    (h : row[0]? = some cell) : firstCell (some row) = cell := by
  cases row with
  | nil => simp at h
  | cons a t =>
    simp only [List.getElem?_cons_zero, Option.some.injEq] at h
    simp [firstCell, h]

/-- The row loop over full-width rows with pairwise distinct new X values: it ends
normally, one merged row per row is added to the row map in order, and each holds
its input row. -/
theorem rows_loop (T : Bytes) (returnIds returnConfigs : Bool) (src : Bytes)
    (dTable : DataTable) (h58 : 58 ∉ T) (rest : List Bytes)
    (hcols : dTable.ColumnNames = T :: rest) (hrest : rest.Nodup) (hT : T ∉ rest)
    (hwide : returnConfigs = true →
      ∀ cr, some cr ∈ dTable.Configs → dTable.ConfigsColumnNames.length ≤ cr.length)
    (rows : List (Option (List (Option ℚ)))) (i0 : Nat)
    (hrows : ∀ rowp ∈ rows, ∃ (row : List (Option ℚ)) (x : ℚ),
      rowp = some row ∧ row.length = dTable.ColumnNames.length ∧ row[0]? = some (some x))
    (hid : returnIds = true → i0 + rows.length ≤ dTable.IdColumn.length)
    (hcfg : returnConfigs = true → i0 + rows.length ≤ dTable.Configs.length)
    (st : MergeState) (hinv : mergeInv T st)
    (hnd : (rows.filterMap firstCell).Nodup)
    (hnew : ∀ x ∈ rows.filterMap firstCell, x ∉ st.rowMap.entries.map Prod.fst) :
    ∃ st2 added,
      foldlE (MergeDataTables.row T returnIds returnConfigs src dTable) st
        (List.enumFrom i0 rows) = .ok st2 ∧
      mergeInv T st2 ∧ st.ColumnNames <+: st2.ColumnNames ∧
      (rows ≠ [] → st2.ColumnNames ≠ []) ∧
      st2.rowMap.entries = st.rowMap.entries ++ added ∧
      added.map Prod.fst = rows.filterMap firstCell ∧
      (∀ e ∈ added, e.2.data[0]? = some (some e.1)) ∧
      (∀ row, some row ∈ rows →
        ∃ e ∈ added, holdsRow st2.ColumnNames dTable.ColumnNames src row e.2.data) := by
  induction rows generalizing i0 st with
  | nil =>
    exact ⟨st, [], rfl, hinv, List.prefix_refl _, fun h => absurd rfl h, by simp, rfl,
      by simp, by simp⟩
  | cons rowp rows ih =>
    obtain ⟨row, x, hrp, hwidth, hrow0⟩ := hrows rowp (List.mem_cons_self _ _)
    subst hrp
    have hfc : firstCell (some row) = some x := firstCell_of_getElem? row _ hrow0
    simp only [List.filterMap_cons, hfc, List.nodup_cons, List.mem_cons, forall_eq_or_imp]
      at hnd hnew
    simp only [List.length_cons] at hid hcfg
    obtain ⟨st1, fr, hstep, hinv1, hpre1, hne1, hent1, hfr0, hholds1⟩ :=
      row_new T returnIds returnConfigs src dTable h58 rest hcols hrest hT st hinv i0 row x
        hwidth hrow0 hnew.1 (fun h => by have := hid h; omega)
        (fun h => by have := hcfg h; omega) hwide
    obtain ⟨st2, added, hfold, hinv2, hpre2, -, hent2, hkeys2, hcell2, hrows2⟩ :=
      ih (i0 + 1) (fun rp hrp => hrows rp (List.mem_cons_of_mem _ hrp))
        (fun h => by have := hid h; omega) (fun h => by have := hcfg h; omega) st1 hinv1
        hnd.2
        (by
          intro y hy
          rw [hent1, List.map_append, List.mem_append]
          rintro (h | h)
          · exact hnew.2 y hy h
          · simp only [List.map_cons, List.map_nil, List.mem_singleton] at h
            subst h
            exact hnd.1 hy)
    refine ⟨st2, (x, fr) :: added, ?_, hinv2, hpre1.trans hpre2,
      fun _ => ne_nil_of_initial _ _ hpre2 hne1, ?_, ?_, ?_, ?_⟩
    · simp only [List.enumFrom_cons, foldlE, hstep]
      exact hfold
    · rw [hent2, hent1]
      simp
    · simp only [List.map_cons, hkeys2, List.filterMap_cons, hfc]
    · intro e he
      rcases List.mem_cons.mp he with h | h
      · subst h
        exact hfr0
      · exact hcell2 e h
    · intro r hr
      rcases List.mem_cons.mp hr with h | h
      · simp only [Option.some.injEq] at h
        subst h
        exact ⟨(x, fr), List.mem_cons_self _ _,
          holdsRow_of_initial _ _ _ _ _ _ hpre2 hholds1⟩
      · obtain ⟨e, he, hh⟩ := hrows2 r h
        exact ⟨e, List.mem_cons_of_mem _ he, hh⟩

/-- The table loop over mergeable tables whose X values are pairwise distinct and
new: it ends normally, one merged row per input row is added to the row map in
order, and each holds its input row under the names of its source. -/
theorem tables_loop (T : Bytes) (returnIds returnConfigs : Bool) (srcs : List Bytes)
    (h58 : 58 ∉ T) (tables : List DataTable) (i0 : Nat)
    (hsrcs : i0 + tables.length ≤ srcs.length)
    (htables : ∀ t ∈ tables, t.mergeable T returnIds returnConfigs)
    (st : MergeState) (hinv : mergeInv T st)
    (hnd : (tables.map DataTable.xValues).flatten.Nodup)
    (hnew : ∀ x ∈ (tables.map DataTable.xValues).flatten,
      x ∉ st.rowMap.entries.map Prod.fst) :
    ∃ st2 added,
      foldlE (MergeDataTables.table T srcs returnIds returnConfigs) st
        (List.enumFrom i0 (tables.map some)) = .ok st2 ∧
      mergeInv T st2 ∧ st.ColumnNames <+: st2.ColumnNames ∧
      ((∃ t ∈ tables, t.Data ≠ []) → st2.ColumnNames ≠ []) ∧
      st2.rowMap.entries = st.rowMap.entries ++ added ∧
      added.map Prod.fst = (tables.map DataTable.xValues).flatten ∧
      (∀ e ∈ added, e.2.data[0]? = some (some e.1)) ∧
      (∀ (n : Nat) (t : DataTable) (src : Bytes), tables[n]? = some t →
        srcs[i0 + n]? = some src → ∀ row, some row ∈ t.Data →
        ∃ e ∈ added, holdsRow st2.ColumnNames t.ColumnNames src row e.2.data) := by
  induction tables generalizing i0 st with
  | nil =>
    exact ⟨st, [], rfl, hinv, List.prefix_refl _, by simp, by simp, rfl, by simp, by simp⟩
  | cons t ts ih =>
    obtain ⟨⟨rest, hcols, hrest, hT⟩, hrows, hids, hcfgs⟩ := htables t (List.mem_cons_self _ _)
    simp only [List.length_cons] at hsrcs
    have hi0 : i0 < srcs.length := by omega
    have hsi : sliceIndex srcs (i0 : Int) = .ok srcs[i0] := by
      unfold sliceIndex
      simp [hi0]
    simp only [List.map_cons, List.flatten_cons, List.nodup_append, List.mem_append] at hnd hnew
    obtain ⟨hnd1, hnd2, hdisj⟩ := hnd
    obtain ⟨st1, added1, hfold1, hinv1, hpre1, hne1, hent1, hkeys1, hcell1, hrows1⟩ :=
      rows_loop T returnIds returnConfigs srcs[i0] t h58 rest hcols hrest hT
        (fun h => (hcfgs h).2) t.Data 0 hrows
        (fun h => by have := hids h; omega) (fun h => by have := (hcfgs h).1; omega)
        st hinv hnd1 (fun x hx => hnew x (Or.inl hx))
    obtain ⟨st2, added2, hfold2, hinv2, hpre2, hne2, hent2, hkeys2, hcell2, hrows2⟩ :=
      ih (i0 + 1) (by omega) (fun t2 ht2 => htables t2 (List.mem_cons_of_mem _ ht2)) st1 hinv1
        hnd2
        (by
          intro y hy
          rw [hent1, List.map_append, List.mem_append, hkeys1]
          rintro (h | h)
          · exact hnew y (Or.inr hy) h
          · exact hdisj h hy)
    refine ⟨st2, added1 ++ added2, ?_, hinv2, hpre1.trans hpre2, ?_, ?_, ?_, ?_, ?_⟩
    · simp only [List.map_cons, List.enumFrom_cons, foldlE, MergeDataTables.table, hsi, deref]
      have : foldlE (MergeDataTables.row T returnIds returnConfigs srcs[i0] t) st t.Data.enum
          = .ok st1 := hfold1
      rw [this]
      exact hfold2
    · rintro ⟨t2, ht2, hdata⟩
      rcases List.mem_cons.mp ht2 with h | h
      · subst h
        exact ne_nil_of_initial _ _ hpre2 (hne1 hdata)
      · exact hne2 ⟨t2, h, hdata⟩
    · rw [hent2, hent1, List.append_assoc]
    · rw [List.map_append, hkeys1, hkeys2]
      rfl
    · intro e he
      rcases List.mem_append.mp he with h | h
      · exact hcell1 e h
      · exact hcell2 e h
    · intro n t2 src htn hsn row hrow
      cases n with
      | zero =>
        simp only [List.getElem?_cons_zero, Option.some.injEq] at htn
        subst htn
        simp only [Nat.add_zero] at hsn
        rw [List.getElem?_eq_getElem hi0] at hsn
        simp only [Option.some.injEq] at hsn
        subst hsn
        obtain ⟨e, he, hh⟩ := hrows1 row hrow
        exact ⟨e, List.mem_append_left _ he, holdsRow_of_initial _ _ _ _ _ _ hpre2 hh⟩
      | succ m =>
        simp only [List.getElem?_cons_succ] at htn
        have hidx : i0 + (m + 1) = i0 + 1 + m := by omega
        rw [hidx] at hsn
        obtain ⟨e, he, hh⟩ := hrows2 m t2 src htn hsn row hrow
        exact ⟨e, List.mem_append_right _ he, hh⟩

theorem mergeInv_empty (T : Bytes) : mergeInv T {} := by
  refine ⟨⟨?_, ?_, List.nodup_nil, fun h => absurd rfl h⟩, ?_⟩
  · intro name k hk
    simp [GoMap.lookup] at hk
  · intro name hmem
    simp at hmem
  · intro name k hk
    simp [GoMap.lookup] at hk

/-- Claim C16 as stated fails on three inputs within its conditions. A table without
rows gives a result without the time name. A table with two columns named `c` gives
a merged row in which the cell 10 of the first of them is missing. With `returnIds`
and a table without id column the call panics. -/
theorem MergeDataTables_counterexample :
    MergeDataTables mergeTestEnv [some (tableTC [])] [ascii ("a")] false false = .ok {} ∧
    MergeDataTables mergeTestEnv
        [some { ColumnNames := [ascii ("time"), ascii ("c"), ascii ("c")],
                Data := [some [some 1, some 10, some 20]] }]
        [ascii ("a")] false false
      = .ok { ColumnNames := [ascii ("time"), ascii ("a:c")],
              Data := [some [some 1, some 20]] } ∧
    MergeDataTables mergeTestEnv [some (tableTC [[some 1, some 10]])] [ascii ("a")] true false
      = .error Panic.indexOutOfRange := by
  refine ⟨?_, ?_, ?_⟩
  · with_unfolding_all rfl
  · with_unfolding_all rfl
  · with_unfolding_all rfl

/-- Claim C16, amended: let the time name hold no `:`, let there be one source per table,
and let every table be mergeable: its first column is the time column, its other
columns have pairwise distinct names other than the time name, its rows are present
and full width with their X value, and the id and config columns asked for are there.
Let some table have a row and let the X values be pairwise distinct across all
tables. Then `MergeDataTables` returns a table whose column names are pairwise
distinct with the time name at index 0, whose rows have as X values exactly the X
values of the input rows, one row each, and in which every input row of table `i` has
a merged row with the same X value that holds each of its cells of a column `c` other
than the time column at the index of `srcs[i]:c` in ColumnNames. -/
theorem MergeDataTables_distinct_x (env : MergeEnv) (tables : List DataTable)
    (srcs : List Bytes) (returnIds returnConfigs : Bool)
    (horder : ∀ l, (env.rangeOrder l).Perm l) (h58 : 58 ∉ env.TimeName)
    (hsrcs : srcs.length = tables.length)
    (htables : ∀ t ∈ tables, t.mergeable env.TimeName returnIds returnConfigs)
    (hrow : ∃ t ∈ tables, t.Data ≠ [])
    (hnd : (tables.map DataTable.xValues).flatten.Nodup) :
    ∃ result,
      MergeDataTables env (tables.map some) srcs returnIds returnConfigs = .ok result ∧
      result.ColumnNames.Nodup ∧ result.ColumnNames[0]? = some env.TimeName ∧
      (result.Data.map firstCell).Perm ((tables.map DataTable.xValues).flatten.map some) ∧
      ∀ (i : Nat) (t : DataTable) (src : Bytes), tables[i]? = some t → srcs[i]? = some src →
        ∀ row, some row ∈ t.Data →
          ∃ merged, some merged ∈ result.Data ∧
            holdsRow result.ColumnNames t.ColumnNames src row merged := by
  obtain ⟨st, added, hfold, hinv, -, hne, hent, hkeys, hcell, hrows⟩ :=
    tables_loop env.TimeName returnIds returnConfigs srcs h58 tables 0 (by omega) htables {}
      (mergeInv_empty _) hnd (by simp)
  have hent2 : st.rowMap.entries = added := by
    rw [hent]
    rfl
  have hfold2 : foldlE (MergeDataTables.table env.TimeName srcs returnIds returnConfigs) {}
      (tables.map some).enum = .ok st := hfold
  unfold MergeDataTables
  simp only [hfold2, hent2]
  refine ⟨_, rfl, hinv.1.2.2.1, ?_, ?_, ?_⟩
  · have := (hinv.1.1 _ _ (hinv.1.2.2.2 (hne hrow))).2
    simpa using this
  · simp only [List.map_map]
    have hcongr : (env.rangeOrder added).map
        (firstCell ∘ (fun r : fullRow => some r.data) ∘ Prod.snd)
        = (env.rangeOrder added).map (fun e => some e.1) := by
      apply List.map_congr_left
      intro e he
      have hmem : e ∈ added := (horder added).mem_iff.mp he
      exact firstCell_of_getElem? _ _ (hcell e hmem)
    rw [hcongr, ← hkeys, List.map_map]
    exact (horder added).map _
  · intro i t src hti hsi row hrowmem
    obtain ⟨e, he, hh⟩ := hrows i t src hti (by simpa using hsi) row hrowmem
    refine ⟨e.2.data, ?_, hh⟩
    simp only [List.map_map, List.mem_map, Function.comp_apply, Option.some.injEq]
    exact ⟨e, (horder added).mem_iff.mpr he, rfl⟩

theorem MergeDataTables_distinct_x_witness :
    ∃ result,
      MergeDataTables mergeTestEnv
        ([tableTC [[some 1, some 10], [some 2, some 20]],
          tableTC [[some 3, some 30], [some 4, some 40]]].map some)
        [ascii ("a"), ascii ("b")] false false = .ok result ∧
      result.ColumnNames.Nodup ∧ result.ColumnNames[0]? = some mergeTestEnv.TimeName ∧
      (result.Data.map firstCell).Perm
        (([tableTC [[some 1, some 10], [some 2, some 20]],
          tableTC [[some 3, some 30], [some 4, some 40]]].map
            DataTable.xValues).flatten.map some) ∧
      ∀ (i : Nat) (t : DataTable) (src : Bytes),
        [tableTC [[some 1, some 10], [some 2, some 20]],
          tableTC [[some 3, some 30], [some 4, some 40]]][i]? = some t →
        [ascii ("a"), ascii ("b")][i]? = some src →
        ∀ row, some row ∈ t.Data →
          ∃ merged, some merged ∈ result.Data ∧
            holdsRow result.ColumnNames t.ColumnNames src row merged :=
  MergeDataTables_distinct_x mergeTestEnv
    [tableTC [[some 1, some 10], [some 2, some 20]],
      tableTC [[some 3, some 30], [some 4, some 40]]]
    [ascii ("a"), ascii ("b")] false false (fun l => List.Perm.refl l) (by decide) rfl
    (by
      intro t ht
      simp only [List.mem_cons, List.mem_singleton, List.not_mem_nil, or_false] at ht
      rcases ht with rfl | rfl
      · refine ⟨⟨[ascii ("c")], rfl, by simp, by decide⟩, ?_, by simp, by simp⟩
        intro rowp hrowp
        simp only [tableTC, List.map_cons, List.map_nil, List.mem_cons, List.mem_singleton,
          List.not_mem_nil, or_false] at hrowp
        rcases hrowp with rfl | rfl
        · exact ⟨_, 1, rfl, rfl, rfl⟩
        · exact ⟨_, 2, rfl, rfl, rfl⟩
      · refine ⟨⟨[ascii ("c")], rfl, by simp, by decide⟩, ?_, by simp, by simp⟩
        intro rowp hrowp
        simp only [tableTC, List.map_cons, List.map_nil, List.mem_cons, List.mem_singleton,
          List.not_mem_nil, or_false] at hrowp
        rcases hrowp with rfl | rfl
        · exact ⟨_, 3, rfl, rfl, rfl⟩
        · exact ⟨_, 4, rfl, rfl, rfl⟩)
    ⟨tableTC [[some 1, some 10], [some 2, some 20]], by simp, by simp [tableTC]⟩
    (by simp [DataTable.xValues, tableTC, firstCell])

/-- Claim C17 fails on the code: two full-width tables from the sources `a` and `b` carry the same X values.
With one row each the merged row holds the shared time cell and one cell per source.
With two rows each `MergeDataTables` does not return: the merged row of the second X
value was created with two cells before the column `b:c` was added, and the
assignment of its cell to slot 2 panics, whatever the order of the row map. -/
theorem MergeDataTables_same_x_two_rows_panics
    (order : List (ℚ × fullRow) → List (ℚ × fullRow)) :
    MergeDataTables mergeTestEnv
        [some (tableTC [[some 1, some 10]]), some (tableTC [[some 1, some 30]])]
        [ascii ("a"), ascii ("b")] false false
      = .ok { ColumnNames := [ascii ("time"), ascii ("a:c"), ascii ("b:c")],
              Data := [some [some 1, some 10, some 30]] } ∧
    MergeDataTables { TimeName := ascii ("time"), rangeOrder := order }
        [some (tableTC [[some 1, some 10], [some 2, some 20]]),
          some (tableTC [[some 1, some 30], [some 2, some 40]])]
        [ascii ("a"), ascii ("b")] false false
      = .error Panic.indexOutOfRange := by
  refine ⟨?_, ?_⟩
  · with_unfolding_all rfl
  · with_unfolding_all rfl

/-! ## `float32` rounding and the percentile index -/

theorem excessBits_spec (fuel N : Nat) (h : N < 2 ^ 24 * 2 ^ fuel) :
    N / 2 ^ excessBits fuel N < 2 ^ 24 ∧
      (0 < excessBits fuel N → 2 ^ 23 ≤ N / 2 ^ excessBits fuel N) := by
  induction fuel generalizing N with
  | zero =>
    simp only [excessBits, pow_zero, Nat.div_one, lt_self_iff_false, false_implies, and_true]
    simpa using h
  | succ f ih =>
    unfold excessBits
    by_cases hN : N < 2 ^ 24
    · rw [if_pos hN]
      simp only [pow_zero, Nat.div_one, lt_self_iff_false, false_implies, and_true]
      exact hN
    · rw [if_neg hN]
      have h2 : N / 2 < 2 ^ 24 * 2 ^ f := by
        rw [pow_succ] at h
        omega
      obtain ⟨ih1, ih2⟩ := ih (N / 2) h2
      have hdiv : N / 2 ^ (excessBits f (N / 2) + 1) = N / 2 / 2 ^ excessBits f (N / 2) := by
        rw [pow_succ, Nat.mul_comm, Nat.div_div_eq_div_mul]
      rw [hdiv]
      refine ⟨ih1, fun _ => ?_⟩
      by_cases hs : 0 < excessBits f (N / 2)
      · exact ih2 hs
      · have hs0 : excessBits f (N / 2) = 0 := by omega
        rw [hs0, pow_zero, Nat.div_one]
        omega

/-- The rounding to 24 significant bits: with `s` the number of excess bits, the
result is a multiple of `2 ^ s` at distance at most `2 ^ s / 2` from the argument. -/
theorem roundBits24_spec (N : Nat) :
    ∃ s : Nat, (s = 0 → roundBits24 N = N) ∧ (0 < s → 2 ^ 23 * 2 ^ s ≤ N) ∧
      N < 2 ^ 24 * 2 ^ s ∧ 2 ^ s ∣ roundBits24 N ∧
      2 * roundBits24 N ≤ 2 * N + 2 ^ s ∧ 2 * N ≤ 2 * roundBits24 N + 2 ^ s := by
  have hfuel : N < 2 ^ 24 * 2 ^ N := by
    have h1 : N < 2 ^ N := Nat.lt_two_pow N
    have h2 : 2 ^ N ≤ 2 ^ 24 * 2 ^ N := Nat.le_mul_of_pos_left _ (by positivity)
    omega
  obtain ⟨h1, h2⟩ := excessBits_spec N N hfuel
  refine ⟨excessBits N N, ?_, ?_, ?_, ?_⟩
  · intro hs
    unfold roundBits24
    simp [hs]
  · intro hs
    exact (Nat.le_div_iff_mul_le (by positivity)).mp (h2 hs)
  · exact (Nat.div_lt_iff_lt_mul (by positivity)).mp h1
  · unfold roundBits24
    simp only
    by_cases hs : excessBits N N = 0
    · rw [if_pos hs, hs]
      simp
    · rw [if_neg hs]
      have hpos : 0 < excessBits N N := Nat.pos_of_ne_zero hs
      have hmod := Nat.div_add_mod N (2 ^ excessBits N N)
      have hlt := Nat.mod_lt N (show 0 < 2 ^ excessBits N N by positivity)
      have hhalf : 2 * 2 ^ (excessBits N N - 1) = 2 ^ excessBits N N := by
        rw [← pow_succ']
        congr 1
        omega
      generalize 2 ^ excessBits N N = t at *
      generalize 2 ^ (excessBits N N - 1) = half at *
      generalize N / t = q at *
      generalize N % t = r at *
      split
      · rename_i hc
        refine ⟨Dvd.intro_left _ rfl, ?_, ?_⟩
        · rw [Nat.add_mul, Nat.mul_comm q t]
          rcases hc with hc | hc <;> omega
        · rw [Nat.add_mul, Nat.mul_comm q t]
          omega
      · rename_i hc
        refine ⟨Dvd.intro_left _ rfl, ?_, ?_⟩
        · rw [Nat.mul_comm q t]
          omega
        · rw [Nat.mul_comm q t]
          have : r ≤ half := by
            by_contra hgt
            exact hc (Or.inl (by omega))
          omega

theorem roundBits24_of_lt (n : Nat) (h : n < 2 ^ 24) : roundBits24 n = n := by
  unfold roundBits24
  have : excessBits n n = 0 := by
    cases n with
    | zero => rfl
    | succ k =>
      unfold excessBits
      rw [if_pos h]
  simp [this]

theorem roundBits24_le (N : Nat) : 2 ^ 24 * roundBits24 N ≤ (2 ^ 24 + 1) * N := by
  obtain ⟨s, hs0, hs1, -, -, hU, -⟩ := roundBits24_spec N
  by_cases hs : s = 0
  · rw [hs0 hs]
    omega
  · have := hs1 (Nat.pos_of_ne_zero hs)
    generalize 2 ^ s = t at *
    omega

theorem add_le_of_dvd_of_lt (t R M : Nat) (hR : t ∣ R) (hM : t ∣ M) (h : R < M) :
    R + t ≤ M := by
  obtain ⟨c, rfl⟩ := hR
  obtain ⟨c2, rfl⟩ := hM
  have ht : 0 < t := by
    rcases Nat.eq_zero_or_pos t with h0 | h0
    · subst h0
      simp at h
    · exact h0
  have hc : c < c2 := Nat.lt_of_mul_lt_mul_left h
  calc t * c + t = t * (c + 1) := by ring
    _ ≤ t * c2 := Nat.mul_le_mul_left t hc

/-- The index of `Percentile` is within the slice for every non-empty slice, when
the constant is below 1 by more than two float32 roundings. -/
theorem percentileIndex_lt_of (n P k : Nat) (hn : 0 < n)
    (hP : P * ((2 ^ 24 + 1) * (2 ^ 24 + 1)) < 2 ^ k * (2 ^ 24 * 2 ^ 24)) :
    percentileIndex n ⟨P, k⟩ < n := by
  unfold percentileIndex
  simp only
  rw [Nat.div_lt_iff_lt_mul (by positivity)]
  have h1 := roundBits24_le n
  have h2 := roundBits24_le (roundBits24 n * P)
  generalize roundBits24 (roundBits24 n * P) = R at *
  generalize roundBits24 n = A at *
  have h3 : 2 ^ 24 * (2 ^ 24 * R) ≤ (2 ^ 24 + 1) * ((2 ^ 24 + 1) * n) * P := by
    calc 2 ^ 24 * (2 ^ 24 * R) ≤ 2 ^ 24 * ((2 ^ 24 + 1) * (A * P)) :=
          Nat.mul_le_mul_left _ h2
      _ = (2 ^ 24 + 1) * (2 ^ 24 * A) * P := by ring
      _ ≤ (2 ^ 24 + 1) * ((2 ^ 24 + 1) * n) * P :=
          Nat.mul_le_mul_right _ (Nat.mul_le_mul_left _ h1)
  have h4 : (2 ^ 24 + 1) * ((2 ^ 24 + 1) * n) * P < 2 ^ 24 * (2 ^ 24 * (n * 2 ^ k)) := by
    calc (2 ^ 24 + 1) * ((2 ^ 24 + 1) * n) * P
        = n * (P * ((2 ^ 24 + 1) * (2 ^ 24 + 1))) := by ring
      _ < n * (2 ^ k * (2 ^ 24 * 2 ^ 24)) := Nat.mul_lt_mul_of_pos_left hP hn
      _ = 2 ^ 24 * (2 ^ 24 * (n * 2 ^ k)) := by ring
  have h5 := lt_of_le_of_lt h3 h4
  have h6 := Nat.lt_of_mul_lt_mul_left h5
  exact Nat.lt_of_mul_lt_mul_left h6

/-- The index of `Percentile` for every generated percentile and every non-empty
slice is within the slice. -/
theorem percentileIndex_lt (n : Nat) (hn : 0 < n) (sp : Stat × Float32Const)
    (hsp : sp ∈ CreateMissingDoubleAggregates.percentiles) :
    percentileIndex n sp.2 < n := by
  simp only [CreateMissingDoubleAggregates.percentiles, List.mem_cons, List.mem_singleton,
    List.not_mem_nil, or_false] at hsp
  rcases hsp with h | h | h | h | h | h | h | h | h <;>
    (rw [h]; exact percentileIndex_lt_of n _ _ hn (by norm_num))

/-- The index of `Percentile` is `⌊n * a / 100⌋` when the constant `P / 2 ^ k` is
the float32 of `a / 100`, off by `Dp - Dn` in units of `1 / (100 * 2 ^ k)`, and `n`
is below the bounds for which the two roundings cannot reach the next integer. -/
theorem percentileIndex_eq_floor_of (n P k a Dp Dn : Nat)
    (hD : 100 * P + Dn = a * 2 ^ k + Dp) (hsign : Dp = 0 ∨ Dn = 0)
    (hn24 : n < 2 ^ 24)
    (hup : n * (Dp * (2 ^ 24 + 1) + a * 2 ^ k) < 2 ^ k * 2 ^ 24)
    (hlo : Dn * (2 ^ 25 + 1) ≤ a * 2 ^ k) (hlo2 : n * Dn < 2 ^ k) :
    percentileIndex n ⟨P, k⟩ = n * a / 100 := by
  unfold percentileIndex
  simp only
  rw [roundBits24_of_lt n hn24]
  obtain ⟨s, hs0, hs1, hs2, hdvd, hU, hL⟩ := roundBits24_spec (n * P)
  have hm := Nat.div_add_mod (n * a) 100
  have hr := Nat.mod_lt (n * a) (show 0 < 100 by norm_num)
  have hK : 0 < 2 ^ k := by positivity
  have ht : 0 < 2 ^ s := by positivity
  have key : 100 * (n * P) + n * Dn
      = 100 * (n * a / 100 * 2 ^ k) + n * a % 100 * 2 ^ k + n * Dp := by
    have e1 : 100 * (n * P) + n * Dn = n * (100 * P + Dn) := by ring
    have e2 : 100 * (n * a / 100 * 2 ^ k) + n * a % 100 * 2 ^ k
        = (100 * (n * a / 100) + n * a % 100) * 2 ^ k := by ring
    rw [e1, e2, hm, hD]
    ring
  have hnaK : (100 * (n * a / 100) + n * a % 100) * 2 ^ k = n * a * 2 ^ k := by rw [hm]
  have hup2 : (2 ^ 24 + 1) * (n * Dp) + n * a * 2 ^ k < 2 ^ k * 2 ^ 24 := by
    have : n * (Dp * (2 ^ 24 + 1) + a * 2 ^ k) = (2 ^ 24 + 1) * (n * Dp) + n * a * 2 ^ k := by
      ring
    rw [← this]
    exact hup
  have hrK : n * a % 100 * 2 ^ k ≤ 99 * 2 ^ k := Nat.mul_le_mul_right _ (by omega)
  have hsplit : 100 * (n * a / 100 * 2 ^ k) + n * a % 100 * 2 ^ k = n * a * 2 ^ k := by
    rw [← hnaK]
    ring
  have hlo3 : (2 ^ 25 + 1) * (n * Dn) ≤ n * a * 2 ^ k := by
    calc (2 ^ 25 + 1) * (n * Dn) = n * (Dn * (2 ^ 25 + 1)) := by ring
      _ ≤ n * (a * 2 ^ k) := Nat.mul_le_mul_left _ hlo
      _ = n * a * 2 ^ k := by ring
  have hpow : 2 ^ 24 * 2 ^ s = 2 * (2 ^ 23 * 2 ^ s) := by ring
  -- the excess is at most `k`, so `2 ^ s` divides `m * 2 ^ k`
  have hsk : s ≤ k := by
    by_contra hgt
    have hks : 2 * 2 ^ k ≤ 2 ^ s := by
      rw [← pow_succ']
      exact Nat.pow_le_pow_right (by norm_num) (by omega)
    have := hs1 (by omega)
    generalize 2 ^ s = t at *
    generalize 2 ^ k = K at *
    generalize n * P = N at *
    generalize n * Dn = nDn at *
    generalize n * Dp = nDp at *
    generalize n * a * K = naK at *
    generalize n * a / 100 * K = mK at *
    generalize n * a % 100 * K = rK at *
    omega
  have hdvdM : 2 ^ s ∣ n * a / 100 * 2 ^ k :=
    Dvd.dvd.mul_left (Nat.pow_dvd_pow 2 hsk) _
  apply Nat.div_eq_of_lt_le
  · -- lower bound
    by_contra hlt
    have hstep := add_le_of_dvd_of_lt _ _ _ hdvd hdvdM (by omega)
    have hrcases : n * a % 100 = 0 ∨ 2 ^ k ≤ n * a % 100 * 2 ^ k := by
      rcases Nat.eq_zero_or_pos (n * a % 100) with h0 | h0
      · exact Or.inl h0
      · exact Or.inr (Nat.le_mul_of_pos_left _ h0)
    have hr0 : n * a % 100 = 0 → n * a % 100 * 2 ^ k = 0 := by
      intro h0
      rw [h0, Nat.zero_mul]
    have hDn0 : Dn = 0 → n * Dn = 0 := by
      intro h0
      rw [h0, Nat.mul_zero]
    have hDp0 : Dp = 0 → n * Dp = 0 := by
      intro h0
      rw [h0, Nat.mul_zero]
    generalize roundBits24 (n * P) = R at *
    generalize 2 ^ s = t at *
    generalize 2 ^ k = K at *
    generalize n * P = N at *
    generalize n * Dn = nDn at *
    generalize n * Dp = nDp at *
    generalize n * a * K = naK at *
    generalize n * a / 100 * K = mK at *
    generalize n * a % 100 * K = rK at *
    rcases hsign with h | h
    · have := hDp0 h
      rcases hrcases with h0 | h0
      · have := hr0 h0
        omega
      · omega
    · have := hDn0 h
      omega
  · -- upper bound
    have hsucc : (n * a / 100 + 1) * 2 ^ k = n * a / 100 * 2 ^ k + 2 ^ k := by ring
    rw [hsucc]
    by_cases hs : s = 0
    · rw [hs0 hs]
      generalize 2 ^ s = t at *
      generalize 2 ^ k = K at *
      generalize n * P = N at *
      generalize n * Dn = nDn at *
      generalize n * Dp = nDp at *
      generalize n * a * K = naK at *
      generalize n * a / 100 * K = mK at *
      generalize n * a % 100 * K = rK at *
      omega
    · have := hs1 (Nat.pos_of_ne_zero hs)
      generalize roundBits24 (n * P) = R at *
      generalize 2 ^ s = t at *
      generalize 2 ^ k = K at *
      generalize n * P = N at *
      generalize n * Dn = nDn at *
      generalize n * Dp = nDp at *
      generalize n * a * K = naK at *
      generalize n * a / 100 * K = mK at *
      generalize n * a % 100 * K = rK at *
      omega

/-- The constants are the `float32` values of the decimals in the source: each has
a 24-bit significand and lies within half a unit in the last place of its decimal. -/
theorem float32_constants_nearest :
    ∀ pa ∈ [(float32_0_99, 99), (float32_0_95, 95), (float32_0_90, 90), (float32_0_75, 75),
        (float32_0_50, 50), (float32_0_25, 25), (float32_0_10, 10), (float32_0_05, 5),
        (float32_0_01, 1)],
      2 ^ 23 ≤ pa.1.num ∧ pa.1.num < 2 ^ 24 ∧
        100 * pa.1.num ≤ pa.2 * 2 ^ pa.1.exp + 50 ∧
        pa.2 * 2 ^ pa.1.exp ≤ 100 * pa.1.num + 50 := by
  decide

/-- For slices of fewer than 131072 elements the index of `Percentile` is the integer
part of `n * p` for each of the nine fractions of `CreateMissingDoubleAggregates`. -/
theorem percentileIndex_eq_floor (n : Nat) (hn : n < 131072) :
    percentileIndex n float32_0_99 = n * 99 / 100 ∧
    percentileIndex n float32_0_95 = n * 95 / 100 ∧
    percentileIndex n float32_0_90 = n * 90 / 100 ∧
    percentileIndex n float32_0_75 = n * 75 / 100 ∧
    percentileIndex n float32_0_50 = n * 50 / 100 ∧
    percentileIndex n float32_0_25 = n * 25 / 100 ∧
    percentileIndex n float32_0_10 = n * 10 / 100 ∧
    percentileIndex n float32_0_05 = n * 5 / 100 ∧
    percentileIndex n float32_0_01 = n * 1 / 100 := by
  refine ⟨?_, ?_, ?_, ?_, ?_, ?_, ?_, ?_, ?_⟩
  · exact percentileIndex_eq_floor_of n _ _ 99 16 0 (by norm_num) (Or.inr rfl) (by omega)
      (by norm_num; omega) (by norm_num) (by omega)
  · exact percentileIndex_eq_floor_of n _ _ 95 0 20 (by norm_num) (Or.inl rfl) (by omega)
      (by norm_num; omega) (by norm_num) (by norm_num; omega)
  · exact percentileIndex_eq_floor_of n _ _ 90 0 40 (by norm_num) (Or.inl rfl) (by omega)
      (by norm_num; omega) (by norm_num) (by norm_num; omega)
  · exact percentileIndex_eq_floor_of n _ _ 75 0 0 (by norm_num) (Or.inl rfl) (by omega)
      (by norm_num; omega) (by norm_num) (by norm_num)
  · exact percentileIndex_eq_floor_of n _ _ 50 0 0 (by norm_num) (Or.inl rfl) (by omega)
      (by norm_num; omega) (by norm_num) (by norm_num)
  · exact percentileIndex_eq_floor_of n _ _ 25 0 0 (by norm_num) (Or.inl rfl) (by omega)
      (by norm_num; omega) (by norm_num) (by norm_num)
  · exact percentileIndex_eq_floor_of n _ _ 10 20 0 (by norm_num) (Or.inr rfl) (by omega)
      (by norm_num; omega) (by norm_num) (by omega)
  · exact percentileIndex_eq_floor_of n _ _ 5 20 0 (by norm_num) (Or.inr rfl) (by omega)
      (by norm_num; omega) (by norm_num) (by omega)
  · exact percentileIndex_eq_floor_of n _ _ 1 0 24 (by norm_num) (Or.inl rfl) (by omega)
      (by norm_num; omega) (by norm_num) (by norm_num; omega)

theorem percentileIndex_229401 : percentileIndex 229401 float32_0_99 = 227107 := by
  decide

/-! ## `CreateMissingDoubleAggregates` -/

theorem slot_setSlot_self (d : AggregationDouble) (s : Stat) (v : Option ℚ) :
    (d.setSlot s v).slot s = v := by
  cases s <;> rfl

theorem slot_setSlot_ne (d : AggregationDouble) (s s2 : Stat) (v : Option ℚ) (h : s ≠ s2) :
    (d.setSlot s v).slot s2 = d.slot s2 := by
  cases s <;> cases s2 <;> first | exact absurd rfl h | rfl

/-- One percentile statement writes at most its own slot, and only when that slot is
absent. -/
theorem percentile_frame (st st2 : AggregationDouble × lazyData) (sp : Stat × Float32Const)
    (h : CreateMissingDoubleAggregates.percentile st sp = .ok st2) (s : Stat) :
    (s ≠ sp.1 → st2.1.slot s = st.1.slot s) ∧
      (∀ x, st.1.slot s = some x → st2.1.slot s = some x) := by
  unfold CreateMissingDoubleAggregates.percentile at h
  split at h
  · rename_i hnone
    split at h
    · simp at h
    · simp only [Except.ok.injEq] at h
      rw [← h]
      refine ⟨fun hne => slot_setSlot_ne _ _ _ _ (Ne.symm hne), fun x hx => ?_⟩
      by_cases hs : s = sp.1
      · rw [hs] at hx
        rw [hx] at hnone
        simp at hnone
      · rw [slot_setSlot_ne _ _ _ _ (Ne.symm hs)]
        exact hx
  · simp only [Except.ok.injEq] at h
    rw [← h]
    exact ⟨fun _ => rfl, fun x hx => hx⟩

theorem percentiles_frame (steps : List (Stat × Float32Const))
    (st st2 : AggregationDouble × lazyData)
    (h : foldlE CreateMissingDoubleAggregates.percentile st steps = .ok st2) (s : Stat) :
    (s ∉ steps.map Prod.fst → st2.1.slot s = st.1.slot s) ∧
      (∀ x, st.1.slot s = some x → st2.1.slot s = some x) := by
  induction steps generalizing st with
  | nil =>
    simp only [foldlE, Except.ok.injEq] at h
    rw [← h]
    exact ⟨fun _ => rfl, fun x hx => hx⟩
  | cons sp rest ih =>
    simp only [foldlE] at h
    cases hf : CreateMissingDoubleAggregates.percentile st sp with
    | error e => rw [hf] at h; simp at h
    | ok s1 =>
      rw [hf] at h
      obtain ⟨h1, h2⟩ := percentile_frame st s1 sp hf s
      obtain ⟨h3, h4⟩ := ih s1 h
      refine ⟨fun hn => ?_, fun x hx => h4 x (h2 x hx)⟩
      simp only [List.map_cons, List.mem_cons, not_or] at hn
      rw [h3 hn.2, h1 hn.1]

theorem min_frame (st st2 : AggregationDouble × lazyData)
    (h : CreateMissingDoubleAggregates.min st = .ok st2) (s : Stat) :
    (s ≠ Stat.min → st2.1.slot s = st.1.slot s) ∧
      (∀ x, st.1.slot s = some x → st2.1.slot s = some x) := by
  unfold CreateMissingDoubleAggregates.min at h
  split at h
  · rename_i hnone
    split at h
    · simp at h
    · rename_i v l hv
      simp only [Except.ok.injEq] at h
      rw [← h]
      have hset : ({ st.1 with Min := some v } : AggregationDouble)
          = st.1.setSlot Stat.min (some v) := rfl
      simp only [hset]
      refine ⟨fun hne => slot_setSlot_ne _ _ _ _ (Ne.symm hne), fun x hx => ?_⟩
      by_cases hs : s = Stat.min
      · rw [hs] at hx
        have : st.1.Min = some x := hx
        rw [this] at hnone
        simp at hnone
      · rw [slot_setSlot_ne _ _ _ _ (Ne.symm hs)]
        exact hx
  · simp only [Except.ok.injEq] at h
    rw [← h]
    exact ⟨fun _ => rfl, fun x hx => hx⟩

theorem max_frame (st st2 : AggregationDouble × lazyData)
    (h : CreateMissingDoubleAggregates.max st = .ok st2) (s : Stat) :
    (s ≠ Stat.max → st2.1.slot s = st.1.slot s) ∧
      (∀ x, st.1.slot s = some x → st2.1.slot s = some x) := by
  unfold CreateMissingDoubleAggregates.max at h
  split at h
  · rename_i hnone
    split at h
    · simp at h
    · rename_i v l hv
      simp only [Except.ok.injEq] at h
      rw [← h]
      have hset : ({ st.1 with Max := some v } : AggregationDouble)
          = st.1.setSlot Stat.max (some v) := rfl
      simp only [hset]
      refine ⟨fun hne => slot_setSlot_ne _ _ _ _ (Ne.symm hne), fun x hx => ?_⟩
      by_cases hs : s = Stat.max
      · rw [hs] at hx
        have : st.1.Max = some x := hx
        rw [this] at hnone
        simp at hnone
      · rw [slot_setSlot_ne _ _ _ _ (Ne.symm hs)]
        exact hx
  · simp only [Except.ok.injEq] at h
    rw [← h]
    exact ⟨fun _ => rfl, fun x hx => hx⟩

theorem mean_frame (st : AggregationDouble × lazyData) (s : Stat) :
    (s ≠ Stat.mean → (CreateMissingDoubleAggregates.mean st).1.slot s = st.1.slot s) ∧
      (∀ x, st.1.slot s = some x →
        (CreateMissingDoubleAggregates.mean st).1.slot s = some x) := by
  unfold CreateMissingDoubleAggregates.mean
  split
  · rename_i hnone
    have hset : ({ st.1 with Mean := some st.2.Mean.1 } : AggregationDouble)
        = st.1.setSlot Stat.mean (some st.2.Mean.1) := rfl
    simp only [hset]
    refine ⟨fun hne => slot_setSlot_ne _ _ _ _ (Ne.symm hne), fun x hx => ?_⟩
    by_cases hs : s = Stat.mean
    · rw [hs] at hx
      have : st.1.Mean = some x := hx
      rw [this] at hnone
      simp at hnone
    · rw [slot_setSlot_ne _ _ _ _ (Ne.symm hs)]
      exact hx
  · exact ⟨fun _ => rfl, fun x hx => hx⟩

/-- The slots that `CreateMissingDoubleAggregates` can write. -/
theorem CreateMissingDoubleAggregates_frame (m m2 : Option Aggregation) (d : List ℚ)
    (h : Aggregation.CreateMissingDoubleAggregates m d = .ok m2) :
    ∃ a dbl dbl2, m = some a ∧ a.Double = some dbl ∧
      m2 = some { a with Double := some dbl2 } ∧
      ∀ s : Stat,
        (s ∉ [Stat.count, Stat.p99, Stat.p95, Stat.p90, Stat.p75, Stat.p50, Stat.p25,
            Stat.p10, Stat.p5, Stat.p1, Stat.min, Stat.max, Stat.mean] →
          dbl2.slot s = dbl.slot s) ∧
        (∀ x, dbl.slot s = some x → dbl2.slot s = some x) := by
  unfold Aggregation.CreateMissingDoubleAggregates at h
  cases m with
  | none => simp at h
  | some a =>
    simp only at h
    cases hd : a.Double with
    | none => rw [hd] at h; simp at h
    | some dbl =>
      rw [hd] at h
      simp only at h
      have hcount : ∀ s : Stat,
          (s ≠ Stat.count →
            (if dbl.Count.isNone = true then
                ({ dbl with Count := some (d.length : ℚ) } : AggregationDouble)
              else dbl).slot s = dbl.slot s) ∧
          (∀ x, dbl.slot s = some x →
            (if dbl.Count.isNone = true then
                ({ dbl with Count := some (d.length : ℚ) } : AggregationDouble)
              else dbl).slot s = some x) := by
        intro s
        split
        · rename_i hnone
          have hset : ({ dbl with Count := some (d.length : ℚ) } : AggregationDouble)
              = dbl.setSlot Stat.count (some (d.length : ℚ)) := rfl
          simp only [hset]
          refine ⟨fun hne => slot_setSlot_ne _ _ _ _ (Ne.symm hne), fun x hx => ?_⟩
          by_cases hs : s = Stat.count
          · rw [hs] at hx
            have : dbl.Count = some x := hx
            rw [this] at hnone
            simp at hnone
          · rw [slot_setSlot_ne _ _ _ _ (Ne.symm hs)]
            exact hx
        · exact ⟨fun _ => rfl, fun x hx => hx⟩
      generalize (if dbl.Count.isNone = true then
          ({ dbl with Count := some (d.length : ℚ) } : AggregationDouble) else dbl) = dbl0
        at h hcount
      split at h
      · simp only [Except.ok.injEq] at h
        refine ⟨a, dbl, dbl0, rfl, hd, h.symm, fun s => ⟨fun hs => ?_, (hcount s).2⟩⟩
        simp only [List.mem_cons, not_or] at hs
        exact (hcount s).1 hs.1
      · split at h
        · simp at h
        · rename_i st1 h1
          split at h
          · simp at h
          · rename_i st2 h2
            split at h
            · simp at h
            · rename_i st3 h3
              simp only [Except.ok.injEq] at h
              refine ⟨a, dbl, _, rfl, hd, h.symm, fun s => ?_⟩
              obtain ⟨p1, p2⟩ := percentiles_frame _ _ _ h1 s
              obtain ⟨q1, q2⟩ := min_frame _ _ h2 s
              obtain ⟨r1, r2⟩ := max_frame _ _ h3 s
              obtain ⟨m1, m2⟩ := mean_frame st3 s
              refine ⟨fun hs => ?_, fun x hx => m2 x (r2 x (q2 x (p2 x ((hcount s).2 x hx))))⟩
              simp only [List.mem_cons, List.mem_singleton, List.not_mem_nil, not_or,
                or_false] at hs
              rw [m1 hs.2.2.2.2.2.2.2.2.2.2.2.2, r1 hs.2.2.2.2.2.2.2.2.2.2.2.1,
                q1 hs.2.2.2.2.2.2.2.2.2.2.1, p1 ?_]
              · exact (hcount s).1 hs.1
              · simp only [CreateMissingDoubleAggregates.percentiles, List.map_cons,
                  List.map_nil, List.mem_cons, List.mem_singleton, List.not_mem_nil, not_or,
                  or_false]
                exact ⟨hs.2.1, hs.2.2.1, hs.2.2.2.1, hs.2.2.2.2.1, hs.2.2.2.2.2.1,
                  hs.2.2.2.2.2.2.1, hs.2.2.2.2.2.2.2.1, hs.2.2.2.2.2.2.2.2.1,
                  hs.2.2.2.2.2.2.2.2.2.1⟩

theorem length_sortFloat64s (d : List ℚ) : (sortFloat64s d).length = d.length :=
  List.length_insertionSort _ d

theorem perm_sortFloat64s (d : List ℚ) : (sortFloat64s d).Perm d :=
  List.perm_insertionSort _ d

theorem sorted_sortFloat64s (d : List ℚ) : (sortFloat64s d).Sorted (fun a b => a ≤ b) :=
  List.sorted_insertionSort _ d

theorem holds_length (d : List ℚ) (l : lazyData) (h : l.holds d) :
    l.Data.length = d.length := by
  rcases h.1 with ⟨-, h1⟩ | ⟨-, h1⟩
  · rw [h1]
  · rw [h1, length_sortFloat64s]

theorem holds_perm (d : List ℚ) (l : lazyData) (h : l.holds d) : l.Data.Perm d := by
  rcases h.1 with ⟨-, h1⟩ | ⟨-, h1⟩
  · rw [h1]
  · rw [h1]
    exact perm_sortFloat64s d

/-- The method `Percentile` on non-empty data with an index in range: the value is
the element of the sorted points at the float32 index. -/
theorem Percentile_spec (d : List ℚ) (l : lazyData) (p : Float32Const) (h : l.holds d)
    (hidx : percentileIndex d.length p < d.length) :
    ∃ l2, l.Percentile p
        = .ok ((sortFloat64s d).getD (percentileIndex d.length p) 0, l2) ∧ l2.holds d := by
  unfold lazyData.Percentile
  have hcs : (l.createSorted).Data = sortFloat64s d ∧ (l.createSorted).holds d := by
    unfold lazyData.createSorted
    rcases h.1 with ⟨h0, h1⟩ | ⟨h0, h1⟩
    · simp only [h0, Bool.not_false, if_true, h1]
      exact ⟨trivial, Or.inr ⟨rfl, rfl⟩, h.2.1, h.2.2.1, h.2.2.2⟩
    · simp only [h0, Bool.not_true, Bool.false_eq_true, if_false]
      exact ⟨h1, h⟩
  simp only
  have hlen : (l.createSorted).Data.length = d.length := by
    rw [hcs.1, length_sortFloat64s]
  rw [hlen]
  have hsi : sliceIndex (l.createSorted).Data ((percentileIndex d.length p : Nat) : Int)
      = .ok ((sortFloat64s d).getD (percentileIndex d.length p) 0) := by
    unfold sliceIndex
    rw [hcs.1]
    have hlt : percentileIndex d.length p < (sortFloat64s d).length := by
      rw [length_sortFloat64s]
      exact hidx
    simp [hlt, List.getD_eq_getElem?_getD]
  rw [hsi]
  exact ⟨_, rfl, hcs.2⟩

/-- The percentile statements on non-empty data: they end normally, every absent
slot among them receives the element of the sorted points at its float32 index, the
present slots and the slots of other stats stay. -/
theorem percentiles_spec (d : List ℚ) (steps : List (Stat × Float32Const))
    (hnd : (steps.map Prod.fst).Nodup)
    (hidx : ∀ sp ∈ steps, percentileIndex d.length sp.2 < d.length)
    (dbl : AggregationDouble) (l : lazyData) (h : l.holds d) :
    ∃ dbl2 l2, foldlE CreateMissingDoubleAggregates.percentile (dbl, l) steps
        = .ok (dbl2, l2) ∧ l2.holds d ∧
      (∀ s, s ∉ steps.map Prod.fst → dbl2.slot s = dbl.slot s) ∧
      (∀ s x, dbl.slot s = some x → dbl2.slot s = some x) ∧
      (∀ sp ∈ steps, dbl.slot sp.1 = none →
        dbl2.slot sp.1 = some ((sortFloat64s d).getD (percentileIndex d.length sp.2) 0)) := by
  induction steps generalizing dbl l with
  | nil =>
    exact ⟨dbl, l, rfl, h, fun _ _ => rfl, fun _ _ hx => hx, by simp⟩
  | cons sp rest ih =>
    simp only [List.map_cons, List.nodup_cons] at hnd
    have hidx0 := hidx sp (List.mem_cons_self _ _)
    have hstep : ∃ dbl1 l1, CreateMissingDoubleAggregates.percentile (dbl, l) sp
          = .ok (dbl1, l1) ∧ l1.holds d ∧
        (∀ s, s ≠ sp.1 → dbl1.slot s = dbl.slot s) ∧
        (∀ s x, dbl.slot s = some x → dbl1.slot s = some x) ∧
        (dbl.slot sp.1 = none →
          dbl1.slot sp.1
            = some ((sortFloat64s d).getD (percentileIndex d.length sp.2) 0)) := by
      unfold CreateMissingDoubleAggregates.percentile
      cases hs : dbl.slot sp.1 with
      | none =>
        obtain ⟨l2, hp, hl2⟩ := Percentile_spec d l sp.2 h hidx0
        simp only [Option.isNone_none, if_true, hp]
        refine ⟨_, _, rfl, hl2, fun s hne => slot_setSlot_ne _ _ _ _ (Ne.symm hne), ?_,
          fun _ => slot_setSlot_self _ _ _⟩
        intro s x hx
        by_cases hsp : s = sp.1
        · rw [hsp, hs] at hx
          simp at hx
        · rw [slot_setSlot_ne _ _ _ _ (Ne.symm hsp)]
          exact hx
      | some v =>
        simp only [Option.isNone_some, Bool.false_eq_true, if_false]
        exact ⟨dbl, l, rfl, h, fun _ _ => rfl, fun _ _ hx => hx, fun hn => by simp at hn⟩
    obtain ⟨dbl1, l1, hok1, hl1, hne1, hkeep1, hset1⟩ := hstep
    obtain ⟨dbl2, l2, hok2, hl2, hne2, hkeep2, hset2⟩ :=
      ih hnd.2 (fun q hq => hidx q (List.mem_cons_of_mem _ hq)) dbl1 l1 hl1
    refine ⟨dbl2, l2, ?_, hl2, ?_, fun s x hx => hkeep2 s x (hkeep1 s x hx), ?_⟩
    · simp only [foldlE, hok1]
      exact hok2
    · intro s hs
      simp only [List.map_cons, List.mem_cons, not_or] at hs
      rw [hne2 s hs.2, hne1 s hs.1]
    · intro q hq hnone
      rcases List.mem_cons.mp hq with heq | hmem
      · subst heq
        exact hkeep2 _ _ (hset1 hnone)
      · have hne : q.1 ≠ sp.1 := by
          intro heq
          exact hnd.1 (heq ▸ List.mem_map_of_mem Prod.fst hmem)
        exact hset2 q hmem (by rw [hne1 q.1 hne]; exact hnone)

theorem scanMinMax_spec (data : List ℚ) (mn mx : ℚ) (h : mn ≤ mx) :
    (lazyData.scanMinMax data mn mx).1 ≤ (lazyData.scanMinMax data mn mx).2 ∧
    ((lazyData.scanMinMax data mn mx).1 = mn ∨ (lazyData.scanMinMax data mn mx).1 ∈ data) ∧
    ((lazyData.scanMinMax data mn mx).2 = mx ∨ (lazyData.scanMinMax data mn mx).2 ∈ data) ∧
    (lazyData.scanMinMax data mn mx).1 ≤ mn ∧ mx ≤ (lazyData.scanMinMax data mn mx).2 ∧
    ∀ x ∈ data, (lazyData.scanMinMax data mn mx).1 ≤ x ∧
      x ≤ (lazyData.scanMinMax data mn mx).2 := by
  induction data generalizing mn mx with
  | nil => exact ⟨h, Or.inl rfl, Or.inl rfl, le_refl _, le_refl _, by simp⟩
  | cons v rest ih =>
    have hcons : lazyData.scanMinMax (v :: rest) mn mx
        = if v < mn then lazyData.scanMinMax rest v mx
          else if v > mx then lazyData.scanMinMax rest mn v
          else lazyData.scanMinMax rest mn mx := by
      unfold lazyData.scanMinMax
      simp only [List.foldl_cons]
      split
      · rfl
      · split <;> rfl
    rw [hcons]
    by_cases h1 : v < mn
    · rw [if_pos h1]
      obtain ⟨a, b, c, e, f, g⟩ := ih v mx (le_trans (le_of_lt h1) h)
      refine ⟨a, ?_, ?_, le_trans e (le_of_lt h1), f, ?_⟩
      · rcases b with b | b
        · exact Or.inr (by rw [b]; exact List.mem_cons_self _ _)
        · exact Or.inr (List.mem_cons_of_mem _ b)
      · rcases c with c | c
        · exact Or.inl c
        · exact Or.inr (List.mem_cons_of_mem _ c)
      · intro x hx
        rcases List.mem_cons.mp hx with hx | hx
        · rw [hx]
          exact ⟨e, le_trans (le_trans (le_of_lt h1) h) f⟩
        · exact g x hx
    · rw [if_neg h1]
      by_cases h2 : v > mx
      · rw [if_pos h2]
        obtain ⟨a, b, c, e, f, g⟩ := ih mn v (le_trans h (le_of_lt h2))
        refine ⟨a, ?_, ?_, e, le_trans (le_of_lt h2) f, ?_⟩
        · rcases b with b | b
          · exact Or.inl b
          · exact Or.inr (List.mem_cons_of_mem _ b)
        · rcases c with c | c
          · exact Or.inr (by rw [c]; exact List.mem_cons_self _ _)
          · exact Or.inr (List.mem_cons_of_mem _ c)
        · intro x hx
          rcases List.mem_cons.mp hx with hx | hx
          · rw [hx]
            exact ⟨le_trans e (le_trans h (le_of_lt h2)), f⟩
          · exact g x hx
      · rw [if_neg h2]
        obtain ⟨a, b, c, e, f, g⟩ := ih mn mx h
        refine ⟨a, ?_, ?_, e, f, ?_⟩
        · rcases b with b | b
          · exact Or.inl b
          · exact Or.inr (List.mem_cons_of_mem _ b)
        · rcases c with c | c
          · exact Or.inl c
          · exact Or.inr (List.mem_cons_of_mem _ c)
        · intro x hx
          rcases List.mem_cons.mp hx with hx | hx
          · rw [hx]
            exact ⟨le_trans e (not_lt.mp h1), le_trans (not_lt.mp h2) f⟩
          · exact g x hx

/-- The ends of the sorted points are the least and the greatest of the points. -/
theorem sortFloat64s_ends (d : List ℚ) (hne : d ≠ []) :
    ((sortFloat64s d).getD 0 0 ∈ d ∧ ∀ x ∈ d, (sortFloat64s d).getD 0 0 ≤ x) ∧
    ((sortFloat64s d).getD (d.length - 1) 0 ∈ d ∧
      ∀ x ∈ d, x ≤ (sortFloat64s d).getD (d.length - 1) 0) := by
  have hlen := length_sortFloat64s d
  have hpos : 0 < d.length := List.length_pos.mpr hne
  have hperm := perm_sortFloat64s d
  have hsorted := sorted_sortFloat64s d
  have h0 : 0 < (sortFloat64s d).length := by omega
  have hl : d.length - 1 < (sortFloat64s d).length := by omega
  have e0 : (sortFloat64s d).getD 0 0 = (sortFloat64s d).get ⟨0, h0⟩ := by
    simp [List.getD_eq_getElem?_getD, h0]
  have el : (sortFloat64s d).getD (d.length - 1) 0 = (sortFloat64s d).get ⟨d.length - 1, hl⟩ := by
    simp [List.getD_eq_getElem?_getD, hl]
  rw [e0, el]
  refine ⟨⟨hperm.mem_iff.mp (List.get_mem _ _ _), ?_⟩,
    ⟨hperm.mem_iff.mp (List.get_mem _ _ _), ?_⟩⟩
  · intro x hx
    obtain ⟨i, hi⟩ := List.mem_iff_get.mp (hperm.mem_iff.mpr hx)
    rw [← hi]
    exact hsorted.rel_get_of_le (Nat.zero_le _)
  · intro x hx
    obtain ⟨i, hi⟩ := List.mem_iff_get.mp (hperm.mem_iff.mpr hx)
    rw [← hi]
    exact hsorted.rel_get_of_le (by
      show i.val ≤ d.length - 1
      have := i.isLt
      omega)

/-- The method `createMinMax` on non-empty data: `min` and `max` become the least and
the greatest of the points. -/
theorem createMinMax_spec (d : List ℚ) (l : lazyData) (h : l.holds d) (hne : d ≠ []) :
    ∃ l2, l.createMinMax = .ok l2 ∧ l2.holds d ∧ l2.haveMinMax = true := by
  unfold lazyData.createMinMax
  cases hmm : l.haveMinMax with
  | true =>
    simp only [Bool.not_true, Bool.false_eq_true, if_false]
    exact ⟨l, rfl, h, hmm⟩
  | false =>
    simp only [Bool.not_false, if_true]
    have hpos : 0 < d.length := List.length_pos.mpr hne
    have hlen := holds_length d l h
    have hsi0 : sliceIndex l.Data 0 = .ok (l.Data.getD 0 0) := by
      unfold sliceIndex
      have : 0 < l.Data.length := by omega
      simp [this, List.getD_eq_getElem?_getD]
    rw [hsi0]
    simp only
    rcases h.1 with ⟨hs, hdata⟩ | ⟨hs, hdata⟩
    · simp only [hs, Bool.false_eq_true, if_false]
      have hd0 : l.Data.getD 0 0 ∈ d := by
        rw [hdata]
        cases d with
        | nil => exact absurd rfl hne
        | cons a t => simp
      obtain ⟨a, b, c, e, f, g⟩ :=
        scanMinMax_spec l.Data (l.Data.getD 0 0) (l.Data.getD 0 0) (le_refl _)
      refine ⟨_, rfl, ⟨Or.inl ⟨rfl, hdata⟩, h.2.1, h.2.2.1, fun _ => ⟨⟨?_, ?_⟩, ⟨?_, ?_⟩⟩⟩, rfl⟩
      · rcases b with b | b
        · simp only [b]
          exact hd0
        · simp only
          exact hdata ▸ b
      · intro x hx
        exact (g x (hdata ▸ hx)).1
      · rcases c with c | c
        · simp only [c]
          exact hd0
        · simp only
          exact hdata ▸ c
      · intro x hx
        exact (g x (hdata ▸ hx)).2
    · simp only [hs, if_true]
      have hsil : sliceIndex l.Data ((l.Data.length : Int) - 1)
          = .ok (l.Data.getD (d.length - 1) 0) := by
        unfold sliceIndex
        have h1 : ¬ ((l.Data.length : Int) - 1 < 0) := by omega
        have h2 : ((l.Data.length : Int) - 1).toNat = d.length - 1 := by omega
        have h3 : d.length - 1 < l.Data.length := by omega
        rw [if_neg h1, h2]
        simp [h3, List.getD_eq_getElem?_getD]
      rw [hsil]
      obtain ⟨hmin, hmax⟩ := sortFloat64s_ends d hne
      refine ⟨_, rfl, ⟨Or.inr ⟨rfl, hdata⟩, h.2.1, h.2.2.1, fun _ => ?_⟩, rfl⟩
      simp only [hdata]
      exact ⟨hmin, hmax⟩

theorem min_spec (d : List ℚ) (dbl : AggregationDouble) (l : lazyData) (h : l.holds d)
    (hne : d ≠ []) :
    ∃ dbl2 l2, CreateMissingDoubleAggregates.min (dbl, l) = .ok (dbl2, l2) ∧ l2.holds d ∧
      (dbl.Min = none → ∃ m, dbl2.Min = some m ∧ m ∈ d ∧ ∀ x ∈ d, m ≤ x) := by
  unfold CreateMissingDoubleAggregates.min
  cases hm : dbl.Min with
  | none =>
    obtain ⟨l2, hok, hl2, hhave⟩ := createMinMax_spec d l h hne
    simp only [Option.isNone_none, if_true, lazyData.Min, hok]
    exact ⟨_, _, rfl, hl2, fun _ => ⟨l2.min, rfl, (hl2.2.2.2 hhave).1⟩⟩
  | some v =>
    simp only [Option.isNone_some, Bool.false_eq_true, if_false]
    exact ⟨dbl, l, rfl, h, fun hn => by simp at hn⟩

theorem max_spec (d : List ℚ) (dbl : AggregationDouble) (l : lazyData) (h : l.holds d)
    (hne : d ≠ []) :
    ∃ dbl2 l2, CreateMissingDoubleAggregates.max (dbl, l) = .ok (dbl2, l2) ∧ l2.holds d ∧
      (dbl.Max = none → ∃ m, dbl2.Max = some m ∧ m ∈ d ∧ ∀ x ∈ d, x ≤ m) := by
  unfold CreateMissingDoubleAggregates.max
  cases hm : dbl.Max with
  | none =>
    obtain ⟨l2, hok, hl2, hhave⟩ := createMinMax_spec d l h hne
    simp only [Option.isNone_none, if_true, lazyData.Max, hok]
    exact ⟨_, _, rfl, hl2, fun _ => ⟨l2.max, rfl, (hl2.2.2.2 hhave).2⟩⟩
  | some v =>
    simp only [Option.isNone_some, Bool.false_eq_true, if_false]
    exact ⟨dbl, l, rfl, h, fun hn => by simp at hn⟩

theorem mean_spec (d : List ℚ) (dbl : AggregationDouble) (l : lazyData) (h : l.holds d)
    (hm : dbl.Mean = none) :
    (CreateMissingDoubleAggregates.mean (dbl, l)).1.Mean
      = some (d.sum / (d.length : ℚ)) := by
  unfold CreateMissingDoubleAggregates.mean
  simp only [hm, Option.isNone_none, if_true, lazyData.Mean, lazyData.createSum, h.2.1,
    Bool.not_false, h.2.2.1]
  have hsum : List.foldl (fun acc val => acc + val) 0 l.Data = d.sum := by
    rw [← (holds_perm d l h).sum_eq, List.sum_eq_foldl]
  rw [hsum, holds_length d l h]

/-- The method `CreateMissingDoubleAggregates` on a non-empty list of raw points and
an aggregation without count: it returns, the count is the number of points, every
absent slot among the nine generated percentiles is the element of the sorted points
at the float32 index of its fraction, an absent min, max and mean are the least
point, the greatest point and the arithmetic mean, and present slots stay. -/
theorem CreateMissingDoubleAggregates_spec (a : Aggregation) (dbl : AggregationDouble)
    (d : List ℚ) (hdbl : a.Double = some dbl) (hne : d ≠ []) (hcount : dbl.Count = none) :
    ∃ dbl2, Aggregation.CreateMissingDoubleAggregates (some a) d
        = .ok (some { a with Double := some dbl2 }) ∧
      dbl2.Count = some (d.length : ℚ) ∧
      (∀ sp ∈ CreateMissingDoubleAggregates.percentiles, dbl.slot sp.1 = none →
        dbl2.slot sp.1
          = some ((sortFloat64s d).getD (percentileIndex d.length sp.2) 0)) ∧
      (dbl.Min = none → ∃ m, dbl2.Min = some m ∧ m ∈ d ∧ ∀ x ∈ d, m ≤ x) ∧
      (dbl.Max = none → ∃ m, dbl2.Max = some m ∧ m ∈ d ∧ ∀ x ∈ d, x ≤ m) ∧
      (dbl.Mean = none → dbl2.Mean = some (d.sum / (d.length : ℚ))) ∧
      (∀ s x, dbl.slot s = some x → dbl2.slot s = some x) := by
  have hpos : 0 < d.length := List.length_pos.mpr hne
  have hl0 : lazyData.holds d { Data := d } :=
    ⟨Or.inl ⟨rfl, rfl⟩, rfl, rfl, fun h => by simp at h⟩
  have hset : ({ dbl with Count := some (d.length : ℚ) } : AggregationDouble)
      = dbl.setSlot Stat.count (some (d.length : ℚ)) := rfl
  obtain ⟨dbl1, l1, hok1, hl1, hne1, hkeep1, hset1⟩ :=
    percentiles_spec d CreateMissingDoubleAggregates.percentiles (by decide)
      (fun sp hsp => percentileIndex_lt d.length hpos sp hsp)
      (dbl.setSlot Stat.count (some (d.length : ℚ))) { Data := d } hl0
  obtain ⟨dbl2, l2, hok2, hl2, hmin2⟩ := min_spec d dbl1 l1 hl1 hne
  obtain ⟨dbl3, l3, hok3, hl3, hmax3⟩ := max_spec d dbl2 l2 hl2 hne
  have hc0 : ¬ ((d.length : ℚ) ≤ 0) := by
    have : (0 : ℚ) < (d.length : ℚ) := by exact_mod_cast hpos
    exact not_le.mpr this
  refine ⟨(CreateMissingDoubleAggregates.mean (dbl3, l3)).1, ?_, ?_, ?_, ?_, ?_, ?_, ?_⟩
  · unfold Aggregation.CreateMissingDoubleAggregates
    simp only [hdbl, hcount, Option.isNone_none, if_true, hset]
    have hget : (dbl.setSlot Stat.count (some (d.length : ℚ))).Count.getD 0
        = (d.length : ℚ) := rfl
    rw [hget, if_neg hc0]
    simp only [hok1, hok2, hok3]
  · have h1 : dbl1.slot Stat.count = some (d.length : ℚ) :=
      hkeep1 _ _ (slot_setSlot_self _ _ _)
    have h2 := (min_frame _ _ hok2 Stat.count).2 _ h1
    have h3 := (max_frame _ _ hok3 Stat.count).2 _ h2
    exact (mean_frame (dbl3, l3) Stat.count).2 _ h3
  · intro sp hsp hnone
    have hspne : Stat.count ≠ sp.1 := by
      intro heq
      have : sp.1 ∈ CreateMissingDoubleAggregates.percentiles.map Prod.fst :=
        List.mem_map_of_mem Prod.fst hsp
      rw [← heq] at this
      revert this
      decide
    have h1 := hset1 sp hsp (by rw [slot_setSlot_ne _ _ _ _ hspne]; exact hnone)
    have h2 := (min_frame _ _ hok2 sp.1).2 _ h1
    have h3 := (max_frame _ _ hok3 sp.1).2 _ h2
    exact (mean_frame (dbl3, l3) sp.1).2 _ h3
  · intro hnone
    have h1 : dbl1.Min = none := by
      have := hne1 Stat.min (by decide)
      rw [slot_setSlot_ne _ _ _ _ (by decide)] at this
      exact this.trans hnone
    obtain ⟨m, hm, hmem, hle⟩ := hmin2 h1
    refine ⟨m, ?_, hmem, hle⟩
    have h3 := (max_frame _ _ hok3 Stat.min).2 _ hm
    exact (mean_frame (dbl3, l3) Stat.min).2 _ h3
  · intro hnone
    have h1 : dbl1.Max = none := by
      have := hne1 Stat.max (by decide)
      rw [slot_setSlot_ne _ _ _ _ (by decide)] at this
      exact this.trans hnone
    have h2 : dbl2.Max = none := by
      have := (min_frame _ _ hok2 Stat.max).1 (by decide)
      exact this.trans h1
    obtain ⟨m, hm, hmem, hle⟩ := hmax3 h2
    refine ⟨m, ?_, hmem, hle⟩
    exact (mean_frame (dbl3, l3) Stat.max).2 _ hm
  · intro hnone
    have h1 : dbl1.Mean = none := by
      have := hne1 Stat.mean (by decide)
      rw [slot_setSlot_ne _ _ _ _ (by decide)] at this
      exact this.trans hnone
    have h2 : dbl2.Mean = none :=
      ((min_frame _ _ hok2 Stat.mean).1 (by decide)).trans h1
    have h3 : dbl3.Mean = none :=
      ((max_frame _ _ hok3 Stat.mean).1 (by decide)).trans h2
    exact mean_spec d dbl3 l3 hl3 h3
  · intro s x hx
    have hs : s ≠ Stat.count := by
      intro heq
      rw [heq] at hx
      have : dbl.Count = some x := hx
      rw [hcount] at this
      simp at this
    have h0 : (dbl.setSlot Stat.count (some (d.length : ℚ))).slot s = some x := by
      rw [slot_setSlot_ne _ _ _ _ (Ne.symm hs)]
      exact hx
    have h1 := hkeep1 s x h0
    have h2 := (min_frame _ _ hok2 s).2 _ h1
    have h3 := (max_frame _ _ hok3 s).2 _ h2
    exact (mean_frame (dbl3, l3) s).2 _ h3

/-- Claim C21 fails on the code: with a caller-supplied count of 5 and a mean, and no
raw points, the guard on the count lets the call through and `Percentile(0.99)`
reads `Data[0]` of the empty slice, which panics. Without a supplied count the same
call returns with count 0. -/
theorem CreateMissingDoubleAggregates_no_points_panics :
    Aggregation.CreateMissingDoubleAggregates
        (some { Double := some { Count := some 5, Mean := some 2 } }) []
      = .error Panic.indexOutOfRange ∧
    Aggregation.CreateMissingDoubleAggregates (some { Double := some { Mean := some 2 } }) []
      = .ok (some { Double := some { Count := some 0, Mean := some 2 } }) := by
  constructor <;> with_unfolding_all rfl

theorem length_rampPoints (n : Nat) : (rampPoints n).length = n := by
  simp [rampPoints]

theorem sortFloat64s_rampPoints (n : Nat) : sortFloat64s (rampPoints n) = rampPoints n := by
  apply List.Sorted.insertionSort_eq
  unfold rampPoints
  rw [List.Sorted, List.pairwise_map]
  exact (List.pairwise_lt_range n).imp (fun h => by exact_mod_cast le_of_lt h)

theorem getD_rampPoints (n i : Nat) (h : i < n) : (rampPoints n).getD i 0 = (i : ℚ) := by
  simp [rampPoints, List.getD_eq_getElem?_getD, h]

/-- Claim C22 as stated fails: for the 229401 raw points `0, 1, ..., 229400` and an
aggregation without any slot, the generated p99 is the point 227107, because the
index is computed in `float32`, whereas the element of the sorted points at
`floor(229401 * 0.99) = 227106` is the point 227106. -/
theorem CreateMissingDoubleAggregates_p99_counterexample :
    ∃ dbl2, Aggregation.CreateMissingDoubleAggregates (some { Double := some {} })
        (rampPoints 229401) = .ok (some { Double := some dbl2 }) ∧
      dbl2.P99 = some 227107 ∧
      (sortFloat64s (rampPoints 229401)).getD (229401 * 99 / 100) 0 = 227106 := by
  obtain ⟨dbl2, hok, -, hp, -⟩ :=
    CreateMissingDoubleAggregates_spec { Double := some {} } {} (rampPoints 229401) rfl
      (by
        intro h
        have := congrArg List.length h
        rw [length_rampPoints] at this
        simp at this)
      rfl
  refine ⟨dbl2, hok, ?_, ?_⟩
  · have := hp (Stat.p99, float32_0_99) (by simp [CreateMissingDoubleAggregates.percentiles])
      rfl
    rw [length_rampPoints, percentileIndex_229401, sortFloat64s_rampPoints,
      getD_rampPoints _ _ (by norm_num)] at this
    simpa using this
  · rw [sortFloat64s_rampPoints, getD_rampPoints _ _ (by norm_num)]
    norm_num

/-- Claim C22, amended: for every non-empty raw-points list `d` and an aggregation
with a double view whose count is absent, `CreateMissingDoubleAggregates` returns
with count `len(d)`; every slot that was absent among p99, p95, p90, p75, p50, p25,
p10, p5, p1 is the element of the sorted points at the index
`int(float32(len(d)) * float32(p))` of its fraction, which for fewer than 131072
points is `floor(len(d) * p)`; an absent min is the least point, an absent max the
greatest point, an absent mean the sum of the points divided by `len(d)`; slots that
were present keep their value. -/
theorem CreateMissingDoubleAggregates_fills (a : Aggregation) (dbl : AggregationDouble)
    (d : List ℚ) (hdbl : a.Double = some dbl) (hne : d ≠ []) (hcount : dbl.Count = none) :
    ∃ dbl2, Aggregation.CreateMissingDoubleAggregates (some a) d
        = .ok (some { a with Double := some dbl2 }) ∧
      dbl2.Count = some (d.length : ℚ) ∧
      (∀ sp ∈ CreateMissingDoubleAggregates.percentiles, dbl.slot sp.1 = none →
        dbl2.slot sp.1
          = some ((sortFloat64s d).getD (percentileIndex d.length sp.2) 0)) ∧
      (d.length < 131072 →
        ∀ sa ∈ [(Stat.p99, 99), (Stat.p95, 95), (Stat.p90, 90), (Stat.p75, 75),
            (Stat.p50, 50), (Stat.p25, 25), (Stat.p10, 10), (Stat.p5, 5), (Stat.p1, 1)],
          dbl.slot sa.1 = none →
          dbl2.slot sa.1 = some ((sortFloat64s d).getD (d.length * sa.2 / 100) 0)) ∧
      (dbl.Min = none → ∃ m, dbl2.Min = some m ∧ m ∈ d ∧ ∀ x ∈ d, m ≤ x) ∧
      (dbl.Max = none → ∃ m, dbl2.Max = some m ∧ m ∈ d ∧ ∀ x ∈ d, x ≤ m) ∧
      (dbl.Mean = none → dbl2.Mean = some (d.sum / (d.length : ℚ))) ∧
      (∀ s x, dbl.slot s = some x → dbl2.slot s = some x) := by
  obtain ⟨dbl2, hok, hc, hp, hmin, hmax, hmean, hkeep⟩ :=
    CreateMissingDoubleAggregates_spec a dbl d hdbl hne hcount
  refine ⟨dbl2, hok, hc, hp, ?_, hmin, hmax, hmean, hkeep⟩
  intro hlen sa hsa hnone
  obtain ⟨e99, e95, e90, e75, e50, e25, e10, e5, e1⟩ := percentileIndex_eq_floor d.length hlen
  simp only [List.mem_cons, List.mem_singleton, List.not_mem_nil, or_false] at hsa
  rcases hsa with h | h | h | h | h | h | h | h | h <;> subst h
  · rw [← e99]
    exact hp (Stat.p99, float32_0_99) (by simp [CreateMissingDoubleAggregates.percentiles])
      hnone
  · rw [← e95]
    exact hp (Stat.p95, float32_0_95) (by simp [CreateMissingDoubleAggregates.percentiles])
      hnone
  · rw [← e90]
    exact hp (Stat.p90, float32_0_90) (by simp [CreateMissingDoubleAggregates.percentiles])
      hnone
  · rw [← e75]
    exact hp (Stat.p75, float32_0_75) (by simp [CreateMissingDoubleAggregates.percentiles])
      hnone
  · rw [← e50]
    exact hp (Stat.p50, float32_0_50) (by simp [CreateMissingDoubleAggregates.percentiles])
      hnone
  · rw [← e25]
    exact hp (Stat.p25, float32_0_25) (by simp [CreateMissingDoubleAggregates.percentiles])
      hnone
  · rw [← e10]
    exact hp (Stat.p10, float32_0_10) (by simp [CreateMissingDoubleAggregates.percentiles])
      hnone
  · rw [← e5]
    exact hp (Stat.p5, float32_0_05) (by simp [CreateMissingDoubleAggregates.percentiles])
      hnone
  · rw [← e1]
    exact hp (Stat.p1, float32_0_01) (by simp [CreateMissingDoubleAggregates.percentiles])
      hnone

theorem CreateMissingDoubleAggregates_fills_witness :
    ∃ dbl2, Aggregation.CreateMissingDoubleAggregates
        (some { Double := some { P50 := some 9 } }) [3, 1, 2]
        = .ok (some { Double := some dbl2 }) ∧
      dbl2.Count = some (([3, 1, 2] : List ℚ).length : ℚ) ∧
      (∀ sp ∈ CreateMissingDoubleAggregates.percentiles,
        AggregationDouble.slot { P50 := some 9 } sp.1 = none →
        dbl2.slot sp.1 = some ((sortFloat64s [3, 1, 2]).getD
          (percentileIndex ([3, 1, 2] : List ℚ).length sp.2) 0)) ∧
      (([3, 1, 2] : List ℚ).length < 131072 →
        ∀ sa ∈ [(Stat.p99, 99), (Stat.p95, 95), (Stat.p90, 90), (Stat.p75, 75),
            (Stat.p50, 50), (Stat.p25, 25), (Stat.p10, 10), (Stat.p5, 5), (Stat.p1, 1)],
          AggregationDouble.slot { P50 := some 9 } sa.1 = none →
          dbl2.slot sa.1 = some ((sortFloat64s [3, 1, 2]).getD
            (([3, 1, 2] : List ℚ).length * sa.2 / 100) 0)) ∧
      ((({ P50 := some 9 } : AggregationDouble)).Min = none →
        ∃ m, dbl2.Min = some m ∧ m ∈ ([3, 1, 2] : List ℚ) ∧
          ∀ x ∈ ([3, 1, 2] : List ℚ), m ≤ x) ∧
      ((({ P50 := some 9 } : AggregationDouble)).Max = none →
        ∃ m, dbl2.Max = some m ∧ m ∈ ([3, 1, 2] : List ℚ) ∧
          ∀ x ∈ ([3, 1, 2] : List ℚ), x ≤ m) ∧
      ((({ P50 := some 9 } : AggregationDouble)).Mean = none →
        dbl2.Mean = some (([3, 1, 2] : List ℚ).sum / (([3, 1, 2] : List ℚ).length : ℚ))) ∧
      (∀ s x, AggregationDouble.slot { P50 := some 9 } s = some x →
        dbl2.slot s = some x) :=
  CreateMissingDoubleAggregates_fills { Double := some { P50 := some 9 } } { P50 := some 9 }
    [3, 1, 2] rfl (by simp) rfl

/-- Claim C23 as stated fails for p95 and p90: on the raw points `[7]` and an
aggregation without any slot, the call sets both to 7, along with p99, p75, p50,
p25, p10, p5, p1, min, max, mean and count. -/
theorem CreateMissingDoubleAggregates_p95_p90_counterexample :
    Aggregation.CreateMissingDoubleAggregates (some { Double := some {} }) [7]
      = .ok (some {
          Double := some {
            Count := some 1, Min := some 7, Max := some 7, Mean := some 7,
            P99 := some 7, P95 := some 7, P90 := some 7, P75 := some 7, P50 := some 7,
            P25 := some 7, P10 := some 7, P5 := some 7, P1 := some 7 } }) := by
  with_unfolding_all rfl

/-- Claim C23, amended: `CreateMissingDoubleAggregates` does not write the slots p85,
p80, p70, p65, p60, p55, p45, p40, p35, p30, p20, p15 and stdev: for every
aggregation and raw-points list on which the call returns, each of these slots holds
after the call what it held before (and is absent if it was absent). -/
theorem CreateMissingDoubleAggregates_untouched (m m2 : Option Aggregation) (d : List ℚ)
    (h : Aggregation.CreateMissingDoubleAggregates m d = .ok m2) :
    ∃ a dbl dbl2, m = some a ∧ a.Double = some dbl ∧
      m2 = some { a with Double := some dbl2 } ∧
      ∀ s ∈ [Stat.p85, Stat.p80, Stat.p70, Stat.p65, Stat.p60, Stat.p55, Stat.p45,
          Stat.p40, Stat.p35, Stat.p30, Stat.p20, Stat.p15, Stat.stdev],
        dbl2.slot s = dbl.slot s := by
  obtain ⟨a, dbl, dbl2, hm, hd, hm2, hframe⟩ := CreateMissingDoubleAggregates_frame m m2 d h
  refine ⟨a, dbl, dbl2, hm, hd, hm2, fun s hs => (hframe s).1 ?_⟩
  revert s
  decide

theorem CreateMissingDoubleAggregates_untouched_witness :
    ∃ a dbl dbl2,
      some ({ Double := some { P85 := some 4 } } : Aggregation) = some a ∧
      a.Double = some dbl ∧
      some ({
          Double := some {
            Count := some 1, Min := some 7, Max := some 7, Mean := some 7,
            P99 := some 7, P95 := some 7, P90 := some 7, P85 := some 4, P75 := some 7,
            P50 := some 7, P25 := some 7, P10 := some 7, P5 := some 7, P1 := some 7 } } :
          Aggregation) = some { a with Double := some dbl2 } ∧
      ∀ s ∈ [Stat.p85, Stat.p80, Stat.p70, Stat.p65, Stat.p60, Stat.p55, Stat.p45,
          Stat.p40, Stat.p35, Stat.p30, Stat.p20, Stat.p15, Stat.stdev],
        dbl2.slot s = dbl.slot s :=
  CreateMissingDoubleAggregates_untouched (some { Double := some { P85 := some 4 } }) _ [7]
    (by with_unfolding_all rfl)

/-! ## Exchanges -/

theorem length_exchange {α : Type} (l : List α) (i j : Nat) :
    (exchange l i j).length = l.length := by
  unfold exchange
  split <;> simp

theorem exchange_of_lt {α : Type} (l : List α) (i j : Nat) (hi : i < l.length)
    (hj : j < l.length) : exchange l i j = (l.set i l[j]).set j l[i] := by
  unfold exchange
  simp [List.getElem?_eq_getElem hi, List.getElem?_eq_getElem hj]

theorem swapAt_of_lt {α : Type} (s : List α) (i j : Nat) (hi : i < s.length)
    (hj : j < s.length) : swapAt s i j = .ok (exchange s i j) := by
  unfold swapAt exchange
  simp [List.getElem?_eq_getElem hi, List.getElem?_eq_getElem hj]

theorem swapAt_eq_ok {α : Type} (s s2 : List α) (i j : Nat) (h : swapAt s i j = .ok s2) :
    s2 = exchange s i j ∧ i < s.length ∧ j < s.length := by
  unfold swapAt at h
  unfold exchange
  cases hi : s[i]? with
  | none => rw [hi] at h; simp at h
  | some a =>
    cases hj : s[j]? with
    | none => rw [hi, hj] at h; simp at h
    | some b =>
      rw [hi, hj] at h
      simp only [Except.ok.injEq] at h
      have h1 := (List.getElem?_eq_some_iff.mp hi).1
      have h2 := (List.getElem?_eq_some_iff.mp hj).1
      exact ⟨h.symm, h1, h2⟩

theorem exchange_map {α β : Type} (f : α → β) (l : List α) (i j : Nat) :
    exchange (l.map f) i j = (exchange l i j).map f := by
  unfold exchange
  cases hi : l[i]? <;> cases hj : l[j]? <;> simp [hi, hj, List.map_set]

theorem mem_of_mem_exchange {α : Type} (l : List α) (i j : Nat) (x : α)
    (h : x ∈ exchange l i j) : x ∈ l := by
  unfold exchange at h
  cases hi : l[i]? with
  | none => rw [hi] at h; exact h
  | some a =>
    cases hj : l[j]? with
    | none => rw [hi, hj] at h; exact h
    | some b =>
      rw [hi, hj] at h
      rcases List.mem_or_eq_of_mem_set h with h1 | h1
      · rcases List.mem_or_eq_of_mem_set h1 with h2 | h2
        · exact h2
        · exact h2 ▸ List.getElem?_mem hj
      · exact h1 ▸ List.getElem?_mem hi

theorem perm_cons_set {α : Type} (t : List α) (k : Nat) (x : α) (hk : k < t.length) :
    (t[k] :: t.set k x).Perm (x :: t) := by
  induction t generalizing k with
  | nil => simp at hk
  | cons y t ih =>
    cases k with
    | zero => simpa using List.Perm.swap x y t
    | succ k =>
      simp only [List.length_cons, Nat.add_lt_add_iff_right] at hk
      simp only [List.getElem_cons_succ, List.set_cons_succ]
      exact ((List.Perm.swap y t[k] (t.set k x)).trans ((ih k hk).cons y)).trans
        (List.Perm.swap x y t)

theorem perm_exchange {α : Type} (l : List α) (i j : Nat) : (exchange l i j).Perm l := by
  by_cases hi : i < l.length
  · by_cases hj : j < l.length
    · rw [exchange_of_lt l i j hi hj]
      induction l generalizing i j with
      | nil => simp at hi
      | cons x t ih =>
        cases i with
        | zero =>
          cases j with
          | zero => simp
          | succ j =>
            simp only [List.length_cons, Nat.add_lt_add_iff_right] at hj
            simpa using perm_cons_set t j x hj
        | succ i =>
          simp only [List.length_cons, Nat.add_lt_add_iff_right] at hi
          cases j with
          | zero => simpa using perm_cons_set t i x hi
          | succ j =>
            simp only [List.length_cons, Nat.add_lt_add_iff_right] at hj
            simpa using ih i j hi hj
    · unfold exchange
      simp [List.getElem?_eq_none (Nat.le_of_not_lt hj)]
  · unfold exchange
    simp [List.getElem?_eq_none (Nat.le_of_not_lt hi)]

theorem length_applySwaps {α : Type} (swaps : List (Nat × Nat)) (l : List α) :
    (applySwaps swaps l).length = l.length := by
  unfold applySwaps
  induction swaps generalizing l with
  | nil => rfl
  | cons ij rest ih => rw [List.foldl_cons, ih, length_exchange]

theorem applySwaps_cons {α : Type} (ij : Nat × Nat) (swaps : List (Nat × Nat)) (l : List α) :
    applySwaps (ij :: swaps) l = applySwaps swaps (exchange l ij.1 ij.2) := rfl

theorem applySwaps_map {α β : Type} (f : α → β) (swaps : List (Nat × Nat)) (l : List α) :
    applySwaps swaps (l.map f) = (applySwaps swaps l).map f := by
  induction swaps generalizing l with
  | nil => rfl
  | cons ij rest ih => rw [applySwaps_cons, applySwaps_cons, exchange_map, ih]

theorem perm_applySwaps {α : Type} (swaps : List (Nat × Nat)) (l : List α) :
    (applySwaps swaps l).Perm l := by
  induction swaps generalizing l with
  | nil => exact List.Perm.refl _
  | cons ij rest ih =>
    rw [applySwaps_cons]
    exact (ih _).trans (perm_exchange l ij.1 ij.2)

theorem map_getD_range {α : Type} (l : List α) (dflt : α) :
    (List.range l.length).map (fun k => l.getD k dflt) = l := by
  apply List.ext_getElem
  · simp
  · intro k h1 h2
    simp [List.getD_eq_getElem?_getD, List.getElem?_eq_getElem h2]

/-- A sequence of exchanges rearranges every list of the same length by the same
positions. -/
theorem applySwaps_eq_map {α : Type} (swaps : List (Nat × Nat)) (l : List α) (dflt : α) :
    applySwaps swaps l =
      (applySwaps swaps (List.range l.length)).map (fun k => l.getD k dflt) := by
  rw [← applySwaps_map, map_getD_range]

theorem applySwaps_range_lt (swaps : List (Nat × Nat)) (n k : Nat)
    (h : k ∈ applySwaps swaps (List.range n)) : k < n :=
  List.mem_range.mp ((perm_applySwaps swaps (List.range n)).mem_iff.mp h)

/-! ## Row sorting -/

theorem swapAt_if {α : Type} (s : List α) (n i j : Nat) (hi : i < n) (hj : j < n) :
    (if s.length = n then swapAt s i j else .ok s) =
      (.ok (if s.length = n then exchange s i j else s) : Except Panic (List α)) := by
  split
  · rename_i h
    exact swapAt_of_lt s i j (h ▸ hi) (h ▸ hj)
  · rfl

theorem baseSortRows_Swap_ok (d : DataTable) (i j : Nat) (hi : i < d.Data.length)
    (hj : j < d.Data.length) :
    tableSort.Swap DataTable.baseSortRows.extraSwap d i j = .ok
      { d with
        Data := exchange d.Data i j
        IdColumn := if d.IdColumn.length = d.Data.length then exchange d.IdColumn i j
          else d.IdColumn
        Configs := if d.Configs.length = d.Data.length then exchange d.Configs i j
          else d.Configs
        Timestamps := if d.Timestamps.length = d.Data.length then exchange d.Timestamps i j
          else d.Timestamps } := by
  unfold tableSort.Swap
  rw [swapAt_of_lt _ _ _ hi hj]
  unfold DataTable.baseSortRows.extraSwap
  simp only [length_exchange]
  rw [swapAt_if _ _ i j hi hj, swapAt_if _ _ i j hi hj, swapAt_if _ _ i j hi hj]

/-- The exchanges of a sort, all within range, rearrange the rows and each parallel
column that is as long as `Data` by the same exchanges. -/
theorem baseSortRows_swaps (swaps : List (Nat × Nat)) (d : DataTable)
    (hr : ∀ ij ∈ swaps, ij.1 < d.Data.length ∧ ij.2 < d.Data.length) :
    foldlE (fun d ij => tableSort.Swap DataTable.baseSortRows.extraSwap d ij.1 ij.2) d swaps =
      .ok { d with
        Data := applySwaps swaps d.Data
        IdColumn := if d.IdColumn.length = d.Data.length then applySwaps swaps d.IdColumn
          else d.IdColumn
        Configs := if d.Configs.length = d.Data.length then applySwaps swaps d.Configs
          else d.Configs
        Timestamps := if d.Timestamps.length = d.Data.length then applySwaps swaps d.Timestamps
          else d.Timestamps } := by
  induction swaps generalizing d with
  | nil => simp [foldlE, applySwaps]
  | cons ij rest ih =>
    have h0 := hr ij (List.mem_cons_self _ _)
    simp only [foldlE]
    rw [baseSortRows_Swap_ok d ij.1 ij.2 h0.1 h0.2]
    simp only
    rw [ih]
    · simp only [length_exchange, applySwaps_cons]
      by_cases h1 : d.IdColumn.length = d.Data.length <;>
      by_cases h2 : d.Configs.length = d.Data.length <;>
      by_cases h3 : d.Timestamps.length = d.Data.length <;>
      simp [h1, h2, h3, length_exchange]
    · intro ij2 hij2
      simp only [length_exchange]
      exact hr ij2 (List.mem_cons_of_mem _ hij2)

theorem baseSortRows_extraSwap_frame (d d2 : DataTable) (i j : Nat)
    (h : DataTable.baseSortRows.extraSwap d i j = .ok d2) :
    d2.Data = d.Data ∧ d2.ColumnNames = d.ColumnNames := by
  unfold DataTable.baseSortRows.extraSwap at h
  split at h
  · simp at h
  · split at h
    · simp at h
    · split at h
      · simp at h
      · simp only [Except.ok.injEq] at h
        subst h
        exact ⟨rfl, rfl⟩

theorem ReverseRows_extraSwap_frame (d d2 : DataTable) (i j : Nat)
    (h : DataTable.ReverseRows.extraSwap d i j = .ok d2) :
    d2.Data = d.Data ∧ d2.ColumnNames = d.ColumnNames := by
  unfold DataTable.ReverseRows.extraSwap at h
  split at h
  · simp at h
  · split at h
    · simp at h
    · simp only [Except.ok.injEq] at h
      subst h
      exact ⟨rfl, rfl⟩

theorem tableSort_Swap_frame (extraSwap : DataTable → Nat → Nat → Except Panic DataTable)
    (hextra : ∀ d d2 i j, extraSwap d i j = .ok d2 →
      d2.Data = d.Data ∧ d2.ColumnNames = d.ColumnNames)
    (d d2 : DataTable) (i j : Nat) (h : tableSort.Swap extraSwap d i j = .ok d2) :
    d2.Data = exchange d.Data i j ∧ d2.ColumnNames = d.ColumnNames := by
  unfold tableSort.Swap at h
  cases hs : swapAt d.Data i j with
  | error e => rw [hs] at h; simp at h
  | ok v =>
    rw [hs] at h
    simp only at h
    have h1 := hextra _ _ _ _ h
    rw [(swapAt_eq_ok _ _ _ _ hs).1] at h1
    exact h1

theorem tableSort_Swap_rowsFull (extraSwap : DataTable → Nat → Nat → Except Panic DataTable)
    (hextra : ∀ d d2 i j, extraSwap d i j = .ok d2 →
      d2.Data = d.Data ∧ d2.ColumnNames = d.ColumnNames)
    (d d2 : DataTable) (i j : Nat) (h : tableSort.Swap extraSwap d i j = .ok d2)
    (hd : d.rowsFull) : d2.rowsFull := by
  obtain ⟨h1, h2⟩ := tableSort_Swap_frame extraSwap hextra d d2 i j h
  intro rowp hrowp
  rw [h1] at hrowp
  rw [h2]
  exact hd rowp (mem_of_mem_exchange _ _ _ _ hrowp)

theorem baseSortRows_rowsFull (sort : SortAlgorithm) (d d2 : DataTable) (idx : Int)
    (reverse stable : Bool) (h : DataTable.baseSortRows sort d idx reverse stable = .ok d2)
    (hd : d.rowsFull) : d2.rowsFull := by
  unfold DataTable.baseSortRows at h
  simp only at h
  split at h
  · simp at h
  · exact foldlE_ok_invariant _ DataTable.rowsFull
      (fun s a s2 hs => tableSort_Swap_rowsFull _ baseSortRows_extraSwap_frame s s2 a.1 a.2 hs)
      _ d d2 h hd

theorem ReverseRows_loop_rowsFull (fuel : Nat) (i j : Int) (d d2 : DataTable)
    (h : tableSort.ReverseRows.loop DataTable.ReverseRows.extraSwap fuel i j d = .ok d2)
    (hd : d.rowsFull) : d2.rowsFull := by
  induction fuel generalizing i j d with
  | zero =>
    simp only [tableSort.ReverseRows.loop, Except.ok.injEq] at h
    exact h ▸ hd
  | succ fuel ih =>
    simp only [tableSort.ReverseRows.loop] at h
    split at h
    · cases hs : tableSort.Swap DataTable.ReverseRows.extraSwap d i.toNat j.toNat with
      | error e => rw [hs] at h; simp at h
      | ok d1 =>
        rw [hs] at h
        exact ih _ _ d1 h
          (tableSort_Swap_rowsFull _ ReverseRows_extraSwap_frame d d1 _ _ hs hd)
    · simp only [Except.ok.injEq] at h
      exact h ▸ hd

theorem ReverseRows_rowsFull (d d2 : DataTable) (h : DataTable.ReverseRows d = .ok d2)
    (hd : d.rowsFull) : d2.rowsFull :=
  ReverseRows_loop_rowsFull _ _ _ d d2 h hd

/-- The loop of `ReverseRows` never runs out of steps: with `j - i < 2 * fuel` one more
step of fuel changes nothing, and `tableSort.ReverseRows` starts it with
`j - i = len - 1` and `fuel = len`. -/
theorem ReverseRows_loop_fuel (extraSwap : DataTable → Nat → Nat → Except Panic DataTable)
    (fuel : Nat) (i j : Int) (d : DataTable) (h : j - i < 2 * (fuel : Int)) :
    tableSort.ReverseRows.loop extraSwap (fuel + 1) i j d =
      tableSort.ReverseRows.loop extraSwap fuel i j d := by
  induction fuel generalizing i j d with
  | zero =>
    have hij : ¬ i < j := by omega
    simp [tableSort.ReverseRows.loop, hij]
  | succ fuel ih =>
    rw [tableSort.ReverseRows.loop]
    conv_rhs => rw [tableSort.ReverseRows.loop]
    split
    · cases tableSort.Swap extraSwap d i.toNat j.toNat with
      | error e => rfl
      | ok d1 =>
        simp only
        exact ih (i + 1) (j - 1) d1 (by push_cast at h ⊢; omega)
    · rfl

theorem tableSort_Less_keyLe (v : List (Option (List (Option ℚ)))) (i j : Nat)
    (hi : i < v.length) (hj : j < v.length)
    (hne : ∀ rowp ∈ v, ∀ row, rowp = some row → row ≠ [])
    (h : ¬ (tableSort.Less v 0 j i = .ok true ∧ tableSort.Less v 0 i j = .ok false)) :
    keyLe (rowKey (v.getD i none)) (rowKey (v.getD j none)) := by
  have hvi : v[i]? = some v[i] := List.getElem?_eq_getElem hi
  have hvj : v[j]? = some v[j] := List.getElem?_eq_getElem hj
  have hi0 : ¬ ((i : Int) < 0) := by omega
  have hj0 : ¬ ((j : Int) < 0) := by omega
  have hni := hne v[i] (List.getElem_mem hi)
  have hnj := hne v[j] (List.getElem_mem hj)
  rw [List.getD_eq_getElem?_getD, List.getD_eq_getElem?_getD, hvi, hvj]
  simp only [Option.getD_some]
  generalize v[i] = ri at *
  generalize v[j] = rj at *
  cases ri with
  | none => simp [rowKey, keyLe]
  | some ri =>
    cases ri with
    | nil => exact absurd rfl (hni [] rfl)
    | cons x ri =>
      cases x with
      | none => simp [rowKey, keyLe]
      | some x =>
        cases rj with
        | none =>
          exfalso
          apply h
          simp [tableSort.Less, sliceIndex, hvi, hvj, hi0, hj0]
        | some rj =>
          cases rj with
          | nil => exact absurd rfl (hnj [] rfl)
          | cons y rj =>
            cases y with
            | none =>
              exfalso
              apply h
              simp [tableSort.Less, sliceIndex, hvi, hvj, hi0, hj0]
            | some y =>
              simp [tableSort.Less, sliceIndex, hvi, hvj, hi0, hj0] at h
              simp only [rowKey, keyLe, List.getD_cons_zero]
              by_contra hxy
              exact absurd (h (not_le.mp hxy)) (not_lt.mpr (not_le.mp hxy).le)

/-- The table of `baseSortRows` after a sort whose exchanges are within range. -/
theorem baseSortRows_eq (sort : SortAlgorithm) (d : DataTable) (idx : Int) (stable : Bool)
    (swaps : List (Nat × Nat))
    (hsort : sort d.Data.length (tableSort.Less d.Data 0) = .ok swaps)
    (hrange : ∀ ij ∈ swaps, ij.1 < d.Data.length ∧ ij.2 < d.Data.length) :
    DataTable.baseSortRows sort d idx false stable = .ok
      { d with
        Data := applySwaps swaps d.Data
        IdColumn := if d.IdColumn.length = d.Data.length then applySwaps swaps d.IdColumn
          else d.IdColumn
        Configs := if d.Configs.length = d.Data.length then applySwaps swaps d.Configs
          else d.Configs
        Timestamps := if d.Timestamps.length = d.Data.length then applySwaps swaps d.Timestamps
          else d.Timestamps } := by
  unfold DataTable.baseSortRows
  simp only [ite_self, Bool.false_eq_true, if_false, hsort]
  exact baseSortRows_swaps swaps d hrange

theorem perm_range_two (pos : List Nat) (h : pos.Perm (List.range 2)) :
    pos = [0, 1] ∨ pos = [1, 0] := by
  have hlen : pos.length = 2 := by simpa using h.length_eq
  have hnd : pos.Nodup := h.nodup_iff.mpr (List.nodup_range 2)
  match pos, hlen with
  | [x, y], _ =>
    have hx : x < 2 := List.mem_range.mp (h.mem_iff.mp (by simp))
    have hy : y < 2 := List.mem_range.mp (h.mem_iff.mp (by simp))
    have hxy : x ≠ y := by simpa using hnd
    have : (x = 0 ∧ y = 1) ∨ (x = 1 ∧ y = 0) := by omega
    rcases this with ⟨rfl, rfl⟩ | ⟨rfl, rfl⟩
    · exact Or.inl rfl
    · exact Or.inr rfl

/-- Claim C24 fails on the code: `ReverseRows` reverses the rows, the ids and the config
rows of a table with two rows, and leaves the timestamps in their old order, so that
afterwards the first timestamp is the one that belonged to the second row. -/
theorem ReverseRows_timestamps_not_reversed :
    DataTable.ReverseRows
      { ColumnNames := [ascii ("k")]
        Data := [some [some 5], some [some 7]]
        IdColumn := [ascii ("a"), ascii ("b")]
        ConfigsColumnNames := [ascii ("k")]
        Configs := [some [some (ascii ("5"))], some [some (ascii ("7"))]]
        Timestamps := [some 100, some 200] } = .ok
      { ColumnNames := [ascii ("k")]
        Data := [some [some 7], some [some 5]]
        IdColumn := [ascii ("b"), ascii ("a")]
        ConfigsColumnNames := [ascii ("k")]
        Configs := [some [some (ascii ("7"))], some [some (ascii ("5"))]]
        Timestamps := [some 100, some 200] } := by
  with_unfolding_all rfl

/-- Claim C26 fails on the code: whenever `sort.Sort` keeps its promise, `SortRows` with
the column index 1 leaves the table with the rows `[1, 2]` and `[2, 1]` as it is, in
ascending order of column 0, so that the values of column 1 are 2 and then 1. -/
theorem SortRows_ignores_column (sort : SortAlgorithm)
    (hs : sort.sorts 2 (tableSort.Less [some [some 1, some 2], some [some 2, some 1]] 0)) :
    DataTable.SortRows sort
      { ColumnNames := [ascii ("time"), ascii ("c")]
        Data := [some [some 1, some 2], some [some 2, some 1]] } 1 = .ok
      { ColumnNames := [ascii ("time"), ascii ("c")]
        Data := [some [some 1, some 2], some [some 2, some 1]] } := by
  obtain ⟨swaps, hsort, hrange, hsorted⟩ := hs
  unfold DataTable.SortRows
  rw [baseSortRows_eq sort
    { ColumnNames := [ascii ("time"), ascii ("c")]
      Data := [some [some 1, some 2], some [some 2, some 1]] } 1 false swaps hsort hrange]
  simp only [List.length_nil, List.length_cons]
  have hmap := applySwaps_eq_map swaps [some [some (1 : ℚ), some 2], some [some 2, some 1]] none
  simp only [List.length_cons, List.length_nil] at hmap
  rcases perm_range_two _ (perm_applySwaps swaps (List.range 2)) with hp | hp
  · rw [hp] at hmap
    simp only [hmap]
    simp
  · exfalso
    have h01 := hsorted 0 1 (by decide) (by decide)
    rw [hp] at h01
    apply h01
    constructor <;> with_unfolding_all rfl

theorem SortRows_ignores_column_witness :
    DataTable.SortRows bubbleSort
      { ColumnNames := [ascii ("time"), ascii ("c")]
        Data := [some [some 1, some 2], some [some 2, some 1]] } 1 = .ok
      { ColumnNames := [ascii ("time"), ascii ("c")]
        Data := [some [some 1, some 2], some [some 2, some 1]] } :=
  SortRows_ignores_column bubbleSort
    ⟨[], by with_unfolding_all rfl, by simp, by
      intro a b hab hb
      have ha : a = 0 := by omega
      have hb1 : b = 1 := by omega
      subst ha hb1
      intro h
      exact absurd (h.1.symm.trans (by with_unfolding_all rfl : _ = Except.ok false))
        (by simp)⟩

/-- Claim C27: when the call of `sort.Sort` in `SortRows` returns, with its exchanges
within range, and `IdColumn`, `Configs` and `Timestamps` are as long as `Data`, then
`SortRows` returns and there is one rearrangement `pos` of the row positions such that
the row, the id, the config row and the timestamp at every position afterwards are
those that were at position `pos[i]` before; the column names are unchanged. -/
theorem SortRows_carries (sort : SortAlgorithm) (d : DataTable) (colIdx : Int)
    (swaps : List (Nat × Nat))
    (hsort : sort d.Data.length (tableSort.Less d.Data 0) = .ok swaps)
    (hrange : ∀ ij ∈ swaps, ij.1 < d.Data.length ∧ ij.2 < d.Data.length)
    (hid : d.IdColumn.length = d.Data.length) (hc : d.Configs.length = d.Data.length)
    (ht : d.Timestamps.length = d.Data.length) :
    ∃ (d2 : DataTable) (pos : List Nat), DataTable.SortRows sort d colIdx = .ok d2 ∧
      pos.Perm (List.range d.Data.length) ∧
      d2.Data = pos.map (fun k => d.Data.getD k none) ∧
      d2.IdColumn = pos.map (fun k => d.IdColumn.getD k []) ∧
      d2.Configs = pos.map (fun k => d.Configs.getD k none) ∧
      d2.Timestamps = pos.map (fun k => d.Timestamps.getD k none) ∧
      d2.ColumnNames = d.ColumnNames ∧ d2.ConfigsColumnNames = d.ConfigsColumnNames := by
  refine ⟨_, applySwaps swaps (List.range d.Data.length),
    baseSortRows_eq sort d colIdx false swaps hsort hrange, perm_applySwaps _ _, ?_, ?_, ?_, ?_,
    rfl, rfl⟩
  · exact applySwaps_eq_map swaps d.Data none
  · simp only [hid, if_true]
    rw [← hid]
    exact applySwaps_eq_map swaps d.IdColumn []
  · simp only [hc, if_true]
    rw [← hc]
    exact applySwaps_eq_map swaps d.Configs none
  · simp only [ht, if_true]
    rw [← ht]
    exact applySwaps_eq_map swaps d.Timestamps none

theorem SortRows_carries_witness :
    ∃ (d2 : DataTable) (pos : List Nat), DataTable.SortRows bubbleSort
        { ColumnNames := [ascii ("time")]
          Data := [some [some 3], some [some 1], some [some 2]]
          IdColumn := [ascii ("a"), ascii ("b"), ascii ("c")]
          ConfigsColumnNames := [ascii ("k")]
          Configs := [some [some (ascii ("x"))], none, some [none]]
          Timestamps := [some 30, some 10, some 20] } 0 = .ok d2 ∧
      pos.Perm (List.range 3) ∧
      d2.Data = pos.map
        (fun k => [some [some (3 : ℚ)], some [some 1], some [some 2]].getD k none) ∧
      d2.IdColumn = pos.map (fun k => [ascii ("a"), ascii ("b"), ascii ("c")].getD k []) ∧
      d2.Configs = pos.map
        (fun k => [some [some (ascii ("x"))], none, some [none]].getD k none) ∧
      d2.Timestamps = pos.map (fun k => [some (30 : ℚ), some 10, some 20].getD k none) ∧
      d2.ColumnNames = [ascii ("time")] ∧ d2.ConfigsColumnNames = [ascii ("k")] :=
  SortRows_carries bubbleSort
    { ColumnNames := [ascii ("time")]
      Data := [some [some 3], some [some 1], some [some 2]]
      IdColumn := [ascii ("a"), ascii ("b"), ascii ("c")]
      ConfigsColumnNames := [ascii ("k")]
      Configs := [some [some (ascii ("x"))], none, some [none]]
      Timestamps := [some 30, some 10, some 20] } 0 [(0, 1), (1, 2)]
    (by with_unfolding_all rfl) (by decide) rfl rfl rfl

/-- Claim C30 fails on the code. In `baseSortRows` both values of `stable` select
`sort.Sort` (`sort.Stable` is commented out), so for every table `SortRowsStable` is
the same call as `SortRows`, and the order of rows with equal column-0 values is
whatever `sort.Sort` leaves, which promises none. Selection sort keeps the promise of
`sort.Sort` on the table with the rows `[2, 10]`, `[2, 20]`, `[1, 30]`, and with it
`SortRowsStable` returns the rows `[1, 30]`, `[2, 20]`, `[2, 10]`: the two rows with
the value 2 in column 0 have changed their relative order. -/
theorem SortRowsStable_not_stable :
    (∀ (sort : SortAlgorithm) (d : DataTable) (colIdx : Int),
      DataTable.SortRowsStable sort d colIdx = DataTable.SortRows sort d colIdx) ∧
    SortAlgorithm.sorts selectionSort 3
      (tableSort.Less [some [some 2, some 10], some [some 2, some 20], some [some 1, some 30]] 0) ∧
    DataTable.SortRowsStable selectionSort
      { ColumnNames := [ascii ("k"), ascii ("c")]
        Data := [some [some 2, some 10], some [some 2, some 20], some [some 1, some 30]] } 0 =
      .ok
      { ColumnNames := [ascii ("k"), ascii ("c")]
        Data := [some [some 1, some 30], some [some 2, some 20], some [some 2, some 10]] } := by
  refine ⟨?_, ⟨[(0, 2)], by with_unfolding_all rfl, by decide, ?_⟩, by with_unfolding_all rfl⟩
  · intro sort d colIdx
    unfold DataTable.SortRowsStable DataTable.SortRows DataTable.baseSortRows
    simp
  · intro a b hab hb h
    have hcases : (a = 0 ∧ b = 1) ∨ (a = 0 ∧ b = 2) ∨ (a = 1 ∧ b = 2) := by omega
    rcases hcases with ⟨rfl, rfl⟩ | ⟨rfl, rfl⟩ | ⟨rfl, rfl⟩
    · exact absurd (h.1.symm.trans (by with_unfolding_all rfl : _ = Except.ok false)) (by simp)
    · exact absurd (h.1.symm.trans (by with_unfolding_all rfl : _ = Except.ok false)) (by simp)
    · exact absurd (h.1.symm.trans (by with_unfolding_all rfl : _ = Except.ok false)) (by simp)

/-- What `SortRowsStable` does achieve: when `sort.Sort` keeps its promise and no row
is empty, the call returns, the rows afterwards are a rearrangement of the rows
before, and they are in non-decreasing order of the value in column 0 with the absent
values first. -/
theorem SortRowsStable_sorts (sort : SortAlgorithm) (d : DataTable) (colIdx : Int)
    (hs : sort.sorts d.Data.length (tableSort.Less d.Data 0))
    (hne : ∀ rowp ∈ d.Data, ∀ row, rowp = some row → row ≠ []) :
    DataTable.SortRowsStable sort d colIdx = DataTable.SortRows sort d colIdx ∧
    ∃ (d2 : DataTable) (pos : List Nat), DataTable.SortRowsStable sort d colIdx = .ok d2 ∧
      pos.Perm (List.range d.Data.length) ∧
      d2.Data = pos.map (fun k => d.Data.getD k none) ∧
      ∀ a b : Nat, a < b → b < d.Data.length →
        keyLe (rowKey (d2.Data.getD a none)) (rowKey (d2.Data.getD b none)) := by
  obtain ⟨swaps, hsort, hrange, hsorted⟩ := hs
  refine ⟨?_, _, applySwaps swaps (List.range d.Data.length),
    baseSortRows_eq sort d colIdx true swaps hsort hrange, perm_applySwaps _ _,
    applySwaps_eq_map swaps d.Data none, ?_⟩
  · unfold DataTable.SortRowsStable DataTable.SortRows DataTable.baseSortRows
    simp
  · intro a b hab hb
    simp only
    rw [applySwaps_eq_map swaps d.Data none]
    have hlen : (applySwaps swaps (List.range d.Data.length)).length = d.Data.length := by
      rw [length_applySwaps, List.length_range]
    have ha : a < (applySwaps swaps (List.range d.Data.length)).length := by omega
    have hb2 : b < (applySwaps swaps (List.range d.Data.length)).length := by omega
    have hsab := hsorted a b hab hb
    rw [List.getD_eq_getElem?_getD, List.getD_eq_getElem?_getD,
      List.getElem?_eq_getElem ha, List.getElem?_eq_getElem hb2] at hsab
    simp only [Option.getD_some] at hsab
    rw [List.getD_eq_getElem?_getD, List.getD_eq_getElem?_getD,
      List.getElem?_eq_getElem (by simpa using ha), List.getElem?_eq_getElem (by simpa using hb2)]
    simp only [Option.getD_some, List.getElem_map]
    exact tableSort_Less_keyLe d.Data _ _
      (applySwaps_range_lt swaps _ _ (List.getElem_mem ha))
      (applySwaps_range_lt swaps _ _ (List.getElem_mem hb2)) hne hsab

theorem SortRowsStable_sorts_witness :
    DataTable.SortRowsStable bubbleSort
        { ColumnNames := [ascii ("k")], Data := [some [some 2], some [none], some [some 1]] } 5 =
      DataTable.SortRows bubbleSort
        { ColumnNames := [ascii ("k")], Data := [some [some 2], some [none], some [some 1]] } 5 ∧
    ∃ (d2 : DataTable) (pos : List Nat), DataTable.SortRowsStable bubbleSort
        { ColumnNames := [ascii ("k")], Data := [some [some 2], some [none], some [some 1]] } 5 =
        .ok d2 ∧
      pos.Perm (List.range 3) ∧
      d2.Data = pos.map (fun k => [some [some (2 : ℚ)], some [none], some [some 1]].getD k none) ∧
      ∀ a b : Nat, a < b → b < 3 →
        keyLe (rowKey (d2.Data.getD a none)) (rowKey (d2.Data.getD b none)) :=
  SortRowsStable_sorts bubbleSort
    { ColumnNames := [ascii ("k")], Data := [some [some 2], some [none], some [some 1]] } 5
    ⟨[(0, 1), (1, 2)], by with_unfolding_all rfl, by decide, by
      intro a b hab hb h
      have hb3 : b < 3 := hb
      have hcases : (a = 0 ∧ b = 1) ∨ (a = 0 ∧ b = 2) ∨ (a = 1 ∧ b = 2) := by omega
      rcases hcases with ⟨rfl, rfl⟩ | ⟨rfl, rfl⟩ | ⟨rfl, rfl⟩
      · exact absurd (h.1.symm.trans (by with_unfolding_all rfl : _ = Except.ok false)) (by simp)
      · exact absurd (h.1.symm.trans (by with_unfolding_all rfl : _ = Except.ok false)) (by simp)
      · exact absurd (h.1.symm.trans (by with_unfolding_all rfl : _ = Except.ok false)) (by simp)⟩
    (by decide)

/-! ## The X axis -/

theorem foldlE_append {σ α ε : Type} (f : σ → α → Except ε σ) (s : σ) (l1 l2 : List α) :
    foldlE f s (l1 ++ l2) =
      match foldlE f s l1 with
      | .error e => .error e
      | .ok s2 => foldlE f s2 l2 := by
  induction l1 generalizing s with
  | nil => rfl
  | cons a rest ih =>
    simp only [List.cons_append, foldlE]
    cases f s a with
    | error e => rfl
    | ok s1 => exact ih s1

theorem foldlE_range_succ {σ ε : Type} (f : σ → Nat → Except ε σ) (s s2 : σ) (k : Nat)
    (h : foldlE f s (List.range k) = .ok s2) :
    foldlE f s (List.range (k + 1)) = f s2 k := by
  rw [List.range_succ, foldlE_append, h]
  simp only [foldlE]
  cases f s2 k <;> rfl

theorem set_map_range_step {α : Type} (n k : Nat) (g h : Nat → α) (hk : k < n) :
    ((List.range n).map (fun i => if i < k then g i else h i)).set k (g k) =
      (List.range n).map (fun i => if i < k + 1 then g i else h i) := by
  apply List.ext_getElem?
  intro i
  rw [List.getElem?_set]
  by_cases hik : k = i
  · subst hik
    simp [hk]
  · rw [if_neg hik]
    by_cases hin : i < n
    · simp only [List.getElem?_map, List.getElem?_range hin, Option.map_some']
      by_cases hlt : i < k
      · rw [if_pos hlt, if_pos (by omega)]
      · rw [if_neg hlt, if_neg (by omega)]
    · simp [List.getElem?_eq_none, Nat.le_of_not_lt hin]

theorem setX_ok (d : DataTable) (i : Nat) (v : Option ℚ) (row : List (Option ℚ))
    (h : d.Data[i]? = some (some row)) (hne : row ≠ []) :
    DataTable.setX d i v = .ok { d with Data := d.Data.set i (some (row.set 0 v)) } := by
  have hi : ¬ ((i : Int) < 0) := by omega
  have hlen : 0 < row.length := List.length_pos.mpr hne
  simp [DataTable.setX, sliceIndex, sliceSet, deref, h, hi, hlen]

theorem saveX_ok (d : DataTable) (i : Nat) (row : List (Option ℚ))
    (h : d.Data[i]? = some (some row)) (hne : row ≠ []) (hi : i < d.Timestamps.length) :
    DataTable.saveX d i =
      .ok { d with Timestamps := d.Timestamps.set i (rowKey (some row)) } := by
  have hi0 : ¬ ((i : Int) < 0) := by omega
  cases row with
  | nil => exact absurd rfl hne
  | cons x row => simp [DataTable.saveX, sliceIndex, sliceSet, deref, h, hi0, hi, rowKey]

/-- The new row of `ChangeXAxisToConfigColumn` for a row and its config row. -/
theorem ChangeXAxisToConfigColumn_row_ok (parseFloat : ParseFloat) (colIdx : Nat)
    (fromTime : Bool) (d : DataTable) (i : Nat) (row : List (Option ℚ))
    (h : d.Data[i]? = some (some row)) (hne : row ≠ [])
    (hi : fromTime = true → i < d.Timestamps.length)
    (hic : i < d.Configs.length)
    (hcl : ∀ cr, d.Configs.getD i none = some cr → colIdx < cr.length) :
    DataTable.ChangeXAxisToConfigColumn.row parseFloat colIdx fromTime d i = .ok
      { d with
        Timestamps := if fromTime then d.Timestamps.set i (rowKey (some row)) else d.Timestamps
        Data := d.Data.set i
          (match d.Configs.getD i none with
            | none => some row
            | some cr =>
              match cr.getD colIdx none with
              | none => some row
              | some s => some (row.set 0 (some (parseFloat s).1))) } := by
  have hi0 : ¬ ((i : Int) < 0) := by omega
  have hself : d.Data.set i (some row) = d.Data := by
    apply List.ext_getElem?
    intro k
    rw [List.getElem?_set]
    split
    · rename_i hik
      subst hik
      split
      · exact h.symm
      · rename_i hlt
        rw [List.getElem?_eq_none (Nat.le_of_not_lt hlt)]
    · rfl
  have hc : d.Configs[i]? = some (d.Configs.getD i none) := by
    rw [List.getD_eq_getElem?_getD, List.getElem?_eq_getElem hic, Option.getD_some]
  generalize d.Configs.getD i none = crow at hc hcl
  unfold DataTable.ChangeXAxisToConfigColumn.row
  cases fromTime with
  | false =>
    simp only [Bool.false_eq_true, if_false]
    cases crow with
    | none => simp [sliceIndex, hi0, hc, hself]
    | some cr =>
      have hcc := hcl cr rfl
      have hc0 : ¬ ((colIdx : Int) < 0) := by omega
      cases hs : cr[colIdx]? with
      | none => rw [List.getElem?_eq_getElem hcc] at hs; simp at hs
      | some s =>
        cases s with
        | none =>
          simp [sliceIndex, hi0, hc, hc0, hs, hself, List.getD_eq_getElem?_getD]
        | some s =>
          simp only [sliceIndex, hi0, hc, hc0, hs, if_false, Int.toNat_ofNat,
            List.getD_eq_getElem?_getD, Option.getD_some]
          exact setX_ok d i _ row h hne
  | true =>
    simp only [if_true]
    rw [saveX_ok d i row h hne (hi rfl)]
    simp only
    cases crow with
    | none => simp [sliceIndex, hi0, hc, hself]
    | some cr =>
      have hcc := hcl cr rfl
      have hc0 : ¬ ((colIdx : Int) < 0) := by omega
      cases hs : cr[colIdx]? with
      | none => rw [List.getElem?_eq_getElem hcc] at hs; simp at hs
      | some s =>
        cases s with
        | none =>
          simp [sliceIndex, hi0, hc, hc0, hs, hself, List.getD_eq_getElem?_getD]
        | some s =>
          simp only [sliceIndex, hi0, hc, hc0, hs, if_false, Int.toNat_ofNat,
            List.getD_eq_getElem?_getD, Option.getD_some]
          exact setX_ok _ i _ row h hne

theorem ChangeXAxisToConfigColumn_loop (parseFloat : ParseFloat) (colIdx : Nat)
    (fromTime : Bool) (d : DataTable)
    (hrows : ∀ rowp ∈ d.Data, ∃ row, rowp = some row ∧ row ≠ [])
    (hconf : d.Data.length ≤ d.Configs.length)
    (hcrows : ∀ crow ∈ d.Configs, ∀ cr, crow = some cr → colIdx < cr.length)
    (ht : fromTime = true → d.Timestamps = List.replicate d.Data.length none)
    (k : Nat) (hk : k ≤ d.Data.length) :
    foldlE (DataTable.ChangeXAxisToConfigColumn.row parseFloat colIdx fromTime) d
        (List.range k) = .ok
      { d with
        Timestamps :=
          if fromTime then
            (List.range d.Data.length).map
              (fun i => if i < k then rowKey (d.Data.getD i none) else none)
          else d.Timestamps
        Data := (List.range d.Data.length).map
          (fun i => if i < k then
              (match d.Data.getD i none with
                | none => none
                | some row =>
                  match d.Configs.getD i none with
                  | none => some row
                  | some cr =>
                    match cr.getD colIdx none with
                    | none => some row
                    | some s => some (row.set 0 (some (parseFloat s).1)))
            else d.Data.getD i none) } := by
  induction k with
  | zero =>
    simp only [List.range_zero, foldlE, Nat.not_lt_zero, if_false, map_getD_range]
    cases fromTime with
    | false => simp
    | true =>
      simp only [if_true]
      have hT : List.map (fun _ => (none : Option ℚ)) (List.range d.Data.length) =
          d.Timestamps := by
        rw [ht rfl]
        simp
      rw [hT]
  | succ k ih =>
    have hkn : k < d.Data.length := hk
    rw [foldlE_range_succ _ _ _ k (ih (Nat.le_of_lt hkn))]
    obtain ⟨row, hrow, hne⟩ := hrows d.Data[k] (List.getElem_mem hkn)
    have hDk : d.Data.getD k none = some row := by
      rw [List.getD_eq_getElem?_getD, List.getElem?_eq_getElem hkn, Option.getD_some, hrow]
    have hkc : k < d.Configs.length := by omega
    have hCk : d.Configs[k]? = some (d.Configs.getD k none) := by
      rw [List.getD_eq_getElem?_getD, List.getElem?_eq_getElem hkc, Option.getD_some]
    have hDk2 : d.Data[k]?.getD none = some row := by
      rw [← List.getD_eq_getElem?_getD]
      exact hDk
    refine (ChangeXAxisToConfigColumn_row_ok parseFloat colIdx fromTime _ k row
      ?_ hne ?_ ?_ ?_).trans ?_
    · simp [List.getElem?_range hkn, hDk2]
    · intro hf
      simp [hf, hkn]
    · exact hkc
    · exact fun cr hcr => hcrows _ (List.getElem?_mem hCk) cr hcr
    simp only
    have hg := set_map_range_step d.Data.length k
      (fun i => (match d.Data.getD i none with
          | none => none
          | some row =>
            match d.Configs.getD i none with
            | none => some row
            | some cr =>
              match cr.getD colIdx none with
              | none => some row
              | some s => some (row.set 0 (some (parseFloat s).1))))
      (fun i => d.Data.getD i none) hkn
    simp only [hDk] at hg
    have hts := set_map_range_step d.Data.length k (fun i => rowKey (d.Data.getD i none))
      (fun _ => (none : Option ℚ)) hkn
    simp only [hDk] at hts
    cases fromTime with
    | false =>
      simp only [Bool.false_eq_true, if_false]
      exact congrArg (fun D => (Except.ok { d with Data := D } : Except Panic DataTable)) hg
    | true =>
      simp only [if_true]
      exact congrArg₂
        (fun D T => (Except.ok { d with Data := D, Timestamps := T } : Except Panic DataTable))
        hg hts

theorem scan_lt_of_mem (s : List Bytes) (name : Bytes) (h : name ∈ s) :
    StringSlice.IndexForName.scan name s < s.length := by
  induction s with
  | nil => simp at h
  | cons x rest ih =>
    simp only [StringSlice.IndexForName.scan]
    split
    · simp
    · rename_i hx
      rcases List.mem_cons.mp h with h1 | h1
      · exact absurd h1.symm hx
      · simpa using ih h1

theorem scan_eq_length (s : List Bytes) (name : Bytes) (h : name ∉ s) :
    StringSlice.IndexForName.scan name s = s.length := by
  induction s with
  | nil => rfl
  | cons x rest ih =>
    simp only [List.mem_cons, not_or] at h
    simp only [StringSlice.IndexForName.scan, List.length_cons]
    rw [if_neg (fun hx => h.1 hx.symm), ih h.2]

theorem getElem?_scan (s : List Bytes) (name : Bytes) (h : name ∈ s) :
    s[StringSlice.IndexForName.scan name s]? = some name := by
  induction s with
  | nil => simp at h
  | cons x rest ih =>
    simp only [StringSlice.IndexForName.scan]
    split
    · rename_i hx
      simp [hx]
    · rename_i hx
      rcases List.mem_cons.mp h with h1 | h1
      · exact absurd h1.symm hx
      · simpa using ih h1

theorem IndexForName_ok (s : List Bytes) (name : Bytes) (h : name ∈ s) :
    StringSlice.IndexForName s name =
      .ok ((StringSlice.IndexForName.scan name s : Nat) : Int) := by
  unfold StringSlice.IndexForName
  simp only
  rw [if_neg (Nat.ne_of_lt (scan_lt_of_mem s name h))]

theorem IndexForName_error (s : List Bytes) (name : Bytes) (h : name ∉ s) :
    StringSlice.IndexForName s name =
      .error { message := ascii ("Non-existent name: ") ++ name } := by
  unfold StringSlice.IndexForName
  simp only
  rw [if_pos (scan_eq_length s name h)]

/-- Whatever `ParseFloat` returns for the config value `abc`, value and error,
`ChangeXAxisToConfigColumn` writes the value into column 0 of the row, which is then
present; and the row whose config value is absent keeps the 7 it had in column 0. -/
theorem ChangeXAxisToConfigColumn_any_ParseFloat (parseFloat : ParseFloat) :
    DataTable.ChangeXAxisToConfigColumn parseFloat
      { ColumnNames := [ascii ("time")]
        Data := [some [some 5], some [some 7]]
        ConfigsColumnNames := [ascii ("k")]
        Configs := [some [some (ascii ("abc"))], some [none]] } (ascii ("k")) false = .ok
      { ColumnNames := [ascii ("k")]
        Data := [some [some (parseFloat (ascii ("abc"))).1], some [some 7]]
        ConfigsColumnNames := [ascii ("k")]
        Configs := [some [some (ascii ("abc"))], some [none]] } := by
  with_unfolding_all rfl

/-- Claim C25 fails on the code: with a `ParseFloat` that returns 0 and an error for the
config value `abc`, which is not a number, `ChangeXAxisToConfigColumn` writes 0 into
column 0 of the row, which is then present and not absent; and the row whose config
value is absent keeps the 7 it had in column 0. -/
theorem ChangeXAxisToConfigColumn_counterexample :
    (parseFloatDigits (ascii ("abc"))).2.isSome = true ∧
    DataTable.ChangeXAxisToConfigColumn parseFloatDigits
      { ColumnNames := [ascii ("time")]
        Data := [some [some 5], some [some 7]]
        ConfigsColumnNames := [ascii ("k")]
        Configs := [some [some (ascii ("abc"))], some [none]] } (ascii ("k")) false = .ok
      { ColumnNames := [ascii ("k")]
        Data := [some [some 0], some [some 7]]
        ConfigsColumnNames := [ascii ("k")]
        Configs := [some [some (ascii ("abc"))], some [none]] } := by
  constructor <;> with_unfolding_all rfl

/-- Claim C25, amended: for a table whose rows are present and not empty, with a name
in column 0, a config row (possibly nil) for every data row, and the chosen name among
the config column names, `ChangeXAxisToConfigColumn` returns without error; column 0
is named after the config column; with `fromTime` the timestamps are the old values of
column 0; a row whose chosen config value is present gets in column 0 the value that
`ParseFloat` returns for it, the error being ignored; a row whose config row or chosen
config value is absent is left as it was. -/
theorem ChangeXAxisToConfigColumn_writes (parseFloat : ParseFloat) (d : DataTable)
    (colName : Bytes) (fromTime : Bool)
    (hcol : colName ∈ d.ConfigsColumnNames) (hnames : d.ColumnNames ≠ [])
    (hrows : ∀ rowp ∈ d.Data, ∃ row, rowp = some row ∧ row ≠ [])
    (hconf : d.Data.length ≤ d.Configs.length)
    (hcrows : ∀ crow ∈ d.Configs, ∀ cr, crow = some cr →
      StringSlice.IndexForName.scan colName d.ConfigsColumnNames < cr.length) :
    ∃ d2, DataTable.ChangeXAxisToConfigColumn parseFloat d colName fromTime = .ok d2 ∧
      d2.ColumnNames = d.ColumnNames.set 0 colName ∧
      d2.Timestamps = (if fromTime then d.Data.map rowKey else d.Timestamps) ∧
      d2.IdColumn = d.IdColumn ∧ d2.Configs = d.Configs ∧
      d2.ConfigsColumnNames = d.ConfigsColumnNames ∧
      d2.Data.length = d.Data.length ∧
      ∀ (i : Nat) (row : List (Option ℚ)), d.Data[i]? = some (some row) →
        (∀ cr s, d.Configs[i]? = some (some cr) →
          cr[StringSlice.IndexForName.scan colName d.ConfigsColumnNames]? = some (some s) →
          d2.Data[i]? = some (some (row.set 0 (some (parseFloat s).1)))) ∧
        (d.Configs[i]? = some none → d2.Data[i]? = some (some row)) ∧
        (∀ cr, d.Configs[i]? = some (some cr) →
          cr[StringSlice.IndexForName.scan colName d.ConfigsColumnNames]? = some none →
          d2.Data[i]? = some (some row)) := by
  have hlen : 0 < d.ColumnNames.length := List.length_pos.mpr hnames
  have hloop := ChangeXAxisToConfigColumn_loop parseFloat
    (StringSlice.IndexForName.scan colName d.ConfigsColumnNames) fromTime
    { d with
      ColumnNames := d.ColumnNames.set 0 colName
      Timestamps := if fromTime then List.replicate d.Data.length none else d.Timestamps }
    hrows hconf hcrows (by intro hf; simp [hf]) d.Data.length (Nat.le_refl _)
  simp only at hloop
  have hcall : ∀ d2, foldlE
      (DataTable.ChangeXAxisToConfigColumn.row parseFloat
        (StringSlice.IndexForName.scan colName d.ConfigsColumnNames : Nat) fromTime)
      { d with
        ColumnNames := d.ColumnNames.set 0 colName
        Timestamps := if fromTime then List.replicate d.Data.length none else d.Timestamps }
      (List.range d.Data.length) = .ok d2 →
      DataTable.ChangeXAxisToConfigColumn parseFloat d colName fromTime = .ok d2 := by
    intro d2 hd2
    unfold DataTable.ChangeXAxisToConfigColumn DataTable.IndexForConfigName
    rw [IndexForName_ok _ _ hcol]
    simp only [sliceSet, Int.toNat_zero, hlen, if_true, lt_self_iff_false, if_false]
    cases fromTime with
    | false =>
      simp only [Bool.false_eq_true, if_false] at hd2 ⊢
      rw [hd2]
    | true =>
      simp only [if_true] at hd2 ⊢
      rw [hd2]
  refine ⟨_, hcall _ hloop, ?_⟩
  · refine ⟨rfl, ?_, rfl, rfl, rfl, by simp, ?_⟩
    · cases fromTime with
      | false => simp
      | true =>
        simp only [if_true]
        apply List.ext_getElem?
        intro i
        by_cases hi : i < d.Data.length
        · simp [List.getElem?_range hi, hi, List.getD_eq_getElem?_getD,
            List.getElem?_eq_getElem hi]
        · simp [List.getElem?_eq_none, Nat.le_of_not_lt hi]
    · intro i row hrow
      have hi : i < d.Data.length := (List.getElem?_eq_some_iff.mp hrow).1
      have hD : d.Data[i] = some row := by
        obtain ⟨h1, h2⟩ := List.getElem?_eq_some_iff.mp hrow
        exact h2
      refine ⟨?_, ?_, ?_⟩
      · intro cr s hcr hs
        simp [List.getElem?_range hi, hi, hD, hcr, hs]
      · intro hcr
        simp [List.getElem?_range hi, hi, hD, hcr]
      · intro cr hcr hs
        simp [List.getElem?_range hi, hi, hD, hcr, hs]

theorem ChangeXAxisToConfigColumn_writes_witness :
    ∃ d2, DataTable.ChangeXAxisToConfigColumn (fun s => ((s.length : ℚ), none))
        { ColumnNames := [ascii ("time")]
          Data := [some [some 5], some [some 7], some [some 9]]
          ConfigsColumnNames := [ascii ("j"), ascii ("k")]
          Configs := [some [none, some (ascii ("abc"))], some [none, none], none] }
        (ascii ("k")) true = .ok d2 ∧
      d2.ColumnNames = [ascii ("time")].set 0 (ascii ("k")) ∧
      d2.Timestamps = (if true = true then
          [some [some (5 : ℚ)], some [some 7], some [some 9]].map rowKey else []) ∧
      d2.IdColumn = [] ∧
      d2.Configs = [some [none, some (ascii ("abc"))], some [none, none], none] ∧
      d2.ConfigsColumnNames = [ascii ("j"), ascii ("k")] ∧
      d2.Data.length = [some [some (5 : ℚ)], some [some 7], some [some 9]].length ∧
      ∀ (i : Nat) (row : List (Option ℚ)),
        [some [some (5 : ℚ)], some [some 7], some [some 9]][i]? = some (some row) →
        (∀ cr s,
          [some [none, some (ascii ("abc"))], some [none, none], none][i]? = some (some cr) →
          cr[StringSlice.IndexForName.scan (ascii ("k")) [ascii ("j"), ascii ("k")]]? =
            some (some s) →
          d2.Data[i]? = some (some (row.set 0 (some ((s.length : ℚ), (none : Option GoError)).1)))) ∧
        ([some [none, some (ascii ("abc"))], some [none, none], none][i]? = some none →
          d2.Data[i]? = some (some row)) ∧
        (∀ cr,
          [some [none, some (ascii ("abc"))], some [none, none], none][i]? = some (some cr) →
          cr[StringSlice.IndexForName.scan (ascii ("k")) [ascii ("j"), ascii ("k")]]? =
            some none →
          d2.Data[i]? = some (some row)) :=
  ChangeXAxisToConfigColumn_writes (fun s => ((s.length : ℚ), none))
    { ColumnNames := [ascii ("time")]
      Data := [some [some 5], some [some 7], some [some 9]]
      ConfigsColumnNames := [ascii ("j"), ascii ("k")]
      Configs := [some [none, some (ascii ("abc"))], some [none, none], none] }
    (ascii ("k")) true (by decide) (by decide) (by decide) (by decide) (by decide)

/-! ## Column sorting -/

theorem bytesLt_asymm (a b : Bytes) (h : bytesLt a b = true) : bytesLt b a = false := by
  induction a generalizing b with
  | nil =>
    cases b with
    | nil => rfl
    | cons y b => rfl
  | cons x a ih =>
    cases b with
    | nil => simp [bytesLt] at h
    | cons y b =>
      simp only [bytesLt] at h ⊢
      by_cases h1 : x < y
      · rw [if_neg (by omega), if_pos h1]
      · rw [if_neg h1] at h
        by_cases h2 : y < x
        · rw [if_pos h2] at h
          simp at h
        · rw [if_neg h2] at h
          rw [if_neg h2, if_neg h1]
          exact ih b h

theorem bytesLt_total (a b : Bytes) (h : a ≠ b) : bytesLt a b = true ∨ bytesLt b a = true := by
  induction a generalizing b with
  | nil =>
    cases b with
    | nil => exact absurd rfl h
    | cons y b => exact Or.inl rfl
  | cons x a ih =>
    cases b with
    | nil => exact Or.inr rfl
    | cons y b =>
      simp only [bytesLt]
      by_cases h1 : x < y
      · exact Or.inl (by rw [if_pos h1])
      · by_cases h2 : y < x
        · exact Or.inr (by rw [if_pos h2])
        · have hxy : x = y := by omega
          subst hxy
          simp only [Nat.lt_irrefl, if_false]
          exact ih b (fun hab => h (by rw [hab]))

theorem foldlE_cons_ok {σ α ε : Type} (f : σ → α → Except ε σ) (s : σ) (a : α)
    (rest : List α) (s1 : σ) (h : f s a = .ok s1) :
    foldlE f s (a :: rest) = foldlE f s1 rest := by
  simp only [foldlE, h]

theorem positionString_swaps (swaps : List (Nat × Nat)) (ps : List Bytes × List Int)
    (hlen : ps.2.length = ps.1.length)
    (hr : ∀ ij ∈ swaps, ij.1 < ps.1.length ∧ ij.2 < ps.1.length) :
    foldlE (fun ps ij => positionString.Swap ps ij.1 ij.2) ps swaps =
      .ok (applySwaps swaps ps.1, applySwaps swaps ps.2) := by
  induction swaps generalizing ps with
  | nil => rfl
  | cons ij rest ih =>
    have h0 := hr ij (List.mem_cons_self _ _)
    refine (foldlE_cons_ok _ _ _ _ (exchange ps.1 ij.1 ij.2, exchange ps.2 ij.1 ij.2)
      ?_).trans ?_
    · simp only [positionString.Swap]
      rw [swapAt_of_lt _ _ _ h0.1 h0.2, swapAt_of_lt _ _ _ (hlen ▸ h0.1) (hlen ▸ h0.2)]
    rw [ih]
    · rfl
    · simp only [length_exchange]
      exact hlen
    · intro ij2 hij2
      simp only [length_exchange]
      exact hr ij2 (List.mem_cons_of_mem _ hij2)

theorem FixRowLengths_float_loop (n : Nat) (data out : List (Option (List (Option ℚ))))
    (hrows : ∀ rowp ∈ data, rowp ≠ none) :
    foldlE (fun (out : List (Option (List (Option ℚ)))) rowPtr =>
        match deref rowPtr with
        | .error e => .error e
        | .ok row =>
          if row.length ≠ n then
            let newRow := row.take n ++ List.replicate (n - row.length) none
            .ok (out ++ [some newRow])
          else .ok (out ++ [some row]))
      out data = .ok (out ++ data.map
        (Option.map (fun row => row.take n ++ List.replicate (n - row.length) none))) := by
  induction data generalizing out with
  | nil => simp [foldlE]
  | cons rowp rest ih =>
    cases rowp with
    | none => exact absurd rfl (hrows none (List.mem_cons_self _ _))
    | some row =>
      refine (foldlE_cons_ok _ _ _ _
        (out ++ [some (row.take n ++ List.replicate (n - row.length) none)]) ?_).trans ?_
      · simp only [deref]
        by_cases hl : row.length = n
        · subst hl
          simp
        · simp [hl]
      · rw [ih _ (fun r hr => hrows r (List.mem_cons_of_mem _ hr))]
        simp

theorem FixRowLengths_float_ok (names : List Bytes) (data : List (Option (List (Option ℚ))))
    (hrows : ∀ rowp ∈ data, rowp ≠ none) :
    parallelStringsFloatTable.FixRowLengths names data = .ok (data.map
      (Option.map (fun row =>
        row.take names.length ++ List.replicate (names.length - row.length) none))) := by
  unfold parallelStringsFloatTable.FixRowLengths
  exact (FixRowLengths_float_loop names.length data [] hrows).trans (by simp)

theorem fill_loop {α : Type} (dflt : α) (g : Nat → α)
    (f : List α → Nat → Except Panic (List α)) (n : Nat)
    (hf : ∀ t i, i < n → t.length = n → f t i = .ok (t.set i (g i)))
    (t : List α) (ht : t.length = n) (k : Nat) (hk : k ≤ n) :
    foldlE f t (List.range k) =
      .ok ((List.range n).map (fun i => if i < k then g i else t.getD i dflt)) := by
  induction k with
  | zero =>
    simp only [List.range_zero, foldlE, Nat.not_lt_zero, if_false]
    rw [← ht, map_getD_range]
  | succ k ih =>
    rw [foldlE_range_succ _ _ _ k (ih (Nat.le_of_succ_le hk)), hf _ k hk (by simp),
      set_map_range_step n k g (fun i => t.getD i dflt) hk]

theorem set_append_cons {α : Type} (pre r : List α) (x v : α) :
    (pre ++ x :: r).set pre.length v = pre ++ v :: r := by
  induction pre with
  | nil => rfl
  | cons a pre ih => simp [ih]

theorem copyBack_loop {α : Type} (pre r suf : List α) (h : r.length = suf.length) :
    foldlE (fun (r : List α) (cv : Nat × α) => sliceSet r cv.1 cv.2) (pre ++ r)
      (List.enumFrom pre.length suf) = .ok (pre ++ suf) := by
  induction suf generalizing pre r with
  | nil =>
    cases r with
    | nil => rfl
    | cons x r => simp at h
  | cons v suf ih =>
    cases r with
    | nil => simp at h
    | cons x r =>
      simp only [List.length_cons, Nat.add_right_cancel_iff] at h
      simp only [List.enumFrom, foldlE]
      rw [sliceSet_ok _ _ _ (by simp), set_append_cons]
      simp only
      have := ih (pre ++ [v]) r h
      simpa using this

theorem map_range_if_lt {α : Type} (n : Nat) (g h : Nat → α) :
    (List.range n).map (fun i => if i < n then g i else h i) = (List.range n).map g := by
  apply List.map_congr_left
  intro i hi
  rw [if_pos (List.mem_range.mp hi)]

theorem TemplateSortFloat_row_ok (pos : List Nat) (tmpRow row : List (Option ℚ)) (n : Nat)
    (hpos : pos.length = n) (hlt : ∀ k ∈ pos, k < n) (htmp : tmpRow.length = n)
    (hrow : row.length = n) :
    positionString.TemplateSortFloat.row (pos.map Int.ofNat) tmpRow row =
      .ok ((List.range n).map (fun i => row.getD (pos.getD i 0) none),
        (List.range n).map (fun i => row.getD (pos.getD i 0) none)) := by
  unfold positionString.TemplateSortFloat.row
  rw [hrow, fill_loop none (fun i => row.getD (pos.getD i 0) none) _ n ?_ tmpRow htmp n
    (Nat.le_refl n), map_range_if_lt]
  · simp only [List.enum]
    have h := copyBack_loop [] row
      ((List.range n).map (fun i => row.getD (pos.getD i 0) none)) (by simp [hrow])
    simp only [List.nil_append, List.length_nil] at h
    rw [h]
  · intro t i hi ht
    have hip : i < pos.length := by omega
    have hpi : pos[i] < row.length := by
      rw [hrow]
      exact hlt _ (List.getElem_mem hip)
    rw [sliceIndex_ok _ i (by simpa using hip)]
    simp only [List.getElem_map]
    rw [show Int.ofNat pos[i] = ((pos[i] : Nat) : Int) from rfl, sliceIndex_ok row pos[i] hpi]
    simp only
    rw [sliceSet_ok t i _ (by omega)]
    simp [List.getD_eq_getElem?_getD, List.getElem?_eq_getElem hip,
      List.getElem?_eq_getElem hpi]

theorem TemplateSortFloat_loop (pos : List Nat) (n : Nat) (hpos : pos.length = n)
    (hlt : ∀ k ∈ pos, k < n) (data : List (Option (List (Option ℚ))))
    (st : List (Option ℚ) × List (Option (List (Option ℚ)))) (htmp : st.1.length = n)
    (hrows : ∀ rowp ∈ data, ∃ row, rowp = some row ∧ row.length = n) :
    ∃ tmp2, foldlE (fun (st : List (Option ℚ) × List (Option (List (Option ℚ)))) rowPtr =>
        match deref rowPtr with
        | .error e => .error e
        | .ok row =>
          match positionString.TemplateSortFloat.row (pos.map Int.ofNat) st.1 row with
          | .error e => .error e
          | .ok (tmp, newRow) => .ok (tmp, st.2 ++ [some newRow]))
      st data = .ok (tmp2, st.2 ++ data.map
        (Option.map (fun row => (List.range n).map (fun i => row.getD (pos.getD i 0) none)))) ∧
      tmp2.length = n := by
  induction data generalizing st with
  | nil => exact ⟨st.1, by simp [foldlE], htmp⟩
  | cons rowp rest ih =>
    obtain ⟨row, hrowp, hrow⟩ := hrows rowp (List.mem_cons_self _ _)
    subst hrowp
    obtain ⟨tmp2, h2, hl2⟩ := ih
      ((List.range n).map (fun i => row.getD (pos.getD i 0) none),
        st.2 ++ [some ((List.range n).map (fun i => row.getD (pos.getD i 0) none))])
      (by simp) (fun r hr => hrows r (List.mem_cons_of_mem _ hr))
    refine ⟨tmp2, ?_, hl2⟩
    refine (foldlE_cons_ok _ _ _ _
      ((List.range n).map (fun i => row.getD (pos.getD i 0) none),
        st.2 ++ [some ((List.range n).map (fun i => row.getD (pos.getD i 0) none))])
      ?_).trans ?_
    · simp only [deref]
      rw [TemplateSortFloat_row_ok pos st.1 row n hpos hlt htmp hrow]
    · rw [h2]
      simp

theorem TemplateSortFloat_ok (pos : List Nat) (n : Nat) (hpos : pos.length = n)
    (hlt : ∀ k ∈ pos, k < n) (data : List (Option (List (Option ℚ))))
    (hrows : ∀ rowp ∈ data, ∃ row, rowp = some row ∧ row.length = n) :
    positionString.TemplateSortFloat n (pos.map Int.ofNat) data = .ok (data.map
      (Option.map (fun row => (List.range n).map (fun i => row.getD (pos.getD i 0) none)))) := by
  unfold positionString.TemplateSortFloat
  obtain ⟨tmp2, h2, _⟩ := TemplateSortFloat_loop pos n hpos hlt data
    (List.replicate n none, []) (by simp) hrows
  simp only
  erw [h2]
  simp

/-- The names and rows after `parallelStringsFloatTable.SortDataColumns` when the
exchanges of the sort are within range and the rows are as long as the names: both are
rearranged by the positions that the exchanges give. -/
theorem SortDataColumns_float_ok (sort : SortAlgorithm) (names : List Bytes)
    (data : List (Option (List (Option ℚ)))) (swaps : List (Nat × Nat))
    (hsort : sort names.length (positionString.Less names) = .ok swaps)
    (hrange : ∀ ij ∈ swaps, ij.1 < names.length ∧ ij.2 < names.length)
    (hrows : ∀ rowp ∈ data, ∃ row, rowp = some row ∧ row.length = names.length) :
    parallelStringsFloatTable.SortDataColumns sort names data = .ok
      ((applySwaps swaps (List.range names.length)).map (fun k => names.getD k []),
        data.map (Option.map (fun row => (List.range names.length).map
          (fun i => row.getD ((applySwaps swaps (List.range names.length)).getD i 0) none)))) := by
  unfold parallelStringsFloatTable.SortDataColumns
  simp only [hsort]
  rw [positionString_swaps swaps _ (by simp) hrange]
  simp only [applySwaps_map, length_applySwaps]
  rw [TemplateSortFloat_ok _ names.length (by simp [length_applySwaps])
    (fun k hk => applySwaps_range_lt swaps _ k hk) data hrows]
  simp only
  rw [← applySwaps_eq_map swaps names []]

theorem getD_fixRow (row : List (Option ℚ)) (n k : Nat) (hk : k < n) :
    (row.take n ++ List.replicate (n - row.length) none).getD k none = row.getD k none := by
  rw [List.getD_eq_getElem?_getD, List.getD_eq_getElem?_getD]
  by_cases hlt : k < row.length
  · rw [List.getElem?_append_left (by simp; omega), List.getElem?_take_of_lt hk]
  · rw [List.getElem?_eq_none (l := row) (Nat.le_of_not_lt hlt)]
    rw [List.getElem?_append_right (by simp; omega)]
    simp only [List.getElem?_replicate, Option.getD_none]
    split <;> rfl

theorem positionString_Less_ok (strings : List Bytes) (i j : Nat) (hi : i < strings.length)
    (hj : j < strings.length) :
    positionString.Less strings i j = .ok (bytesLt strings[i] strings[j]) := by
  unfold positionString.Less
  rw [sliceIndex_ok _ i hi, sliceIndex_ok _ j hj]

theorem SortDataColumns_eq (sort : SortAlgorithm) (d : DataTable)
    (fixed data : List (Option (List (Option ℚ)))) (names : List Bytes)
    (hfix : parallelStringsFloatTable.FixRowLengths d.ColumnNames d.Data = .ok fixed)
    (hs : parallelStringsFloatTable.SortDataColumns sort d.ColumnNames fixed =
      .ok (names, data)) :
    DataTable.SortDataColumns sort d = .ok { d with ColumnNames := names, Data := data } := by
  unfold DataTable.SortDataColumns
  rw [hfix]
  simp only
  rw [hs]

/-- Claim C28: for a table with pairwise distinct column names and no nil row, when
`sort.Sort` keeps its promise, `SortDataColumns` returns; the column names afterwards
are a rearrangement of the names before, in strictly ascending byte order; every row
is as long as the names, and the cell under a name is the cell that was under it
before, absent where the row was shorter than the names; cells beyond the names are
cut. -/
theorem SortDataColumns_lockstep (sort : SortAlgorithm) (d : DataTable)
    (hnodup : d.ColumnNames.Nodup) (hrows : ∀ rowp ∈ d.Data, rowp ≠ none)
    (hs : sort.sorts d.ColumnNames.length (positionString.Less d.ColumnNames)) :
    ∃ d2, DataTable.SortDataColumns sort d = .ok d2 ∧
      d2.ColumnNames.Perm d.ColumnNames ∧
      d2.ColumnNames.Pairwise (fun a b => bytesLt a b = true) ∧
      d2.Data.length = d.Data.length ∧
      (∀ (i : Nat) (row : List (Option ℚ)), d.Data[i]? = some (some row) →
        ∃ row2, d2.Data[i]? = some (some row2) ∧ row2.length = d.ColumnNames.length ∧
          ∀ (k k2 : Nat) (name : Bytes), d.ColumnNames[k]? = some name →
            d2.ColumnNames[k2]? = some name → row2[k2]? = some (row.getD k none)) ∧
      d2.IdColumn = d.IdColumn ∧ d2.Configs = d.Configs ∧
      d2.ConfigsColumnNames = d.ConfigsColumnNames ∧ d2.Timestamps = d.Timestamps := by
  obtain ⟨swaps, hsort, hrange, hsorted⟩ := hs
  have hfix := FixRowLengths_float_ok d.ColumnNames d.Data hrows
  have hsdc := SortDataColumns_float_ok sort d.ColumnNames
    (d.Data.map (Option.map (fun row =>
      row.take d.ColumnNames.length ++ List.replicate (d.ColumnNames.length - row.length) none)))
    swaps hsort hrange
    (by
      intro rowp hrowp
      obtain ⟨r, hr, hrr⟩ := List.mem_map.mp hrowp
      cases r with
      | none => exact absurd rfl (hrows none hr)
      | some row =>
        refine ⟨_, hrr.symm, ?_⟩
        simp only [List.length_append, List.length_take, List.length_replicate]
        omega)
  have hperm := perm_applySwaps swaps (List.range d.ColumnNames.length)
  have hplen : (applySwaps swaps (List.range d.ColumnNames.length)).length =
      d.ColumnNames.length := by rw [length_applySwaps, List.length_range]
  have hpnd : (applySwaps swaps (List.range d.ColumnNames.length)).Nodup :=
    hperm.nodup_iff.mpr (List.nodup_range _)
  refine ⟨_, SortDataColumns_eq sort d _ _ _ hfix hsdc, ?_, ?_, ?_, ?_, rfl, rfl, rfl, rfl⟩
  · simp only
    have h1 := hperm.map (fun k => d.ColumnNames.getD k [])
    rw [map_getD_range] at h1
    exact h1
  · simp only
    rw [List.pairwise_iff_getElem]
    intro i j hi hj hij
    simp only [List.length_map] at hi hj
    simp only [List.getElem_map]
    have hpi := applySwaps_range_lt swaps _ _ (List.getElem_mem hi)
    have hpj := applySwaps_range_lt swaps _ _ (List.getElem_mem hj)
    have hne : (applySwaps swaps (List.range d.ColumnNames.length))[i] ≠
        (applySwaps swaps (List.range d.ColumnNames.length))[j] := by
      intro heq
      have := (List.Nodup.getElem_inj_iff hpnd).mp heq
      omega
    have hne2 : d.ColumnNames[(applySwaps swaps (List.range d.ColumnNames.length))[i]] ≠
        d.ColumnNames[(applySwaps swaps (List.range d.ColumnNames.length))[j]] := by
      intro heq
      exact hne ((List.Nodup.getElem_inj_iff hnodup).mp heq)
    have hs1 := hsorted i j hij (by omega)
    rw [List.getD_eq_getElem?_getD, List.getD_eq_getElem?_getD,
      List.getElem?_eq_getElem hi, List.getElem?_eq_getElem hj] at hs1
    simp only [Option.getD_some] at hs1
    rw [positionString_Less_ok _ _ _ hpj hpi, positionString_Less_ok _ _ _ hpi hpj] at hs1
    rw [List.getD_eq_getElem?_getD, List.getD_eq_getElem?_getD,
      List.getElem?_eq_getElem hpi, List.getElem?_eq_getElem hpj]
    simp only [Option.getD_some]
    rcases bytesLt_total _ _ hne2 with h1 | h1
    · exact h1
    · exfalso
      apply hs1
      rw [h1, bytesLt_asymm _ _ h1]
      exact ⟨rfl, rfl⟩
  · simp
  · intro i row hrow
    refine ⟨(List.range d.ColumnNames.length).map (fun i =>
      (row.take d.ColumnNames.length ++
        List.replicate (d.ColumnNames.length - row.length) none).getD
        ((applySwaps swaps (List.range d.ColumnNames.length)).getD i 0) none), ?_, ?_, ?_⟩
    · simp only [List.getElem?_map, hrow, Option.map_some']
    · simp
    · intro k k2 name hk hk2
      obtain ⟨hkl, hkn⟩ := List.getElem?_eq_some_iff.mp hk
      simp only at hk2
      obtain ⟨hk2l, hk2n⟩ := List.getElem?_eq_some_iff.mp hk2
      simp only [List.length_map] at hk2l
      simp only [List.getElem_map] at hk2n
      have hp2 := applySwaps_range_lt swaps _ _ (List.getElem_mem hk2l)
      rw [List.getD_eq_getElem?_getD, List.getElem?_eq_getElem hp2, Option.getD_some,
        ← hkn] at hk2n
      have hpk : (applySwaps swaps (List.range d.ColumnNames.length))[k2] = k :=
        (List.Nodup.getElem_inj_iff hnodup).mp hk2n
      have hk2r : k2 < d.ColumnNames.length := by omega
      simp only [List.getElem?_map, List.getElem?_range hk2r, Option.map_some']
      rw [List.getD_eq_getElem?_getD (l := applySwaps swaps (List.range d.ColumnNames.length)),
        List.getElem?_eq_getElem hk2l, Option.getD_some, hpk, getD_fixRow row _ k hkl]

theorem SortDataColumns_lockstep_witness :
    ∃ d2, DataTable.SortDataColumns bubbleSort
        { ColumnNames := [ascii ("b"), ascii ("a"), ascii ("c")]
          Data := [some [some 1, some 2, some 3], some [some 4],
            some [some 5, some 6, some 7, some 8]] } = .ok d2 ∧
      d2.ColumnNames.Perm [ascii ("b"), ascii ("a"), ascii ("c")] ∧
      d2.ColumnNames.Pairwise (fun a b => bytesLt a b = true) ∧
      d2.Data.length = [some [some (1 : ℚ), some 2, some 3], some [some 4],
        some [some 5, some 6, some 7, some 8]].length ∧
      (∀ (i : Nat) (row : List (Option ℚ)),
        [some [some (1 : ℚ), some 2, some 3], some [some 4],
          some [some 5, some 6, some 7, some 8]][i]? = some (some row) →
        ∃ row2, d2.Data[i]? = some (some row2) ∧
          row2.length = [ascii ("b"), ascii ("a"), ascii ("c")].length ∧
          ∀ (k k2 : Nat) (name : Bytes),
            [ascii ("b"), ascii ("a"), ascii ("c")][k]? = some name →
            d2.ColumnNames[k2]? = some name → row2[k2]? = some (row.getD k none)) ∧
      d2.IdColumn = [] ∧ d2.Configs = [] ∧ d2.ConfigsColumnNames = [] ∧ d2.Timestamps = [] :=
  SortDataColumns_lockstep bubbleSort
    { ColumnNames := [ascii ("b"), ascii ("a"), ascii ("c")]
      Data := [some [some 1, some 2, some 3], some [some 4],
        some [some 5, some 6, some 7, some 8]] }
    (by decide) (by decide)
    ⟨[(0, 1)], by with_unfolding_all rfl, by decide, by
      intro a b hab hb h
      have hb3 : b < 3 := hb
      have hcases : (a = 0 ∧ b = 1) ∨ (a = 0 ∧ b = 2) ∨ (a = 1 ∧ b = 2) := by omega
      rcases hcases with ⟨rfl, rfl⟩ | ⟨rfl, rfl⟩ | ⟨rfl, rfl⟩
      · exact absurd (h.1.symm.trans (by with_unfolding_all rfl : _ = Except.ok false)) (by simp)
      · exact absurd (h.1.symm.trans (by with_unfolding_all rfl : _ = Except.ok false)) (by simp)
      · exact absurd (h.1.symm.trans (by with_unfolding_all rfl : _ = Except.ok false)) (by simp)⟩

/-! ## Rows as long as the column names -/

theorem foldlE_range_succ_ok {σ ε : Type} (f : σ → Nat → Except ε σ) (s s2 : σ) (k : Nat)
    (h : foldlE f s (List.range (k + 1)) = .ok s2) :
    ∃ s1, foldlE f s (List.range k) = .ok s1 ∧ f s1 k = .ok s2 := by
  rw [List.range_succ, foldlE_append] at h
  cases h1 : foldlE f s (List.range k) with
  | error e => rw [h1] at h; simp at h
  | ok s1 =>
    rw [h1] at h
    simp only [foldlE] at h
    refine ⟨s1, rfl, ?_⟩
    cases h2 : f s1 k with
    | error e => rw [h2] at h; simp at h
    | ok s3 => rw [h2] at h; exact h

theorem rowsFull_of_eq (d d2 : DataTable) (hD : d2.Data = d.Data)
    (hN : d2.ColumnNames.length = d.ColumnNames.length) (h : d.rowsFull) : d2.rowsFull := by
  intro rowp hrowp
  rw [hD] at hrowp
  rw [hN]
  exact h rowp hrowp

theorem sliceSet_length {α : Type} (s s2 : List α) (i : Int) (v : α)
    (h : sliceSet s i v = .ok s2) : s2.length = s.length := by
  unfold sliceSet at h
  split at h
  · simp at h
  · split at h
    · simp only [Except.ok.injEq] at h
      rw [← h, List.length_set]
    · simp at h

theorem setX_rowsFull (d d2 : DataTable) (i : Nat) (v : Option ℚ)
    (h : DataTable.setX d i v = .ok d2) (hd : d.rowsFull) : d2.rowsFull := by
  unfold DataTable.setX at h
  cases h1 : sliceIndex d.Data i with
  | error e => rw [h1] at h; simp at h
  | ok rowp =>
    rw [h1] at h
    cases rowp with
    | none => simp [deref] at h
    | some row =>
      simp only [deref] at h
      cases h2 : sliceSet row 0 v with
      | error e => rw [h2] at h; simp at h
      | ok row2 =>
        rw [h2] at h
        simp only [Except.ok.injEq] at h
        subst h
        have hmem : some row ∈ d.Data := by
          unfold sliceIndex at h1
          split at h1
          · simp at h1
          · split at h1
            · rename_i x hx
              simp only [Except.ok.injEq] at h1
              exact h1 ▸ List.getElem?_mem hx
            · simp at h1
        obtain ⟨r, hr, hrl⟩ := hd _ hmem
        simp only [Option.some.injEq] at hr
        subst hr
        intro rowp hrowp
        simp only at hrowp ⊢
        rcases List.mem_or_eq_of_mem_set hrowp with hm | hm
        · exact hd rowp hm
        · exact ⟨row2, hm, by rw [sliceSet_length _ _ _ _ h2, hrl]⟩

theorem saveX_rowsFull (d d2 : DataTable) (i : Nat)
    (h : DataTable.saveX d i = .ok d2) (hd : d.rowsFull) : d2.rowsFull := by
  unfold DataTable.saveX at h
  split at h
  · simp at h
  · split at h
    · simp at h
    · split at h
      · simp at h
      · split at h
        · simp at h
        · simp only [Except.ok.injEq] at h
          subst h
          exact hd

theorem ChangeXAxisToConfigColumn_row_rowsFull (parseFloat : ParseFloat) (colIdx : Int)
    (fromTime : Bool) (d d2 : DataTable) (i : Nat)
    (h : DataTable.ChangeXAxisToConfigColumn.row parseFloat colIdx fromTime d i = .ok d2)
    (hd : d.rowsFull) : d2.rowsFull := by
  unfold DataTable.ChangeXAxisToConfigColumn.row at h
  cases h1 : (if fromTime = true then DataTable.saveX d i else Except.ok d) with
  | error e => rw [h1] at h; simp at h
  | ok d1 =>
    rw [h1] at h
    have hd1 : d1.rowsFull := by
      cases fromTime with
      | false =>
        simp only [Bool.false_eq_true, if_false, Except.ok.injEq] at h1
        exact h1 ▸ hd
      | true =>
        simp only [if_true] at h1
        exact saveX_rowsFull d d1 i h1 hd
    simp only at h
    split at h
    · simp at h
    · simp only [Except.ok.injEq] at h
      exact h ▸ hd1
    · split at h
      · simp at h
      · simp only [Except.ok.injEq] at h
        exact h ▸ hd1
      · exact setX_rowsFull _ _ _ _ h hd1

theorem length_set_names (names names2 : List Bytes) (name : Bytes)
    (h : sliceSet names 0 name = .ok names2) : names2.length = names.length :=
  sliceSet_length _ _ _ _ h

theorem ChangeXAxisToConfigColumn_rowsFull (parseFloat : ParseFloat) (d d2 : DataTable)
    (colName : Bytes) (fromTime : Bool)
    (h : DataTable.ChangeXAxisToConfigColumn parseFloat d colName fromTime = .ok d2)
    (hd : d.rowsFull) : d2.rowsFull := by
  unfold DataTable.ChangeXAxisToConfigColumn at h
  split at h
  · simp at h
  · split at h
    · simp at h
    · rename_i names hnames
      simp only at h
      split at h
      · simp at h
      · rename_i d3 hloop
        simp only [Except.ok.injEq] at h
        subst h
        refine foldlE_ok_invariant _ DataTable.rowsFull
          (fun s a s2 hs => ChangeXAxisToConfigColumn_row_rowsFull _ _ _ s s2 a hs) _ _ _ hloop ?_
        apply rowsFull_of_eq d _ _ _ hd
        · split <;> rfl
        · split <;> exact sliceSet_length _ _ _ _ hnames

theorem copyColumnToX_row_rowsFull (colIdx : Int) (d d2 : DataTable) (i : Nat)
    (h : parallelStringsFloatTable.copyColumnToX.row colIdx d i = .ok d2)
    (hd : d.rowsFull) : d2.rowsFull := by
  unfold parallelStringsFloatTable.copyColumnToX.row at h
  cases h1 : DataTable.saveX d i with
  | error e => rw [h1] at h; simp at h
  | ok d1 =>
    rw [h1] at h
    have hd1 := saveX_rowsFull d d1 i h1 hd
    simp only at h
    split at h
    · simp at h
    · split at h
      · simp at h
      · split at h
        · simp at h
        · exact setX_rowsFull _ _ _ _ h hd1

theorem ChangeXAxisToColumnFromTime_rowsFull (d d2 : DataTable) (colName : Bytes)
    (h : DataTable.ChangeXAxisToColumnFromTime d colName = .ok d2)
    (hd : d.rowsFull) : d2.rowsFull := by
  unfold DataTable.ChangeXAxisToColumnFromTime at h
  split at h
  · simp at h
  · simp only at h
    split at h
    · simp at h
    · rename_i d3 hcopy
      simp only [Except.ok.injEq] at h
      subst h
      unfold parallelStringsFloatTable.copyColumnToX at hcopy
      simp only at hcopy
      split at hcopy
      · simp at hcopy
      · rename_i names hnames
        refine foldlE_ok_invariant _ DataTable.rowsFull
          (fun s a s2 hs => copyColumnToX_row_rowsFull _ s s2 a hs) _ _ _ hcopy ?_
        exact rowsFull_of_eq d _ rfl (sliceSet_length _ _ _ _ hnames) hd

theorem OverwriteXAxisWithRecordNum_rowsFull (name : Bytes) (d d2 : DataTable)
    (h : DataTable.OverwriteXAxisWithRecordNum name d = .ok d2)
    (hd : d.rowsFull) : d2.rowsFull := by
  unfold DataTable.OverwriteXAxisWithRecordNum at h
  split at h
  · simp at h
  · rename_i names hnames
    refine foldlE_ok_invariant _ DataTable.rowsFull
      (fun s a s2 hs => setX_rowsFull s s2 a _ hs) _ _ _ h ?_
    exact rowsFull_of_eq d _ rfl (sliceSet_length _ _ _ _ hnames) hd

theorem ChangeXAxisToRecordNumFromTime_rowsFull (name : Bytes) (d d2 : DataTable)
    (h : DataTable.ChangeXAxisToRecordNumFromTime name d = .ok d2)
    (hd : d.rowsFull) : d2.rowsFull := by
  unfold DataTable.ChangeXAxisToRecordNumFromTime at h
  simp only at h
  split at h
  · simp at h
  · rename_i names hnames
    refine foldlE_ok_invariant _ DataTable.rowsFull ?_ _ _ _ h ?_
    · intro s a s2 hs hP
      simp only at hs
      cases h1 : DataTable.saveX s a with
      | error e => rw [h1] at hs; simp at hs
      | ok s1 =>
        rw [h1] at hs
        exact setX_rowsFull _ _ _ _ hs (saveX_rowsFull s s1 a h1 hP)
    · exact rowsFull_of_eq d _ rfl (sliceSet_length _ _ _ _ hnames) hd

theorem addColumn_loop (d : DataTable) (colName : Bytes) (col : List (Option ℚ))
    (hd : d.rowsFull) (k : Nat) (hk : k ≤ d.Data.length) (d2 : DataTable)
    (h : foldlE (fun (d : DataTable) (i : Nat) =>
        match sliceIndex d.Data i with
        | .error e => .error e
        | .ok rowp =>
          match deref rowp with
          | .error e => .error e
          | .ok row =>
            match sliceIndex col i with
            | .error e => .error e
            | .ok cell => .ok { d with Data := d.Data.set i (some (row ++ [cell])) })
      { d with ColumnNames := d.ColumnNames ++ [colName] } (List.range k) = .ok d2) :
    d2.ColumnNames = d.ColumnNames ++ [colName] ∧ d2.Data.length = d.Data.length ∧
      ∀ i : Nat, i < d.Data.length → ∃ row, d2.Data[i]? = some (some row) ∧
        row.length = if i < k then d.ColumnNames.length + 1 else d.ColumnNames.length := by
  induction k generalizing d2 with
  | zero =>
    simp only [List.range_zero, foldlE, Except.ok.injEq] at h
    subst h
    refine ⟨rfl, rfl, ?_⟩
    intro i hi
    obtain ⟨row, hrow, hlen⟩ := hd d.Data[i] (List.getElem_mem hi)
    refine ⟨row, ?_, by simpa using hlen⟩
    simp only
    rw [List.getElem?_eq_getElem hi, hrow]
  | succ k ih =>
    obtain ⟨s1, hs1, hstep⟩ := foldlE_range_succ_ok _ _ _ k h
    obtain ⟨hn1, hl1, hr1⟩ := ih (Nat.le_of_succ_le hk) s1 hs1
    have hkn : k < d.Data.length := hk
    obtain ⟨row, hrow, hlen⟩ := hr1 k hkn
    rw [if_neg (Nat.lt_irrefl k)] at hlen
    have hk0 : ¬ ((k : Int) < 0) := by omega
    simp only [sliceIndex, hk0, if_false, Int.toNat_ofNat, hrow, deref] at hstep
    split at hstep
    · simp at hstep
    · rename_i cell hcell
      simp only [Except.ok.injEq] at hstep
      subst hstep
      refine ⟨hn1, by simp [hl1], ?_⟩
      intro i hi
      simp only
      by_cases hik : k = i
      · subst hik
        refine ⟨row ++ [cell], ?_, by simp [hlen]⟩
        rw [List.getElem?_set_self (by omega)]
      · rw [List.getElem?_set_ne hik]
        obtain ⟨r, hr, hrl⟩ := hr1 i hi
        refine ⟨r, hr, ?_⟩
        rw [hrl]
        by_cases hlt : i < k
        · rw [if_pos hlt, if_pos (by omega)]
        · rw [if_neg hlt, if_neg (by omega)]

/-- The method `addColumn` adds one name and, when every row is as long as the names,
one cell to every row. -/
theorem addColumn_rowsFull (d d2 : DataTable) (colName : Bytes) (col : List (Option ℚ))
    (h : parallelStringsFloatTable.addColumn d colName col = .ok d2) (hd : d.rowsFull) :
    d2.ColumnNames = d.ColumnNames ++ [colName] ∧ d2.rowsFull := by
  obtain ⟨h1, h2, h3⟩ := addColumn_loop d colName col hd d.Data.length (Nat.le_refl _) d2 h
  refine ⟨h1, ?_⟩
  intro rowp hrowp
  obtain ⟨i, hi, hget⟩ := List.getElem_of_mem hrowp
  rw [h2] at hi
  obtain ⟨row, hrow, hlen⟩ := h3 i hi
  rw [if_pos hi] at hlen
  refine ⟨row, ?_, by rw [h1]; simpa using hlen⟩
  rw [List.getElem?_eq_getElem (by omega)] at hrow
  simp only [Option.some.injEq] at hrow
  rw [← hget]
  exact hrow

theorem GetVerifiedRegression_rowsFull (env : NonDataNames) (d d2 : DataTable)
    (rParams : RegressionParams)
    (h : DataTable.GetVerifiedRegression env d rParams = .ok d2) (hd : d.rowsFull) :
    d2.rowsFull := by
  refine foldlE_ok_invariant _ DataTable.rowsFull ?_ _ _ _ h hd
  intro s a s2 hs hP
  simp only at hs
  split at hs
  · simp at hs
  · split at hs
    · simp only [Except.ok.injEq] at hs
      exact hs ▸ hP
    · split at hs
      · simp at hs
      · simp only [Except.ok.injEq] at hs
        exact hs ▸ hP
      · exact (addColumn_rowsFull _ _ _ _ hs hP).2

theorem FixRowLengths_float_rows (names : List Bytes)
    (data fixed : List (Option (List (Option ℚ))))
    (h : parallelStringsFloatTable.FixRowLengths names data = .ok fixed) :
    ∀ rowp ∈ fixed, ∃ row, rowp = some row ∧ row.length = names.length := by
  refine foldlE_ok_invariant _
    (fun out => ∀ rowp ∈ out, ∃ row, rowp = some row ∧ row.length = names.length)
    ?_ _ _ _ h (by simp)
  intro out rowPtr out2 hs hP
  cases rowPtr with
  | none => simp [deref] at hs
  | some row =>
    simp only [deref] at hs
    split at hs
    · simp only [Except.ok.injEq] at hs
      subst hs
      intro rowp hrowp
      rcases List.mem_append.mp hrowp with hm | hm
      · exact hP rowp hm
      · simp only [List.mem_singleton] at hm
        refine ⟨_, hm, ?_⟩
        simp only [List.length_append, List.length_take, List.length_replicate]
        omega
    · rename_i hl
      simp only [Except.ok.injEq] at hs
      subst hs
      intro rowp hrowp
      rcases List.mem_append.mp hrowp with hm | hm
      · exact hP rowp hm
      · simp only [List.mem_singleton] at hm
        exact ⟨row, hm, by simpa using hl⟩

theorem positionString_swaps_length (swaps : List (Nat × Nat))
    (ps ps2 : List Bytes × List Int)
    (h : foldlE (fun ps ij => positionString.Swap ps ij.1 ij.2) ps swaps = .ok ps2) :
    ps2.1.length = ps.1.length := by
  refine foldlE_ok_invariant _ (fun ps3 => ps3.1.length = ps.1.length) ?_ _ _ _ h rfl
  intro s a s2 hs hP
  simp only [positionString.Swap] at hs
  cases h1 : swapAt s.1 a.1 a.2 with
  | error e => rw [h1] at hs; simp at hs
  | ok strings =>
    rw [h1] at hs
    simp only at hs
    cases h2 : swapAt s.2 a.1 a.2 with
    | error e => rw [h2] at hs; simp at hs
    | ok positions =>
      rw [h2] at hs
      simp only [Except.ok.injEq] at hs
      subst hs
      simp only
      rw [(swapAt_eq_ok _ _ _ _ h1).1, length_exchange]
      exact hP

theorem TemplateSortFloat_row_length (positions : List Int) (tmpRow row tmp2 row2 : List (Option ℚ))
    (h : positionString.TemplateSortFloat.row positions tmpRow row = .ok (tmp2, row2)) :
    row2.length = row.length := by
  unfold positionString.TemplateSortFloat.row at h
  split at h
  · simp at h
  · split at h
    · simp at h
    · rename_i newRow hcopy
      simp only [Except.ok.injEq, Prod.mk.injEq] at h
      rw [← h.2]
      exact foldlE_ok_invariant _ (fun r => r.length = row.length)
        (fun s a s2 hs hP => (sliceSet_length _ _ _ _ hs).trans hP) _ _ _ hcopy rfl

theorem TemplateSortFloat_rows (n : Nat) (positions : List Int)
    (data : List (Option (List (Option ℚ))))
    (st st2 : List (Option ℚ) × List (Option (List (Option ℚ))))
    (h : foldlE (fun (st : List (Option ℚ) × List (Option (List (Option ℚ)))) rowPtr =>
        match deref rowPtr with
        | .error e => .error e
        | .ok row =>
          match positionString.TemplateSortFloat.row positions st.1 row with
          | .error e => .error e
          | .ok (tmp, newRow) => .ok (tmp, st.2 ++ [some newRow]))
      st data = .ok st2)
    (hst : ∀ rowp ∈ st.2, ∃ row, rowp = some row ∧ row.length = n)
    (hdata : ∀ rowp ∈ data, ∃ row, rowp = some row ∧ row.length = n) :
    ∀ rowp ∈ st2.2, ∃ row, rowp = some row ∧ row.length = n := by
  induction data generalizing st with
  | nil =>
    simp only [foldlE, Except.ok.injEq] at h
    exact h ▸ hst
  | cons rowp rest ih =>
    obtain ⟨row, hrowp, hrow⟩ := hdata rowp (List.mem_cons_self _ _)
    subst hrowp
    simp only [foldlE, deref] at h
    cases h1 : positionString.TemplateSortFloat.row positions st.1 row with
    | error e => rw [h1] at h; simp at h
    | ok res =>
      obtain ⟨tmp, newRow⟩ := res
      rw [h1] at h
      simp only at h
      refine ih _ h ?_ (fun r hr => hdata r (List.mem_cons_of_mem _ hr))
      intro r hr
      rcases List.mem_append.mp hr with hm | hm
      · exact hst r hm
      · simp only [List.mem_singleton] at hm
        exact ⟨newRow, hm, by rw [TemplateSortFloat_row_length _ _ _ _ _ h1, hrow]⟩

/-- After `SortDataColumns` every row is present and as long as the column names. -/
theorem SortDataColumns_rowsFull (sort : SortAlgorithm) (d d2 : DataTable)
    (h : DataTable.SortDataColumns sort d = .ok d2) : d2.rowsFull := by
  unfold DataTable.SortDataColumns at h
  cases hfix : parallelStringsFloatTable.FixRowLengths d.ColumnNames d.Data with
  | error e => rw [hfix] at h; simp at h
  | ok fixed =>
    rw [hfix] at h
    simp only at h
    have hrows := FixRowLengths_float_rows _ _ _ hfix
    cases hsd : parallelStringsFloatTable.SortDataColumns sort d.ColumnNames fixed with
    | error e => rw [hsd] at h; simp at h
    | ok res =>
      obtain ⟨names, data⟩ := res
      rw [hsd] at h
      simp only [Except.ok.injEq] at h
      subst h
      unfold parallelStringsFloatTable.SortDataColumns at hsd
      simp only at hsd
      split at hsd
      · simp at hsd
      · split at hsd
        · simp at hsd
        · rename_i swaps hsort strings positions hswaps
          have hlen := positionString_swaps_length _ _ _ hswaps
          simp only at hlen
          split at hsd
          · simp at hsd
          · rename_i newData htemplate
            simp only [Except.ok.injEq, Prod.mk.injEq] at hsd
            obtain ⟨hn, hdat⟩ := hsd
            subst hn hdat
            unfold positionString.TemplateSortFloat at htemplate
            simp only at htemplate
            split at htemplate
            · simp at htemplate
            · rename_i st hloop
              simp only [Except.ok.injEq] at htemplate
              subst htemplate
              intro rowp hrowp
              simp only at hrowp ⊢
              rw [hlen]
              exact TemplateSortFloat_rows _ _ _ _ _ hloop (by simp) hrows rowp hrowp

/-- Claim C29: whenever `SortDataColumns` returns, every row of the table is present and
as long as `ColumnNames`; its `FixRowLengths` replaces every row by its first cells cut
to that length or padded with absent cells. For a table whose rows are all as long as
`ColumnNames`, the same holds for the table that each of these calls returns:
`addColumn` (which adds one name, and one cell to every row), `GetVerifiedRegression`,
`ChangeXAxisToColumnFromTime`, `ChangeXAxisToConfigColumn`, `SortRows`, `ReverseRows`,
`OverwriteXAxisWithRecordNum` and `ChangeXAxisToRecordNumFromTime`. -/
theorem rowsFull_kept (sort : SortAlgorithm) (parseFloat : ParseFloat) (env : NonDataNames)
    (d : DataTable) :
    (∀ d2, DataTable.SortDataColumns sort d = .ok d2 → d2.rowsFull) ∧
    ((∀ rowp ∈ d.Data, rowp ≠ none) →
      parallelStringsFloatTable.FixRowLengths d.ColumnNames d.Data = .ok (d.Data.map
        (Option.map (fun row => row.take d.ColumnNames.length ++
          List.replicate (d.ColumnNames.length - row.length) none)))) ∧
    (d.rowsFull →
      (∀ colName col d2, parallelStringsFloatTable.addColumn d colName col = .ok d2 →
        d2.ColumnNames = d.ColumnNames ++ [colName] ∧ d2.rowsFull) ∧
      (∀ rParams d2, DataTable.GetVerifiedRegression env d rParams = .ok d2 → d2.rowsFull) ∧
      (∀ colName d2, DataTable.ChangeXAxisToColumnFromTime d colName = .ok d2 →
        d2.rowsFull) ∧
      (∀ colName fromTime d2,
        DataTable.ChangeXAxisToConfigColumn parseFloat d colName fromTime = .ok d2 →
        d2.rowsFull) ∧
      (∀ colIdx d2, DataTable.SortRows sort d colIdx = .ok d2 → d2.rowsFull) ∧
      (∀ d2, DataTable.ReverseRows d = .ok d2 → d2.rowsFull) ∧
      (∀ d2, DataTable.OverwriteXAxisWithRecordNum env.RecordNumName d = .ok d2 →
        d2.rowsFull) ∧
      (∀ d2, DataTable.ChangeXAxisToRecordNumFromTime env.RecordNumName d = .ok d2 →
        d2.rowsFull)) :=
  ⟨fun d2 h => SortDataColumns_rowsFull sort d d2 h,
    fun hrows => FixRowLengths_float_ok d.ColumnNames d.Data hrows,
    fun hd =>
      ⟨fun colName col d2 h => addColumn_rowsFull d d2 colName col h hd,
        fun rParams d2 h => GetVerifiedRegression_rowsFull env d d2 rParams h hd,
        fun colName d2 h => ChangeXAxisToColumnFromTime_rowsFull d d2 colName h hd,
        fun colName fromTime d2 h =>
          ChangeXAxisToConfigColumn_rowsFull parseFloat d d2 colName fromTime h hd,
        fun colIdx d2 h => baseSortRows_rowsFull sort d d2 colIdx false false h hd,
        fun d2 h => ReverseRows_rowsFull d d2 h hd,
        fun d2 h => OverwriteXAxisWithRecordNum_rowsFull env.RecordNumName d d2 h hd,
        fun d2 h => ChangeXAxisToRecordNumFromTime_rowsFull env.RecordNumName d d2 h hd⟩⟩

theorem rowsFull_kept_witness :
    (∃ d2, DataTable.SortDataColumns bubbleSort
        { ColumnNames := [ascii ("time"), ascii ("c")]
          Data := [some [some 3, some 30, some 300], some [some 1], some [some 2, some 20]]
          ConfigsColumnNames := [ascii ("k")]
          Configs := [some [some (ascii ("5"))], none, some [none]] } = .ok d2 ∧
      d2.rowsFull) ∧
    (∃ d2, DataTable.GetVerifiedRegression
        ⟨ascii ("time"), ascii ("recordnum"), ascii ("regress:")⟩
        { ColumnNames := [ascii ("time"), ascii ("c")]
          Data := [some [some 3, some 30], some [some 1, none], some [some 2, some 20]]
          ConfigsColumnNames := [ascii ("k")]
          Configs := [some [some (ascii ("5"))], none, some [none]] }
        { Radius := 0, Window := 1 } = .ok d2 ∧ d2.rowsFull) ∧
    (∃ d2, DataTable.ChangeXAxisToColumnFromTime
        { ColumnNames := [ascii ("time"), ascii ("c")]
          Data := [some [some 3, some 30], some [some 1, none], some [some 2, some 20]]
          ConfigsColumnNames := [ascii ("k")]
          Configs := [some [some (ascii ("5"))], none, some [none]] }
        (ascii ("c")) = .ok d2 ∧ d2.rowsFull) ∧
    (∃ d2, DataTable.ChangeXAxisToConfigColumn (fun s => ((s.length : ℚ), none))
        { ColumnNames := [ascii ("time"), ascii ("c")]
          Data := [some [some 3, some 30], some [some 1, none], some [some 2, some 20]]
          ConfigsColumnNames := [ascii ("k")]
          Configs := [some [some (ascii ("5"))], none, some [none]] }
        (ascii ("k")) true = .ok d2 ∧ d2.rowsFull) ∧
    (∃ d2, DataTable.SortRows bubbleSort
        { ColumnNames := [ascii ("time"), ascii ("c")]
          Data := [some [some 3, some 30], some [some 1, none], some [some 2, some 20]]
          ConfigsColumnNames := [ascii ("k")]
          Configs := [some [some (ascii ("5"))], none, some [none]] } 0 = .ok d2 ∧
      d2.rowsFull) ∧
    (∃ d2, DataTable.ReverseRows
        { ColumnNames := [ascii ("time"), ascii ("c")]
          Data := [some [some 3, some 30], some [some 1, none], some [some 2, some 20]]
          ConfigsColumnNames := [ascii ("k")]
          Configs := [some [some (ascii ("5"))], none, some [none]] } = .ok d2 ∧
      d2.rowsFull) ∧
    (∃ d2, DataTable.OverwriteXAxisWithRecordNum (ascii ("recordnum"))
        { ColumnNames := [ascii ("time"), ascii ("c")]
          Data := [some [some 3, some 30], some [some 1, none], some [some 2, some 20]]
          ConfigsColumnNames := [ascii ("k")]
          Configs := [some [some (ascii ("5"))], none, some [none]] } = .ok d2 ∧
      d2.rowsFull) ∧
    (∃ d2, DataTable.ChangeXAxisToRecordNumFromTime (ascii ("recordnum"))
        { ColumnNames := [ascii ("time"), ascii ("c")]
          Data := [some [some 3, some 30], some [some 1, none], some [some 2, some 20]]
          ConfigsColumnNames := [ascii ("k")]
          Configs := [some [some (ascii ("5"))], none, some [none]] } = .ok d2 ∧
      d2.rowsFull) ∧
    parallelStringsFloatTable.FixRowLengths [ascii ("time"), ascii ("c")]
        [some [some 3, some 30, some 300], some [some 1], some [some 2, some 20]] = .ok
      ([some [some (3 : ℚ), some 30, some 300], some [some 1], some [some 2, some 20]].map
        (Option.map (fun row => row.take [ascii ("time"), ascii ("c")].length ++
          List.replicate ([ascii ("time"), ascii ("c")].length - row.length) none))) ∧
    (∃ d2, parallelStringsFloatTable.addColumn
        { ColumnNames := [ascii ("time"), ascii ("c")]
          Data := [some [some 3, some 30], some [some 1, none], some [some 2, some 20]]
          ConfigsColumnNames := [ascii ("k")]
          Configs := [some [some (ascii ("5"))], none, some [none]] }
        (ascii ("r")) [none, some 1, some 2] = .ok d2 ∧
      d2.ColumnNames = [ascii ("time"), ascii ("c")] ++ [ascii ("r")] ∧ d2.rowsFull) := by
  have hfull : DataTable.rowsFull
      { ColumnNames := [ascii ("time"), ascii ("c")]
        Data := [some [some 3, some 30], some [some 1, none], some [some 2, some 20]]
        ConfigsColumnNames := [ascii ("k")]
        Configs := [some [some (ascii ("5"))], none, some [none]] } := by
    intro rowp hrowp
    simp only [List.mem_cons, List.mem_singleton, List.not_mem_nil, or_false] at hrowp
    rcases hrowp with h | h | h <;> exact ⟨_, h, rfl⟩
  have key := (rowsFull_kept bubbleSort (fun s => ((s.length : ℚ), none))
    ⟨ascii ("time"), ascii ("recordnum"), ascii ("regress:")⟩
    { ColumnNames := [ascii ("time"), ascii ("c")]
      Data := [some [some 3, some 30], some [some 1, none], some [some 2, some 20]]
      ConfigsColumnNames := [ascii ("k")]
      Configs := [some [some (ascii ("5"))], none, some [none]] }).2.2 hfull
  refine ⟨?_, ?_, ?_, ?_, ?_, ?_, ?_, ?_, ?_, ?_⟩
  · obtain ⟨d2, h⟩ : ∃ d2, DataTable.SortDataColumns bubbleSort
        { ColumnNames := [ascii ("time"), ascii ("c")]
          Data := [some [some 3, some 30, some 300], some [some 1], some [some 2, some 20]]
          ConfigsColumnNames := [ascii ("k")]
          Configs := [some [some (ascii ("5"))], none, some [none]] } = .ok d2 :=
      ⟨_, by with_unfolding_all rfl⟩
    exact ⟨d2, h, (rowsFull_kept bubbleSort (fun s => ((s.length : ℚ), none))
      ⟨ascii ("time"), ascii ("recordnum"), ascii ("regress:")⟩ _).1 d2 h⟩
  · obtain ⟨d2, h⟩ : ∃ d2, DataTable.GetVerifiedRegression
        ⟨ascii ("time"), ascii ("recordnum"), ascii ("regress:")⟩
        { ColumnNames := [ascii ("time"), ascii ("c")]
          Data := [some [some 3, some 30], some [some 1, none], some [some 2, some 20]]
          ConfigsColumnNames := [ascii ("k")]
          Configs := [some [some (ascii ("5"))], none, some [none]] }
        { Radius := 0, Window := 1 } = .ok d2 := ⟨_, by with_unfolding_all rfl⟩
    exact ⟨d2, h, key.2.1 _ d2 h⟩
  · obtain ⟨d2, h⟩ : ∃ d2, DataTable.ChangeXAxisToColumnFromTime
        { ColumnNames := [ascii ("time"), ascii ("c")]
          Data := [some [some 3, some 30], some [some 1, none], some [some 2, some 20]]
          ConfigsColumnNames := [ascii ("k")]
          Configs := [some [some (ascii ("5"))], none, some [none]] }
        (ascii ("c")) = .ok d2 := ⟨_, by with_unfolding_all rfl⟩
    exact ⟨d2, h, key.2.2.1 _ d2 h⟩
  · obtain ⟨d2, h⟩ : ∃ d2, DataTable.ChangeXAxisToConfigColumn
        (fun s => ((s.length : ℚ), none))
        { ColumnNames := [ascii ("time"), ascii ("c")]
          Data := [some [some 3, some 30], some [some 1, none], some [some 2, some 20]]
          ConfigsColumnNames := [ascii ("k")]
          Configs := [some [some (ascii ("5"))], none, some [none]] }
        (ascii ("k")) true = .ok d2 := ⟨_, by with_unfolding_all rfl⟩
    exact ⟨d2, h, key.2.2.2.1 _ _ d2 h⟩
  · obtain ⟨d2, h⟩ : ∃ d2, DataTable.SortRows bubbleSort
        { ColumnNames := [ascii ("time"), ascii ("c")]
          Data := [some [some 3, some 30], some [some 1, none], some [some 2, some 20]]
          ConfigsColumnNames := [ascii ("k")]
          Configs := [some [some (ascii ("5"))], none, some [none]] } 0 = .ok d2 :=
      ⟨_, by with_unfolding_all rfl⟩
    exact ⟨d2, h, key.2.2.2.2.1 _ d2 h⟩
  · obtain ⟨d2, h⟩ : ∃ d2, DataTable.ReverseRows
        { ColumnNames := [ascii ("time"), ascii ("c")]
          Data := [some [some 3, some 30], some [some 1, none], some [some 2, some 20]]
          ConfigsColumnNames := [ascii ("k")]
          Configs := [some [some (ascii ("5"))], none, some [none]] } = .ok d2 :=
      ⟨_, by with_unfolding_all rfl⟩
    exact ⟨d2, h, key.2.2.2.2.2.1 d2 h⟩
  · obtain ⟨d2, h⟩ : ∃ d2, DataTable.OverwriteXAxisWithRecordNum (ascii ("recordnum"))
        { ColumnNames := [ascii ("time"), ascii ("c")]
          Data := [some [some 3, some 30], some [some 1, none], some [some 2, some 20]]
          ConfigsColumnNames := [ascii ("k")]
          Configs := [some [some (ascii ("5"))], none, some [none]] } = .ok d2 :=
      ⟨_, by with_unfolding_all rfl⟩
    exact ⟨d2, h, key.2.2.2.2.2.2.1 d2 h⟩
  · obtain ⟨d2, h⟩ : ∃ d2, DataTable.ChangeXAxisToRecordNumFromTime (ascii ("recordnum"))
        { ColumnNames := [ascii ("time"), ascii ("c")]
          Data := [some [some 3, some 30], some [some 1, none], some [some 2, some 20]]
          ConfigsColumnNames := [ascii ("k")]
          Configs := [some [some (ascii ("5"))], none, some [none]] } = .ok d2 :=
      ⟨_, by with_unfolding_all rfl⟩
    exact ⟨d2, h, key.2.2.2.2.2.2.2 d2 h⟩
  · exact (rowsFull_kept bubbleSort (fun s => ((s.length : ℚ), none))
      ⟨ascii ("time"), ascii ("recordnum"), ascii ("regress:")⟩
      { ColumnNames := [ascii ("time"), ascii ("c")]
        Data := [some [some 3, some 30, some 300], some [some 1], some [some 2, some 20]] }).2.1
      (by decide)
  · obtain ⟨d2, h⟩ : ∃ d2, parallelStringsFloatTable.addColumn
        { ColumnNames := [ascii ("time"), ascii ("c")]
          Data := [some [some 3, some 30], some [some 1, none], some [some 2, some 20]]
          ConfigsColumnNames := [ascii ("k")]
          Configs := [some [some (ascii ("5"))], none, some [none]] }
        (ascii ("r")) [none, some 1, some 2] = .ok d2 := ⟨_, by with_unfolding_all rfl⟩
    exact ⟨d2, h, key.1 _ _ d2 h⟩

/-! ## Serialization of the source info -/

/-- The indices that `SerializeSourceInfoUncomp` stores do not depend on the order in
which `range` visits the dictionary. -/
theorem sourceInfo_UnitsIndices (rangeOrder : List (Bytes × Int) → List (Bytes × Int))
    (si : SourceInfoUncomp) (s : SourceInfo)
    (h : SerializeSourceInfoUncomp.sourceInfo rangeOrder si = .ok s) :
    s.UnitsIndices = (si.Units.foldl SerializeSourceInfoUncomp.unit {}).UnitsIndices := by
  unfold SerializeSourceInfoUncomp.sourceInfo at h
  simp only at h
  split at h
  · simp at h
  · simp only [Except.ok.injEq] at h
    rw [← h]

/-- The first occurrence of a unit gets the index 0, whatever the dictionary holds. -/
theorem unit_missing (st : UnitsState) (unitName : Bytes)
    (h : st.unitsDict.lookup unitName = none) :
    (SerializeSourceInfoUncomp.unit st unitName).UnitsIndices = st.UnitsIndices ++ [0] ∧
    (SerializeSourceInfoUncomp.unit st unitName).unitsDict =
      st.unitsDict.set unitName st.mapCounter := by
  unfold SerializeSourceInfoUncomp.unit
  simp [h, wrapInt32]

/-- Claim C31 fails on the code: for the units `ms`, `bytes` the message has the units
map `[ms, bytes]` and the indices `[0, 0]`, so the unit under the index of the second
name is `ms` and not `bytes`: a unit that is new gets the index 0 instead of the index
under which it is entered. For the units `ms`, `bytes`, `ms`, `bytes` the indices are
`[0, 0, 0, 1]`. -/
theorem SerializeSourceInfoUncomp_new_unit_index_zero :
    SerializeSourceInfoUncomp.sourceInfo id
        { Names := [ascii ("a"), ascii ("b")], Units := [ascii ("ms"), ascii ("bytes")] } =
      .ok { MetricNames := [ascii ("a"), ascii ("b")]
            UnitsMap := [ascii ("ms"), ascii ("bytes")]
            UnitsIndices := [0, 0] } ∧
    SerializeSourceInfoUncomp.sourceInfo id
        { Names := [ascii ("a"), ascii ("b"), ascii ("c"), ascii ("d")]
          Units := [ascii ("ms"), ascii ("bytes"), ascii ("ms"), ascii ("bytes")] } =
      .ok { MetricNames := [ascii ("a"), ascii ("b"), ascii ("c"), ascii ("d")]
            UnitsMap := [ascii ("ms"), ascii ("bytes")]
            UnitsIndices := [0, 0, 0, 1] } := by
  constructor <;> with_unfolding_all rfl

/-! ## The payload of a request -/

theorem maxInputSize_eq : maxInputSize = 33554432 := by
  unfold maxInputSize
  norm_num

/-- What `getPayload` does with each declared size: an error below 0 and above
33554432, and the outcome of `ReadAll` in between. -/
theorem getPayload_cases {β : Type} (readAll : β → Bytes × Option GoError) (size : Int)
    (body : β) :
    (size < 0 → (getPayload readAll { ContentLength := size, Body := body }).2.isSome = true) ∧
    (33554432 < size →
      (getPayload readAll { ContentLength := size, Body := body }).2.isSome = true) ∧
    (0 ≤ size → size ≤ 33554432 →
      getPayload readAll { ContentLength := size, Body := body } = readAll body) := by
  unfold getPayload
  simp only [maxInputSize_eq]
  refine ⟨?_, ?_, ?_⟩
  · intro h
    simp [h]
  · intro h
    have h0 : ¬ size < 0 := by omega
    simp [h0, h]
  · intro h0 h1
    have h2 : ¬ size < 0 := by omega
    have h3 : ¬ size > 33554432 := by omega
    simp [h2, h3]

/-- Claim C32 fails on the code: the limit `maxInputSize` is `2 << 24 = 33554432`, which
is 32 MiB, so a request that declares 16777217 bytes, one more than 16 MiB, is not
rejected: `getPayload` returns what reading the body gives. -/
theorem getPayload_reads_over_16MiB {β : Type} (readAll : β → Bytes × Option GoError)
    (body : β) :
    maxInputSize = 2 * 16777216 ∧
    getPayload readAll { ContentLength := 16777217, Body := body } = readAll body := by
  refine ⟨by rw [maxInputSize_eq]; norm_num, ?_⟩
  exact (getPayload_cases readAll 16777217 body).2.2 (by norm_num) (by norm_num)

/-! ## The file restriction -/

/-- Claim C36: `match` returns true exactly when the file restriction is empty, or
prefix matching is set and the column name starts with the restriction, or the column
name equals the restriction. -/
theorem match_iff_matchesRestriction (req : DirectorySearchRequest) (columnName : Bytes) :
    cassandradb.match req columnName = true ↔ matchesRestriction req columnName := by
  unfold cassandradb.match matchesRestriction
  simp only [Bool.or_eq_true, Bool.and_eq_true, decide_eq_true_eq, Bool.not_eq_true',
    List.isPrefixOf_iff_prefix]
  constructor
  · rintro ((h | ⟨h1, h2⟩) | ⟨h1, h2⟩)
    · exact Or.inl h
    · exact Or.inr (Or.inl ⟨h1, h2⟩)
    · exact Or.inr (Or.inr h2)
  · rintro (h | ⟨h1, h2⟩ | h)
    · exact Or.inl (Or.inl h)
    · exact Or.inl (Or.inr ⟨h1, h2⟩)
    · cases hp : req.FilePrefixMatch with
      | false => exact Or.inr ⟨rfl, h⟩
      | true => exact Or.inl (Or.inr ⟨rfl, by rw [h]⟩)

/-! ## Equality of parsed sources -/

/-- Claim C37 fails on the code: two results whose maps are `key1: ""` and `key2: ""`
are `Equal`, although their keys differ, because the key missing in the second map
reads as the empty string; and with the maps `k1: "", k2: "v"` and `k2: "v", k3: "w"`
the first result is `Equal` to the second but the second is not `Equal` to the
first. -/
theorem SrcResult_Equal_missing_key :
    SrcResult.Equal { Source := ascii ("src"), Configs := some { entries := [(ascii ("key1"), [])] } }
        { Source := ascii ("src"), Configs := some { entries := [(ascii ("key2"), [])] } } = true ∧
    SrcResult.Equal
        { Configs := some { entries := [(ascii ("k1"), []), (ascii ("k2"), ascii ("v"))] } }
        { Configs := some { entries := [(ascii ("k2"), ascii ("v")), (ascii ("k3"), ascii ("w"))] } }
      = true ∧
    SrcResult.Equal
        { Configs := some { entries := [(ascii ("k2"), ascii ("v")), (ascii ("k3"), ascii ("w"))] } }
        { Configs := some { entries := [(ascii ("k1"), []), (ascii ("k2"), ascii ("v"))] } }
      = false := by
  decide

/-! ## The comparison of rows -/

/-- On rows that are present with a present cell in the sort column, `Less` is the
order of the values. -/
theorem tableSort_Less_present (v : List (Option (List (Option ℚ)))) (sortIdx i j : Nat)
    (rowi rowj : List (Option ℚ)) (x y : ℚ)
    (hi : v[i]? = some (some rowi)) (hj : v[j]? = some (some rowj))
    (hx : rowi[sortIdx]? = some (some x)) (hy : rowj[sortIdx]? = some (some y)) :
    tableSort.Less v sortIdx i j = .ok (decide (x < y)) := by
  have hi0 : ¬ ((i : Int) < 0) := by omega
  have hj0 : ¬ ((j : Int) < 0) := by omega
  have hs0 : ¬ ((sortIdx : Int) < 0) := by omega
  simp [tableSort.Less, sliceIndex, hi, hj, hx, hy, hi0, hj0, hs0]

/-- Claim C38 fails on the code: for a row whose sort cell is absent `Less(0, 0)` is
true, and for two absent rows both `Less(0, 1)` and `Less(1, 0)` are true, so `Less`
is neither irreflexive nor asymmetric. -/
theorem tableSort_Less_absent_not_strict :
    tableSort.Less [some [none, some 1]] 0 0 0 = .ok true ∧
    tableSort.Less [none, none] 0 0 1 = .ok true ∧
    tableSort.Less [none, none] 0 1 0 = .ok true := by
  refine ⟨?_, ?_, ?_⟩ <;> with_unfolding_all rfl

/-! ## CreateMissingDoubleAggregates: a second call -/

theorem percentiles_noop (steps : List (Stat × Float32Const)) (dbl : AggregationDouble)
    (l : lazyData) (h : ∀ sp ∈ steps, (dbl.slot sp.1).isSome = true) :
    foldlE CreateMissingDoubleAggregates.percentile (dbl, l) steps = .ok (dbl, l) := by
  induction steps with
  | nil => rfl
  | cons sp rest ih =>
    have h0 := h sp (List.mem_cons_self _ _)
    refine (foldlE_cons_ok _ _ _ _ (dbl, l) ?_).trans
      (ih (fun sp2 hsp2 => h sp2 (List.mem_cons_of_mem _ hsp2)))
    unfold CreateMissingDoubleAggregates.percentile
    cases hs : dbl.slot sp.1 with
    | none => rw [hs] at h0; simp at h0
    | some x => simp

theorem eq_with_Double (a : Aggregation) (dbl : AggregationDouble)
    (h : a.Double = some dbl) : ({ a with Double := some dbl } : Aggregation) = a := by
  cases a
  simp only at h
  subst h
  rfl

/-- A call of `CreateMissingDoubleAggregates` on an aggregation whose count is present
and either not positive or accompanied by all the slots that the method can write
changes nothing, whatever the raw points. -/
theorem CreateMissingDoubleAggregates_noop (a : Aggregation) (dbl : AggregationDouble)
    (d : List ℚ) (hdbl : a.Double = some dbl) (hc : dbl.Count.isSome = true)
    (hfull : dbl.Count.getD 0 ≤ 0 ∨
      ∀ s ∈ CreateMissingDoubleAggregates.generated, (dbl.slot s).isSome = true) :
    Aggregation.CreateMissingDoubleAggregates (some a) d = .ok (some a) := by
  unfold Aggregation.CreateMissingDoubleAggregates
  have hnone : dbl.Count.isNone = false := by
    cases hcc : dbl.Count with
    | none => rw [hcc] at hc; simp at hc
    | some x => rfl
  simp only [hdbl, hnone, Bool.false_eq_true, if_false]
  by_cases h0 : dbl.Count.getD 0 ≤ 0
  · rw [if_pos h0, eq_with_Double a dbl hdbl]
  · rw [if_neg h0]
    have hall := hfull.resolve_left h0
    rw [percentiles_noop _ dbl _ (fun sp hsp => hall sp.1 (by
      simp only [CreateMissingDoubleAggregates.percentiles, List.mem_cons, List.mem_singleton,
        List.not_mem_nil, or_false] at hsp
      rcases hsp with h | h | h | h | h | h | h | h | h <;> (rw [h]; decide)))]
    have hmin : dbl.Min.isNone = false := by
      have := hall Stat.min (by decide)
      cases hm : dbl.Min with
      | none => rw [show dbl.slot Stat.min = dbl.Min from rfl, hm] at this; simp at this
      | some x => rfl
    have hmax : dbl.Max.isNone = false := by
      have := hall Stat.max (by decide)
      cases hm : dbl.Max with
      | none => rw [show dbl.slot Stat.max = dbl.Max from rfl, hm] at this; simp at this
      | some x => rfl
    have hmean : dbl.Mean.isNone = false := by
      have := hall Stat.mean (by decide)
      cases hm : dbl.Mean with
      | none => rw [show dbl.slot Stat.mean = dbl.Mean from rfl, hm] at this; simp at this
      | some x => rfl
    simp only [CreateMissingDoubleAggregates.min, CreateMissingDoubleAggregates.max,
      CreateMissingDoubleAggregates.mean, hmin, hmax, hmean, Bool.false_eq_true, if_false]
    rw [eq_with_Double a dbl hdbl]

/-- A call of `CreateMissingDoubleAggregates` on non-empty raw points returns; present
slots keep their value; afterwards the count is present and, unless it is not
positive, so are all the slots that the method can write. -/
theorem CreateMissingDoubleAggregates_filled (a : Aggregation) (dbl : AggregationDouble)
    (d : List ℚ) (hdbl : a.Double = some dbl) (hne : d ≠ []) :
    ∃ dbl2, Aggregation.CreateMissingDoubleAggregates (some a) d
        = .ok (some { a with Double := some dbl2 }) ∧
      (∀ s x, dbl.slot s = some x → dbl2.slot s = some x) ∧
      dbl2.Count.isSome = true ∧
      (dbl2.Count.getD 0 ≤ 0 ∨
        ∀ s ∈ CreateMissingDoubleAggregates.generated, (dbl2.slot s).isSome = true) := by
  have hpos : 0 < d.length := List.length_pos.mpr hne
  have hl0 : lazyData.holds d { Data := d } :=
    ⟨Or.inl ⟨rfl, rfl⟩, rfl, rfl, fun h => by simp at h⟩
  obtain ⟨dbl0, hdbl0, hkeep0, hcount0⟩ : ∃ dbl0 : AggregationDouble,
      (if dbl.Count.isNone then { dbl with Count := some (d.length : ℚ) } else dbl) = dbl0 ∧
      (∀ s x, dbl.slot s = some x → dbl0.slot s = some x) ∧ dbl0.Count.isSome = true := by
    refine ⟨_, rfl, ?_, ?_⟩
    · intro s x hx
      cases hcc : dbl.Count with
      | none =>
        simp only [Option.isNone_none, if_true]
        have hset : ({ dbl with Count := some (d.length : ℚ) } : AggregationDouble)
            = dbl.setSlot Stat.count (some (d.length : ℚ)) := rfl
        rw [hset]
        by_cases hs : s = Stat.count
        · subst hs
          rw [show dbl.slot Stat.count = dbl.Count from rfl, hcc] at hx
          simp at hx
        · rw [slot_setSlot_ne _ _ _ _ (Ne.symm hs)]
          exact hx
      | some c =>
        simp only [Option.isNone_some, Bool.false_eq_true, if_false]
        exact hx
    · cases hcc : dbl.Count with
      | none => simp
      | some c => simp [hcc]
  by_cases h0 : dbl0.Count.getD 0 ≤ 0
  · refine ⟨dbl0, ?_, hkeep0, hcount0, Or.inl h0⟩
    unfold Aggregation.CreateMissingDoubleAggregates
    simp only [hdbl, hdbl0, if_pos h0]
  · obtain ⟨dbl1, l1, hok1, hl1, hne1, hkeep1, hset1⟩ :=
      percentiles_spec d CreateMissingDoubleAggregates.percentiles (by decide)
        (fun sp hsp => percentileIndex_lt d.length hpos sp hsp) dbl0 { Data := d } hl0
    obtain ⟨dbl2, l2, hok2, hl2, hmin2⟩ := min_spec d dbl1 l1 hl1 hne
    obtain ⟨dbl3, l3, hok3, hl3, hmax3⟩ := max_spec d dbl2 l2 hl2 hne
    have hk2 := fun s => (min_frame _ _ hok2 s).2
    have hk3 := fun s => (max_frame _ _ hok3 s).2
    have hk4 := fun s => (mean_frame (dbl3, l3) s).2
    have hkeepAll : ∀ s x, dbl1.slot s = some x →
        (CreateMissingDoubleAggregates.mean (dbl3, l3)).1.slot s = some x :=
      fun s x hx => hk4 s x (hk3 s x (hk2 s x hx))
    refine ⟨(CreateMissingDoubleAggregates.mean (dbl3, l3)).1, ?_, ?_, ?_, Or.inr ?_⟩
    · unfold Aggregation.CreateMissingDoubleAggregates
      simp only [hdbl, hdbl0, if_neg h0, hok1, hok2, hok3]
    · intro s x hx
      exact hkeepAll s x (hkeep1 s x (hkeep0 s x hx))
    · cases hcc : dbl0.Count with
      | none => rw [hcc] at hcount0; simp at hcount0
      | some c =>
        have := hkeepAll Stat.count c (hkeep1 Stat.count c hcc)
        rw [show (CreateMissingDoubleAggregates.mean (dbl3, l3)).1.Count =
          (CreateMissingDoubleAggregates.mean (dbl3, l3)).1.slot Stat.count from rfl, this]
        rfl
    · have hpct : ∀ sp ∈ CreateMissingDoubleAggregates.percentiles,
          ((CreateMissingDoubleAggregates.mean (dbl3, l3)).1.slot sp.1).isSome = true := by
        intro sp hsp
        cases hs : dbl0.slot sp.1 with
        | none => rw [hkeepAll _ _ (hset1 sp hsp hs)]; rfl
        | some x => rw [hkeepAll _ _ (hkeep1 _ _ hs)]; rfl
      have hminS : ((CreateMissingDoubleAggregates.mean (dbl3, l3)).1.slot Stat.min).isSome
          = true := by
        cases hm : dbl1.Min with
        | none =>
          obtain ⟨m, hm2, -, -⟩ := hmin2 hm
          rw [hk4 _ _ (hk3 Stat.min m hm2)]
          rfl
        | some x => rw [hkeepAll Stat.min x hm]; rfl
      have hmaxS : ((CreateMissingDoubleAggregates.mean (dbl3, l3)).1.slot Stat.max).isSome
          = true := by
        cases hm : dbl2.Max with
        | none =>
          obtain ⟨m, hm2, -, -⟩ := hmax3 hm
          rw [hk4 Stat.max m hm2]
          rfl
        | some x => rw [hk4 _ _ (hk3 Stat.max x hm)]; rfl
      have hmeanS : ((CreateMissingDoubleAggregates.mean (dbl3, l3)).1.slot Stat.mean).isSome
          = true := by
        cases hm : dbl3.Mean with
        | none =>
          rw [show (CreateMissingDoubleAggregates.mean (dbl3, l3)).1.slot Stat.mean =
            (CreateMissingDoubleAggregates.mean (dbl3, l3)).1.Mean from rfl,
            mean_spec d dbl3 l3 hl3 hm]
          rfl
        | some x => rw [hk4 Stat.mean x hm]; rfl
      have hcountS : ((CreateMissingDoubleAggregates.mean (dbl3, l3)).1.slot Stat.count).isSome
          = true := by
        cases hcc : dbl0.Count with
        | none => rw [hcc] at hcount0; simp at hcount0
        | some c => rw [hkeepAll Stat.count c (hkeep1 Stat.count c hcc)]; rfl
      intro s hs
      simp only [CreateMissingDoubleAggregates.generated, List.mem_cons, List.mem_singleton,
        List.not_mem_nil, or_false] at hs
      rcases hs with h | h | h | h | h | h | h | h | h | h | h | h | h <;> subst h
      · exact hcountS
      · exact hpct (Stat.p99, float32_0_99) (by simp [CreateMissingDoubleAggregates.percentiles])
      · exact hpct (Stat.p95, float32_0_95) (by simp [CreateMissingDoubleAggregates.percentiles])
      · exact hpct (Stat.p90, float32_0_90) (by simp [CreateMissingDoubleAggregates.percentiles])
      · exact hpct (Stat.p75, float32_0_75) (by simp [CreateMissingDoubleAggregates.percentiles])
      · exact hpct (Stat.p50, float32_0_50) (by simp [CreateMissingDoubleAggregates.percentiles])
      · exact hpct (Stat.p25, float32_0_25) (by simp [CreateMissingDoubleAggregates.percentiles])
      · exact hpct (Stat.p10, float32_0_10) (by simp [CreateMissingDoubleAggregates.percentiles])
      · exact hpct (Stat.p5, float32_0_05) (by simp [CreateMissingDoubleAggregates.percentiles])
      · exact hpct (Stat.p1, float32_0_01) (by simp [CreateMissingDoubleAggregates.percentiles])
      · exact hminS
      · exact hmaxS
      · exact hmeanS

/-- Claim C40: for every aggregation with a double view and every non-empty list of raw
points, `CreateMissingDoubleAggregates` returns, every slot that was present keeps its
value, and a second call on the result, with the sorted points or with any other
list, returns the result unchanged. -/
theorem CreateMissingDoubleAggregates_idempotent (a : Aggregation) (dbl : AggregationDouble)
    (d d2 : List ℚ) (hdbl : a.Double = some dbl) (hne : d ≠ []) :
    ∃ dbl2, Aggregation.CreateMissingDoubleAggregates (some a) d
        = .ok (some { a with Double := some dbl2 }) ∧
      (∀ s x, dbl.slot s = some x → dbl2.slot s = some x) ∧
      Aggregation.CreateMissingDoubleAggregates (some { a with Double := some dbl2 })
          (sortFloat64s d) = .ok (some { a with Double := some dbl2 }) ∧
      Aggregation.CreateMissingDoubleAggregates (some { a with Double := some dbl2 }) d2
        = .ok (some { a with Double := some dbl2 }) := by
  obtain ⟨dbl2, hok, hkeep, hc, hfull⟩ := CreateMissingDoubleAggregates_filled a dbl d hdbl hne
  exact ⟨dbl2, hok, hkeep,
    CreateMissingDoubleAggregates_noop _ dbl2 _ rfl hc hfull,
    CreateMissingDoubleAggregates_noop _ dbl2 _ rfl hc hfull⟩

theorem CreateMissingDoubleAggregates_idempotent_witness :
    ∃ dbl2, Aggregation.CreateMissingDoubleAggregates
        (some { Double := some { P50 := some 9, Stdev := some 1 } }) [3, 1, 2]
        = .ok (some { Double := some dbl2 }) ∧
      (∀ s x, AggregationDouble.slot { P50 := some 9, Stdev := some 1 } s = some x →
        dbl2.slot s = some x) ∧
      Aggregation.CreateMissingDoubleAggregates (some { Double := some dbl2 })
          (sortFloat64s [3, 1, 2]) = .ok (some { Double := some dbl2 }) ∧
      Aggregation.CreateMissingDoubleAggregates (some { Double := some dbl2 }) [5]
        = .ok (some { Double := some dbl2 }) :=
  CreateMissingDoubleAggregates_idempotent { Double := some { P50 := some 9, Stdev := some 1 } }
    { P50 := some 9, Stdev := some 1 } [3, 1, 2] [5] rfl (by simp)

/-! ## Regression engine: bounds of the entries -/

theorem ite_zero_nonneg (a : ℚ) : (0 : ℚ) ≤ (if a < 0 then 0 else a) := by
  split
  · exact le_refl _
  · rename_i h
    exact not_lt.mp h

theorem ite_zero_nonpos (a : ℚ) : (if a > 0 then 0 else a) ≤ (0 : ℚ) := by
  split
  · exact le_refl _
  · rename_i h
    exact not_lt.mp h

theorem getConfirmedDeltas_clamped (t : regressTable) (col n nBack radius : Int)
    (p q : ℚ) (ok : Bool)
    (h : regressTable.getConfirmedDeltas t col n nBack radius = .ok (p, q, ok)) :
    0 ≤ p ∧ q ≤ 0 := by
  have hz : ∀ b : Bool, (Except.ok ((0 : ℚ), (0 : ℚ), b) : Except Panic (ℚ × ℚ × Bool))
      = .ok (p, q, ok) → 0 ≤ p ∧ q ≤ 0 := by
    intro b hb
    simp only [Except.ok.injEq, Prod.mk.injEq] at hb
    rw [← hb.1, ← hb.2.1]
    exact ⟨le_refl _, le_refl _⟩
  unfold regressTable.getConfirmedDeltas at h
  cases h1 : regressTable.get t (nBack - radius) col with
  | error e => rw [h1] at h; simp at h
  | ok v1 =>
    obtain ⟨maxBack, ok1⟩ := v1
    rw [h1] at h
    cases ok1 with
    | false => exact hz _ h
    | true =>
      simp only [Bool.not_true, Bool.false_eq_true, if_false] at h
      cases h2 : regressTable.scanMinMax t col (nBack - radius) (radius - 1).toNat 1
          maxBack maxBack with
      | error e => rw [h2] at h; simp at h
      | ok v2 =>
        rw [h2] at h
        cases v2 with
        | none => exact hz _ h
        | some mm =>
          obtain ⟨maxB, minB⟩ := mm
          simp only at h
          cases h3 : regressTable.getRaw t (n + 1) col with
          | error e => rw [h3] at h; simp at h
          | ok valPtr =>
            rw [h3] at h
            simp only at h
            cases h4 : deref valPtr with
            | error e => rw [h4] at h; simp at h
            | ok maxFwd =>
              rw [h4] at h
              simp only at h
              cases h5 : regressTable.scanMinMax t col (n + 1) (radius - 1).toNat 1
                  maxFwd maxFwd with
              | error e => rw [h5] at h; simp at h
              | ok v5 =>
                rw [h5] at h
                cases v5 with
                | none => exact hz _ h
                | some ff =>
                  obtain ⟨maxF, minF⟩ := ff
                  simp only [Except.ok.injEq, Prod.mk.injEq] at h
                  rw [← h.1, ← h.2.1]
                  exact ⟨ite_zero_nonneg _, ite_zero_nonpos _⟩

theorem computeResult_bounded (t : regressTable) (col : Int) (r : RegressionParams) (n : Int)
    (back backDelta p q x : ℚ) (hPct : r.UsePercent = false)
    (hp : r.Radius ≠ 0 → 0 ≤ p) (hq : r.Radius ≠ 0 → q ≤ 0)
    (h : regressTable.computeResult t col r n back backDelta p q = .ok (some x)) :
    (backDelta > 0 → 0 ≤ x ∧ x ≤ backDelta) ∧ (¬ backDelta > 0 → backDelta ≤ x ∧ x ≤ 0) := by
  unfold regressTable.computeResult at h
  simp only [hPct, Bool.false_eq_true, if_false] at h
  by_cases hW : r.Window = 1
  · simp only [hW, if_true, Except.ok.injEq, Option.some.injEq] at h
    rw [← h]
    by_cases hR : r.Radius = 0
    · simp only [hR, if_true]
      exact ⟨fun hb => ⟨le_of_lt hb, le_refl _⟩, fun hb => ⟨le_refl _, not_lt.mp hb⟩⟩
    · have hp0 := hp hR
      have hq0 := hq hR
      simp only [hR, if_false]
      constructor
      · intro hb
        rw [if_pos hb, minFloat64_eq_min]
        exact ⟨le_min (le_of_lt hb) hp0, min_le_left _ _⟩
      · intro hb
        rw [if_neg hb, maxFloat64_eq_max]
        exact ⟨le_max_left _ _, max_le (not_lt.mp hb) hq0⟩
  · simp only [hW, if_false] at h
    cases h1 : regressTable.get t (n + r.Window - 1) col with
    | error e => rw [h1] at h; simp at h
    | ok v1 =>
      obtain ⟨nFwdVal, ok1⟩ := v1
      rw [h1] at h
      cases ok1 with
      | false => simp at h
      | true =>
        simp only [Bool.not_true, Bool.false_eq_true, if_false] at h
        cases h2 : regressTable.get t (n - 1) col with
        | error e => rw [h2] at h; simp at h
        | ok v2 =>
          obtain ⟨nM1Val, ok2⟩ := v2
          rw [h2] at h
          cases ok2 with
          | false => simp at h
          | true =>
            simp only [Bool.not_true, Bool.false_eq_true, if_false, Except.ok.injEq,
              Option.some.injEq] at h
            rw [← h]
            have hf := ite_zero_nonneg (nFwdVal - nM1Val)
            have hg := ite_zero_nonpos (nFwdVal - nM1Val)
            constructor
            · intro hb
              simp only [if_pos hb]
              by_cases hR : r.Radius = 0
              · simp only [hR, if_true, minFloat64_eq_min]
                exact ⟨le_min (le_of_lt hb) hf, min_le_left _ _⟩
              · simp only [hR, if_false, minFloat64_eq_min]
                exact ⟨le_min (le_min (le_of_lt hb) hf) (hp hR),
                  (min_le_left _ _).trans (min_le_left _ _)⟩
            · intro hb
              simp only [if_neg hb]
              by_cases hR : r.Radius = 0
              · simp only [hR, if_true, maxFloat64_eq_max]
                exact ⟨le_max_left _ _, max_le (not_lt.mp hb) hg⟩
              · simp only [hR, if_false, maxFloat64_eq_max]
                exact ⟨(le_max_left _ _).trans (le_max_left _ _),
                  max_le (max_le (not_lt.mp hb) hg) (hq hR)⟩

/-- An entry that one iteration of the loop stores, with `UsePercent` off, lies between
0 and the plain delta of the current point and the back point. -/
theorem computeAt_bounded (t : regressTable) (col : Int) (r : RegressionParams) (n : Int)
    (x : ℚ) (hPct : r.UsePercent = false)
    (h : regressTable.computeAt t col r n = .ok (some x)) :
    ∃ cur back, regressTable.get t n col = .ok (cur, true) ∧
      regressTable.get t (n - r.Window) col = .ok (back, true) ∧
      (cur - back > 0 → 0 ≤ x ∧ x ≤ cur - back) ∧
      (¬ cur - back > 0 → cur - back ≤ x ∧ x ≤ 0) := by
  unfold regressTable.computeAt at h
  simp only [hPct, Bool.false_and, Bool.false_eq_true, if_false] at h
  cases hb : regressTable.get t (n - r.Window) col with
  | error e => rw [hb] at h; simp at h
  | ok bv =>
    obtain ⟨back, okb⟩ := bv
    rw [hb] at h
    simp only at h
    cases okb with
    | false => simp at h
    | true =>
      simp only [Bool.not_true, Bool.false_eq_true, if_false] at h
      cases hc : regressTable.get t n col with
      | error e => rw [hc] at h; simp at h
      | ok cv =>
        obtain ⟨cur, okc⟩ := cv
        rw [hc] at h
        simp only at h
        cases okc with
        | false => simp at h
        | true =>
          simp only [Bool.not_true, Bool.false_eq_true, if_false] at h
          refine ⟨cur, back, rfl, rfl, ?_⟩
          by_cases hR : r.Radius = 0
          · simp only [hR, ne_eq, not_true_eq_false, if_false] at h
            exact computeResult_bounded t col r n back (cur - back) 0 0 x hPct
              (fun hne => absurd hR hne) (fun hne => absurd hR hne) h
          · simp only [ne_eq, hR, not_false_eq_true, if_true] at h
            cases hg : regressTable.getConfirmedDeltas t col n (n - r.Window) r.Radius with
            | error e => rw [hg] at h; simp at h
            | ok gv =>
              obtain ⟨p, q, okg⟩ := gv
              rw [hg] at h
              simp only at h
              cases okg with
              | false => simp at h
              | true =>
                simp only [Bool.not_true, Bool.false_eq_true, if_false] at h
                have hpq := getConfirmedDeltas_clamped t col n _ _ p q true hg
                exact computeResult_bounded t col r n back (cur - back) p q x hPct
                  (fun _ => hpq.1) (fun _ => hpq.2) h

/-- An entry of the array after the loop was in the array before it or was stored by
the iteration of its index. -/
theorem computeLoop_entry (t : regressTable) (col : Int) (r : RegressionParams)
    (k : Nat) (first : Int) (result res : List (Option ℚ))
    (h : regressTable.computeLoop t col r k first result = .ok res) (j : Nat) (x : ℚ)
    (hx : res.getD j none = some x) :
    result.getD j none = some x ∨
      (first ≤ (j : Int) ∧ (j : Int) < first + k ∧
        regressTable.computeAt t col r j = .ok (some x)) := by
  induction k generalizing first result with
  | zero =>
    simp only [regressTable.computeLoop, Except.ok.injEq] at h
    rw [h]
    exact Or.inl hx
  | succ k ih =>
    unfold regressTable.computeLoop at h
    cases hc : regressTable.computeAt t col r first with
    | error e => rw [hc] at h; simp at h
    | ok y =>
      rw [hc] at h
      cases y with
      | none =>
        simp only at h
        rcases ih (first + 1) result h with h1 | ⟨h1, h2, h3⟩
        · exact Or.inl h1
        · exact Or.inr ⟨by omega, by push_cast; omega, h3⟩
      | some y =>
        simp only at h
        cases hs : sliceSet result first (some y) with
        | error e => rw [hs] at h; simp at h
        | ok result2 =>
          rw [hs] at h
          simp only at h
          rcases ih (first + 1) result2 h with h1 | ⟨h1, h2, h3⟩
          · unfold sliceSet at hs
            split at hs
            · simp at hs
            · rename_i hneg
              split at hs
              · simp only [Except.ok.injEq] at hs
                rw [← hs] at h1
                by_cases hj : first.toNat = j
                · right
                  have hfj : first = (j : Int) := by omega
                  rw [← hj] at h1
                  rename_i hlt
                  simp only [List.getD_eq_getElem?_getD, List.getElem?_set_self hlt,
                    Option.getD_some, Option.some.injEq] at h1
                  refine ⟨by omega, by push_cast; omega, ?_⟩
                  rw [← hfj, hc, h1]
                · left
                  simpa [List.getD_eq_getElem?_getD, List.getElem?_set_ne hj] using h1
              · simp at hs
          · exact Or.inr ⟨by omega, by push_cast; omega, h3⟩

/-- Claim C39: with `UsePercent` off, whatever the radius and the window, every
present entry `result[n]` of the array that `computeVerifiedRegression` returns comes
with a present current point `v[n]` and a present back point `v[n - W]`, and with
`backDelta = v[n] - v[n - W]` it satisfies `0 <= result[n] <= backDelta` when
`backDelta > 0` and `backDelta <= result[n] <= 0` otherwise. -/
theorem computeVerifiedRegression_bounded (t : regressTable) (col : Int)
    (r : RegressionParams) (result : List (Option ℚ)) (n : Nat) (x : ℚ)
    (hPct : r.UsePercent = false)
    (h : regressTable.computeVerifiedRegression t col r = .ok result)
    (hx : result.getD n none = some x) :
    ∃ cur back, regressTable.get t n col = .ok (cur, true) ∧
      regressTable.get t ((n : Int) - r.Window) col = .ok (back, true) ∧
      (cur - back > 0 → 0 ≤ x ∧ x ≤ cur - back) ∧
      (¬ cur - back > 0 → cur - back ≤ x ∧ x ≤ 0) := by
  unfold regressTable.computeVerifiedRegression at h
  rcases computeLoop_entry t col r _ _ _ _ h n x hx with h1 | ⟨-, -, h3⟩
  · simp only [List.getD_eq_getElem?_getD, List.getElem?_replicate] at h1
    split at h1 <;> simp at h1
  · exact computeAt_bounded t col r n x hPct h3

theorem computeVerifiedRegression_bounded_witness :
    ∃ cur back,
      regressTable.get (makeTestTable [some 1, some 2, some 5, some 3, some 9, some 9, some 9])
        ((4 : Nat) : Int) 0 = .ok (cur, true) ∧
      regressTable.get (makeTestTable [some 1, some 2, some 5, some 3, some 9, some 9, some 9])
        (((4 : Nat) : Int) - ({ Radius := 1, Window := 2 } : RegressionParams).Window) 0
        = .ok (back, true) ∧
      (cur - back > 0 → 0 ≤ (4 : ℚ) ∧ (4 : ℚ) ≤ cur - back) ∧
      (¬ cur - back > 0 → cur - back ≤ (4 : ℚ) ∧ (4 : ℚ) ≤ 0) :=
  computeVerifiedRegression_bounded
    (makeTestTable [some 1, some 2, some 5, some 3, some 9, some 9, some 9]) 0
    { Radius := 1, Window := 2 } [none, none, none, some 1, some 4, none, none] 4 4 rfl
    (by with_unfolding_all rfl) rfl

/-! ## Regression engine: indices read and shape of the result -/

theorem get_of_column_ok {t : regressTable} {col : Int} {v : List (Option ℚ)}
    (h : regressTable.column t col = v.map some) (i : Int) (h0 : 0 ≤ i)
    (h1 : i < v.length) : ∃ p, regressTable.get t i col = .ok p := by
  unfold regressTable.get
  rw [getRaw_of_column h i h0 h1]
  cases v.getD i.toNat none with
  | none => exact ⟨_, rfl⟩
  | some x => exact ⟨_, rfl⟩

/-- The min/max loops of `getConfirmedDeltas` do not panic when the rows they read
exist. -/
theorem scanMinMax_no_panic {t : regressTable} {col : Int} {v : List (Option ℚ)}
    (hcol : regressTable.column t col = v.map some) (base : Int) (k : Nat) (i : Int)
    (maxV minV : ℚ)
    (hr : ∀ j : Int, i ≤ j → j < i + k → 0 ≤ base + j ∧ base + j < v.length) :
    ∃ o, regressTable.scanMinMax t col base k i maxV minV = .ok o := by
  induction k generalizing i maxV minV with
  | zero => exact ⟨_, rfl⟩
  | succ k ih =>
    have hi := hr i (le_refl _) (by push_cast; omega)
    obtain ⟨⟨val, ok⟩, hg⟩ := get_of_column_ok hcol (base + i) hi.1 hi.2
    have hrest : ∀ j : Int, i + 1 ≤ j → j < i + 1 + k →
        0 ≤ base + j ∧ base + j < v.length :=
      fun j h1 h2 => hr j (by omega) (by push_cast; omega)
    unfold regressTable.scanMinMax
    rw [hg]
    simp only
    cases ok with
    | false => exact ⟨none, rfl⟩
    | true =>
      simp only [Bool.not_true, Bool.false_eq_true, if_false]
      split
      · exact ih (i + 1) val minV hrest
      · split
        · exact ih (i + 1) maxV val hrest
        · exact ih (i + 1) maxV minV hrest

/-- On a table whose rows exist, `getConfirmedDeltas` with its rows in range can
only panic through the unchecked dereference of the first forward point. -/
theorem getConfirmedDeltas_only_nilDeref {t : regressTable} {col : Int}
    {v : List (Option ℚ)} (hcol : regressTable.column t col = v.map some)
    (n nBack radius : Int) (hR : 1 ≤ radius) (h0 : 0 ≤ nBack - radius)
    (h1 : nBack ≤ v.length) (h2 : 0 ≤ n + 1) (h3 : n + radius < v.length) (e : Panic)
    (h : regressTable.getConfirmedDeltas t col n nBack radius = .error e) :
    e = Panic.nilDeref := by
  unfold regressTable.getConfirmedDeltas at h
  obtain ⟨⟨maxBack, ok1⟩, hg1⟩ := get_of_column_ok hcol (nBack - radius) h0 (by omega)
  rw [hg1] at h
  cases ok1 with
  | false => simp at h
  | true =>
    simp only [Bool.not_true, Bool.false_eq_true, if_false] at h
    obtain ⟨o2, hs2⟩ := scanMinMax_no_panic hcol (nBack - radius) (radius - 1).toNat 1
      maxBack maxBack (fun j hj1 hj2 => by omega)
    rw [hs2] at h
    cases o2 with
    | none => simp at h
    | some mm =>
      obtain ⟨maxB, minB⟩ := mm
      simp only at h
      rw [getRaw_of_column hcol (n + 1) h2 (by omega)] at h
      simp only at h
      cases hv : v.getD (n + 1).toNat none with
      | none =>
        rw [hv] at h
        simp only [deref, Except.error.injEq] at h
        exact h.symm
      | some maxFwd =>
        rw [hv] at h
        simp only [deref] at h
        obtain ⟨o5, hs5⟩ := scanMinMax_no_panic hcol (n + 1) (radius - 1).toNat 1
          maxFwd maxFwd (fun j hj1 hj2 => by omega)
        rw [hs5] at h
        cases o5 with
        | none => simp at h
        | some ff => simp at h

theorem computeResult_no_panic {t : regressTable} {col : Int} {v : List (Option ℚ)}
    (hcol : regressTable.column t col = v.map some) (r : RegressionParams) (n : Int)
    (back backDelta p q : ℚ) (h1 : 1 ≤ n) (h2 : 1 ≤ r.Window)
    (h3 : n + r.Window - 1 < v.length) :
    ∃ o, regressTable.computeResult t col r n back backDelta p q = .ok o := by
  unfold regressTable.computeResult
  by_cases hW : r.Window = 1
  · simp only [hW, if_true]
    split <;> exact ⟨_, rfl⟩
  · simp only [hW, if_false]
    obtain ⟨⟨nFwdVal, ok1⟩, hg1⟩ := get_of_column_ok hcol (n + r.Window - 1) (by omega) h3
    rw [hg1]
    cases ok1 with
    | false => exact ⟨none, rfl⟩
    | true =>
      simp only [Bool.not_true, Bool.false_eq_true, if_false]
      obtain ⟨⟨nM1Val, ok2⟩, hg2⟩ := get_of_column_ok hcol (n - 1) (by omega) (by omega)
      rw [hg2]
      cases ok2 with
      | false => exact ⟨none, rfl⟩
      | true =>
        simp only [Bool.not_true, Bool.false_eq_true, if_false]
        split <;> exact ⟨_, rfl⟩

/-- On a table whose rows exist, an iteration of the loop at an index of the loop
range reads rows in range: it can only panic through the unchecked dereference. -/
theorem computeAt_only_nilDeref {t : regressTable} {col : Int} {v : List (Option ℚ)}
    (hcol : regressTable.column t col = v.map some) (r : RegressionParams) (n : Int)
    (hR : 0 ≤ r.Radius) (hW : 1 ≤ r.Window) (hn1 : r.Window + r.Radius ≤ n)
    (hn2 : n ≤ (v.length : Int) - r.Radius - r.Window) (e : Panic)
    (h : regressTable.computeAt t col r n = .error e) : e = Panic.nilDeref := by
  unfold regressTable.computeAt at h
  simp only at h
  obtain ⟨⟨back, ok1⟩, hg1⟩ := get_of_column_ok hcol (n - r.Window) (by omega) (by omega)
  rw [hg1] at h
  cases ok1 with
  | false => simp at h
  | true =>
    simp only [Bool.not_true, Bool.false_eq_true, if_false] at h
    split at h
    · simp at h
    · obtain ⟨⟨cur, ok2⟩, hg2⟩ := get_of_column_ok hcol n (by omega) (by omega)
      rw [hg2] at h
      cases ok2 with
      | false => simp at h
      | true =>
        simp only [Bool.not_true, Bool.false_eq_true, if_false] at h
        split at h
        · simp at h
        · by_cases hR0 : r.Radius = 0
          · simp only [hR0, ne_eq, not_true_eq_false, if_false] at h
            obtain ⟨o, ho⟩ := computeResult_no_panic hcol r n back (cur - back) 0 0
              (by omega) hW (by omega)
            rw [ho] at h
            simp at h
          · simp only [ne_eq, hR0, not_false_eq_true, if_true] at h
            cases hg : regressTable.getConfirmedDeltas t col n (n - r.Window) r.Radius with
            | error e2 =>
              rw [hg] at h
              simp only [Except.error.injEq] at h
              rw [← h]
              exact getConfirmedDeltas_only_nilDeref hcol n (n - r.Window) r.Radius
                (by omega) (by omega) (by omega) (by omega) (by omega) e2 hg
            | ok gv =>
              obtain ⟨p, q, okg⟩ := gv
              rw [hg] at h
              cases okg with
              | false => simp at h
              | true =>
                simp only [Bool.not_true, Bool.false_eq_true, if_false] at h
                obtain ⟨o, ho⟩ := computeResult_no_panic hcol r n back (cur - back) p q
                  (by omega) hW (by omega)
                rw [ho] at h
                simp at h

theorem computeLoop_only_nilDeref {t : regressTable} {col : Int} {v : List (Option ℚ)}
    (hcol : regressTable.column t col = v.map some) (r : RegressionParams)
    (hR : 0 ≤ r.Radius) (hW : 1 ≤ r.Window) (k : Nat) (first : Int)
    (result : List (Option ℚ)) (hlen : result.length = v.length)
    (h1 : r.Window + r.Radius ≤ first)
    (h2 : 0 < k → first + k ≤ (v.length : Int) - r.Radius - r.Window + 1) (e : Panic)
    (h : regressTable.computeLoop t col r k first result = .error e) :
    e = Panic.nilDeref := by
  induction k generalizing first result with
  | zero => simp [regressTable.computeLoop] at h
  | succ k ih =>
    have h2 := h2 (Nat.succ_pos k)
    unfold regressTable.computeLoop at h
    cases hc : regressTable.computeAt t col r first with
    | error e2 =>
      rw [hc] at h
      simp only [Except.error.injEq] at h
      rw [← h]
      exact computeAt_only_nilDeref hcol r first hR hW h1 (by push_cast at h2; omega) e2 hc
    | ok y =>
      rw [hc] at h
      cases y with
      | none =>
        exact ih (first + 1) result hlen (by omega) (fun _ => by push_cast at h2 ⊢; omega) h
      | some y =>
        simp only at h
        have hlt : first.toNat < result.length := by push_cast at h2; omega
        have hset : sliceSet result first (some y) = .ok (result.set first.toNat (some y)) := by
          unfold sliceSet
          rw [if_neg (by omega), if_pos hlt]
        rw [hset] at h
        exact ih (first + 1) _ (by rw [List.length_set, hlen]) (by omega)
          (fun _ => by push_cast at h2 ⊢; omega) h

/-- What holds of `computeVerifiedRegression` on every table: an array it returns
has `len(t)` entries and is nil below `W + R` and above `N - R - W`; and on a table
whose rows all exist and hold column `col`, with `R >= 0` and `W >= 1`, every row
index read is in range, so that the only panic left is the nil dereference of the
first forward point. -/
theorem computeVerifiedRegression_shape (t : regressTable) (col : Int)
    (r : RegressionParams) :
    (∀ result, regressTable.computeVerifiedRegression t col r = .ok result →
      result.length = t.length ∧
      ∀ j : Nat, ((j : Int) < r.Window + r.Radius ∨
          (t.length : Int) - r.Radius - r.Window < (j : Int)) →
        result.getD j none = none) ∧
    (∀ v : List (Option ℚ), regressTable.column t col = v.map some → 0 ≤ r.Radius →
      1 ≤ r.Window → ∀ e, regressTable.computeVerifiedRegression t col r = .error e →
        e = Panic.nilDeref) := by
  constructor
  · intro result h
    unfold regressTable.computeVerifiedRegression at h
    refine ⟨by rw [computeLoop_length t col r _ _ _ _ h, List.length_replicate],
      fun j hj => ?_⟩
    cases hx : result.getD j none with
    | none => rfl
    | some x =>
      rcases computeLoop_entry t col r _ _ _ _ h j x hx with h1 | ⟨h1, h2, -⟩
      · simp only [List.getD_eq_getElem?_getD, List.getElem?_replicate] at h1
        split at h1 <;> simp at h1
      · omega
  · intro v hcol hR hW e h
    unfold regressTable.computeVerifiedRegression at h
    have hlen := length_of_column hcol
    exact computeLoop_only_nilDeref hcol r hR hW _ _ _
      (by rw [List.length_replicate, hlen]) (le_refl _) (fun hk => by rw [hlen] at hk ⊢; omega) e h

/-- Claim C34 fails on the code through the unchecked dereference of
`getConfirmedDeltas`: the table of the 6 single-cell rows `[1, 2, 3, 4, nil, 6]` with
`Radius = 1` and `Window = 2` has every row in place, the only index of the loop is
`n = 3` and every row index read lies in `[0, 6)`, yet no array of 6 entries is
returned: the first forward point `*(*t[4])[0]` is nil and the call panics. With
the cell present (`[1, 2, 3, 4, 5, 6]`) the array of 6 entries is returned, absent
below index 3 and above it. -/
theorem computeVerifiedRegression_no_array :
    regressTable.computeVerifiedRegression
        (makeTestTable [some 1, some 2, some 3, some 4, none, some 6]) 0
        { Radius := 1, Window := 2 }
      = .error Panic.nilDeref ∧
    regressTable.computeVerifiedRegression
        (makeTestTable [some 1, some 2, some 3, some 4, some 5, some 6]) 0
        { Radius := 1, Window := 2 }
      = .ok [none, none, none, some 2, none, none] := by
  constructor <;> with_unfolding_all rfl

/-! ## The column sort of `getDataTableRaw` -/

/-- The table after `DataTable.SortDataColumns` on a table without nil rows, when the
exchanges of the sort are within range: names and cells are rearranged by the
positions that the exchanges give. -/
theorem SortDataColumns_positions (sort : SortAlgorithm) (d : DataTable)
    (swaps : List (Nat × Nat))
    (hsort : sort d.ColumnNames.length (positionString.Less d.ColumnNames) = .ok swaps)
    (hrange : ∀ ij ∈ swaps, ij.1 < d.ColumnNames.length ∧ ij.2 < d.ColumnNames.length)
    (hrows : ∀ rowp ∈ d.Data, rowp ≠ none) :
    DataTable.SortDataColumns sort d = .ok { d with
      ColumnNames := (applySwaps swaps (List.range d.ColumnNames.length)).map
        (fun k => d.ColumnNames.getD k [])
      Data := d.Data.map (Option.map (fun row => (List.range d.ColumnNames.length).map
        (fun i => row.getD
          ((applySwaps swaps (List.range d.ColumnNames.length)).getD i 0) none))) } := by
  have hfix := FixRowLengths_float_ok d.ColumnNames d.Data hrows
  have hsdc := SortDataColumns_float_ok sort d.ColumnNames
    (d.Data.map (Option.map (fun row =>
      row.take d.ColumnNames.length ++ List.replicate (d.ColumnNames.length - row.length) none)))
    swaps hsort hrange
    (by
      intro rowp hrowp
      obtain ⟨r, hr, hrr⟩ := List.mem_map.mp hrowp
      cases r with
      | none => exact absurd rfl (hrows none hr)
      | some row =>
        refine ⟨_, hrr.symm, ?_⟩
        simp only [List.length_append, List.length_take, List.length_replicate]
        omega)
  rw [SortDataColumns_eq sort d _ _ _ hfix hsdc]
  congr 2
  rw [List.map_map]
  apply List.map_congr_left
  intro rowp _
  cases rowp with
  | none => rfl
  | some row =>
    simp only [Function.comp, Option.map_some', Option.some.injEq]
    apply List.map_congr_left
    intro i hi
    have hi2 : i < (applySwaps swaps (List.range d.ColumnNames.length)).length := by
      rw [length_applySwaps, List.length_range]
      exact List.mem_range.mp hi
    have hp := applySwaps_range_lt swaps _ _ (List.getElem_mem hi2)
    rw [List.getD_eq_getElem?_getD (l := applySwaps swaps (List.range d.ColumnNames.length)),
      List.getElem?_eq_getElem hi2, Option.getD_some]
    exact getD_fixRow row _ _ hp

/-- When the first string is less than every other one, a sort that keeps its promise
leaves it in the first place. -/
theorem least_stays_first (names : List Bytes) (swaps : List (Nat × Nat))
    (hn : 0 < names.length)
    (hleast : ∀ k : Nat, 0 < k → k < names.length →
      bytesLt (names.getD 0 []) (names.getD k []) = true)
    (hsorted : ∀ a b : Nat, a < b → b < names.length →
      ¬ (positionString.Less names ((applySwaps swaps (List.range names.length)).getD b 0)
            ((applySwaps swaps (List.range names.length)).getD a 0) = .ok true ∧
          positionString.Less names ((applySwaps swaps (List.range names.length)).getD a 0)
            ((applySwaps swaps (List.range names.length)).getD b 0) = .ok false)) :
    (applySwaps swaps (List.range names.length)).getD 0 0 = 0 := by
  have hperm := perm_applySwaps swaps (List.range names.length)
  have hplen : (applySwaps swaps (List.range names.length)).length = names.length := by
    rw [length_applySwaps, List.length_range]
  have h0mem : 0 ∈ applySwaps swaps (List.range names.length) :=
    hperm.mem_iff.mpr (List.mem_range.mpr hn)
  obtain ⟨b, hb, hb0⟩ := List.getElem_of_mem h0mem
  by_cases hbz : b = 0
  · subst hbz
    rw [List.getD_eq_getElem?_getD, List.getElem?_eq_getElem hb, Option.getD_some, hb0]
  · exfalso
    have h0 : 0 < (applySwaps swaps (List.range names.length)).length := by omega
    have hp := applySwaps_range_lt swaps _ _ (List.getElem_mem h0)
    have hpne : (applySwaps swaps (List.range names.length))[0] ≠ 0 := by
      intro heq
      have hnd : (applySwaps swaps (List.range names.length)).Nodup :=
        hperm.nodup_iff.mpr (List.nodup_range _)
      have := (List.Nodup.getElem_inj_iff hnd).mp (heq.trans hb0.symm)
      omega
    have hl := hleast _ (Nat.pos_of_ne_zero hpne) hp
    apply hsorted 0 b (Nat.pos_of_ne_zero hbz) (by omega)
    rw [List.getD_eq_getElem?_getD, List.getD_eq_getElem?_getD,
      List.getElem?_eq_getElem hb, List.getElem?_eq_getElem h0]
    simp only [Option.getD_some, hb0]
    rw [positionString_Less_ok _ _ _ hn hp, positionString_Less_ok _ _ _ hp hn]
    rw [List.getD_eq_getElem?_getD, List.getD_eq_getElem?_getD,
      List.getElem?_eq_getElem hp, List.getElem?_eq_getElem hn] at hl
    simp only [Option.getD_some] at hl
    rw [hl, bytesLt_asymm _ _ hl]
    exact ⟨rfl, rfl⟩

/-- Claim C35 fails on the code: with the column names `"time"` and `" x"` (distinct;
a blank sorts before `"!"`) the column sort of `getDataTableRaw`, run with any sort
that keeps the promise of `sort.Sort` on the two names `"!time"` and `" x"`, puts the
cells of `" x"` in column 0, which is then named `"time"` again, while the cells of
the time column lie in column 1 under the name `"!time"`. The exchange sort
`bubbleSort` is such a sort. -/
theorem getDataTableRaw_sortColumns_x_not_leftmost :
    (∀ sort : SortAlgorithm,
      SortAlgorithm.sorts sort 2
        (positionString.Less [ascii ("!") ++ ascii ("time"), ascii (" x")]) →
      getDataTableRaw.sortColumns sort
        { ColumnNames := [ascii ("time"), ascii (" x")]
          Data := [some [some 1, some 2], some [some 3, some 4]] }
      = .ok { ColumnNames := [ascii ("time"), ascii ("!time")]
              Data := [some [some 2, some 1], some [some 4, some 3]] }) ∧
    getDataTableRaw.sortColumns bubbleSort
        { ColumnNames := [ascii ("time"), ascii (" x")]
          Data := [some [some 1, some 2], some [some 3, some 4]] }
      = .ok { ColumnNames := [ascii ("time"), ascii ("!time")]
              Data := [some [some 2, some 1], some [some 4, some 3]] } ∧
    [ascii ("time"), ascii (" x")].Nodup ∧
    SortAlgorithm.sorts bubbleSort 2
      (positionString.Less [ascii ("!") ++ ascii ("time"), ascii (" x")]) := by
  refine ⟨?_, by with_unfolding_all rfl, by decide,
    ⟨[(0, 1)], by with_unfolding_all rfl, by decide, ?_⟩⟩
  · intro sort hs
    obtain ⟨swaps, hsort, hrange, hsorted⟩ := hs
    have hperm : (applySwaps swaps (List.range 2)).Perm (List.range 2) := perm_applySwaps _ _
    have hpos : applySwaps swaps (List.range 2) = [1, 0] := by
      rcases perm_range_two _ hperm with h | h
      · exfalso
        have h2 := hsorted 0 1 (by decide) (by decide)
        rw [h] at h2
        exact h2 ⟨by with_unfolding_all rfl, by with_unfolding_all rfl⟩
      · exact h
    have hsdc := SortDataColumns_positions sort
      { ColumnNames := [ascii ("!") ++ ascii ("time"), ascii (" x")]
        Data := [some [some 1, some 2], some [some 3, some 4]] } swaps hsort hrange
      (by decide)
    have hlen : ([ascii ("!") ++ ascii ("time"), ascii (" x")] : List Bytes).length = 2 := rfl
    simp only [hlen, hpos] at hsdc
    unfold getDataTableRaw.sortColumns
    rw [if_pos (by decide)]
    have h1 : sliceIndex [ascii ("time"), ascii (" x")] 0 = .ok (ascii ("time")) := by
      with_unfolding_all rfl
    have h2 : sliceSet [ascii ("time"), ascii (" x")] 0 (ascii ("!") ++ ascii ("time"))
        = .ok [ascii ("!") ++ ascii ("time"), ascii (" x")] := by
      with_unfolding_all rfl
    simp only [h1, h2, hsdc]
    with_unfolding_all rfl
  · intro a b hab hb h
    have hcases : a = 0 ∧ b = 1 := by omega
    obtain ⟨rfl, rfl⟩ := hcases
    exact absurd (h.1.symm.trans (by with_unfolding_all rfl : _ = Except.ok false)) (by simp)

/-- Where the sentinel of `getDataTableRaw` works: for a table with a first column
name `name0` and no nil row, whose other column names all come after `"!" ++ name0` in
byte order, when `sort.Sort` keeps its promise the column sort returns; column 0 then
carries the name `name0` again and, in every row, the cell that was in column 0 before
the sort (absent for a row without cells). -/
theorem getDataTableRaw_sortColumns_x_leftmost (sort : SortAlgorithm) (d : DataTable)
    (name0 : Bytes) (hname : d.ColumnNames[0]? = some name0)
    (hrows : ∀ rowp ∈ d.Data, rowp ≠ none)
    (hgt : ∀ (k : Nat) (name : Bytes), 0 < k → d.ColumnNames[k]? = some name →
      bytesLt (ascii ("!") ++ name0) name = true)
    (hs : sort.sorts d.ColumnNames.length
      (positionString.Less (d.ColumnNames.set 0 (ascii ("!") ++ name0)))) :
    ∃ d2, getDataTableRaw.sortColumns sort d = .ok d2 ∧
      d2.ColumnNames[0]? = some name0 ∧
      d2.ColumnNames.length = d.ColumnNames.length ∧
      d2.Data.length = d.Data.length ∧
      ∀ (i : Nat) (row : List (Option ℚ)), d.Data[i]? = some (some row) →
        ∃ row2, d2.Data[i]? = some (some row2) ∧ row2[0]? = some (row.getD 0 none) := by
  obtain ⟨hn, hname0⟩ := List.getElem?_eq_some_iff.mp hname
  obtain ⟨swaps, hsort, hrange, hsorted⟩ := hs
  have hlen : (d.ColumnNames.set 0 (ascii ("!") ++ name0)).length = d.ColumnNames.length :=
    List.length_set _ _ _
  have hidx : sliceIndex d.ColumnNames 0 = .ok name0 := by
    have := sliceIndex_ok d.ColumnNames 0 hn
    rw [hname0] at this
    exact this
  have hset : sliceSet d.ColumnNames 0 (ascii ("!") ++ name0) =
      .ok (d.ColumnNames.set 0 (ascii ("!") ++ name0)) := by
    unfold sliceSet
    rw [if_neg (by omega), if_pos (by simpa using hn)]
    rfl
  have hpos := SortDataColumns_positions sort
    { d with ColumnNames := d.ColumnNames.set 0 (ascii ("!") ++ name0) } swaps
    (by simpa only [hlen] using hsort) (by simpa only [hlen] using hrange) hrows
  simp only [hlen] at hpos
  have hplen : (applySwaps swaps (List.range d.ColumnNames.length)).length =
      d.ColumnNames.length := by rw [length_applySwaps, List.length_range]
  have hfirst : (applySwaps swaps (List.range d.ColumnNames.length)).getD 0 0 = 0 := by
    have := least_stays_first (d.ColumnNames.set 0 (ascii ("!") ++ name0)) swaps
      (by rw [hlen]; exact hn)
      (by
        intro k hk0 hk
        rw [hlen] at hk
        rw [List.getD_eq_getElem?_getD, List.getD_eq_getElem?_getD,
          List.getElem?_set_self hn, List.getElem?_set_ne (by omega),
          List.getElem?_eq_getElem hk]
        simp only [Option.getD_some]
        exact hgt k _ hk0 (List.getElem?_eq_getElem hk))
      (by simpa only [hlen] using hsorted)
    simpa only [hlen] using this
  have hset2 : ∀ names : List Bytes, names.length = d.ColumnNames.length →
      sliceSet names 0 name0 = .ok (names.set 0 name0) := by
    intro names hl
    unfold sliceSet
    rw [if_neg (by omega), if_pos (by rw [hl]; simpa using hn)]
    rfl
  have hrun : getDataTableRaw.sortColumns sort d = .ok { d with
      ColumnNames := ((applySwaps swaps (List.range d.ColumnNames.length)).map
        (fun k => (d.ColumnNames.set 0 (ascii ("!") ++ name0)).getD k [])).set 0 name0
      Data := d.Data.map (Option.map (fun row => (List.range d.ColumnNames.length).map
        (fun i => row.getD
          ((applySwaps swaps (List.range d.ColumnNames.length)).getD i 0) none))) } := by
    unfold getDataTableRaw.sortColumns
    rw [if_pos hn, hidx]
    simp only
    rw [hset]
    simp only
    rw [hpos]
    simp only
    rw [hset2 _ (by rw [List.length_map, hplen])]
  refine ⟨_, hrun, ?_, ?_, ?_, ?_⟩
  · simp only
    rw [List.getElem?_set_self (by rw [List.length_map, hplen]; exact hn)]
  · simp only [List.length_set, List.length_map, hplen]
  · simp
  · intro i row hrow
    refine ⟨(List.range d.ColumnNames.length).map (fun i => row.getD
      ((applySwaps swaps (List.range d.ColumnNames.length)).getD i 0) none), ?_, ?_⟩
    · simp only [List.getElem?_map, hrow, Option.map_some']
    · rw [List.getElem?_map, List.getElem?_range hn, Option.map_some', hfirst]

theorem getDataTableRaw_sortColumns_x_leftmost_witness :
    ∃ d2, getDataTableRaw.sortColumns bubbleSort
        { ColumnNames := [ascii ("time"), ascii ("b"), ascii ("a")]
          Data := [some [some 1, some 2, some 3], some [some 4]] } = .ok d2 ∧
      d2.ColumnNames[0]? = some (ascii ("time")) ∧
      d2.ColumnNames.length = [ascii ("time"), ascii ("b"), ascii ("a")].length ∧
      d2.Data.length = [some [some (1 : ℚ), some 2, some 3], some [some 4]].length ∧
      ∀ (i : Nat) (row : List (Option ℚ)),
        [some [some (1 : ℚ), some 2, some 3], some [some 4]][i]? = some (some row) →
        ∃ row2, d2.Data[i]? = some (some row2) ∧ row2[0]? = some (row.getD 0 none) :=
  getDataTableRaw_sortColumns_x_leftmost bubbleSort
    { ColumnNames := [ascii ("time"), ascii ("b"), ascii ("a")]
      Data := [some [some 1, some 2, some 3], some [some 4]] }
    (ascii ("time")) rfl (by decide)
    (by
      intro k name hk0 hk
      have hk3 : k = 1 ∨ k = 2 ∨ 3 ≤ k := by omega
      rcases hk3 with rfl | rfl | h3
      · simp only [List.getElem?_cons_succ, List.getElem?_cons_zero, Option.some.injEq] at hk
        rw [← hk]
        decide
      · simp only [List.getElem?_cons_succ, List.getElem?_cons_zero, Option.some.injEq] at hk
        rw [← hk]
        decide
      · rw [List.getElem?_eq_none (by simpa using h3)] at hk
        exact absurd hk (by simp))
    ⟨[(1, 2)], by with_unfolding_all rfl, by decide, by
      intro a b hab hb h
      have hb3 : b < 3 := hb
      have hcases : (a = 0 ∧ b = 1) ∨ (a = 0 ∧ b = 2) ∨ (a = 1 ∧ b = 2) := by omega
      rcases hcases with ⟨rfl, rfl⟩ | ⟨rfl, rfl⟩ | ⟨rfl, rfl⟩
      · exact absurd (h.1.symm.trans (by with_unfolding_all rfl : _ = Except.ok false)) (by simp)
      · exact absurd (h.1.symm.trans (by with_unfolding_all rfl : _ = Except.ok false)) (by simp)
      · exact absurd (h.1.symm.trans (by with_unfolding_all rfl : _ = Except.ok false)) (by simp)⟩

/-! ## Writing a record -/

theorem mem_setEntry {κ ν : Type} [DecidableEq κ] (k : κ) (v : ν) (l : List (κ × ν))
    (e : κ × ν) (h : e ∈ setEntry k v l) : e = (k, v) ∨ e ∈ l := by
  induction l with
  | nil =>
    simp only [setEntry, List.mem_singleton] at h
    exact Or.inl h
  | cons e0 rest ih =>
    simp only [setEntry] at h
    split at h
    · rcases List.mem_cons.mp h with h1 | h1
      · exact Or.inl h1
      · exact Or.inr (List.mem_cons_of_mem _ h1)
    · rcases List.mem_cons.mp h with h1 | h1
      · exact Or.inr (h1 ▸ List.mem_cons_self _ _)
      · rcases ih h1 with h2 | h2
        · exact Or.inl h2
        · exact Or.inr (List.mem_cons_of_mem _ h2)

theorem mem_of_lookup {κ ν : Type} [DecidableEq κ] (m : GoMap κ ν) (k : κ) (v : ν)
    (h : m.lookup k = some v) : (k, v) ∈ m.entries := by
  unfold GoMap.lookup at h
  cases hf : m.entries.find? (fun e => decide (e.1 = k)) with
  | none => rw [hf] at h; simp at h
  | some e =>
    rw [hf] at h
    simp only [Option.map_some', Option.some.injEq] at h
    have h1 := List.find?_some hf
    have h2 := List.mem_of_find?_eq_some hf
    simp only [decide_eq_true_eq] at h1
    rw [← h1, ← h]
    exact h2

theorem Stat_ofName_count (field : Bytes) (h : Stat.ofName field = some Stat.count) :
    field = ascii ("count") := by
  unfold Stat.ofName at h
  have h1 := List.find?_some h
  simp only [decide_eq_true_eq] at h1
  rw [← h1]
  rfl

theorem setSlot_Count (d : AggregationDouble) (stat : Stat) (v : Option ℚ) :
    (d.setSlot stat v).Count = if stat = Stat.count then v else d.Count := by
  cases stat <;> rfl

/-- The loop over an aggregate map of `WriteRow` on an aggregation with a double
view: it does not panic, and the count is only set when the map names it. -/
theorem SetDoubleField_loop (nvs : List (Bytes × Option ℚ)) (a : Aggregation)
    (dbl : AggregationDouble) (hdbl : a.Double = some dbl) :
    ∃ a2 dbl2, foldlE (fun (a : Aggregation) (nv : Bytes × Option ℚ) =>
        Aggregation.SetDoubleField a nv.1 nv.2) a nvs = .ok a2 ∧
      a2.Double = some dbl2 ∧
      (dbl2.Count ≠ none → dbl.Count ≠ none ∨ ∃ v, (ascii ("count"), v) ∈ nvs) := by
  induction nvs generalizing a dbl with
  | nil => exact ⟨a, dbl, rfl, hdbl, fun h => Or.inl h⟩
  | cons nv rest ih =>
    cases hs : Stat.ofName nv.1 with
    | none =>
      have hstep : Aggregation.SetDoubleField a nv.1 nv.2 = .ok a := by
        unfold Aggregation.SetDoubleField
        rw [hs]
      obtain ⟨a2, dbl2, h1, h2, h3⟩ := ih a dbl hdbl
      refine ⟨a2, dbl2, (foldlE_cons_ok _ _ _ _ _ hstep).trans h1, h2, fun hc => ?_⟩
      rcases h3 hc with h4 | ⟨v, hv⟩
      · exact Or.inl h4
      · exact Or.inr ⟨v, List.mem_cons_of_mem _ hv⟩
    | some stat =>
      have hstep : Aggregation.SetDoubleField a nv.1 nv.2 =
          .ok { a with Double := some (dbl.setSlot stat nv.2) } := by
        unfold Aggregation.SetDoubleField
        rw [hs]
        simp only [hdbl]
      obtain ⟨a2, dbl2, h1, h2, h3⟩ := ih { a with Double := some (dbl.setSlot stat nv.2) }
        (dbl.setSlot stat nv.2) rfl
      refine ⟨a2, dbl2, (foldlE_cons_ok _ _ _ _ _ hstep).trans h1, h2, fun hc => ?_⟩
      rcases h3 hc with h4 | ⟨v, hv⟩
      · rw [setSlot_Count] at h4
        by_cases hst : stat = Stat.count
        · right
          refine ⟨nv.2, ?_⟩
          rw [hst] at hs
          rw [← Stat_ofName_count nv.1 hs]
          exact List.mem_cons_self _ _
        · rw [if_neg hst] at h4
          exact Or.inl h4
      · exact Or.inr ⟨v, List.mem_cons_of_mem _ hv⟩

theorem CreateMissingDoubleAggregates_no_count (a : Aggregation) (dbl : AggregationDouble)
    (hdbl : a.Double = some dbl) (hc : dbl.Count = none) :
    Aggregation.CreateMissingDoubleAggregates (some a) [] =
      .ok (some { a with Double := some { dbl with Count := some 0 } }) := by
  unfold Aggregation.CreateMissingDoubleAggregates
  simp [hdbl, hc]

theorem MakeScaled_returns (a : Aggregation) (dbl : AggregationDouble) (hdbl : a.Double = some dbl)
    (dataType : DataType) : ∃ r, Aggregation.MakeScaled (some a) dataType = .ok r := by
  unfold Aggregation.MakeScaled
  cases dataType <;> simp only [hdbl] <;> exact ⟨_, rfl⟩

theorem CFPoints_ne_CFSource : CFPoints ≠ CFSource := by decide

theorem CFAggregates_ne_CFSource : CFAggregates ≠ CFSource := by decide

theorem CFConfigs_ne_CFSource : CFConfigs ≠ CFSource := by decide

/-- The points loop of `WriteRow` on records whose timestamps, if any, are as many as
the data, when `proto.Marshal` succeeds: it returns no error, issues no insert, maps
a name whose records all have data to data that are not empty, and gives every
name it adds to `aggs` a blank map. -/
theorem WriteRow_point_loop (env : WriteEnv) (ptsDataType : Option DataType)
    (hmp : ∀ p, ∃ b, env.marshalPoints p = .ok b) (ps : List PointsRecord)
    (cs : List Column × WriteState)
    (hpts : ∀ p ∈ ps, p.Timestamps ≠ [] → p.Data.length = p.Timestamps.length) :
    ∃ cs2, foldlE (WriteRow.point env ptsDataType) cs ps = .ok cs2 ∧
      cs2.2.inserts = cs.2.inserts ∧
      (∀ m : Bytes, (∀ p ∈ ps, p.Name = m → p.Data ≠ []) →
        ((∃ p ∈ ps, p.Name = m) ∨ (cs.2.ptsMap.lookup m).getD [] ≠ []) →
        (cs2.2.ptsMap.lookup m).getD [] ≠ []) ∧
      ((∀ e ∈ cs.2.aggs.entries, e.2.entries = []) →
        ∀ e ∈ cs2.2.aggs.entries, e.2.entries = []) := by
  induction ps generalizing cs with
  | nil => exact ⟨cs, rfl, rfl, fun m _ h => h.resolve_left (by simp), fun h => h⟩
  | cons p rest ih =>
    have hp := hpts p (List.mem_cons_self _ _)
    obtain ⟨b, hb⟩ := hmp ((Points.MakeDeltaValuesScaled
        (some { Type_ := ptsDataType, ValuesDouble := p.Data })
        (Points.GetType env.defaultType
          (some { Type_ := ptsDataType, ValuesDouble := p.Data }))).map (fun q =>
      { q with DeltaTimestamps :=
          q.DeltaTimestamps ++ WriteRow.deltaTimestamps p.Timestamps }))
    have hstep : WriteRow.point env ptsDataType cs p =
        .ok (cs.1 ++ [{ Name := p.Name, Value := b }], { cs.2 with
          ptsMap := cs.2.ptsMap.set p.Name p.Data
          aggs := cs.2.aggs.set p.Name {} }) := by
      unfold WriteRow.point
      rw [if_neg]
      · simp only
        rw [hb]
      · rintro ⟨h1, h2⟩
        exact h2 (hp (fun h0 => by rw [h0] at h1; simp at h1))
    obtain ⟨cs2, h1, h2, h3, h4⟩ := ih (cs.1 ++ [{ Name := p.Name, Value := b }], { cs.2 with
        ptsMap := cs.2.ptsMap.set p.Name p.Data
        aggs := cs.2.aggs.set p.Name {} })
      (fun q hq => hpts q (List.mem_cons_of_mem _ hq))
    refine ⟨cs2, (foldlE_cons_ok _ _ _ _ _ hstep).trans h1, h2, fun m hall hex => ?_,
      fun hblank => ?_⟩
    · apply h3 m (fun q hq => hall q (List.mem_cons_of_mem _ hq))
      simp only [lookup_set]
      by_cases hm : p.Name = m
      · right
        rw [if_pos hm]
        exact hall p (List.mem_cons_self _ _) hm
      · rw [if_neg hm]
        rcases hex with ⟨q, hq, hqm⟩ | hold
        · rcases List.mem_cons.mp hq with hqp | hqr
          · exact absurd (hqp ▸ hqm) hm
          · exact Or.inl ⟨q, hqr, hqm⟩
        · exact Or.inr hold
    · apply h4
      intro e he
      rcases mem_setEntry _ _ _ _ he with h5 | h5
      · rw [h5]
      · exact hblank e h5

/-- The part "Process points" of `WriteRow` under the same conditions, when every
insert succeeds. -/
theorem WriteRow_points_ok (env : WriteEnv) (wRecord : WriteRecord) (rowKey : Bytes)
    (hmp : ∀ p, ∃ b, env.marshalPoints p = .ok b)
    (hins : ∀ cf row, env.insert cf row = none)
    (hpts : ∀ p ∈ wRecord.Points, p.Timestamps ≠ [] → p.Data.length = p.Timestamps.length) :
    ∃ st, WriteRow.points env wRecord rowKey {} = (st, none) ∧
      (∀ e ∈ st.inserts, e.1 ≠ CFSource) ∧
      (∀ m : Bytes, (∃ p ∈ wRecord.Points, p.Name = m) →
        (∀ p ∈ wRecord.Points, p.Name = m → p.Data ≠ []) →
        (st.ptsMap.lookup m).getD [] ≠ []) ∧
      (∀ e ∈ st.aggs.entries, e.2.entries = []) := by
  unfold WriteRow.points
  by_cases h0 : wRecord.Points.length > 0
  · rw [if_pos h0]
    obtain ⟨cs2, h1, h2, h3, h4⟩ := WriteRow_point_loop env
      (env.dataTypeValue wRecord.PointsDataType) hmp wRecord.Points ([], {}) hpts
    rw [h1]
    simp only [hins]
    refine ⟨_, rfl, ?_, fun m hex hall => h3 m hall (Or.inl hex), h4 (by simp)⟩
    intro e he
    simp only [h2, List.nil_append, List.mem_singleton] at he
    rw [he]
    exact CFPoints_ne_CFSource
  · rw [if_neg h0]
    refine ⟨_, rfl, by simp, fun m hex => ?_, by simp⟩
    obtain ⟨p, hp, -⟩ := hex
    have : wRecord.Points = [] := by
      cases hps : wRecord.Points with
      | nil => rfl
      | cons q qs => rw [hps] at h0; simp at h0
    rw [this] at hp
    simp at hp

/-- One aggregate column name of `WriteRow` with both components and an index into the
values: no error and no panic, and a metric whose map names `count` is a metric with
raw points, when that held before and holds of the name. -/
theorem WriteRow_aggregateName_step (env : WriteEnv) (wRecord : WriteRecord)
    (ptsMap : GoMap Bytes (List ℚ)) (e : Nat × Bytes)
    (aggs : GoMap Bytes (GoMap Bytes (Option ℚ)))
    (hidx : e.1 < wRecord.Aggregates.length)
    (hm : (env.GetMetricComponents e.2).1 ≠ []) (ha : (env.GetMetricComponents e.2).2 ≠ [])
    (hcount : (env.GetMetricComponents e.2).2 = ascii ("count") →
      (ptsMap.lookup (env.GetMetricComponents e.2).1).getD [] ≠ [])
    (hinv : ∀ e ∈ aggs.entries, (∃ v, (ascii ("count"), v) ∈ e.2.entries) →
      (ptsMap.lookup e.1).getD [] ≠ []) :
    ∃ aggs2, WriteRow.aggregateName env wRecord aggs e = .ok aggs2 ∧
      ∀ e ∈ aggs2.entries, (∃ v, (ascii ("count"), v) ∈ e.2.entries) →
        (ptsMap.lookup e.1).getD [] ≠ [] := by
  obtain ⟨aggs1, haggs1⟩ : ∃ aggs1, aggs1 =
      (if (aggs.lookup (env.GetMetricComponents e.2).1).isNone
        then aggs.set (env.GetMetricComponents e.2).1 {} else aggs) := ⟨_, rfl⟩
  have hinv1 : ∀ e2 ∈ aggs1.entries,
      (∃ v, (ascii ("count"), v) ∈ e2.2.entries) → (ptsMap.lookup e2.1).getD [] ≠ [] := by
    intro e2 he2
    rw [haggs1] at he2
    split at he2
    · rcases mem_setEntry _ _ _ _ he2 with h5 | h5
      · rw [h5]
        rintro ⟨v, hv⟩
        simp at hv
      · exact hinv e2 h5
    · exact hinv e2 he2
  have hstep : WriteRow.aggregateName env wRecord aggs e = .ok
      (aggs1.set (env.GetMetricComponents e.2).1
        (((aggs1.lookup (env.GetMetricComponents e.2).1).getD {}).set
          (env.GetMetricComponents e.2).2 (wRecord.Aggregates.get ⟨e.1, hidx⟩))) := by
    unfold WriteRow.aggregateName
    simp only
    rw [if_neg hm, if_neg ha, sliceIndex_ok _ e.1 hidx, haggs1]
    rfl
  refine ⟨_, hstep, fun e2 he2 => ?_⟩
  rcases mem_setEntry _ _ _ _ he2 with h5 | h5
  · rw [h5]
    rintro ⟨v, hv⟩
    rcases mem_setEntry _ _ _ _ hv with h6 | h6
    · simp only [Prod.mk.injEq] at h6
      exact hcount h6.1.symm
    · cases hlk : aggs1.lookup (env.GetMetricComponents e.2).1 with
      | none =>
        rw [hlk] at h6
        simp at h6
      | some old =>
        rw [hlk] at h6
        simp only [Option.getD_some] at h6
        exact hinv1 ((env.GetMetricComponents e.2).1, old) (mem_of_lookup _ _ _ hlk) ⟨v, h6⟩
  · exact hinv1 e2 h5

/-- The loop over the aggregate column names of `WriteRow`, under these conditions
for every name. -/
theorem WriteRow_aggregateName_loop (env : WriteEnv) (wRecord : WriteRecord)
    (ptsMap : GoMap Bytes (List ℚ)) (l : List (Nat × Bytes))
    (aggs : GoMap Bytes (GoMap Bytes (Option ℚ)))
    (hl : ∀ e ∈ l, e.1 < wRecord.Aggregates.length ∧
      (env.GetMetricComponents e.2).1 ≠ [] ∧ (env.GetMetricComponents e.2).2 ≠ [] ∧
      ((env.GetMetricComponents e.2).2 = ascii ("count") →
        (ptsMap.lookup (env.GetMetricComponents e.2).1).getD [] ≠ []))
    (hinv : ∀ e ∈ aggs.entries, (∃ v, (ascii ("count"), v) ∈ e.2.entries) →
      (ptsMap.lookup e.1).getD [] ≠ []) :
    ∃ aggs2, foldlE (WriteRow.aggregateName env wRecord) aggs l = .ok aggs2 ∧
      ∀ e ∈ aggs2.entries, (∃ v, (ascii ("count"), v) ∈ e.2.entries) →
        (ptsMap.lookup e.1).getD [] ≠ [] := by
  induction l generalizing aggs with
  | nil => exact ⟨aggs, rfl, hinv⟩
  | cons e rest ih =>
    obtain ⟨hidx, hm, ha, hcount⟩ := hl e (List.mem_cons_self _ _)
    obtain ⟨aggs1, hstep, hinv1⟩ :=
      WriteRow_aggregateName_step env wRecord ptsMap e aggs hidx hm ha hcount hinv
    obtain ⟨aggs2, h1, h2⟩ := ih aggs1 (fun e2 he2 => hl e2 (List.mem_cons_of_mem _ he2)) hinv1
    exact ⟨aggs2, (foldlE_cons_ok _ _ _ _ _ hstep).trans h1, h2⟩

/-- The loop over the map `aggs` of `WriteRow`, when `proto.Marshal` succeeds and
every metric whose map names `count` has raw points: it returns no error and no
panic. -/
theorem WriteRow_metric_loop (env : WriteEnv) (aggDataType : Option DataType)
    (ptsMap : GoMap Bytes (List ℚ))
    (hma : ∀ a, ∃ b, env.marshalAggregation a = .ok b)
    (hrange : ∀ l, ∀ e ∈ env.rangeAggMap l, e ∈ l)
    (es : List (Bytes × GoMap Bytes (Option ℚ))) (columns : List Column)
    (hes : ∀ e ∈ es, (∃ v, (ascii ("count"), v) ∈ e.2.entries) →
      (ptsMap.lookup e.1).getD [] ≠ []) :
    ∃ columns2, foldlE (WriteRow.metric env aggDataType ptsMap) columns es = .ok columns2 := by
  induction es generalizing columns with
  | nil => exact ⟨columns, rfl⟩
  | cons e rest ih =>
    obtain ⟨a2, dbl2, h1, h2, h3⟩ := SetDoubleField_loop (env.rangeAggMap e.2.entries)
      { Type_ := aggDataType, Double := some {} } {} rfl
    have hcm : ∃ a3 dbl3, Aggregation.CreateMissingDoubleAggregates (some a2)
        ((ptsMap.lookup e.1).getD []) = .ok (some a3) ∧ a3.Double = some dbl3 := by
      by_cases hd : (ptsMap.lookup e.1).getD [] = []
      · have hc : dbl2.Count = none := by
          by_contra hne
          rcases h3 hne with h4 | ⟨v, hv⟩
          · exact h4 rfl
          · exact hes e (List.mem_cons_self _ _) ⟨v, hrange _ _ hv⟩ hd
        rw [hd]
        exact ⟨_, _, CreateMissingDoubleAggregates_no_count a2 dbl2 h2 hc, rfl⟩
      · obtain ⟨dbl3, h4, -⟩ := CreateMissingDoubleAggregates_filled a2 dbl2 _ h2 hd
        exact ⟨_, _, h4, rfl⟩
    obtain ⟨a3, dbl3, h4, h5⟩ := hcm
    obtain ⟨a4, h6⟩ := MakeScaled_returns a3 dbl3 h5
      (Aggregation.GetType env.defaultType (some a3))
    obtain ⟨b, hb⟩ := hma a4
    have hstep : WriteRow.metric env aggDataType ptsMap columns e =
        .ok (columns ++ [{ Name := e.1, Value := b }]) := by
      unfold WriteRow.metric
      simp only
      rw [h1]
      simp only
      rw [h4]
      simp only
      rw [h6]
      simp only
      rw [hb]
    obtain ⟨columns2, h7⟩ := ih (columns ++ [{ Name := e.1, Value := b }])
      (fun e2 he2 => hes e2 (List.mem_cons_of_mem _ he2))
    exact ⟨columns2, (foldlE_cons_ok _ _ _ _ _ hstep).trans h7⟩

/-- The part "Process aggregates" of `WriteRow` when every aggregate column name has
both components and a value, `proto.Marshal` succeeds, every insert succeeds and every
metric whose map names `count` has raw points: no error and no panic, and no insert
into the column family `source`. -/
theorem WriteRow_aggregates_ok (env : WriteEnv) (wRecord : WriteRecord) (rowKey : Bytes)
    (st : WriteState)
    (hlen : wRecord.AggregatesColumnNames.length = wRecord.Aggregates.length)
    (hnames : ∀ fullName ∈ wRecord.AggregatesColumnNames,
      (env.GetMetricComponents fullName).1 ≠ [] ∧ (env.GetMetricComponents fullName).2 ≠ [])
    (hcount : ∀ fullName ∈ wRecord.AggregatesColumnNames,
      (env.GetMetricComponents fullName).2 = ascii ("count") →
      (st.ptsMap.lookup (env.GetMetricComponents fullName).1).getD [] ≠ [])
    (hblank : ∀ e ∈ st.aggs.entries, e.2.entries = [])
    (hma : ∀ a, ∃ b, env.marshalAggregation a = .ok b)
    (hins : ∀ cf row, env.insert cf row = none)
    (hr1 : ∀ l, (env.rangeAggs l).Perm l) (hr2 : ∀ l, (env.rangeAggMap l).Perm l) :
    ∃ st2, WriteRow.aggregates env wRecord rowKey st = .ok (st2, none) ∧
      ∃ extra, st2.inserts = st.inserts ++ extra ∧ ∀ e ∈ extra, e.1 ≠ CFSource := by
  unfold WriteRow.aggregates
  by_cases h0 : wRecord.AggregatesColumnNames.length + wRecord.Points.length > 0
  · rw [if_pos h0]
    obtain ⟨aggs2, h1, h2⟩ := WriteRow_aggregateName_loop env wRecord st.ptsMap
      wRecord.AggregatesColumnNames.enum st.aggs
      (by
        intro e he
        have hlt := List.fst_lt_of_mem_enum he
        have hmem := List.snd_mem_of_mem_enum he
        exact ⟨by omega, (hnames e.2 hmem).1, (hnames e.2 hmem).2, hcount e.2 hmem⟩)
      (by
        intro e he
        rintro ⟨v, hv⟩
        rw [hblank e he] at hv
        simp at hv)
    rw [h1]
    simp only
    obtain ⟨columns, h3⟩ := WriteRow_metric_loop env
      (env.dataTypeValue wRecord.AggregatesDataType) st.ptsMap hma
      (fun l e he => (hr2 l).subset he) (env.rangeAggs aggs2.entries) []
      (fun e he => h2 e ((hr1 _).subset he))
    rw [h3]
    simp only [hins]
    refine ⟨_, rfl, [(CFAggregates, { Key := rowKey, Columns := columns })], rfl, ?_⟩
    intro e he
    rw [List.mem_singleton.mp he]
    exact CFAggregates_ne_CFSource
  · rw [if_neg h0]
    exact ⟨st, rfl, [], by simp, by simp⟩

/-- The part "Process configs" of `WriteRow` when every insert succeeds. -/
theorem WriteRow_configs_ok (env : WriteEnv) (wRecord : WriteRecord) (rowKey : Bytes)
    (st : WriteState) (hins : ∀ cf row, env.insert cf row = none) :
    ∃ st2, WriteRow.configs env wRecord rowKey st = (st2, none) ∧
      ∃ extra, st2.inserts = st.inserts ++ extra ∧ ∀ e ∈ extra, e.1 ≠ CFSource := by
  unfold WriteRow.configs
  by_cases h0 : wRecord.ConfigPairs.len > 0
  · rw [if_pos h0]
    simp only [hins]
    refine ⟨_, rfl, [(CFConfigs, _)], rfl, ?_⟩
    intro e he
    rw [List.mem_singleton.mp he]
    exact CFConfigs_ne_CFSource
  · rw [if_neg h0]
    exact ⟨st, rfl, [], by simp, by simp⟩

/-- Claim C33 as stated fails: in an environment where every insert succeeds, a
record whose only payload is an aggregate column name without a value is refused with
"Aggregates names and data don't match.", and a record whose only payload is a points
record with two timestamps and one value is refused with "Points data and timestamps
don't match for: m"; neither call returns the row key, neither inserts the source
row. -/
theorem WriteRow_counterexample :
    WriteRow testWriteEnv { AggregatesColumnNames := [ascii ("m.mean")] } (ascii ("s")) =
      .ok { rowKey := [], inserts := []
            err := some { message := ascii ("Aggregates names and data don't match.") } } ∧
    WriteRow testWriteEnv
        { Points := [{ Name := ascii ("m"), Timestamps := [1, 2], Data := [5] }] }
        (ascii ("s")) =
      .ok { rowKey := [], inserts := []
            err := some (GoError.mk (ascii ("Points data and timestamps don't match for: m"))) } ∧
    (∀ cf row, testWriteEnv.insert cf row = none) := by
  refine ⟨by with_unfolding_all rfl, by with_unfolding_all rfl, fun _ _ => rfl⟩

/-- Claim C33, amended: on a record with no points, no aggregate column names or
values and no config pairs `WriteRow` returns the error "No data to write." and
issues no insert. On a record with some payload that passes the checks of `WriteRow`
(as many aggregate values as names; in every points record no timestamps or as many
as data; a metric part and an aggregate part in every aggregate column name), in
which every metric with an aggregate named `count` has points records and all of
them hold data, when `proto.Marshal` and every insert succeed and `range` visits
every entry of a map, `WriteRow` returns the row key made of the source, the record
timestamp and the new UUID, with no error; its last insert is the source row of that
key, whose single column is named by the source string, and no other insert goes to
the column family `source`. -/
theorem WriteRow_contract (env : WriteEnv) (wRecord : WriteRecord) (src : Bytes) :
    (wRecord.Points = [] → wRecord.AggregatesColumnNames = [] → wRecord.Aggregates = [] →
      wRecord.ConfigPairs.len = 0 →
      WriteRow env wRecord src =
        .ok { rowKey := [], inserts := []
              err := some { message := ascii ("No data to write.") } }) ∧
    (0 < wRecord.Points.length + wRecord.AggregatesColumnNames.length +
        wRecord.ConfigPairs.len →
      wRecord.AggregatesColumnNames.length = wRecord.Aggregates.length →
      (∀ p ∈ wRecord.Points, p.Timestamps ≠ [] → p.Data.length = p.Timestamps.length) →
      (∀ fullName ∈ wRecord.AggregatesColumnNames,
        (env.GetMetricComponents fullName).1 ≠ [] ∧
          (env.GetMetricComponents fullName).2 ≠ []) →
      (∀ fullName ∈ wRecord.AggregatesColumnNames,
        (env.GetMetricComponents fullName).2 = ascii ("count") →
        (∃ p ∈ wRecord.Points, p.Name = (env.GetMetricComponents fullName).1) ∧
          ∀ p ∈ wRecord.Points, p.Name = (env.GetMetricComponents fullName).1 → p.Data ≠ []) →
      (∀ p, ∃ b, env.marshalPoints p = .ok b) →
      (∀ a, ∃ b, env.marshalAggregation a = .ok b) →
      (∀ cf row, env.insert cf row = none) →
      (∀ l, (env.rangeAggs l).Perm l) → (∀ l, (env.rangeAggMap l).Perm l) →
      ∃ out, WriteRow env wRecord src = .ok out ∧
        out.rowKey = MakeRowKey env.md5 src (wRecord.RecordTimestamp.getD 0) env.uuidNew ∧
        out.err = none ∧
        ∃ before, out.inserts = before ++ [(CFSource, WriteRow.srcRow out.rowKey src)] ∧
          (WriteRow.srcRow out.rowKey src).Columns = [{ Name := src, Value := [] }] ∧
          ∀ e ∈ before, e.1 ≠ CFSource) := by
  constructor
  · intro hP hN hA hC
    simp [WriteRow, WriteRow.points, WriteRow.aggregates, WriteRow.configs, hP, hN, hA, hC]
  · intro hpay hlen hpts hnames hcount hmp hma hins hr1 hr2
    obtain ⟨st1, h1, hno1, hpm, hblank⟩ := WriteRow_points_ok env wRecord
      (MakeRowKey env.md5 src (wRecord.RecordTimestamp.getD 0) env.uuidNew) hmp hins hpts
    obtain ⟨st2, h2, extra2, he2, hno2⟩ := WriteRow_aggregates_ok env wRecord
      (MakeRowKey env.md5 src (wRecord.RecordTimestamp.getD 0) env.uuidNew) st1 hlen hnames
      (fun fullName hf hc => hpm _ (hcount fullName hf hc).1 (hcount fullName hf hc).2)
      hblank hma hins hr1 hr2
    obtain ⟨st3, h3, extra3, he3, hno3⟩ := WriteRow_configs_ok env wRecord
      (MakeRowKey env.md5 src (wRecord.RecordTimestamp.getD 0) env.uuidNew) st2 hins
    have hrun : WriteRow env wRecord src = .ok
        { rowKey := MakeRowKey env.md5 src (wRecord.RecordTimestamp.getD 0) env.uuidNew
          err := none
          inserts := st3.inserts ++ [(CFSource, WriteRow.srcRow
            (MakeRowKey env.md5 src (wRecord.RecordTimestamp.getD 0) env.uuidNew) src)] } := by
      unfold WriteRow
      rw [if_neg (by rw [hlen]; exact fun h => h rfl)]
      simp only
      rw [h1]
      simp only
      rw [h2]
      simp only
      rw [h3]
      simp only
      rw [if_pos hpay, hins]
    refine ⟨_, hrun, rfl, rfl, st3.inserts, rfl, rfl, ?_⟩
    intro e he
    rw [he3, he2] at he
    rcases List.mem_append.mp he with h4 | h4
    · rcases List.mem_append.mp h4 with h5 | h5
      · exact hno1 e h5
      · exact hno2 e h5
    · exact hno3 e h4

theorem WriteRow_contract_witness :
    WriteRow testWriteEnv {} (ascii ("s")) =
      .ok { rowKey := [], inserts := []
            err := some { message := ascii ("No data to write.") } } ∧
    ∃ out, WriteRow testWriteEnv
        { Points := [{ Name := ascii ("m"), Timestamps := [1], Data := [5] }]
          AggregatesColumnNames := [ascii ("m.count"), ascii ("n.mean")]
          Aggregates := [some 1, some 5]
          ConfigPairs := { entries := [(ascii ("k"), ascii ("v"))] } } (ascii ("s")) = .ok out ∧
      out.rowKey = MakeRowKey testWriteEnv.md5 (ascii ("s")) 0 testWriteEnv.uuidNew ∧
      out.err = none ∧
      ∃ before, out.inserts = before ++ [(CFSource, WriteRow.srcRow out.rowKey (ascii ("s")))] ∧
        (WriteRow.srcRow out.rowKey (ascii ("s"))).Columns =
          [{ Name := ascii ("s"), Value := [] }] ∧
        ∀ e ∈ before, e.1 ≠ CFSource :=
  ⟨(WriteRow_contract testWriteEnv {} (ascii ("s"))).1 rfl rfl rfl rfl,
    (WriteRow_contract testWriteEnv
      { Points := [{ Name := ascii ("m"), Timestamps := [1], Data := [5] }]
        AggregatesColumnNames := [ascii ("m.count"), ascii ("n.mean")]
        Aggregates := [some 1, some 5]
        ConfigPairs := { entries := [(ascii ("k"), ascii ("v"))] } } (ascii ("s"))).2
      (by decide) rfl (by decide) (by decide) (by decide)
      (fun _ => ⟨[], rfl⟩) (fun _ => ⟨[], rfl⟩) (fun _ _ => rfl)
      (fun l => List.Perm.refl l) (fun l => List.Perm.refl l)⟩

/-- A record that supplies the aggregate `m.count = 5` without points for `m` makes
`CreateMissingDoubleAggregates` index the empty data, and `WriteRow` panics (the names
are split at the first dot here). -/
theorem WriteRow_count_without_points_panics :
    WriteRow testWriteEnv
        { AggregatesColumnNames := [ascii ("m.count")], Aggregates := [some 5] }
        (ascii ("s")) = .error Panic.indexOutOfRange := by
  with_unfolding_all rfl

end TsViewDB
